import Mathlib

/-!
# elfcopy symbol filter and symbol-table generator

A shallow embedding of `elfcopy/symbols.c`: the symbol filter
(`is_remove_symbol`), the relocation marker (`mark_symbols`), the symbol-table
generator (`generate_symbols` with its `COPYSYM` macro), `create_symtab` and
the symbol-action list (`add_to_symop_list`, `lookup_symop_list`).

Conventions.
* A `char *` is modelled by the bytes found at the pointer (`Bytes`); the C
  string it denotes is the part before the first NUL (`cstr`).
* Buffers that the C code grows with `realloc` are lists holding the filled
  part, so `nls`, `ngs`, `lsz` and `gsz` are lengths.
* Integers are natural numbers; the values stored in ELF fields are taken to fit
  their fields.
* `errx` and a NULL dereference end a run; both are results of type `Fault`.
-/

namespace Elfcopy

/-! ## ELF constants and `st_info` accessors -/

/-- Bytes found at a `char *`. -/
abbrev Bytes := List Nat

/-- The C string at a pointer: the bytes before the first NUL. -/
def cstr (p : Bytes) : Bytes := p.takeWhile (fun c => c != 0)

/-- C `strlen`. -/
def strlen (p : Bytes) : Nat := (cstr p).length

/-- The test `strcmp(a, b) == 0`. -/
def streq (a b : Bytes) : Bool := cstr a == cstr b

/-- Bytes of a string literal. -/
def lit (s : String) : Bytes := s.data.map Char.toNat

def SHN_UNDEF : Nat := 0
def SHN_LORESERVE : Nat := 0xff00
def STB_LOCAL : Nat := 0
def STB_GLOBAL : Nat := 1
def STB_WEAK : Nat := 2
def STT_SECTION : Nat := 3
def STT_FILE : Nat := 4
def SHT_RELA : Nat := 4
def SHT_REL : Nat := 9

/-- Binding of a symbol: `(info) >> 4`. -/
def GELF_ST_BIND (info : Nat) : Nat := info >>> 4

/-- Type of a symbol: `(info) & 0xf`. -/
def GELF_ST_TYPE (info : Nat) : Nat := info &&& 0xf

/-- Rebuilds `st_info`: `((bind) << 4) + ((type) & 0xf)`. -/
def GELF_ST_INFO (bind type : Nat) : Nat := (bind <<< 4) + (type &&& 0xf)

/-- Symbol table entry (`GElf_Sym`). -/
structure GElf_Sym where
  st_name : Nat
  st_info : Nat
  st_other : Nat
  st_shndx : Nat
  st_value : Nat
  st_size : Nat
deriving DecidableEq, Repr

/-- The reserved symbol `sym0` of `is_remove_symbol`. -/
def sym0 : GElf_Sym :=
  { st_name := 0, st_value := 0, st_size := 0, st_info := 0, st_other := 0,
    st_shndx := SHN_UNDEF }

/-! ## Bit vectors -/

/-- The macro `BIT_SET(v, n)`: `v[n >> 3] |= 1U << (n & 7)`. A store outside
the vector leaves it unchanged. -/
def BIT_SET (v : Bytes) (n : Nat) : Bytes :=
  v.set (n >>> 3) (v.getD (n >>> 3) 0 ||| (1 <<< (n &&& 7)))

/-- The macro `BIT_ISSET(v, n)`: `v[n >> 3] & (1U << (n & 7))`, as a truth
value. A load outside the vector reads 0. -/
def BIT_ISSET (v : Bytes) (n : Nat) : Bool :=
  (v.getD (n >>> 3) 0 &&& (1 <<< (n &&& 7))) != 0

/-- A zeroed vector: `calloc(n, 1)`. -/
def calloc (n : Nat) : Bytes := List.replicate n 0

/-! ## The `elfcopy` context -/

/-- Modelled from the spec: the values of `ecp->strip`, declared in `elfcopy.h`
which is not among the sources; one value per strip mode, `NONE` when no mode
was selected. -/
inductive strip_mode where
  | NONE
  | STRIP_ALL
  | STRIP_DEBUG
  | STRIP_NONDEBUG
  | STRIP_UNNEEDED
deriving DecidableEq, Repr

/-- Modelled from the spec: the bits of `ecp->flags` that `symbols.c` tests,
declared in `elfcopy.h` which is not among the sources; `flags & X` is the
field `X`. -/
structure ecp_flags where
  RELOCATABLE : Bool
  DISCARD_LOCAL : Bool
  WEAKEN_ALL : Bool
  KEEP_GLOBAL : Bool
  SYMTAB_INTACT : Bool
  SYMTAB_EXIST : Bool
deriving DecidableEq, Repr

/-- Modelled from the spec: the operation bits of a symbol rule, declared in
`elfcopy.h` which is not among the sources; one distinct bit per rule kind. -/
def SYMOP_KEEP : Nat := 0x0001
def SYMOP_STRIP : Nat := 0x0002
def SYMOP_GLOBALIZE : Nat := 0x0004
def SYMOP_LOCALIZE : Nat := 0x0008
def SYMOP_KEEPG : Nat := 0x0010
def SYMOP_WEAKEN : Nat := 0x0020
def SYMOP_REDEF : Nat := 0x0040

/-- The mask `~0U`. -/
def SYMOP_ANY : Nat := 0xffffffff

/-- A node of the symbol-action list (`struct symop`), without its link. -/
structure symop where
  name : Bytes
  newname : Option Bytes
  op : Nat
deriving DecidableEq, Repr

/-- A data descriptor of a relocation section: its size and the symbol index
`GELF_R_SYM(r_info)` of each entry. -/
structure rel_data where
  d_size : Nat
  r_sym : List Nat
deriving DecidableEq, Repr

/-- An input section as `mark_symbols` reads it: header fields, the name
`elf_strptr` returns for `sh_name`, and the data descriptors `elf_getdata`
yields. -/
structure in_scn where
  sh_type : Nat
  name : Bytes
  sh_info : Nat
  sh_link : Nat
  sh_size : Nat
  sh_entsize : Nat
  data : List rel_data
deriving DecidableEq, Repr

/-- An entry of the output section list `ecp->v_sec` (`struct section`): `os`
is `elf_ndxscn(s->os)`, absent while `s->os` is NULL. -/
structure Section where
  name : Bytes
  type : Nat
  vma : Nat
  os : Option Nat
deriving DecidableEq, Repr

/-- The part of `struct elfcopy` that `symbols.c` uses. `secndx` is the section
map as a function of the input section index (the C array has one entry per
input section). `is_remove_section` and `is_remove_reloc_sec` are functions of
`sections.c`, which is not among the sources, and are taken as given;
`symtab_is` is `elf_ndxscn(ecp->symtab->is)` and `strtab_is` is
`elf_ndxscn(ecp->strtab->is)`. -/
structure elfcopy where
  strip : strip_mode
  flags : ecp_flags
  v_symop : List symop
  secndx : Nat → Nat
  v_rel : Option Bytes
  nos : Nat
  v_sec : List Section
  ein : List in_scn
  is_remove_section : Bytes → Bool
  is_remove_reloc_sec : Nat → Bool
  symtab_is : Nat
  strtab_is : Nat

/-! ## Symbol-action list lookup -/

/-- The test of `lookup_symop_list` on a node with name `sname` and operations
`sop`: `(name == NULL || strcmp(name, s->name) == 0)` and `(s->op & op) != 0`. -/
def symop_match (name : Option Bytes) (op : Nat) (sname : Bytes) (sop : Nat) : Bool :=
  (match name with
    | none => true
    | some n => streq n sname) && ((sop &&& op) != 0)

/-- The function `lookup_symop_list` on a NULL-terminated list: the first node
whose name matches (any node when `name` is NULL) and whose `op` meets the
mask. -/
def lookup_symop_list (v_symop : List symop) (name : Option Bytes) (op : Nat) :
    Option symop :=
  v_symop.find? (fun s => symop_match name op s.name s.op)

/-! ## Symbol classification -/

def is_debug_symbol (s : GElf_Sym) : Bool :=
  GELF_ST_TYPE s.st_info == STT_SECTION || GELF_ST_TYPE s.st_info == STT_FILE

def is_global_symbol (s : GElf_Sym) : Bool :=
  GELF_ST_BIND s.st_info == STB_GLOBAL

def is_weak_symbol (s : GElf_Sym) : Bool :=
  GELF_ST_BIND s.st_info == STB_WEAK

def is_local_symbol (s : GElf_Sym) : Bool :=
  GELF_ST_BIND s.st_info == STB_LOCAL

/-! ## Relocation marks -/

/-- The `for` loop of `mark_symbols` over the entries of one data descriptor:
`n` takes the symbol index of each entry in turn, and the index is marked when
`0 < n < sc`. Returns the vector and the last value of `n`. -/
def mark_entries (sc : Nat) : List Nat → Bytes → Nat → Bytes × Nat
  | [], v, n => (v, n)
  | r :: rest, v, _ =>
    mark_entries sc rest (if 0 < r ∧ r < sc then BIT_SET v r else v) r

/-- The loop `while (n < sh.sh_size && (d = elf_getdata(s, d)) != NULL)` of
`mark_symbols`; `len = d->d_size / sh.sh_entsize` entries of each descriptor
are read. The variable `n` is both the loop guard and the symbol index. -/
def mark_data (sc : Nat) (sh : in_scn) : List rel_data → Bytes → Nat → Bytes
  | [], v, _ => v
  | d :: rest, v, n =>
    if n < sh.sh_size then
      let r := mark_entries sc (d.r_sym.take (d.d_size / sh.sh_entsize)) v n
      mark_data sc sh rest r.1 r.2
    else v

/-- The section loop of `mark_symbols`. -/
def mark_scns (ecp : elfcopy) (sc : Nat) : List in_scn → Bytes → Bytes
  | [], v => v
  | sh :: rest, v =>
    if sh.sh_type != SHT_REL && sh.sh_type != SHT_RELA then
      mark_scns ecp sc rest v
    else if ecp.is_remove_section sh.name || ecp.is_remove_reloc_sec sh.sh_info then
      mark_scns ecp sc rest v
    else if sh.sh_link != ecp.symtab_is then
      mark_scns ecp sc rest v
    else
      mark_scns ecp sc rest (mark_data sc sh sh.data v 0)

/-- The function `mark_symbols`: the vector it stores in `ecp->v_rel`. -/
def mark_symbols (ecp : elfcopy) (sc : Nat) : Bytes :=
  mark_scns ecp sc ecp.ein (calloc ((sc + 7) / 8))

/-- The vector `ecp->v_rel` as `is_needed_symbol` reads it: `is_remove_symbol`
calls `mark_symbols` first when the vector is still NULL. -/
def v_rel_get (ecp : elfcopy) (sc : Nat) : Bytes :=
  match ecp.v_rel with
  | some v => v
  | none => mark_symbols ecp sc

/-! ## The symbol filter -/

/-- The function `is_needed_symbol`, reading the relocation vector `v_rel`. -/
def is_needed_symbol (ecp : elfcopy) (v_rel : Bytes) (i : Nat) (s : GElf_Sym) : Bool :=
  if BIT_ISSET v_rel i then true
  else if ecp.flags.RELOCATABLE && (is_global_symbol s || is_weak_symbol s) then true
  else false

/-- The function `is_remove_symbol`: `true` for the C result 1 (drop) and
`false` for 0 (retain). -/
def is_remove_symbol (ecp : elfcopy) (sc : Nat) (i : Nat) (s : GElf_Sym)
    (name : Bytes) : Bool :=
  if (lookup_symop_list ecp.v_symop (some name) SYMOP_KEEP).isSome then false
  else if (lookup_symop_list ecp.v_symop (some name) SYMOP_STRIP).isSome then true
  else if i = 0 ∧ s = sym0 then false
  else if s.st_shndx ≠ SHN_UNDEF ∧ s.st_shndx < SHN_LORESERVE ∧
      ecp.secndx s.st_shndx = 0 then true
  else if ecp.strip = strip_mode.STRIP_ALL then true
  else if is_needed_symbol ecp (v_rel_get ecp sc) i s then false
  else if ecp.strip = strip_mode.STRIP_UNNEEDED then true
  else if ecp.flags.DISCARD_LOCAL && is_local_symbol s then true
  else if ecp.strip = strip_mode.STRIP_DEBUG && is_debug_symbol s then true
  else false

/-! ## String table lookup -/

/-- The loop of `lookup_exact_string`: `rest` holds the bytes from `b` to
`buf + sz` and `off` is `b - buf`. Every round moves `b` forward by at least
one byte, so `sz` rounds are enough. -/
def lookup_exact_string_loop (s : Bytes) : Nat → Bytes → Nat → Int
  | 0, _, _ => -1
  | fuel + 1, rest, off =>
    if rest = [] then -1
    else if strlen rest ≠ strlen s then
      lookup_exact_string_loop s fuel (rest.drop (strlen rest + 1)) (off + (strlen rest + 1))
    else if streq rest s then (off : Int)
    else
      lookup_exact_string_loop s fuel (rest.drop (strlen rest + 1)) (off + (strlen rest + 1))

/-- The function `lookup_exact_string`: offset of the first entry of the
NUL-separated buffer that equals `s`, or -1. -/
def lookup_exact_string (buf : Bytes) (sz : Nat) (s : Bytes) : Int :=
  lookup_exact_string_loop s sz (buf.take sz) 0

/-! ## Symbol-table generation -/

/-- How a run ends early: `errx` (error exit) or a NULL dereference. -/
inductive Fault where
  | errx
  | segv
deriving DecidableEq, Repr

/-- Symbol table buffer (`struct symbuf`); `nls` and `ngs` are the lengths. -/
structure symbuf where
  l : List GElf_Sym
  g : List GElf_Sym
deriving DecidableEq, Repr

/-- String table buffer (`struct strbuf`); `lsz` and `gsz` are the lengths. -/
structure strbuf where
  l : Bytes
  g : Bytes
deriving DecidableEq, Repr

def symbuf.nls (b : symbuf) : Nat := b.l.length
def symbuf.ngs (b : symbuf) : Nat := b.g.length
def strbuf.lsz (b : strbuf) : Nat := b.l.length
def strbuf.gsz (b : strbuf) : Nat := b.g.length

/-- The first argument of `COPYSYM`: local (`l`) or global (`g`) buffers. -/
inductive bucket where
  | l
  | g
deriving DecidableEq, Repr

/-- The `st_shndx` that `COPYSYM` stores. -/
def COPYSYM_shndx (ecp : elfcopy) (sym : GElf_Sym) (NDX : Nat) : Nat :=
  if NDX ≠ 0 then NDX
  else if sym.st_shndx = SHN_UNDEF ∨ sym.st_shndx ≥ SHN_LORESERVE then sym.st_shndx
  else ecp.secndx sym.st_shndx

/-- The string part of `COPYSYM` on one string buffer: the `st_name` stored
and the buffer afterwards. `name` is read only when `sym.st_name != 0`. -/
def COPYSYM_name (sym : GElf_Sym) (name : Option Bytes) (buf : Bytes) :
    Except Fault (Nat × Bytes) :=
  if sym.st_name ≠ 0 then
    match name with
    | none => .error Fault.segv
    | some nm =>
      if cstr nm ≠ [] then
        let pos := lookup_exact_string buf buf.length nm
        if pos ≠ -1 then .ok (pos.toNat, buf)
        else .ok (buf.length, buf ++ (cstr nm ++ [0]))
      else .ok (0, buf)
  else .ok (0, buf)

/-- The entry that `COPYSYM` stores, given the `st_name` found. -/
def COPYSYM_entry (ecp : elfcopy) (sym : GElf_Sym) (NDX : Nat) (st_name : Nat) :
    GElf_Sym :=
  { st_name := st_name, st_info := sym.st_info, st_other := sym.st_other,
    st_shndx := COPYSYM_shndx ecp sym NDX, st_value := sym.st_value,
    st_size := sym.st_size }

/-- The macro `COPYSYM(B, SZ, NDX)`: appends the current `sym` to the symbol
buffer `B` and its name to the string buffer `B`. -/
def COPYSYM (ecp : elfcopy) (sym : GElf_Sym) (name : Option Bytes) (B : bucket)
    (NDX : Nat) (sy_buf : symbuf) (st_buf : strbuf) : Except Fault (symbuf × strbuf) :=
  match B with
  | bucket.l =>
    match COPYSYM_name sym name st_buf.l with
    | .error e => .error e
    | .ok (n, buf) =>
      .ok ({ sy_buf with l := sy_buf.l ++ [COPYSYM_entry ecp sym NDX n] },
           { st_buf with l := buf })
  | bucket.g =>
    match COPYSYM_name sym name st_buf.g with
    | .error e => .error e
    | .ok (n, buf) =>
      .ok ({ sy_buf with g := sy_buf.g ++ [COPYSYM_entry ecp sym NDX n] },
           { st_buf with g := buf })

/-- An input symbol: the entry `gelf_getsym` yields and the name `elf_strptr`
returns for its `st_name` in the input `.strtab`. -/
structure in_sym where
  sym : GElf_Sym
  name : Bytes
deriving DecidableEq, Repr

/-- The variables of `generate_symbols`: both buffers, the index map
`ecp->symndx`, the vectors `gsym` and `ecp->v_secsym`, and the variable `sym`. -/
structure gen_state where
  sy_buf : symbuf
  st_buf : strbuf
  symndx : List Nat
  gsym : Bytes
  v_secsym : Bytes
  sym : GElf_Sym
deriving DecidableEq, Repr

/-- Sets the binding of `sym` and keeps its type. -/
def set_bind (sym : GElf_Sym) (b : Nat) : GElf_Sym :=
  { sym with st_info := GELF_ST_INFO b (GELF_ST_TYPE sym.st_info) }

/-- The binding changes of `generate_symbols` ("Check if we need to change the
binding of this symbol"). -/
def change_binding (ecp : elfcopy) (sym : GElf_Sym) (name : Bytes) : GElf_Sym :=
  if is_global_symbol sym || is_weak_symbol sym then
    let sym1 :=
      if ecp.flags.WEAKEN_ALL ||
          (lookup_symop_list ecp.v_symop (some name) SYMOP_WEAKEN).isSome then
        set_bind sym STB_WEAK
      else sym
    let sym2 :=
      if sym1.st_shndx ≠ SHN_UNDEF ∧
          (lookup_symop_list ecp.v_symop (some name) SYMOP_LOCALIZE).isSome then
        set_bind sym1 STB_LOCAL
      else sym1
    if ecp.flags.KEEP_GLOBAL ∧ sym2.st_shndx ≠ SHN_UNDEF ∧
        (lookup_symop_list ecp.v_symop (some name) SYMOP_KEEPG).isNone then
      set_bind sym2 STB_LOCAL
    else sym2
  else
    if (lookup_symop_list ecp.v_symop (some name) SYMOP_GLOBALIZE).isSome then
      set_bind sym STB_GLOBAL
    else sym

/-- The renaming of `generate_symbols`: `name = sp->newname` when a REDEF node
names the symbol. -/
def redef_name (ecp : elfcopy) (name : Bytes) : Option Bytes :=
  match lookup_symop_list ecp.v_symop (some name) SYMOP_REDEF with
  | some sp => sp.newname
  | none => some name

/-- One round of the loop "Copy/Filter each symbol" for input index `i`. -/
def gen_step (ecp : elfcopy) (sc : Nat) (i : Nat) (s : in_sym) (st : gen_state) :
    Except Fault gen_state :=
  if is_remove_symbol ecp sc i s.sym s.name then .ok { st with sym := s.sym }
  else
    let sym := change_binding ecp s.sym s.name
    let name := redef_name ecp s.name
    let gsym :=
      if is_global_symbol sym || is_weak_symbol sym then BIT_SET st.gsym i else st.gsym
    let symndx :=
      if is_global_symbol sym || is_weak_symbol sym then st.symndx.set i st.sy_buf.ngs
      else st.symndx.set i st.sy_buf.nls
    match COPYSYM ecp sym name (if is_local_symbol sym then bucket.l else bucket.g) 0
        st.sy_buf st.st_buf with
    | .error e => .error e
    | .ok (sy, str) =>
      .ok { sy_buf := sy, st_buf := str, symndx := symndx, gsym := gsym,
            v_secsym :=
              if GELF_ST_TYPE sym.st_info = STT_SECTION then
                BIT_SET st.v_secsym (ecp.secndx sym.st_shndx)
              else st.v_secsym,
            sym := sym }

/-- The loop "Copy/Filter each symbol", from input index `i` on. -/
def gen_loop (ecp : elfcopy) (sc : Nat) : Nat → List in_sym → gen_state →
    Except Fault gen_state
  | _, [], st => .ok st
  | i, s :: rest, st =>
    match gen_step ecp sc i s st with
    | .error e => .error e
    | .ok st1 => gen_loop ecp sc (i + 1) rest st1

/-- The function `elf_ndxscn` on `s->os`: `SHN_UNDEF` for a NULL section. -/
def elf_ndxscn (os : Option Nat) : Nat := os.getD SHN_UNDEF

/-- One round of the loop that creates the missing STT_SECTION symbols. -/
def secsym_step (ecp : elfcopy) (s : Section) (st : gen_state) : Except Fault gen_state :=
  if streq s.name (lit ".symtab") || streq s.name (lit ".strtab") ||
      streq s.name (lit ".shstrtab") then .ok st
  else if ecp.flags.RELOCATABLE && (s.type == SHT_REL || s.type == SHT_RELA) then .ok st
  else if elf_ndxscn s.os = SHN_UNDEF then .error Fault.errx
  else if !BIT_ISSET st.v_secsym (elf_ndxscn s.os) then
    let sym : GElf_Sym :=
      { st.sym with st_name := 0, st_value := s.vma, st_size := 0,
                    st_info := GELF_ST_INFO STB_LOCAL STT_SECTION }
    match COPYSYM ecp sym none bucket.l (elf_ndxscn s.os) st.sy_buf st.st_buf with
    | .error e => .error e
    | .ok (sy, str) => .ok { st with sy_buf := sy, st_buf := str, sym := sym }
  else .ok st

/-- The loop `TAILQ_FOREACH(s, &ecp->v_sec, sec_list)` of `generate_symbols`. -/
def secsym_loop (ecp : elfcopy) : List Section → gen_state → Except Fault gen_state
  | [], st => .ok st
  | s :: rest, st =>
    match secsym_step ecp s st with
    | .error e => .error e
    | .ok st1 => secsym_loop ecp rest st1

/-- Adds `lsz` to the `st_name` of the entry at index `k` of the global
buffer. -/
def rebase_name (g : List GElf_Sym) (k : Nat) (lsz : Nat) : List GElf_Sym :=
  match g[k]? with
  | some e => g.set k { e with st_name := e.st_name + lsz }
  | none => g

/-- One round of the loop "Update st_name and index map for global/weak
symbols". -/
def rebase_step (st : gen_state) (i : Nat) : gen_state :=
  if !BIT_ISSET st.gsym i then st
  else
    { st with
      sy_buf := { st.sy_buf with
        g := rebase_name st.sy_buf.g (st.symndx.getD i 0) st.st_buf.lsz },
      symndx := st.symndx.set i (st.symndx.getD i 0 + st.sy_buf.nls) }

/-- The initial variables of `generate_symbols` for `sc` input symbols: empty
symbol buffers, `lsz = 1` with the leading NUL (the local string buffer is
zeroed by `calloc` when the first local symbol is copied), `gsz = 0`, zeroed
`symndx`, `gsym` and `v_secsym`. The variable `sym` is written by `gelf_getsym`
before it is read. -/
def gen_init (ecp : elfcopy) (sc : Nat) : gen_state :=
  { sy_buf := { l := [], g := [] },
    st_buf := { l := [0], g := [] },
    symndx := List.replicate sc 0,
    gsym := calloc ((sc + 7) / 8),
    v_secsym := calloc ((ecp.nos + 7) / 8),
    sym := sym0 }

/-- The function `generate_symbols` on the input symbol table `syms` (the
input has a `.symtab` and a `.strtab`): the result (`true` for 1, a table was
generated) and the variables at return. -/
def generate_symbols (ecp : elfcopy) (syms : List in_sym) :
    Except Fault (Bool × gen_state) :=
  let sc := syms.length
  if sc = 0 then .ok (false, gen_init ecp sc)
  else
    match gen_loop ecp sc 0 syms (gen_init ecp sc) with
    | .error e => .error e
    | .ok st1 =>
      if st1.sy_buf.nls ≤ 1 ∧ st1.sy_buf.ngs = 0 then .ok (false, st1)
      else
        match secsym_loop ecp ecp.v_sec st1 with
        | .error e => .error e
        | .ok st2 => .ok (true, (List.range sc).foldl rebase_step st2)

/-! ## Writing `.symtab` and `.strtab` -/

def ELFCLASS32 : Nat := 1
def ELFCLASS64 : Nat := 2

/-- Size of a symbol entry: `sizeof(Elf32_Sym)` or `sizeof(Elf64_Sym)`. -/
def sizeof_Sym (ec : Nat) : Nat := if ec = ELFCLASS32 then 16 else 24

/-- An `Elf_Data` of the output `.symtab`. -/
structure sym_data where
  d_align : Nat
  d_off : Nat
  d_buf : List GElf_Sym
  d_size : Nat
deriving DecidableEq, Repr

/-- An `Elf_Data` of the output `.strtab`. -/
structure str_data where
  d_align : Nat
  d_off : Nat
  d_buf : Bytes
  d_size : Nat
deriving DecidableEq, Repr

/-- What `create_symtab` writes on the path that regenerates the tables: the
data descriptors of both sections and the header fields it sets. -/
structure symtab_out where
  lsydata : Option sym_data
  gsydata : Option sym_data
  lstdata : str_data
  gstdata : Option str_data
  shy_sh_size : Nat
  shy_sh_entsize : Nat
  shy_sh_info : Nat
  sht_sh_size : Nat
deriving DecidableEq, Repr

/-- Outcome of `create_symtab`: the tables were dropped (`generate_symbols`
returned 0), copied verbatim (SYMTAB_INTACT), or regenerated. -/
inductive symtab_result where
  | removed
  | intact
  | regenerated (out : symtab_out) (st : gen_state)
deriving DecidableEq, Repr

/-- The first loop of `create_symtab`: the largest output index of a section
of the list, starting from `maxndx`. -/
def max_ndx : List Section → Nat → Except Fault Nat
  | [], maxndx => .ok maxndx
  | s :: rest, maxndx =>
    match s.os with
    | none => max_ndx rest maxndx
    | some ndx =>
      if ndx = SHN_UNDEF then .error Fault.errx
      else max_ndx rest (if ndx > maxndx then ndx else maxndx)

/-- The descriptors and header fields `create_symtab` builds from the buffers
of `generate_symbols` for output class `oec`. -/
def symtab_write (oec : Nat) (st : gen_state) : symtab_out :=
  { lsydata :=
      if st.sy_buf.nls > 0 then
        some { d_align := if oec = ELFCLASS32 then 4 else 8, d_off := 0,
               d_buf := st.sy_buf.l, d_size := st.sy_buf.nls * sizeof_Sym oec }
      else none,
    gsydata :=
      if st.sy_buf.ngs > 0 then
        some { d_align := if oec = ELFCLASS32 then 4 else 8,
               d_off := st.sy_buf.nls * sizeof_Sym oec,
               d_buf := st.sy_buf.g, d_size := st.sy_buf.ngs * sizeof_Sym oec }
      else none,
    lstdata := { d_align := 1, d_off := 0, d_buf := st.st_buf.l, d_size := st.st_buf.lsz },
    gstdata :=
      if st.st_buf.gsz > 0 then
        some { d_align := 1, d_off := st.st_buf.lsz, d_buf := st.st_buf.g,
               d_size := st.st_buf.gsz }
      else none,
    shy_sh_size := (st.sy_buf.nls + st.sy_buf.ngs) * sizeof_Sym oec,
    shy_sh_entsize := sizeof_Sym oec,
    shy_sh_info := st.sy_buf.nls,
    sht_sh_size := st.st_buf.lsz + st.st_buf.gsz }

/-- The function `create_symtab` for output class `oec` and input symbol table
`syms`. The section map gets its entries for `.symtab` and `.strtab` before
`generate_symbols` runs. -/
def create_symtab (ecp : elfcopy) (oec : Nat) (syms : List in_sym) :
    Except Fault symtab_result :=
  match max_ndx ecp.v_sec 0 with
  | .error e => .error e
  | .ok maxndx =>
    let ecp1 : elfcopy :=
      { ecp with secndx :=
          (Function.update (Function.update ecp.secndx ecp.symtab_is (maxndx + 1))
            ecp.strtab_is (maxndx + 2)) }
    if ecp1.flags.SYMTAB_INTACT then .ok symtab_result.intact
    else
      match generate_symbols ecp1 syms with
      | .error e => .error e
      | .ok (false, _) => .ok symtab_result.removed
      | .ok (true, st) => .ok (symtab_result.regenerated (symtab_write oec st) st)

/-- The entries of the output `.symtab`: its data descriptors in order. -/
def symtab_entries (o : symtab_out) : List GElf_Sym :=
  (match o.lsydata with
    | some d => d.d_buf
    | none => []) ++
  (match o.gsydata with
    | some d => d.d_buf
    | none => [])

/-- The bytes of the output `.strtab`: its data descriptors in order. -/
def strtab_bytes (o : symtab_out) : Bytes :=
  o.lstdata.d_buf ++
  (match o.gstdata with
    | some d => d.d_buf
    | none => [])

/-! ## The symbol-action list as a tail queue -/

/-- A `struct symop` in memory: `next` is `symop_list.stqe_next`, the address
of the next node. -/
structure symop_node where
  name : Bytes
  newname : Option Bytes
  op : Nat
  next : Option Nat
deriving DecidableEq, Repr

/-- The queue `ecp->v_symop` in memory: the nodes allocated so far (the node
at address `k` is `nodes[k]`), `stqh_first`, and `stqh_last`, which points to
`stqh_first` (`none`) or to the `next` field of node `k` (`some k`). -/
structure symop_head where
  nodes : List symop_node
  stqh_first : Option Nat
  stqh_last : Option Nat
deriving DecidableEq, Repr

/-- The macro `STAILQ_INIT`. -/
def STAILQ_INIT : symop_head := { nodes := [], stqh_first := none, stqh_last := none }

/-- The rule a node holds: the node without its link. -/
def node_rule (n : symop_node) : symop :=
  { name := n.name, newname := n.newname, op := n.op }

/-- The walk `STAILQ_FOREACH` from node `cur`, collecting the nodes visited;
`none` when the walk has not reached NULL within `fuel` nodes. -/
def stailq_walk (nodes : List symop_node) : Nat → Option Nat → Option (List symop)
  | _, none => some []
  | 0, some _ => none
  | fuel + 1, some k =>
    match nodes[k]? with
    | none => none
    | some n =>
      match stailq_walk nodes fuel n.next with
      | none => none
      | some rest => some (node_rule n :: rest)

/-- The sequence of rules that `STAILQ_FOREACH` visits; `none` when the links
form a cycle (a walk over more nodes than were allocated never ends). -/
def stailq_list (h : symop_head) : Option (List symop) :=
  stailq_walk h.nodes h.nodes.length h.stqh_first

/-- The function `lookup_symop_list` on the queue in memory, from node `cur`:
the address of the node found or NULL (`some none`); `none` when the walk has
not ended within `fuel` nodes. -/
def stailq_lookup (nodes : List symop_node) (name : Option Bytes) (op : Nat) :
    Nat → Option Nat → Option (Option Nat)
  | _, none => some none
  | 0, some _ => none
  | fuel + 1, some k =>
    match nodes[k]? with
    | none => none
    | some n =>
      if symop_match name op n.name n.op then some (some k)
      else stailq_lookup nodes name op fuel n.next

/-- Changes node `k` in memory. -/
def node_update (nodes : List symop_node) (k : Nat) (f : symop_node → symop_node) :
    List symop_node :=
  match nodes[k]? with
  | some n => nodes.set k (f n)
  | none => nodes

/-- The macro `STAILQ_INSERT_TAIL(head, elm, field)` for the node at address
`k`. -/
def STAILQ_INSERT_TAIL (h : symop_head) (k : Nat) : symop_head :=
  let nodes1 := node_update h.nodes k (fun n => { n with next := none })
  match h.stqh_last with
  | none => { nodes := nodes1, stqh_first := some k, stqh_last := some k }
  | some j =>
    { nodes := node_update nodes1 j (fun n => { n with next := some k }),
      stqh_first := h.stqh_first, stqh_last := some k }

/-- The function `add_to_symop_list`; `none` when its lookup never returns. -/
def add_to_symop_list (h : symop_head) (name : Bytes) (newname : Option Bytes)
    (op : Nat) : Option symop_head :=
  match stailq_lookup h.nodes (some name) SYMOP_ANY (h.nodes.length + 1) h.stqh_first with
  | none => none
  | some (some k) =>
    STAILQ_INSERT_TAIL
      { h with nodes := node_update h.nodes k (fun n => { n with op := n.op ||| op }) } k
  | some none =>
    let s : symop_node :=
      { name := name, newname := if op = SYMOP_REDEF then newname else none,
        op := 0 ||| op, next := none }
    STAILQ_INSERT_TAIL { h with nodes := h.nodes ++ [s] } h.nodes.length

/-! ## `create_elf` -/

def ET_REL : Nat := 1
def ET_EXEC : Nat := 2
def ET_DYN : Nat := 3

/-- The steps of `create_elf` (main.c) that decide how the symbol table is
written, for an input of type `e_type` with symbol table `syms`: SYMTAB_INTACT
is set, the type sets RELOCATABLE (another type than ET_EXEC, ET_DYN, ET_REL is
an error), the section map is zeroed, `create_scn` builds the output sections,
SYMTAB_INTACT is cleared for STRIP_DEBUG, STRIP_UNNEEDED or a non-empty
symbol-action list, and `create_symtab` runs when SYMTAB_EXIST is set.
`create_scn` is a function of `sections.c`, which is not among the sources,
and is taken as given; the header copy, `setup_phdr` and the sections added on
request (`sections_to_add`) are left out. The result is what `create_symtab`
did, `none` when it was not called. -/
def create_elf (ecp : elfcopy) (e_type : Nat) (create_scn : elfcopy → elfcopy)
    (oec : Nat) (syms : List in_sym) : Except Fault (Option symtab_result) :=
  let ecp1 : elfcopy := { ecp with flags := { ecp.flags with SYMTAB_INTACT := true } }
  if e_type ≠ ET_EXEC ∧ e_type ≠ ET_DYN ∧ e_type ≠ ET_REL then .error Fault.errx
  else
    let ecp2 : elfcopy :=
      if e_type = ET_REL then
        { ecp1 with flags := { ecp1.flags with RELOCATABLE := true }, secndx := fun _ => 0 }
      else { ecp1 with secndx := fun _ => 0 }
    let ecp3 := create_scn ecp2
    let ecp4 : elfcopy :=
      if ecp3.strip = strip_mode.STRIP_DEBUG ∨ ecp3.strip = strip_mode.STRIP_UNNEEDED ∨
          ecp3.v_symop ≠ [] then
        { ecp3 with flags := { ecp3.flags with SYMTAB_INTACT := false } }
      else ecp3
    if ecp4.flags.SYMTAB_EXIST then
      match create_symtab ecp4 oec syms with
      | .error e => .error e
      | .ok r => .ok (some r)
    else .ok none

/-- Modelled from the spec: `copy_data` of `sections.c`, which is not among the
sources, gives the output section the content of its input section unchanged
("payloads unchanged"). -/
def copy_data {α : Type} (input : α) : α := input

/-- The content of the output `.symtab` after `create_symtab`, given the input
table: the copy of the input on the verbatim path, the regenerated entries on
the regenerate path, nothing when the tables were dropped. -/
def written_symtab (r : symtab_result) (input : List GElf_Sym) : Option (List GElf_Sym) :=
  match r with
  | symtab_result.intact => some (copy_data input)
  | symtab_result.regenerated o _ => some (symtab_entries o)
  | symtab_result.removed => none

/-- The content of the output `.strtab` after `create_symtab`, given the input
string table. -/
def written_strtab (r : symtab_result) (input : Bytes) : Option Bytes :=
  match r with
  | symtab_result.intact => some (copy_data input)
  | symtab_result.regenerated o _ => some (strtab_bytes o)
  | symtab_result.removed => none

/-! ## Specification-side definitions -/

/-- Spec wording: a rule with operation `op` names the symbol called `name`. -/
def rule_names (v_symop : List symop) (op : Nat) (name : Bytes) : Bool :=
  v_symop.any (fun r => cstr r.name == cstr name && (r.op &&& op) != 0)

/-- Spec wording: the section of `s` was removed (`s.section != UNDEF`,
`s.section < LORESERVE` and `secndx[s.section] == 0`). -/
def section_removed (ecp : elfcopy) (s : GElf_Sym) : Bool :=
  decide (s.st_shndx ≠ SHN_UNDEF ∧ s.st_shndx < SHN_LORESERVE ∧ ecp.secndx s.st_shndx = 0)

/-- Spec wording: the ten rows of the priority ladder of Phase B for symbol
`s` at input index `i`, each a condition with its verdict (`true` is drop),
given the relocation-mark vector `v_rel`. -/
def ladder (ecp : elfcopy) (v_rel : Bytes) (i : Nat) (s : GElf_Sym) (name : Bytes) :
    List (Bool × Bool) :=
  [ (rule_names ecp.v_symop SYMOP_KEEP name, false),
    (rule_names ecp.v_symop SYMOP_STRIP name, true),
    (decide (i = 0 ∧ s = sym0), false),
    (section_removed ecp s, true),
    (decide (ecp.strip = strip_mode.STRIP_ALL), true),
    (BIT_ISSET v_rel i ||
      (ecp.flags.RELOCATABLE &&
        (GELF_ST_BIND s.st_info == STB_GLOBAL || GELF_ST_BIND s.st_info == STB_WEAK)), false),
    (decide (ecp.strip = strip_mode.STRIP_UNNEEDED), true),
    (ecp.flags.DISCARD_LOCAL && GELF_ST_BIND s.st_info == STB_LOCAL, true),
    (decide (ecp.strip = strip_mode.STRIP_DEBUG) &&
      (GELF_ST_TYPE s.st_info == STT_SECTION || GELF_ST_TYPE s.st_info == STT_FILE), true),
    (true, false) ]

/-- Verdict of the first row whose condition holds. -/
def first_match : List (Bool × Bool) → Bool
  | [] => false
  | (c, v) :: rest => if c then v else first_match rest

/-- Spec wording: the output binding of a retained symbol as the claim states
it, from the input binding `b`, the section index and the rules; the first
branch is taken when `b` is not local. -/
def binding_claimed (ecp : elfcopy) (b shndx : Nat) (name : Bytes) : Nat :=
  if b ≠ STB_LOCAL then
    let b1 :=
      if ecp.flags.WEAKEN_ALL || rule_names ecp.v_symop SYMOP_WEAKEN name then STB_WEAK
      else b
    let b2 :=
      if shndx ≠ SHN_UNDEF ∧ rule_names ecp.v_symop SYMOP_LOCALIZE name = true then
        STB_LOCAL
      else b1
    if ecp.flags.KEEP_GLOBAL = true ∧ shndx ≠ SHN_UNDEF ∧
        rule_names ecp.v_symop SYMOP_KEEPG name = false then STB_LOCAL
    else b2
  else if rule_names ecp.v_symop SYMOP_GLOBALIZE name then STB_GLOBAL
  else b

/-- The input symbols that the filter retains, from input index `i` on, in
input order. -/
def retained (ecp : elfcopy) (sc : Nat) : Nat → List in_sym → List in_sym
  | _, [] => []
  | i, s :: rest =>
    if is_remove_symbol ecp sc i s.sym s.name then retained ecp sc (i + 1) rest
    else s :: retained ecp sc (i + 1) rest

/-- The retained input symbol `s` is emitted as local: its binding after the
binding changes is STB_LOCAL. -/
def to_local (ecp : elfcopy) (s : in_sym) : Bool :=
  is_local_symbol (change_binding ecp s.sym s.name)

/-- Spec wording: the section index of an emitted symbol, `secndx[x]` for an
input index `x` that is not special and `x` itself for a special one (UNDEF or
at least LORESERVE, which covers ABS and COMMON). -/
def remap_shndx (ecp : elfcopy) (x : Nat) : Nat :=
  if x = SHN_UNDEF ∨ x ≥ SHN_LORESERVE then x else ecp.secndx x

/-- An entry with its name offset cleared. -/
def unname (e : GElf_Sym) : GElf_Sym := { e with st_name := 0 }

/-- The entry emitted for the retained input symbol `s`, name offset
cleared. -/
def entry0 (ecp : elfcopy) (s : in_sym) : GElf_Sym :=
  COPYSYM_entry ecp (change_binding ecp s.sym s.name) 0 0

/-- Spec wording: the output section gets a section symbol, that is, it is not
`.symtab`, `.strtab` or `.shstrtab` and, when the output is relocatable, not of
type SHT_REL or SHT_RELA. -/
def needs_secsym (ecp : elfcopy) (s : Section) : Bool :=
  !(streq s.name (lit ".symtab") || streq s.name (lit ".strtab") ||
      streq s.name (lit ".shstrtab")) &&
  !(ecp.flags.RELOCATABLE && (s.type == SHT_REL || s.type == SHT_RELA))

/-- The section symbol that `generate_symbols` creates for section `s`, with
the `st_other` left in the variable `sym`. -/
def secsym_entry (other : Nat) (s : Section) : GElf_Sym :=
  { st_name := 0, st_info := GELF_ST_INFO STB_LOCAL STT_SECTION, st_other := other,
    st_shndx := elf_ndxscn s.os, st_value := s.vma, st_size := 0 }

/-- The number of retained input symbols emitted as local. -/
def n_copied_local (ecp : elfcopy) (syms : List in_sym) : Nat :=
  ((retained ecp syms.length 0 syms).filter (to_local ecp)).length

/-- The section symbols that a run of `generate_symbols` created: the entries
of the local buffer after the copied ones. -/
def synthesized (ecp : elfcopy) (syms : List in_sym) (st : gen_state) : List GElf_Sym :=
  st.sy_buf.l.drop (n_copied_local ecp syms)

/-- The symbol table a run of `generate_symbols` emits, local buffer first;
`none` when the run ends early or returns 0. -/
def emitted_table (r : Except Fault (Bool × gen_state)) : Option (List GElf_Sym) :=
  match r with
  | .ok (true, st) => some (st.sy_buf.l ++ st.sy_buf.g)
  | _ => none

/-- The variables of a run of `generate_symbols` that emits a table. -/
def emitted_state (r : Except Fault (Bool × gen_state)) : Option gen_state :=
  match r with
  | .ok (true, st) => some st
  | _ => none

/-- What `create_symtab` writes when it regenerates the tables. -/
def regenerated_out (r : Except Fault symtab_result) : Option symtab_out :=
  match r with
  | .ok (symtab_result.regenerated o _) => some o
  | _ => none

/-- The NUL-terminated string at offset `off` of a string table. -/
def string_at (tab : Bytes) (off : Nat) : Bytes := cstr (tab.drop off)

/-- Spec wording: some relocation entry, in any data block of an SHT_REL or
SHT_RELA section that survives (neither the section nor its target section is
removed) and whose `sh_link` is the symbol table, has symbol index `i`. -/
def reloc_refers (ecp : elfcopy) (i : Nat) : Bool :=
  ecp.ein.any (fun sh =>
    (sh.sh_type == SHT_REL || sh.sh_type == SHT_RELA) &&
    !(ecp.is_remove_section sh.name || ecp.is_remove_reloc_sec sh.sh_info) &&
    sh.sh_link == ecp.symtab_is &&
    sh.data.any (fun d => (d.r_sym.take (d.d_size / sh.sh_entsize)).contains i))

/-! ## Example inputs -/

/-- No flag set but SYMTAB_EXIST. -/
def ex_flags : ecp_flags :=
  { RELOCATABLE := false, DISCARD_LOCAL := false, WEAKEN_ALL := false,
    KEEP_GLOBAL := false, SYMTAB_INTACT := false, SYMTAB_EXIST := true }

/-- A relocation section `.rela.data` for section 2, linked to the symbol
table at index 4, with one entry that refers to symbol 1. -/
def ex_rela : in_scn :=
  { sh_type := SHT_RELA, name := lit ".rela.data", sh_info := 2, sh_link := 4,
    sh_size := 24, sh_entsize := 24, data := [{ d_size := 24, r_sym := [1] }] }

/-- A run with strip mode STRIP_DEBUG and no rule on an executable: sections
`.text` (1) and `.data` (2) are kept under their indices, `.rela.data` (3)
survives, `.symtab` is input section 4 and `.strtab` input section 5. -/
def ex_ecp : elfcopy :=
  { strip := strip_mode.STRIP_DEBUG, flags := ex_flags, v_symop := [],
    secndx := fun n => if n ≤ 3 then n else 0, v_rel := none, nos := 6,
    v_sec := [{ name := lit ".text", type := 1, vma := 4096, os := some 1 },
              { name := lit ".data", type := 1, vma := 8192, os := some 2 }],
    ein := [ex_rela], is_remove_section := fun _ => false,
    is_remove_reloc_sec := fun _ => false, symtab_is := 4, strtab_is := 5 }

/-- A global function `foo` defined in section 1. -/
def ex_foo : in_sym :=
  { sym := { st_name := 1, st_info := 0x12, st_other := 0, st_shndx := 1,
             st_value := 4096, st_size := 8 },
    name := lit "foo" }

/-- The run `ex_ecp` with the rule STRIP `foo`. -/
def ex_ecp_strip_foo : elfcopy :=
  { ex_ecp with v_symop := [{ name := lit "foo", newname := none, op := SYMOP_STRIP }] }

/-- The run `ex_ecp` with section `.text` removed: only `.data` is mapped, to
output index 1. -/
def ex_ecp_no_text : elfcopy :=
  { ex_ecp with
    secndx := fun n => if n = 2 then 1 else 0
    v_sec := [{ name := lit ".data", type := 1, vma := 8192, os := some 1 }] }

/-- The run `ex_ecp` with WEAKEN_ALL set. -/
def ex_ecp_weaken_all : elfcopy :=
  { ex_ecp with flags := { ex_flags with WEAKEN_ALL := true } }

/-- The run `ex_ecp` with the rule GLOBALIZE `uniq`. -/
def ex_ecp_globalize : elfcopy :=
  { ex_ecp with
    v_symop := [{ name := lit "uniq", newname := none, op := SYMOP_GLOBALIZE }] }

/-- An object `uniq` of binding 10 (STB_LOOS, used as STB_GNU_UNIQUE) defined
in section 2. -/
def ex_uniq : in_sym :=
  { sym := { st_name := 5, st_info := 0xa1, st_other := 0, st_shndx := 2,
             st_value := 8200, st_size := 4 },
    name := lit "uniq" }

/-- A local object `loc` defined in section 2. -/
def ex_loc : in_sym :=
  { sym := { st_name := 10, st_info := 0x01, st_other := 0, st_shndx := 2,
             st_value := 8196, st_size := 4 },
    name := lit "loc" }

/-- The variables after the round of the copy loop for `ex_foo` at index 1 in
the run `ex_ecp_weaken_all`, from the initial variables. -/
def ex_step_foo : gen_state :=
  { sy_buf := { l := [],
                g := [{ st_name := 0, st_info := 0x22, st_other := 0, st_shndx := 1,
                        st_value := 4096, st_size := 8 }] },
    st_buf := { l := [0], g := lit "foo" ++ [0] },
    symndx := [0, 0], gsym := [2], v_secsym := [0],
    sym := { st_name := 1, st_info := 0x22, st_other := 0, st_shndx := 1,
             st_value := 4096, st_size := 8 } }

/-- The reserved symbol with its empty name. -/
def ex_sym0 : in_sym := { sym := sym0, name := [] }

/-- The section symbol of `.text` (input section 1). -/
def ex_sec_text : in_sym :=
  { sym := { st_name := 0, st_info := 0x03, st_other := 0, st_shndx := 1,
             st_value := 4096, st_size := 0 },
    name := [] }

/-- An input symbol table with a section symbol: the reserved symbol, the
section symbol of `.text` and the global `foo`. -/
def ex_syms_sec : List in_sym := [ex_sym0, ex_sec_text, ex_foo]

/-- The variables of `generate_symbols` at return for the table `ex_syms_sec`
in the run `ex_ecp`: the section symbol of `.text` is copied and the one of
`.data` is created. -/
def ex_gen_st_sec : gen_state :=
  { sy_buf :=
      { l := [sym0,
              { st_name := 0, st_info := 3, st_other := 0, st_shndx := 1, st_value := 4096,
                st_size := 0 },
              { st_name := 0, st_info := 3, st_other := 0, st_shndx := 2, st_value := 8192,
                st_size := 0 }],
        g := [{ st_name := 1, st_info := 0x12, st_other := 0, st_shndx := 1,
                st_value := 4096, st_size := 8 }] },
    st_buf := { l := [0], g := lit "foo" ++ [0] },
    symndx := [0, 1, 3], gsym := [4], v_secsym := [2],
    sym := { st_name := 0, st_info := 3, st_other := 0, st_shndx := 1, st_value := 8192,
             st_size := 0 } }

/-- A global symbol without a name (`st_name` 0) defined in section 2. -/
def ex_anon : in_sym :=
  { sym := { st_name := 0, st_info := 0x10, st_other := 0, st_shndx := 2,
             st_value := 8208, st_size := 0 },
    name := [] }

/-- The queue after `add_to_symop_list` for KEEP `foo`, KEEP `other` and REDEF
`foo` to `bar`, in this order. -/
def ex_queue_redef : Option symop_head :=
  ((add_to_symop_list STAILQ_INIT (lit "foo") none SYMOP_KEEP).bind
    (fun h => add_to_symop_list h (lit "other") none SYMOP_KEEP)).bind
    (fun h => add_to_symop_list h (lit "foo") (some (lit "bar")) SYMOP_REDEF)

/-- The queue after `add_to_symop_list` for KEEP `foo` and REDEF `foo` to
`bar`, in this order. -/
def ex_queue_redef2 : Option symop_head :=
  (add_to_symop_list STAILQ_INIT (lit "foo") none SYMOP_KEEP).bind
    (fun h => add_to_symop_list h (lit "foo") (some (lit "bar")) SYMOP_REDEF)

/-- The run `ex_ecp` with the rules that `STAILQ_FOREACH` visits in
`ex_queue_redef`. -/
def ex_ecp_redef : elfcopy :=
  { ex_ecp with v_symop := ((ex_queue_redef.bind stailq_list).getD []) }

/-- The run `ex_ecp` with a rule of operation `op` for the empty name. -/
def ex_ecp_rule_empty (op : Nat) : elfcopy :=
  { ex_ecp with v_symop := [{ name := [], newname := none, op := op }] }

/-- An input symbol table: the reserved symbol, the local `loc` and the global
`foo`. -/
def ex_syms : List in_sym := [ex_sym0, ex_loc, ex_foo]

/-- The variables of `generate_symbols` at return for the table `ex_syms` in
the run `ex_ecp`: two copied local symbols and the section symbols of `.text`
and `.data`, one global symbol. -/
def ex_gen_st : gen_state :=
  { sy_buf :=
      { l := [sym0,
              { st_name := 1, st_info := 1, st_other := 0, st_shndx := 2, st_value := 8196,
                st_size := 4 },
              { st_name := 0, st_info := 3, st_other := 0, st_shndx := 1, st_value := 4096,
                st_size := 0 },
              { st_name := 0, st_info := 3, st_other := 0, st_shndx := 2, st_value := 8192,
                st_size := 0 }],
        g := [{ st_name := 5, st_info := 0x12, st_other := 0, st_shndx := 1,
                st_value := 4096, st_size := 8 }] },
    st_buf := { l := [0] ++ lit "loc" ++ [0], g := lit "foo" ++ [0] },
    symndx := [0, 1, 4], gsym := [4], v_secsym := [0],
    sym := { st_name := 0, st_info := 3, st_other := 0, st_shndx := 1, st_value := 8192,
             st_size := 0 } }

/-- A relocation section `.rel.data` of two entries of 8 bytes, held in two
data descriptors: the entry of the first refers to symbol 20, the entry of the
second to symbol 5. -/
def ex_rel_two_blocks : in_scn :=
  { sh_type := SHT_REL, name := lit ".rel.data", sh_info := 2, sh_link := 4,
    sh_size := 16, sh_entsize := 8,
    data := [{ d_size := 8, r_sym := [20] }, { d_size := 8, r_sym := [5] }] }

/-- The run `ex_ecp` on an input whose only relocation section is
`ex_rel_two_blocks`. -/
def ex_ecp_two_blocks : elfcopy := { ex_ecp with ein := [ex_rel_two_blocks] }

/-- The context after the options of `elfcopy -x`: no strip mode, no rule,
DISCARD_LOCAL set; the input has no relocation section. -/
def ex_ecp_discard : elfcopy :=
  { strip := strip_mode.NONE,
    flags := { RELOCATABLE := false, DISCARD_LOCAL := true, WEAKEN_ALL := false,
               KEEP_GLOBAL := false, SYMTAB_INTACT := false, SYMTAB_EXIST := false },
    v_symop := [], secndx := fun _ => 0, v_rel := none, nos := 1, v_sec := [],
    ein := [], is_remove_section := fun _ => false,
    is_remove_reloc_sec := fun _ => false, symtab_is := 4, strtab_is := 5 }

/-- A `create_scn` for an input with sections `.text` (1), `.data` (2),
`.rela.data` (3), `.symtab` (4) and `.strtab` (5): the first three are kept
under their indices and SYMTAB_EXIST is set. -/
def ex_create_scn (ecp : elfcopy) : elfcopy :=
  { ecp with
    flags := { ecp.flags with SYMTAB_EXIST := true }
    secndx := fun n => if n ≤ 3 then n else 0
    nos := 6
    v_sec := [{ name := lit ".text", type := 1, vma := 4096, os := some 1 },
              { name := lit ".data", type := 1, vma := 8192, os := some 2 }] }

/-- A relocation section `.rela.text` for section 1, linked to the symbol
table at index 4, with one entry that refers to symbol 3. -/
def ex_rela_main : in_scn :=
  { sh_type := SHT_RELA, name := lit ".rela.text", sh_info := 1, sh_link := 4,
    sh_size := 24, sh_entsize := 24, data := [{ d_size := 24, r_sym := [3] }] }

/-- A run with STRIP_ALL and no rule on a relocatable whose `.rela.text`
survives. -/
def ex_ecp_strip_all : elfcopy :=
  { ex_ecp with
    strip := strip_mode.STRIP_ALL
    flags := { ex_flags with RELOCATABLE := true }
    ein := [ex_rela_main] }

/-- A FILE symbol `a.c`. -/
def ex_file : in_sym :=
  { sym := { st_name := 1, st_info := 0x04, st_other := 0, st_shndx := 0xfff1,
             st_value := 0, st_size := 0 },
    name := lit "a.c" }

/-- The global function `main` defined in section 1. -/
def ex_main : in_sym :=
  { sym := { st_name := 5, st_info := 0x12, st_other := 0, st_shndx := 1,
             st_value := 4096, st_size := 16 },
    name := lit "main" }

/-- The input symbol table of the strip-all scenario: the reserved symbol, one
FILE symbol, the SECTION symbol of `.text` and the global `main` (index 3). -/
def ex_syms_main : List in_sym := [ex_sym0, ex_file, ex_sec_text, ex_main]

/-- The variables after the copy loop for the table `ex_syms` in the run
`ex_ecp`. -/
def ex_loop_st : gen_state :=
  { sy_buf :=
      { l := [sym0,
              { st_name := 1, st_info := 1, st_other := 0, st_shndx := 2, st_value := 8196,
                st_size := 4 }],
        g := [{ st_name := 0, st_info := 0x12, st_other := 0, st_shndx := 1,
                st_value := 4096, st_size := 8 }] },
    st_buf := { l := [0] ++ lit "loc" ++ [0], g := lit "foo" ++ [0] },
    symndx := [0, 1, 0], gsym := [4], v_secsym := [0],
    sym := { st_name := 1, st_info := 0x12, st_other := 0, st_shndx := 1, st_value := 4096,
             st_size := 8 } }

/-- The context before any option is given: no strip mode, no rule, no flag. -/
def ex_ecp_plain : elfcopy :=
  { ex_ecp_discard with flags := { ex_ecp_discard.flags with DISCARD_LOCAL := false } }

/-! ## Specification side: the string table as a list of entries -/

/-- The NUL-separated buffer whose entries are `es`: each entry is followed
by its NUL. -/
def strtab_of : List Bytes → Bytes
  | [] => []
  | e :: rest => e ++ [0] ++ strtab_of rest

/-- Spec wording: the offset of the first entry that equals `s` as a whole
entry, or -1 when no entry equals `s`; `off` is the offset of the first entry
of the list. -/
def first_entry_offset (s : Bytes) : List Bytes → Nat → Int
  | [], _ => -1
  | e :: rest, off =>
    if e = s then (off : Int) else first_entry_offset s rest (off + (e.length + 1))

/-- The name that `COPYSYM` stores for the retained input symbol `s`: `none`
when it stores the offset 0 without a lookup (`st_name` is 0 or the name is
empty). -/
def stored_name (ecp : elfcopy) (s : in_sym) : Option Bytes :=
  if (change_binding ecp s.sym s.name).st_name ≠ 0 then
    match redef_name ecp s.name with
    | some nm => if cstr nm ≠ [] then some (cstr nm) else none
    | none => none
  else none

/-- The entry `e` of a symbol buffer belongs to the input symbol `s` and its
`st_name` is the offset of the entry of the string buffer that holds the
stored name of `s`, among the entries `es` of that buffer. -/
def name_placed (ecp : elfcopy) (es : List Bytes) (e : GElf_Sym) (s : in_sym) : Prop :=
  ∀ nm, stored_name ecp s = some nm →
    ∃ k : Nat, es[k]? = some nm ∧ e.st_name = (strtab_of (es.take k)).length

/-- No non-empty name is an entry twice. -/
def no_name_twice (es : List Bytes) : Prop :=
  ∀ (k1 k2 : Nat) (x : Bytes), es[k1]? = some x → es[k2]? = some x → x ≠ [] → k1 = k2

/-- The string buffer `buf` is made of the entries `es`, each NUL-terminated
inside the buffer, and holds no non-empty name twice. -/
def half_ok (es : List Bytes) (buf : Bytes) : Prop :=
  buf = strtab_of es ∧ (∀ e ∈ es, 0 ∉ e) ∧ no_name_twice es


/-- Spec wording: two symbols of one bucket with equal non-empty names get the
same name offset. `out` is the symbol buffer of the bucket, `inp` the input
symbols copied to it in order, `tab` the string buffer of the bucket; the
offset stored is the place of the name in `tab`. -/
def same_name_same_offset (ecp : elfcopy) (tab : Bytes) (out : List GElf_Sym)
    (inp : List in_sym) : Prop :=
  out.length = inp.length ∧
  ∀ (j k : Nat) (ej ek : GElf_Sym) (sj sk : in_sym) (nm : Bytes),
    out[j]? = some ej → out[k]? = some ek → inp[j]? = some sj → inp[k]? = some sk →
    stored_name ecp sj = some nm → stored_name ecp sk = some nm →
    ej.st_name = ek.st_name ∧ string_at tab ej.st_name = nm

/-- The table `ex_syms` with the local symbol `loc` and the global symbol
`foo` a second time. -/
def ex_syms_twice : List in_sym := [ex_sym0, ex_loc, ex_foo, ex_loc, ex_foo]

/-- The variables of `generate_symbols` after the copy loop over
`ex_syms_twice` in the run `ex_ecp`: `loc` is stored once in the local string
buffer and `foo` once in the global one. -/
def ex_twice_st : gen_state :=
  { sy_buf :=
      { l := [sym0,
              { st_name := 1, st_info := 1, st_other := 0, st_shndx := 2, st_value := 8196,
                st_size := 4 },
              { st_name := 1, st_info := 1, st_other := 0, st_shndx := 2, st_value := 8196,
                st_size := 4 }],
        g := [{ st_name := 0, st_info := 0x12, st_other := 0, st_shndx := 1,
                st_value := 4096, st_size := 8 },
              { st_name := 0, st_info := 0x12, st_other := 0, st_shndx := 1,
                st_value := 4096, st_size := 8 }] },
    st_buf := { l := [0] ++ lit "loc" ++ [0], g := lit "foo" ++ [0] },
    symndx := [0, 1, 0, 2, 1], gsym := [20], v_secsym := [0],
    sym := { st_name := 1, st_info := 0x12, st_other := 0, st_shndx := 1, st_value := 4096,
             st_size := 8 } }
/-! ## Rules named twice, and the `st_other` of created section symbols -/

/-- The queue after KEEP `foo`, then STRIP `foo`. -/
def ex_queue_keep_strip : Option symop_head :=
  (add_to_symop_list STAILQ_INIT (lit "foo") none SYMOP_KEEP).bind
    (fun h => add_to_symop_list h (lit "foo") none SYMOP_STRIP)

/-- The queue after KEEP `foo`, then KEEP `bar`. -/
def ex_queue_foo_bar : Option symop_head :=
  (add_to_symop_list STAILQ_INIT (lit "foo") none SYMOP_KEEP).bind
    (fun h => add_to_symop_list h (lit "bar") none SYMOP_KEEP)

/-- The queue after KEEP `foo`, KEEP `bar`, then STRIP `foo`. -/
def ex_queue_foo_bar_foo : Option symop_head :=
  ex_queue_foo_bar.bind (fun h => add_to_symop_list h (lit "foo") none SYMOP_STRIP)

/-- The memory of `ex_queue_keep_strip`: one node, whose link points to the
node itself. -/
def ex_cycle : symop_head :=
  { nodes := [{ name := lit "foo", newname := none, op := SYMOP_KEEP ||| SYMOP_STRIP,
                next := some 0 }],
    stqh_first := some 0, stqh_last := some 0 }

/-- The table `ex_syms` with `st_other = o` in its last symbol. -/
def ex_syms_other (o : Nat) : List in_sym :=
  [ex_sym0, ex_loc, { ex_foo with sym := { ex_foo.sym with st_other := o } }]

/-- The variables of `generate_symbols` at return for the table
`ex_syms_other 2` in the run `ex_ecp`. -/
def ex_gen_st_other : gen_state :=
  { sy_buf :=
      { l := [sym0,
              { st_name := 1, st_info := 1, st_other := 0, st_shndx := 2, st_value := 8196,
                st_size := 4 },
              { st_name := 0, st_info := 3, st_other := 2, st_shndx := 1, st_value := 4096,
                st_size := 0 },
              { st_name := 0, st_info := 3, st_other := 2, st_shndx := 2, st_value := 8192,
                st_size := 0 }],
        g := [{ st_name := 5, st_info := 18, st_other := 2, st_shndx := 1, st_value := 4096,
                st_size := 8 }] },
    st_buf := { l := [0, 108, 111, 99, 0], g := [102, 111, 111, 0] },
    symndx := [0, 1, 4], gsym := [4], v_secsym := [0],
    sym := { st_name := 0, st_info := 3, st_other := 2, st_shndx := 1, st_value := 8192,
             st_size := 0 } }

/-! ## The data descriptors of an input file -/

/-- The data descriptors of a section of a file opened for reading, as
`elf_getdata` yields them: none, or one descriptor that holds the whole
section (`d_size` is `sh_size`). -/
def file_data (sh : in_scn) : Bool :=
  match sh.data with
  | [] => true
  | [d] => d.d_size == sh.sh_size
  | _ => false

end Elfcopy

/-!
# DWARF location expressions and location lists

A shallow embedding of `libdwarf_loc.c` (`loc_op_num`, `loc_fill_loc`,
`loc_fill_locdesc`) and `libdwarf_loclist.c` (`loclist_add_locdesc`,
`loclist_find`, `loclist_add`).

Conventions.
* A `uint8_t *` is modelled by the bytes found from the pointer on; the byte
  read where that list has ended is 0.
* `last - p` is the integer `rem`; the loops run while `0 < rem`.
* Arrays obtained from `calloc` are lists of zeroed elements; allocation is
  taken to succeed. A store past the end of an array and a failed `assert` end
  the run: both are results of type `Fault`.
* Offsets and operands are natural numbers; operands are reduced modulo `2^64`
  where the C code stores them in a `uint64_t`.
-/

namespace Libdwarf

/-! ## Operator codes -/

/-- Modelled from the spec: the operator codes of `dwarf.h`, which is not among
the sources. The spec names the operators (section 4.7) and gives 0x03 for
`DW_OP_addr`; the values are those of the DWARF operator table. -/
def DW_OP_addr : Nat := 0x03
def DW_OP_deref : Nat := 0x06
def DW_OP_const1u : Nat := 0x08
def DW_OP_const1s : Nat := 0x09
def DW_OP_const2u : Nat := 0x0a
def DW_OP_const2s : Nat := 0x0b
def DW_OP_const4u : Nat := 0x0c
def DW_OP_const4s : Nat := 0x0d
def DW_OP_const8u : Nat := 0x0e
def DW_OP_const8s : Nat := 0x0f
def DW_OP_constu : Nat := 0x10
def DW_OP_consts : Nat := 0x11
def DW_OP_dup : Nat := 0x12
def DW_OP_drop : Nat := 0x13
def DW_OP_over : Nat := 0x14
def DW_OP_pick : Nat := 0x15
def DW_OP_swap : Nat := 0x16
def DW_OP_rot : Nat := 0x17
def DW_OP_xderef : Nat := 0x18
def DW_OP_abs : Nat := 0x19
def DW_OP_and : Nat := 0x1a
def DW_OP_div : Nat := 0x1b
def DW_OP_minus : Nat := 0x1c
def DW_OP_mod : Nat := 0x1d
def DW_OP_mul : Nat := 0x1e
def DW_OP_neg : Nat := 0x1f
def DW_OP_not : Nat := 0x20
def DW_OP_or : Nat := 0x21
def DW_OP_plus : Nat := 0x22
def DW_OP_plus_uconst : Nat := 0x23
def DW_OP_shl : Nat := 0x24
def DW_OP_shr : Nat := 0x25
def DW_OP_shra : Nat := 0x26
def DW_OP_xor : Nat := 0x27
def DW_OP_bra : Nat := 0x28
def DW_OP_eq : Nat := 0x29
def DW_OP_ge : Nat := 0x2a
def DW_OP_gt : Nat := 0x2b
def DW_OP_le : Nat := 0x2c
def DW_OP_lt : Nat := 0x2d
def DW_OP_ne : Nat := 0x2e
def DW_OP_skip : Nat := 0x2f
/-- The codes `DW_OP_lit0` .. `DW_OP_lit31` are `DW_OP_lit0 + n`. -/
def DW_OP_lit0 : Nat := 0x30
/-- The codes `DW_OP_reg0` .. `DW_OP_reg31` are `DW_OP_reg0 + n`. -/
def DW_OP_reg0 : Nat := 0x50
/-- The codes `DW_OP_breg0` .. `DW_OP_breg31` are `DW_OP_breg0 + n`. -/
def DW_OP_breg0 : Nat := 0x70
def DW_OP_regx : Nat := 0x90
def DW_OP_fbreg : Nat := 0x91
def DW_OP_bregx : Nat := 0x92
def DW_OP_piece : Nat := 0x93
def DW_OP_deref_size : Nat := 0x94
def DW_OP_xderef_size : Nat := 0x95
def DW_OP_nop : Nat := 0x96

/-! ## The `switch` of `loc_op_num` and `loc_fill_loc`

Both functions switch on the operator byte with the same case labels in the
same groups; the groups are listed once. -/

/-- Case labels "Operations with no operands". -/
def case_no_operand : List Nat :=
  [DW_OP_deref] ++ (List.range 32).map (fun n => DW_OP_reg0 + n) ++
  (List.range 32).map (fun n => DW_OP_lit0 + n) ++
  [DW_OP_dup, DW_OP_drop, DW_OP_over, DW_OP_swap, DW_OP_rot, DW_OP_xderef,
   DW_OP_abs, DW_OP_and, DW_OP_div, DW_OP_minus, DW_OP_mod, DW_OP_mul, DW_OP_neg,
   DW_OP_not, DW_OP_or, DW_OP_plus, DW_OP_shl, DW_OP_shr, DW_OP_shra, DW_OP_xor,
   DW_OP_eq, DW_OP_ge, DW_OP_gt, DW_OP_le, DW_OP_lt, DW_OP_ne, DW_OP_nop]

/-- Case labels "Operations with 1-byte operands". -/
def case_1byte : List Nat :=
  [DW_OP_const1u, DW_OP_const1s, DW_OP_pick, DW_OP_deref_size, DW_OP_xderef_size]

/-- Case labels "Operations with 2-byte operands". -/
def case_2byte : List Nat := [DW_OP_const2u, DW_OP_const2s, DW_OP_bra, DW_OP_skip]

/-- Case labels "Operations with 4-byte operands". -/
def case_4byte : List Nat := [DW_OP_const4u, DW_OP_const4s]

/-- Case labels "Operations with 8-byte operands". -/
def case_8byte : List Nat := [DW_OP_const8u, DW_OP_const8s]

/-- Case labels "Operations with an unsigned LEB128 operand". -/
def case_uleb : List Nat := [DW_OP_constu, DW_OP_plus_uconst, DW_OP_regx, DW_OP_piece]

/-- Case labels "Operations with a signed LEB128 operand". -/
def case_sleb : List Nat :=
  [DW_OP_consts] ++ (List.range 32).map (fun n => DW_OP_breg0 + n) ++ [DW_OP_fbreg]

/-- The arms of the `switch`. -/
inductive Arm where
  | no_operand
  | byte1
  | byte2
  | byte4
  | byte8
  | uleb
  | sleb
  | bregx
  | addr
  | default
deriving DecidableEq, Repr

/-- The arm that the operator byte `op` selects. -/
def switch_arm (op : Nat) : Arm :=
  if case_no_operand.contains op then Arm.no_operand
  else if case_1byte.contains op then Arm.byte1
  else if case_2byte.contains op then Arm.byte2
  else if case_4byte.contains op then Arm.byte4
  else if case_8byte.contains op then Arm.byte8
  else if case_uleb.contains op then Arm.uleb
  else if case_sleb.contains op then Arm.sleb
  else if op = DW_OP_bregx then Arm.bregx
  else if op = DW_OP_addr then Arm.addr
  else Arm.default

/-! ## Decoding helpers -/

/-- Modelled from the spec: `decode_uleb128(&p)`, which is not among the
sources. An unsigned LEB128 number is read at `*p`: each byte gives seven bits,
least significant group first, and the last byte is the first one whose bit
0x80 is clear. The result is the value and the number of bytes read, by which
`*p` is advanced. -/
def decode_uleb128 : List Nat → Nat × Nat
  | [] => (0, 1)
  | b :: rest =>
    if b &&& 0x80 = 0 then (b &&& 0x7f, 1)
    else ((b &&& 0x7f) + 128 * (decode_uleb128 rest).1, (decode_uleb128 rest).2 + 1)

/-- Modelled from the spec: `decode_sleb128(&p)`, which is not among the
sources. A signed LEB128 number is read at `*p`: as the unsigned form, with
bit 0x40 of the last byte as the sign. The result is the value and the number
of bytes read, by which `*p` is advanced. -/
def decode_sleb128 : List Nat → Int × Nat
  | [] => (0, 1)
  | b :: rest =>
    if b &&& 0x80 = 0 then
      (if b &&& 0x40 = 0 then ((b &&& 0x7f : Nat) : Int) else ((b &&& 0x7f : Nat) : Int) - 128, 1)
    else
      (((b &&& 0x7f : Nat) : Int) + 128 * (decode_sleb128 rest).1,
       (decode_sleb128 rest).2 + 1)

/-- A value as stored in a `uint64_t`. -/
def to_u64 (v : Int) : Nat := (v % 2 ^ 64).toNat

/-- The conversion of a `uint64_t` to `int`. -/
def to_int (x : Nat) : Int :=
  if x % 2 ^ 32 < 2 ^ 31 then ((x % 2 ^ 32 : Nat) : Int)
  else ((x % 2 ^ 32 : Nat) : Int) - 2 ^ 32

/-- Modelled from the spec: the little-endian reader behind the function
pointers `dbg->read` and `dbg->decode` (`read_lsb` is declared in
`_libdwarf.h`, its body is not among the sources): the value of a byte string,
least significant byte first, as a `uint64_t`. -/
def decode_lsb : List Nat → Nat
  | [] => 0
  | b :: rest => (b % 256 + 256 * decode_lsb rest) % 2 ^ 64

/-- Modelled from the spec: the big-endian reader (`read_msb` is declared in
`_libdwarf.h`, its body is not among the sources): the value of a byte string,
most significant byte first, as a `uint64_t`. -/
def decode_msb (bs : List Nat) : Nat :=
  bs.foldl (fun acc b => (acc * 256 + b % 256) % 2 ^ 64) 0

/-! ## Data model -/

/-- Error codes returned by the functions embedded here. -/
inductive Dwarf_Err where
  | DWARF_E_NONE
  | DWARF_E_INVALID_EXPR
  | DWARF_E_INVALID_LOCLIST
  | DWARF_E_MEMORY
  | DWARF_E_NO_ENTRY
  | DWARF_E_ARGUMENT
deriving DecidableEq, Repr

/-- Ways in which a run ends outside the return paths. -/
inductive Fault where
  | assertion
  | out_of_bounds
deriving DecidableEq, Repr

/-- An operator record (`Dwarf_Loc`): the fields the code writes. -/
structure Dwarf_Loc where
  lr_atom : Nat
  lr_number : Nat
  lr_number2 : Nat
deriving DecidableEq, Repr

/-- A location description (`Dwarf_Locdesc`); `ld_s` is the array of
`ld_cents` operator records. -/
structure Dwarf_Locdesc where
  ld_lopc : Nat
  ld_hipc : Nat
  ld_cents : Nat
  ld_s : List Dwarf_Loc
deriving DecidableEq, Repr

/-- A location list (`struct _Dwarf_Loclist`). -/
structure Dwarf_Loclist where
  ll_offset : Nat
  ll_length : Nat
  ll_ldlen : Nat
  ll_ldlist : List Dwarf_Locdesc
deriving DecidableEq, Repr

/-- An `Elf_Data` descriptor: the buffer; `d_size` is its length. -/
structure Elf_Data where
  d_buf : List Nat
deriving DecidableEq, Repr

def Elf_Data.d_size (d : Elf_Data) : Nat := d.d_buf.length

/-- The debug context (`Dwarf_Debug`), as far as the embedded functions use
it. Modelled from the spec: the function pointers `read` and `decode` give the
value of the bytes they are to read, in the byte order of the object; the
caller's offset or pointer is then advanced by the number of bytes.
`debug_loc` is `dbg_s[DWARF_debug_loc].s_data` and `dbg_loclist` the queue of
cached location lists, head first. -/
structure Dwarf_Debug where
  read : List Nat → Nat
  decode : List Nat → Nat
  debug_loc : Elf_Data
  dbg_loclist : List Dwarf_Loclist

/-- A zeroed `Dwarf_Loc`, as `calloc` gives it. -/
def Dwarf_Loc.zero : Dwarf_Loc := { lr_atom := 0, lr_number := 0, lr_number2 := 0 }

/-- A zeroed `Dwarf_Locdesc`, as `calloc` gives it (`ld_s` is NULL). -/
def Dwarf_Locdesc.zero : Dwarf_Locdesc :=
  { ld_lopc := 0, ld_hipc := 0, ld_cents := 0, ld_s := [] }

/-! ## `loc_op_num` -/

/-- The `switch` of `loc_op_num`: the number of operand bytes by which the arm
advances `p`, where `p` points behind the operator byte. -/
def op_num_skip (pointer_size : Nat) (a : Arm) (p : List Nat) : Nat :=
  match a with
  | Arm.no_operand => 0
  | Arm.byte1 => 1
  | Arm.byte2 => 2
  | Arm.byte4 => 4
  | Arm.byte8 => 8
  | Arm.uleb => (decode_uleb128 p).2
  | Arm.sleb => (decode_sleb128 p).2
  | Arm.bregx =>
    (decode_uleb128 p).2 + (decode_sleb128 (p.drop (decode_uleb128 p).2)).2
  | Arm.addr => pointer_size
  | Arm.default => 0

/-- The loop of `loc_op_num`: `while (p < last && count >= 0)` with
`rem = last - p`. Every round moves `p` forward by at least one byte. -/
def loc_op_num_loop (pointer_size : Nat) : Nat → List Nat → Int → Int → Int
  | 0, _, _, count => count
  | fuel + 1, p, rem, count =>
    if 0 < rem ∧ 0 ≤ count then
      loc_op_num_loop pointer_size fuel
        (p.tail.drop (op_num_skip pointer_size (switch_arm (p.headD 0)) p.tail))
        (rem - 1 - (op_num_skip pointer_size (switch_arm (p.headD 0)) p.tail : Nat))
        (if switch_arm (p.headD 0) = Arm.default then -1 else count + 1)
    else count

/-- The function `loc_op_num`: the number of operators of the expression of
`len` bytes at `p`, or -1. -/
def loc_op_num (pointer_size : Nat) (p : List Nat) (len : Int) : Int :=
  loc_op_num_loop pointer_size len.toNat p len 0

/-! ## `loc_fill_loc` -/

/-- The `switch` of `loc_fill_loc`: `operand1`, `operand2` and the number of
operand bytes by which the arm advances `p`, where `p` points behind the
operator byte. -/
def fill_operands (dbg : Dwarf_Debug) (pointer_size : Nat) (a : Arm) (p : List Nat) :
    Nat × Nat × Nat :=
  match a with
  | Arm.no_operand => (0, 0, 0)
  | Arm.byte1 => (p.headD 0, 0, 1)
  | Arm.byte2 => (dbg.decode (p.take 2), 0, 2)
  | Arm.byte4 => (dbg.decode (p.take 4), 0, 4)
  | Arm.byte8 => (dbg.decode (p.take 8), 0, 8)
  | Arm.uleb => ((decode_uleb128 p).1 % 2 ^ 64, 0, (decode_uleb128 p).2)
  | Arm.sleb => (to_u64 (decode_sleb128 p).1, 0, (decode_sleb128 p).2)
  | Arm.bregx =>
    ((decode_uleb128 p).1 % 2 ^ 64,
     to_u64 (decode_sleb128 (p.drop (decode_uleb128 p).2)).1,
     (decode_uleb128 p).2 + (decode_sleb128 (p.drop (decode_uleb128 p).2)).2)
  | Arm.addr => (dbg.decode (p.take pointer_size), 0, pointer_size)
  | Arm.default => (0, 0, 0)

/-- The loop of `loc_fill_loc`: `while (p < last && ret == DWARF_E_NONE)`; no
arm assigns `ret`. The result is the array `ld_s` and `count`. -/
def loc_fill_loc_loop (dbg : Dwarf_Debug) (pointer_size : Nat) :
    Nat → List Nat → Int → List Dwarf_Loc → Nat → Except Fault (List Dwarf_Loc × Nat)
  | 0, _, _, ld_s, count => .ok (ld_s, count)
  | fuel + 1, p, rem, ld_s, count =>
    if 0 < rem then
      if count < ld_s.length then
        loc_fill_loc_loop dbg pointer_size fuel
          (p.tail.drop (fill_operands dbg pointer_size (switch_arm (p.headD 0)) p.tail).2.2)
          (rem - 1 -
            ((fill_operands dbg pointer_size (switch_arm (p.headD 0)) p.tail).2.2 : Nat))
          (ld_s.set count
            { lr_atom := p.headD 0,
              lr_number := (fill_operands dbg pointer_size (switch_arm (p.headD 0)) p.tail).1,
              lr_number2 :=
                (fill_operands dbg pointer_size (switch_arm (p.headD 0)) p.tail).2.1 })
          (count + 1)
      else .error Fault.out_of_bounds
    else .ok (ld_s, count)

/-- The function `loc_fill_loc`: the return value and `lbuf` afterwards. -/
def loc_fill_loc (dbg : Dwarf_Debug) (lbuf : Dwarf_Locdesc) (pointer_size : Nat)
    (p : List Nat) (len : Int) : Except Fault (Dwarf_Err × Dwarf_Locdesc) :=
  match loc_fill_loc_loop dbg pointer_size len.toNat p len lbuf.ld_s 0 with
  | .error f => .error f
  | .ok (ld_s, _) => .ok (Dwarf_Err.DWARF_E_NONE, { lbuf with ld_s := ld_s })

/-! ## `loc_fill_locdesc` and `loc_fill_locexpr` -/

/-- The function `loc_fill_locdesc`: the return value and `llbuf` afterwards.
`inp` holds the bytes at `in`. -/
def loc_fill_locdesc (dbg : Dwarf_Debug) (llbuf : Dwarf_Locdesc) (inp : List Nat)
    (in_len : Nat) (pointer_size : Nat) : Except Fault (Dwarf_Err × Dwarf_Locdesc) :=
  if ¬ (0 < in_len) then .error Fault.assertion
  else if loc_op_num pointer_size inp (to_int in_len) < 0 then
    .ok (Dwarf_Err.DWARF_E_INVALID_EXPR, llbuf)
  else
    loc_fill_loc dbg
      { llbuf with
        ld_cents := (loc_op_num pointer_size inp (to_int in_len)).toNat
        ld_s := List.replicate (loc_op_num pointer_size inp (to_int in_len)).toNat
                  Dwarf_Loc.zero }
      pointer_size inp (to_int in_len)

/-- The function `loc_fill_locexpr`: the return value and, on success, the new
description. -/
def loc_fill_locexpr (dbg : Dwarf_Debug) (inp : List Nat) (in_len : Nat)
    (pointer_size : Nat) : Except Fault (Dwarf_Err × Option Dwarf_Locdesc) :=
  match loc_fill_locdesc dbg
      { ld_lopc := 0, ld_hipc := if pointer_size = 4 then 2 ^ 32 - 1 else 2 ^ 64 - 1,
        ld_cents := 0, ld_s := [] } inp in_len pointer_size with
  | .error f => .error f
  | .ok (ret, ld) =>
    if ret ≠ Dwarf_Err.DWARF_E_NONE then .ok (ret, none) else .ok (ret, some ld)

/-! ## `loclist_add_locdesc`, `loclist_find`, `loclist_add` -/

/-- The variables that `loclist_add_locdesc` leaves: `*off`, the array `ld`
(`none` for a NULL argument), the loop counter `i` (stored to `*ldlen` on
success) and `*total_len`. -/
structure locdesc_state where
  off : Nat
  ld : Option (List Dwarf_Locdesc)
  i : Nat
  total_len : Nat
deriving DecidableEq, Repr

/-- The stores `ld[i].ld_lopc = start; ld[i].ld_hipc = end` under
`if (ld != NULL)`. -/
def set_range (ld : Option (List Dwarf_Locdesc)) (i start end_ : Nat) :
    Except Fault (Option (List Dwarf_Locdesc)) :=
  match ld with
  | none => .ok none
  | some arr =>
    match arr.get? i with
    | none => .error Fault.out_of_bounds
    | some e => .ok (some (arr.set i { e with ld_lopc := start, ld_hipc := end_ }))

/-- The `for` loop of `loclist_add_locdesc`. Every round that does not leave
the loop moves `*off` forward by two pointer-sized reads. -/
def loclist_add_locdesc_loop (dbg : Dwarf_Debug) (pointer_size : Nat) (d : Elf_Data) :
    Nat → locdesc_state → Except Fault (Dwarf_Err × locdesc_state)
  | 0, st => .ok (Dwarf_Err.DWARF_E_NONE, st)
  | fuel + 1, st =>
    if st.off < d.d_size then
      let start := dbg.read ((d.d_buf.drop st.off).take pointer_size)
      let end_ := dbg.read ((d.d_buf.drop (st.off + pointer_size)).take pointer_size)
      let off2 := st.off + pointer_size + pointer_size
      match set_range st.ld st.i start end_ with
      | .error f => .error f
      | .ok ld1 =>
        let total1 := st.total_len + 2 * pointer_size
        if start = 0 ∧ end_ = 0 then
          .ok (Dwarf_Err.DWARF_E_NONE,
               { off := off2, ld := ld1, i := st.i + 1, total_len := total1 })
        else if (pointer_size = 4 ∧ start = 2 ^ 32 - 1) ∨
            (pointer_size = 8 ∧ start = 2 ^ 64 - 1) then
          loclist_add_locdesc_loop dbg pointer_size d fuel
            { off := off2, ld := ld1, i := st.i + 1, total_len := total1 }
        else
          let len := dbg.read ((d.d_buf.drop off2).take 2)
          let off3 := off2 + 2
          if off3 + len > d.d_size then
            .ok (Dwarf_Err.DWARF_E_INVALID_LOCLIST,
                 { off := off3, ld := ld1, i := st.i, total_len := total1 })
          else
            match ld1 with
            | none =>
              loclist_add_locdesc_loop dbg pointer_size d fuel
                { off := off3 + len, ld := none, i := st.i + 1, total_len := total1 + len }
            | some arr =>
              match arr.get? st.i with
              | none => .error Fault.out_of_bounds
              | some e =>
                match loc_fill_locdesc dbg e (d.d_buf.drop off3) len pointer_size with
                | .error f => .error f
                | .ok (ret, e1) =>
                  if ret ≠ Dwarf_Err.DWARF_E_NONE then
                    .ok (ret, { off := off3, ld := some (arr.set st.i e1), i := st.i,
                                total_len := total1 + len })
                  else
                    loclist_add_locdesc_loop dbg pointer_size d fuel
                      { off := off3 + len, ld := some (arr.set st.i e1), i := st.i + 1,
                        total_len := total1 + len }
    else .ok (Dwarf_Err.DWARF_E_NONE, st)

/-- The function `loclist_add_locdesc` from `*off = off` with the array `ld`
(`none` for NULL). -/
def loclist_add_locdesc (dbg : Dwarf_Debug) (pointer_size : Nat) (d : Elf_Data) (off : Nat)
    (ld : Option (List Dwarf_Locdesc)) : Except Fault (Dwarf_Err × locdesc_state) :=
  loclist_add_locdesc_loop dbg pointer_size d (d.d_size + 1)
    { off := off, ld := ld, i := 0, total_len := 0 }

/-- The function `loclist_find`: the first cached list with `ll_offset ==
lloff`, or `DWARF_E_NO_ENTRY`. -/
def loclist_find (dbg : Dwarf_Debug) (lloff : Nat) : Dwarf_Err × Option Dwarf_Loclist :=
  match dbg.dbg_loclist.find? (fun ll => ll.ll_offset == lloff) with
  | none => (Dwarf_Err.DWARF_E_NO_ENTRY, none)
  | some ll => (Dwarf_Err.DWARF_E_NONE, some ll)

/-- The insertion "Insert to the queue. Sort by offset": before the first
list with a greater offset, or at the tail. -/
def loclist_insert (ll : Dwarf_Loclist) : List Dwarf_Loclist → List Dwarf_Loclist
  | [] => [ll]
  | tll :: rest =>
    if tll.ll_offset > ll.ll_offset then ll :: tll :: rest
    else tll :: loclist_insert ll rest

/-- The function `loclist_add`: the return value and the debug context
afterwards. -/
def loclist_add (dbg : Dwarf_Debug) (cu_pointer_size : Nat) (lloff : Nat) :
    Except Fault (Dwarf_Err × Dwarf_Debug) :=
  if (loclist_find dbg lloff).1 ≠ Dwarf_Err.DWARF_E_NO_ENTRY then
    .ok (Dwarf_Err.DWARF_E_NONE, dbg)
  else
    match loclist_add_locdesc dbg cu_pointer_size dbg.debug_loc lloff none with
    | .error f => .error f
    | .ok (ret, st1) =>
      if ret ≠ Dwarf_Err.DWARF_E_NONE then .ok (ret, dbg)
      else
        match loclist_add_locdesc dbg cu_pointer_size dbg.debug_loc lloff
            (some (List.replicate st1.i Dwarf_Locdesc.zero)) with
        | .error f => .error f
        | .ok (ret2, st2) =>
          if ret2 ≠ Dwarf_Err.DWARF_E_NONE then .ok (ret2, dbg)
          else
            .ok (ret2,
              { dbg with
                dbg_loclist :=
                  loclist_insert
                    { ll_offset := lloff, ll_length := st2.total_len, ll_ldlen := st1.i,
                      ll_ldlist := st2.ld.getD [] }
                    dbg.dbg_loclist })

/-! ## Specification side: the operand-shape table and the parse it defines -/

/-- Spec wording (section 4.7): the operand shapes an operator byte selects. -/
inductive Shape where
  | no_operand
  | fixed (n : Nat)
  | uleb
  | sleb
  | uleb_sleb
  | addr
deriving DecidableEq, Repr

/-- Spec wording (section 4.7): the operand-shape table; `none` for "any other
opcode". -/
def op_shape (op : Nat) : Option Shape :=
  if op = DW_OP_deref ∨ (DW_OP_lit0 ≤ op ∧ op ≤ DW_OP_lit0 + 31) ∨
      (DW_OP_reg0 ≤ op ∧ op ≤ DW_OP_reg0 + 31) ∨
      op ∈ [DW_OP_dup, DW_OP_drop, DW_OP_over, DW_OP_swap, DW_OP_rot, DW_OP_xderef] ∨
      op ∈ [DW_OP_abs, DW_OP_and, DW_OP_div, DW_OP_minus, DW_OP_mod, DW_OP_mul, DW_OP_neg,
            DW_OP_not, DW_OP_or, DW_OP_plus, DW_OP_shl, DW_OP_shr, DW_OP_shra, DW_OP_xor] ∨
      op ∈ [DW_OP_eq, DW_OP_ge, DW_OP_gt, DW_OP_le, DW_OP_lt, DW_OP_ne] ∨
      op = DW_OP_nop then some Shape.no_operand
  else if op ∈ [DW_OP_const1u, DW_OP_const1s, DW_OP_pick, DW_OP_deref_size,
      DW_OP_xderef_size] then some (Shape.fixed 1)
  else if op ∈ [DW_OP_const2u, DW_OP_const2s, DW_OP_bra, DW_OP_skip] then some (Shape.fixed 2)
  else if op ∈ [DW_OP_const4u, DW_OP_const4s] then some (Shape.fixed 4)
  else if op ∈ [DW_OP_const8u, DW_OP_const8s] then some (Shape.fixed 8)
  else if op ∈ [DW_OP_constu, DW_OP_plus_uconst, DW_OP_regx, DW_OP_piece] then some Shape.uleb
  else if op = DW_OP_consts ∨ (DW_OP_breg0 ≤ op ∧ op ≤ DW_OP_breg0 + 31) ∨
      op = DW_OP_fbreg then some Shape.sleb
  else if op = DW_OP_bregx then some Shape.uleb_sleb
  else if op = DW_OP_addr then some Shape.addr
  else none

/-- The switch arm that handles a shape. -/
def shape_arm : Shape → Arm
  | Shape.no_operand => Arm.no_operand
  | Shape.fixed n =>
    if n = 1 then Arm.byte1 else if n = 2 then Arm.byte2 else if n = 4 then Arm.byte4
    else Arm.byte8
  | Shape.uleb => Arm.uleb
  | Shape.sleb => Arm.sleb
  | Shape.uleb_sleb => Arm.bregx
  | Shape.addr => Arm.addr

/-- A LEB128 number lies inside `E` when `E` holds its last byte. -/
def leb_inside (E : List Nat) : Bool := E.any (fun b => b &&& 0x80 == 0)

/-- Spec wording: the operands of an operator of shape `sh` whose operand bytes
start `E`: `operand1`, `operand2` and the number of operand bytes; `none` when
the operands do not lie inside `E`. A one-byte operand is the byte, a longer
fixed operand and an address are decoded in the byte order of the object. -/
def spec_operands (dbg : Dwarf_Debug) (pointer_size : Nat) :
    Shape → List Nat → Option (Nat × Nat × Nat)
  | Shape.no_operand, _ => some (0, 0, 0)
  | Shape.fixed n, E =>
    if n ≤ E.length then some (if n = 1 then E.headD 0 else dbg.decode (E.take n), 0, n)
    else none
  | Shape.uleb, E =>
    if leb_inside E then some ((decode_uleb128 E).1 % 2 ^ 64, 0, (decode_uleb128 E).2)
    else none
  | Shape.sleb, E =>
    if leb_inside E then some (to_u64 (decode_sleb128 E).1, 0, (decode_sleb128 E).2)
    else none
  | Shape.uleb_sleb, E =>
    if leb_inside E ∧ leb_inside (E.drop (decode_uleb128 E).2) then
      some ((decode_uleb128 E).1 % 2 ^ 64,
            to_u64 (decode_sleb128 (E.drop (decode_uleb128 E).2)).1,
            (decode_uleb128 E).2 + (decode_sleb128 (E.drop (decode_uleb128 E).2)).2)
    else none
  | Shape.addr, E =>
    if pointer_size ≤ E.length then some (dbg.decode (E.take pointer_size), 0, pointer_size)
    else none

/-- The outcome of decoding a byte string as an expression, left to right. -/
inductive Scan where
  | ok (recs : List Dwarf_Loc)
  | bad_opcode
  | truncated
deriving DecidableEq, Repr

/-- Spec wording: decode the byte string `E` left to right. At each operator
position the byte must be an opcode of the table (else `bad_opcode`) and its
operands must lie inside `E` (else `truncated`); the record of the operator is
its opcode and its operands. -/
def spec_scan (dbg : Dwarf_Debug) (pointer_size : Nat) : Nat → List Nat → Scan
  | 0, _ => Scan.ok []
  | _ + 1, [] => Scan.ok []
  | fuel + 1, op :: rest =>
    match op_shape op with
    | none => Scan.bad_opcode
    | some sh =>
      match spec_operands dbg pointer_size sh rest with
      | none => Scan.truncated
      | some r =>
        match spec_scan dbg pointer_size fuel (rest.drop r.2.2) with
        | Scan.ok recs =>
          Scan.ok ({ lr_atom := op, lr_number := r.1, lr_number2 := r.2.1 } :: recs)
        | e => e

/-- The parse of the expression `E`; every operator takes at least one byte,
so `E.length` rounds decode all of `E`. -/
def parse_expr (dbg : Dwarf_Debug) (pointer_size : Nat) (E : List Nat) : Scan :=
  spec_scan dbg pointer_size E.length E

/-- Spec wording: the operator positions of an expression, in order: the
first operator is at the start, and each further one follows the operands of
the one before it. `pos` is the position of the first byte of the argument. -/
def op_positions (dbg : Dwarf_Debug) (pointer_size : Nat) : Nat → Nat → List Nat → List Nat
  | 0, _, _ => []
  | _ + 1, _, [] => []
  | fuel + 1, pos, op :: rest =>
    match op_shape op with
    | none => []
    | some sh =>
      match spec_operands dbg pointer_size sh rest with
      | none => []
      | some r =>
        pos :: op_positions dbg pointer_size fuel (pos + 1 + r.2.2) (rest.drop r.2.2)

/-- Spec wording: the record of the operator at position `pos` of `E`: its
opcode is the byte at `pos`, its operands are decoded from the bytes behind
`pos` by the shape of the opcode. -/
def record_at (dbg : Dwarf_Debug) (pointer_size : Nat) (E : List Nat) (pos : Nat) :
    Dwarf_Loc :=
  match op_shape (E.getD pos 0) with
  | none => { lr_atom := E.getD pos 0, lr_number := 0, lr_number2 := 0 }
  | some sh =>
    match spec_operands dbg pointer_size sh (E.drop (pos + 1)) with
    | none => { lr_atom := E.getD pos 0, lr_number := 0, lr_number2 := 0 }
    | some r => { lr_atom := E.getD pos 0, lr_number := r.1, lr_number2 := r.2.1 }

/-- The `n` little-endian bytes of `v`. -/
def le_bytes : Nat → Nat → List Nat
  | 0, _ => []
  | n + 1, v => v % 256 :: le_bytes n (v / 256)

/-- Spec wording (section 4.8): the entries of the well-formed location
list that starts at offset `off` of the `.debug_loc` content `buf`, one per
decoded pair `(start, end)`, up to and including the first pair `(0, 0)`:
the pair `(0, 0)` gives the last entry, with no operators; a pair whose start
is all-ones for the pointer width gives an entry with `lopc` all-ones and
`hipc` the base, and is followed by the next pair; any other pair is followed
by a 2-byte length `L` and `L` expression bytes and gives an entry with the
operators parsed from those bytes. `none` when the list is not well-formed: a
pair, a length or an expression does not lie inside the section, an
expression is not valid, or no pair `(0, 0)` is found. A length `L = 0` gives
an entry without operators. -/
def spec_entries (dbg : Dwarf_Debug) (pointer_size : Nat) (buf : List Nat) :
    Nat → Nat → Option (List Dwarf_Locdesc)
  | 0, _ => none
  | fuel + 1, off =>
    if off + pointer_size + pointer_size ≤ buf.length then
      if dbg.read ((buf.drop off).take pointer_size) = 0 ∧
          dbg.read ((buf.drop (off + pointer_size)).take pointer_size) = 0 then
        some [{ ld_lopc := 0, ld_hipc := 0, ld_cents := 0, ld_s := [] }]
      else if dbg.read ((buf.drop off).take pointer_size) = 2 ^ (8 * pointer_size) - 1 then
        (spec_entries dbg pointer_size buf fuel (off + pointer_size + pointer_size)).map
          (fun tl =>
            { ld_lopc := dbg.read ((buf.drop off).take pointer_size),
              ld_hipc := dbg.read ((buf.drop (off + pointer_size)).take pointer_size),
              ld_cents := 0, ld_s := [] } :: tl)
      else if dbg.read ((buf.drop (off + pointer_size + pointer_size)).take 2) < 2 ^ 16 ∧
          off + pointer_size + pointer_size + 2 +
            dbg.read ((buf.drop (off + pointer_size + pointer_size)).take 2) ≤ buf.length then
        match parse_expr dbg pointer_size
            ((buf.drop (off + pointer_size + pointer_size + 2)).take
              (dbg.read ((buf.drop (off + pointer_size + pointer_size)).take 2))) with
        | Scan.ok recs =>
          (spec_entries dbg pointer_size buf fuel
            (off + pointer_size + pointer_size + 2 +
              dbg.read ((buf.drop (off + pointer_size + pointer_size)).take 2))).map
            (fun tl =>
              { ld_lopc := dbg.read ((buf.drop off).take pointer_size),
                ld_hipc := dbg.read ((buf.drop (off + pointer_size)).take pointer_size),
                ld_cents := recs.length, ld_s := recs } :: tl)
        | _ => none
      else none
    else none

/-- The entries of the well-formed list at offset `off`; an entry takes at
least two bytes, so `buf.length + 1` rounds decode any list. -/
def spec_list (dbg : Dwarf_Debug) (pointer_size : Nat) (buf : List Nat) (off : Nat) :
    Option (List Dwarf_Locdesc) :=
  spec_entries dbg pointer_size buf (buf.length + 1) off

/-- The well-formed lists whose normal entries all hold a non-empty
expression: the entries as in `spec_entries`, and `none` also when a normal
entry has the length `L = 0`. -/
def nonempty_entries (dbg : Dwarf_Debug) (pointer_size : Nat) (buf : List Nat) :
    Nat → Nat → Option (List Dwarf_Locdesc)
  | 0, _ => none
  | fuel + 1, off =>
    if off + pointer_size + pointer_size ≤ buf.length then
      if dbg.read ((buf.drop off).take pointer_size) = 0 ∧
          dbg.read ((buf.drop (off + pointer_size)).take pointer_size) = 0 then
        some [{ ld_lopc := 0, ld_hipc := 0, ld_cents := 0, ld_s := [] }]
      else if dbg.read ((buf.drop off).take pointer_size) = 2 ^ (8 * pointer_size) - 1 then
        (nonempty_entries dbg pointer_size buf fuel (off + pointer_size + pointer_size)).map
          (fun tl =>
            { ld_lopc := dbg.read ((buf.drop off).take pointer_size),
              ld_hipc := dbg.read ((buf.drop (off + pointer_size)).take pointer_size),
              ld_cents := 0, ld_s := [] } :: tl)
      else if 0 < dbg.read ((buf.drop (off + pointer_size + pointer_size)).take 2) ∧
          dbg.read ((buf.drop (off + pointer_size + pointer_size)).take 2) < 2 ^ 16 ∧
          off + pointer_size + pointer_size + 2 +
            dbg.read ((buf.drop (off + pointer_size + pointer_size)).take 2) ≤ buf.length then
        match parse_expr dbg pointer_size
            ((buf.drop (off + pointer_size + pointer_size + 2)).take
              (dbg.read ((buf.drop (off + pointer_size + pointer_size)).take 2))) with
        | Scan.ok recs =>
          (nonempty_entries dbg pointer_size buf fuel
            (off + pointer_size + pointer_size + 2 +
              dbg.read ((buf.drop (off + pointer_size + pointer_size)).take 2))).map
            (fun tl =>
              { ld_lopc := dbg.read ((buf.drop off).take pointer_size),
                ld_hipc := dbg.read ((buf.drop (off + pointer_size)).take pointer_size),
                ld_cents := recs.length, ld_s := recs } :: tl)
        | _ => none
      else none
    else none

/-- The entries of the well-formed list at offset `off` when none of its
expressions is empty. -/
def nonempty_list (dbg : Dwarf_Debug) (pointer_size : Nat) (buf : List Nat) (off : Nat) :
    Option (List Dwarf_Locdesc) :=
  nonempty_entries dbg pointer_size buf (buf.length + 1) off

/-- Spec wording (claim on truncation): decoding from offset `off`, entries
that lie inside the section are passed (an end pair stops the decoding) until
a normal entry is reached whose pairs and length lie inside the section and
whose length `L` makes the expression extend past the end of the section. -/
def reaches_truncated (dbg : Dwarf_Debug) (pointer_size : Nat) (buf : List Nat) :
    Nat → Nat → Bool
  | 0, _ => false
  | fuel + 1, off =>
    if off + pointer_size + pointer_size ≤ buf.length then
      if dbg.read ((buf.drop off).take pointer_size) = 0 ∧
          dbg.read ((buf.drop (off + pointer_size)).take pointer_size) = 0 then false
      else if dbg.read ((buf.drop off).take pointer_size) = 2 ^ (8 * pointer_size) - 1 then
        reaches_truncated dbg pointer_size buf fuel (off + pointer_size + pointer_size)
      else if off + pointer_size + pointer_size + 2 ≤ buf.length then
        if off + pointer_size + pointer_size + 2 +
            dbg.read ((buf.drop (off + pointer_size + pointer_size)).take 2) > buf.length then
          true
        else
          reaches_truncated dbg pointer_size buf fuel
            (off + pointer_size + pointer_size + 2 +
              dbg.read ((buf.drop (off + pointer_size + pointer_size)).take 2))
      else false
    else false

/-! ## Example inputs -/

/-- A debug context of a little-endian object with `.debug_loc` content
`buf` and the cached lists `cache`. -/
def dbg_lsb (buf : List Nat) (cache : List Dwarf_Loclist) : Dwarf_Debug :=
  { read := decode_lsb, decode := decode_lsb, debug_loc := { d_buf := buf },
    dbg_loclist := cache }

/-- The expression `DW_OP_addr 0x12345678` of a 64-bit object. -/
def ex_addr : List Nat := [0x03, 0x78, 0x56, 0x34, 0x12, 0x00, 0x00, 0x00, 0x00]

/-- An expression with the undefined opcode 0x01 at its second operator
position. -/
def ex_bad : List Nat := [DW_OP_dup, 0x01, DW_OP_drop]

/-- An expression with one operator of every shape: `deref`, `const1u 7`,
`const2u 0x1234`, `const4s`, `const8u`, `constu 300`, `consts -2`,
`bregx 5, -1`, `addr` (4 bytes). -/
def ex_all : List Nat :=
  [DW_OP_deref, DW_OP_const1u, 7, DW_OP_const2u, 0x34, 0x12,
   DW_OP_const4s, 0xff, 0xff, 0xff, 0xff, DW_OP_const8u, 1, 0, 0, 0, 0, 0, 0, 0,
   DW_OP_constu, 0xac, 0x02, DW_OP_consts, 0x7e, DW_OP_bregx, 5, 0x7f,
   DW_OP_addr, 0x00, 0x10, 0x00, 0x00]

/-- A `.debug_loc` section of a 32-bit little-endian object: one normal entry
for [0x10, 0x20) holding `DW_OP_reg0`, then the end entry. -/
def ex_loc32 : List Nat :=
  [0x10, 0, 0, 0, 0x20, 0, 0, 0, 1, 0, DW_OP_reg0, 0, 0, 0, 0, 0, 0, 0, 0]

/-- A `.debug_loc` section of a 32-bit little-endian object: a base-select
entry with base 0x1000, a normal entry for [0x10, 0x20) holding
`DW_OP_breg0 + 5` with offset 8, then the end entry. -/
def ex_loc32_base : List Nat :=
  [0xff, 0xff, 0xff, 0xff, 0x00, 0x10, 0, 0,
   0x10, 0, 0, 0, 0x20, 0, 0, 0, 2, 0, DW_OP_breg0 + 5, 8,
   0, 0, 0, 0, 0, 0, 0, 0]

/-- A `.debug_loc` section whose only entry announces 4 expression bytes
while 1 is left. -/
def ex_loc32_short : List Nat :=
  [0x10, 0, 0, 0, 0x20, 0, 0, 0, 4, 0, DW_OP_reg0]

/-- A `.debug_loc` section of a 32-bit little-endian object: one normal entry
for [0x10, 0x20) with the expression length 0, then the end entry. -/
def ex_loc32_empty : List Nat :=
  [0x10, 0, 0, 0, 0x20, 0, 0, 0, 0, 0, 0, 0, 0, 0, 0, 0, 0, 0]

/-- A `.debug_loc` section of a 64-bit little-endian object: one normal entry
for [0x10, 0x20) with the expression length 0, then the end entry. -/
def ex_loc64_empty : List Nat :=
  [0x10, 0, 0, 0, 0, 0, 0, 0, 0x20, 0, 0, 0, 0, 0, 0, 0, 0, 0,
   0, 0, 0, 0, 0, 0, 0, 0, 0, 0, 0, 0, 0, 0, 0, 0]

/-! ## Sequences of `loclist_add` calls -/

/-- A sequence of calls `loclist_add(dbg, cu, lloff)` on one debug context,
each call given by the pointer size of its unit and its offset: the context
after the last call and the offsets of the calls that returned
`DWARF_E_NONE`, in call order. A failed assertion ends the run. -/
def loclist_adds : Dwarf_Debug → List (Nat × Nat) → Except Fault (Dwarf_Debug × List Nat)
  | dbg, [] => .ok (dbg, [])
  | dbg, c :: rest =>
    match loclist_add dbg c.1 c.2 with
    | .error f => .error f
    | .ok (ret, dbg1) =>
      match loclist_adds dbg1 rest with
      | .error f => .error f
      | .ok (dbg2, added) =>
        .ok (dbg2, if ret = Dwarf_Err.DWARF_E_NONE then c.2 :: added else added)

/-- The list cached for the normal entry and the end entry of
`ex_loc32_base`, which start at offset 8. -/
def ex_ll8 : Dwarf_Loclist :=
  { ll_offset := 8, ll_length := 18, ll_ldlen := 2,
    ll_ldlist :=
      [{ ld_lopc := 0x10, ld_hipc := 0x20, ld_cents := 1,
         ld_s := [{ lr_atom := DW_OP_breg0 + 5, lr_number := 8, lr_number2 := 0 }] },
       { ld_lopc := 0, ld_hipc := 0, ld_cents := 0, ld_s := [] }] }

/-- The list cached for the whole of `ex_loc32_base`, from offset 0. -/
def ex_ll0 : Dwarf_Loclist :=
  { ll_offset := 0, ll_length := 26, ll_ldlen := 3,
    ll_ldlist :=
      [{ ld_lopc := 0xffffffff, ld_hipc := 0x1000, ld_cents := 0, ld_s := [] },
       { ld_lopc := 0x10, ld_hipc := 0x20, ld_cents := 1,
         ld_s := [{ lr_atom := DW_OP_breg0 + 5, lr_number := 8, lr_number2 := 0 }] },
       { ld_lopc := 0, ld_hipc := 0, ld_cents := 0, ld_s := [] }] }

/-- The list cached for the end entry of `ex_loc32_base` alone, at offset 20. -/
def ex_ll20 : Dwarf_Loclist :=
  { ll_offset := 20, ll_length := 8, ll_ldlen := 1,
    ll_ldlist := [{ ld_lopc := 0, ld_hipc := 0, ld_cents := 0, ld_s := [] }] }

/-! ## `dwarf_get_abbrev_entry` (`dwarf_abbrev.c`) -/

/-- An attribute definition (`struct _Dwarf_AttrDef`). -/
structure Dwarf_AttrDef where
  ad_attrib : Nat
  ad_form : Nat
  ad_offset : Nat
deriving DecidableEq, Repr

/-- An abbreviation (`struct _Dwarf_Abbrev`); `ab_attrdef` is the queue of
attribute definitions, head first. -/
structure Dwarf_Abbrev where
  ab_entry : Nat
  ab_tag : Nat
  ab_children : Nat
  ab_offset : Nat
  ab_length : Nat
  ab_atnum : Nat
  ab_attrdef : List Dwarf_AttrDef
deriving DecidableEq, Repr

/-- The return values of the API functions. -/
inductive Dwarf_Dlv where
  | DW_DLV_OK
  | DW_DLV_ERROR
  | DW_DLV_NO_ENTRY
deriving DecidableEq, Repr

/-- What `dwarf_get_abbrev_entry` leaves: the return value, the error code
set by `DWARF_SET_ERROR` and the values stored through `attr_num`, `form` and
`offset`. -/
structure abbrev_entry_result where
  ret : Dwarf_Dlv
  error : Option Dwarf_Err
  attr_num : Option Nat
  form : Option Nat
  offset : Option Nat
deriving DecidableEq, Repr

/-- The statement `i++` on an `int`, in two's complement. -/
def int_succ (i : Int) : Int := to_int (((i + 1) % 2 ^ 32).toNat)

/-- The loop `for (i = 0; i < index && ad != NULL; i++) ad = STAILQ_NEXT(ad,
ad_next)`: the definitions from `ad` on (`[]` for NULL). -/
def attrdef_walk : Int → Int → List Dwarf_AttrDef → List Dwarf_AttrDef
  | _, _, [] => []
  | i, index, ad :: rest =>
    if i < index then attrdef_walk (int_succ i) index rest else ad :: rest

/-- The function `dwarf_get_abbrev_entry`; `abbr` is the argument `abbrev`, `none` for NULL, and
`attr_num`, `form`, `offset` tell whether these pointers are non-NULL. The
stores convert to the types of the out parameters, which `libdwarf.h` (not
among the sources) declares; the values are taken to fit. -/
def dwarf_get_abbrev_entry (abbr : Option Dwarf_Abbrev) (index : Int)
    (attr_num form offset : Bool) : Except Fault abbrev_entry_result :=
  match abbr with
  | none =>
    .ok { ret := Dwarf_Dlv.DW_DLV_ERROR, error := some Dwarf_Err.DWARF_E_ARGUMENT,
          attr_num := none, form := none, offset := none }
  | some ab =>
    if attr_num = false ∨ form = false ∨ offset = false then
      .ok { ret := Dwarf_Dlv.DW_DLV_ERROR, error := some Dwarf_Err.DWARF_E_ARGUMENT,
            attr_num := none, form := none, offset := none }
    else if index < 0 ∨ (index % 2 ^ 64).toNat ≥ ab.ab_atnum then
      .ok { ret := Dwarf_Dlv.DW_DLV_ERROR, error := some Dwarf_Err.DWARF_E_ARGUMENT,
            attr_num := none, form := none, offset := none }
    else
      match attrdef_walk 0 index ab.ab_attrdef with
      | [] => .error Fault.assertion
      | ad :: _ =>
        .ok { ret := Dwarf_Dlv.DW_DLV_OK, error := none, attr_num := some ad.ad_attrib,
              form := some ad.ad_form, offset := some ad.ad_offset }

def DW_AT_name : Nat := 0x03
def DW_AT_low_pc : Nat := 0x11
def DW_AT_high_pc : Nat := 0x12
def DW_FORM_addr : Nat := 0x01
def DW_FORM_strp : Nat := 0x0e
def DW_TAG_compile_unit : Nat := 0x11

/-- The abbreviation with code 1 of the spec's scenario: a compile unit with
children and the attributes name/strp, low_pc/addr, high_pc/addr. -/
def ex_abbrev : Dwarf_Abbrev :=
  { ab_entry := 1, ab_tag := DW_TAG_compile_unit, ab_children := 1, ab_offset := 0,
    ab_length := 10, ab_atnum := 3,
    ab_attrdef :=
      [{ ad_attrib := DW_AT_name, ad_form := DW_FORM_strp, ad_offset := 3 },
       { ad_attrib := DW_AT_low_pc, ad_form := DW_FORM_addr, ad_offset := 5 },
       { ad_attrib := DW_AT_high_pc, ad_form := DW_FORM_addr, ad_offset := 7 }] }

/-! ## `dwarf_get_abbrev` (`dwarf_abbrev.c`) -/

/-- A compilation unit (`struct _Dwarf_CU`), as far as `dwarf_get_abbrev` uses
it: `cu_abbrev` is the queue of its abbreviations, head first. -/
structure Dwarf_CU where
  cu_abbrev : List Dwarf_Abbrev
deriving DecidableEq, Repr

/-- The inner loop `STAILQ_FOREACH(ab, &cu->cu_abbrev, ab_next) if
(ab->ab_offset == offset) break;`: the value of `ab` when the loop is left,
`none` (NULL) when the queue ends without a match. -/
def abbrev_loop (offset : Nat) : List Dwarf_Abbrev → Option Dwarf_Abbrev
  | [] => none
  | ab :: rest => if ab.ab_offset = offset then some ab else abbrev_loop offset rest

/-- The outer loop `STAILQ_FOREACH(cu, &dbg->dbg_cu, cu_next)` from the units
`cus` on, with the current value of `ab`: every round runs the inner loop,
which assigns `ab` anew; the `break` leaves the inner loop only. -/
def cu_loop (offset : Nat) : List Dwarf_CU → Option Dwarf_Abbrev → Option Dwarf_Abbrev
  | [], ab => ab
  | cu :: rest, _ => cu_loop offset rest (abbrev_loop offset cu.cu_abbrev)

/-- What `dwarf_get_abbrev` leaves: the return value, the error code set by
`DWARF_SET_ERROR` and the values stored through `return_abbrev`, `length` and
`attr_count`. -/
structure get_abbrev_result where
  ret : Dwarf_Dlv
  error : Option Dwarf_Err
  return_abbrev : Option Dwarf_Abbrev
  length : Option Nat
  attr_count : Option Nat
deriving DecidableEq, Repr

/-- The function `dwarf_get_abbrev`; `dbg` is the queue `dbg->dbg_cu` of the
debug context, `none` for a NULL context, and `return_abbrev`, `length`,
`attr_count` tell whether these pointers are non-NULL. -/
def dwarf_get_abbrev (dbg : Option (List Dwarf_CU)) (offset : Nat)
    (return_abbrev length attr_count : Bool) : get_abbrev_result :=
  match dbg with
  | none =>
    { ret := Dwarf_Dlv.DW_DLV_ERROR, error := some Dwarf_Err.DWARF_E_ARGUMENT,
      return_abbrev := none, length := none, attr_count := none }
  | some dbg_cu =>
    if return_abbrev = false ∨ length = false ∨ attr_count = false then
      { ret := Dwarf_Dlv.DW_DLV_ERROR, error := some Dwarf_Err.DWARF_E_ARGUMENT,
        return_abbrev := none, length := none, attr_count := none }
    else
      match cu_loop offset dbg_cu none with
      | none =>
        { ret := Dwarf_Dlv.DW_DLV_ERROR, error := some Dwarf_Err.DWARF_E_ARGUMENT,
          return_abbrev := none, length := none, attr_count := none }
      | some ab =>
        { ret := Dwarf_Dlv.DW_DLV_OK, error := none, return_abbrev := some ab,
          length := some ab.ab_length, attr_count := some ab.ab_atnum }

/-- Spec wording: some compilation unit of the context has an abbreviation
with the offset. -/
def some_unit_has (dbg_cu : List Dwarf_CU) (offset : Nat) : Prop :=
  ∃ cu ∈ dbg_cu, ∃ ab ∈ cu.cu_abbrev, ab.ab_offset = offset

/-- An abbreviation at offset 10: a base type without attributes. -/
def ex_abbrev10 : Dwarf_Abbrev :=
  { ab_entry := 1, ab_tag := 0x24, ab_children := 0, ab_offset := 10, ab_length := 4,
    ab_atnum := 0, ab_attrdef := [] }

/-- A context with two compilation units: the first holds `ex_abbrev` (offset
0), the second `ex_abbrev10` (offset 10). -/
def ex_units : List Dwarf_CU :=
  [{ cu_abbrev := [ex_abbrev] }, { cu_abbrev := [ex_abbrev10] }]

/-! ## Macro information (libdwarf_macinfo.c) -/

def DW_MACINFO_define : Nat := 0x01
def DW_MACINFO_undef : Nat := 0x02
def DW_MACINFO_start_file : Nat := 0x03
def DW_MACINFO_end_file : Nat := 0x04
def DW_MACINFO_vendor_ext : Nat := 0xff

/-- The codes that the functions of libdwarf_macinfo.c return. -/
inductive Dwarf_Dle where
  | DW_DLE_NONE
  | DW_DLE_MEMORY
  | DWARF_E_INVALID_MACINFO
deriving DecidableEq, Repr

/-- A `uint64_t` as stored in a `Dwarf_Signed`. -/
def to_i64 (x : Nat) : Int :=
  if x % 2 ^ 64 < 2 ^ 63 then ((x % 2 ^ 64 : Nat) : Int)
  else ((x % 2 ^ 64 : Nat) : Int) - 2 ^ 64

/-- A macro record (`Dwarf_Macro_Details` of `libdwarf.h`): offset, type
(`Dwarf_Small`), line number and file index (`Dwarf_Signed`), and the pointer
`dmd_macro`, `none` for NULL and else the bytes from the pointer on. -/
structure Dwarf_Macro_Details where
  dmd_offset : Nat
  dmd_type : Nat
  dmd_lineno : Int
  dmd_fileindex : Int
  dmd_macro : Option (List Nat)
deriving DecidableEq, Repr

/-- A zeroed `Dwarf_Macro_Details`, as `calloc` gives it. -/
def Dwarf_Macro_Details.zero : Dwarf_Macro_Details :=
  { dmd_offset := 0, dmd_type := 0, dmd_lineno := 0, dmd_fileindex := 0, dmd_macro := none }

/-- A section (`Dwarf_Section`): `ds_data`; `ds_size` is its length. -/
structure Dwarf_Section where
  ds_data : List Nat
deriving DecidableEq, Repr

def Dwarf_Section.ds_size (ds : Dwarf_Section) : Nat := ds.ds_data.length

/-- A macro set (`struct _Dwarf_MacroSet`): the array `ms_mdlist` and
`ms_cnt`. -/
structure Dwarf_MacroSet where
  ms_mdlist : List Dwarf_Macro_Details
  ms_cnt : Nat
deriving DecidableEq, Repr

/-- Modelled from the spec: `_dwarf_read_uleb128(data, offsetp)`, which is not
among the sources. An unsigned LEB128 number is read at `data + *offsetp`; the
result is its value as a `uint64_t` and the offset behind its last byte. A
number that runs past the end of the data is an access out of bounds. -/
def read_uleb128 (data : List Nat) (off : Nat) : Except Fault (Nat × Nat) :=
  if off + (decode_uleb128 (data.drop off)).2 ≤ data.length then
    .ok ((decode_uleb128 (data.drop off)).1 % 2 ^ 64, off + (decode_uleb128 (data.drop off)).2)
  else .error Fault.out_of_bounds

/-- A write through `dmd[i]` for an array `dmd` that is not NULL; nothing is
written through a NULL `dmd`. -/
def dmd_update (dmd : Option (List Dwarf_Macro_Details)) (i : Nat)
    (f : Dwarf_Macro_Details → Dwarf_Macro_Details) :
    Except Fault (Option (List Dwarf_Macro_Details)) :=
  match dmd with
  | none => .ok none
  | some a =>
    match a[i]? with
    | some d => .ok (some (a.set i (f d)))
    | none => .error Fault.out_of_bounds

/-- The variables `*off`, `i` and the array `dmd` of `_dwarf_macinfo_parse`. -/
structure parse_vars where
  off : Nat
  i : Nat
  dmd : Option (List Dwarf_Macro_Details)
deriving DecidableEq, Repr

/-- One round of the loop of `_dwarf_macinfo_parse`, from its first statement
to the end of the `switch`: `false` when the default arm is taken, the
variable `type`, and the variables afterwards. -/
def macinfo_parse_round (dbg : Dwarf_Debug) (ds : Dwarf_Section) (v : parse_vars) :
    Except Fault (Bool × Int × parse_vars) :=
  match dmd_update v.dmd v.i (fun d => { d with dmd_offset := v.off }) with
  | .error f => .error f
  | .ok dmd1 =>
    let type := to_int (dbg.read [ds.ds_data.getD v.off 0])
    match dmd_update dmd1 v.i
        (fun d => { d with dmd_type := (type % 256).toNat, dmd_fileindex := -1 }) with
    | .error f => .error f
    | .ok dmd2 =>
      if type = 0 then .ok (true, type, { v with off := v.off + 1, dmd := dmd2 })
      else if type = (DW_MACINFO_define : Int) ∨ type = (DW_MACINFO_undef : Int) ∨
          type = (DW_MACINFO_vendor_ext : Int) then
        match read_uleb128 ds.ds_data (v.off + 1) with
        | .error f => .error f
        | .ok (lineno, off2) =>
          match dmd_update dmd2 v.i
              (fun d => { d with dmd_lineno := to_i64 lineno,
                                 dmd_macro := some (ds.ds_data.drop off2) }) with
          | .error f => .error f
          | .ok dmd3 =>
            if 0 ∈ ds.ds_data.drop off2 then
              .ok (true, type,
                { v with off := off2 + ((Elfcopy.cstr (ds.ds_data.drop off2)).length + 1),
                         dmd := dmd3 })
            else .error Fault.out_of_bounds
      else if type = (DW_MACINFO_start_file : Int) then
        match read_uleb128 ds.ds_data (v.off + 1) with
        | .error f => .error f
        | .ok (lineno, off2) =>
          match read_uleb128 ds.ds_data off2 with
          | .error f => .error f
          | .ok (fileindex, off3) =>
            match dmd_update dmd2 v.i
                (fun d => { d with dmd_lineno := to_i64 lineno,
                                   dmd_fileindex := to_i64 fileindex }) with
            | .error f => .error f
            | .ok dmd3 => .ok (true, type, { v with off := off3, dmd := dmd3 })
      else if type = (DW_MACINFO_end_file : Int) then
        .ok (true, type, { v with off := v.off + 1, dmd := dmd2 })
      else .ok (false, type, { v with off := v.off + 1, dmd := dmd2 })

/-- The loop of `_dwarf_macinfo_parse`: the code returned and the variables.
Every round moves `*off` forward by at least one byte, so `ds_size` rounds are
enough. -/
def macinfo_parse_loop (dbg : Dwarf_Debug) (ds : Dwarf_Section) :
    Nat → parse_vars → Except Fault (Dwarf_Dle × parse_vars)
  | 0, v => .ok (Dwarf_Dle.DW_DLE_NONE, v)
  | fuel + 1, v =>
    if v.off < ds.ds_size then
      match macinfo_parse_round dbg ds v with
      | .error f => .error f
      | .ok (false, _, v1) => .ok (Dwarf_Dle.DWARF_E_INVALID_MACINFO, v1)
      | .ok (true, type, v1) =>
        if type = 0 then .ok (Dwarf_Dle.DW_DLE_NONE, { v1 with i := v1.i + 1 })
        else macinfo_parse_loop dbg ds fuel { v1 with i := v1.i + 1 }
    else .ok (Dwarf_Dle.DW_DLE_NONE, v)

/-- What a call of `_dwarf_macinfo_parse` leaves: the code returned, `*off`,
the array `dmd`, and the count stored through `cnt` (`none` on the error
return, which stores none). -/
structure parse_result where
  ret : Dwarf_Dle
  off : Nat
  dmd : Option (List Dwarf_Macro_Details)
  cnt : Option Nat
deriving DecidableEq, Repr

/-- The function `_dwarf_macinfo_parse` from the offset `off`, with the array
`dmd` (`none` for NULL). -/
def macinfo_parse (dbg : Dwarf_Debug) (ds : Dwarf_Section) (off : Nat)
    (dmd : Option (List Dwarf_Macro_Details)) : Except Fault parse_result :=
  match macinfo_parse_loop dbg ds ds.ds_size { off := off, i := 0, dmd := dmd } with
  | .error f => .error f
  | .ok (ret, v) =>
    .ok { ret := ret, off := v.off, dmd := v.dmd,
          cnt := if ret = Dwarf_Dle.DW_DLE_NONE then some v.i else none }

/-- The loop of `_dwarf_macinfo_init` from the offset `offset`: the code
returned and the queue `dbg_mslist`, head first. Both `calloc` calls are taken
to succeed. Every round moves `offset` forward, so `ds_size` rounds are
enough. -/
def macinfo_init_loop (dbg : Dwarf_Debug) (ds : Dwarf_Section) :
    Nat → Nat → List Dwarf_MacroSet → Except Fault (Dwarf_Dle × List Dwarf_MacroSet)
  | 0, _, mslist => .ok (Dwarf_Dle.DW_DLE_NONE, mslist)
  | fuel + 1, offset, mslist =>
    if offset < ds.ds_size then
      match macinfo_parse dbg ds offset none with
      | .error f => .error f
      | .ok r1 =>
        if r1.ret ≠ Dwarf_Dle.DW_DLE_NONE then .ok (r1.ret, mslist)
        else if r1.cnt.getD 0 = 0 then .ok (Dwarf_Dle.DW_DLE_NONE, mslist)
        else
          match macinfo_parse dbg ds offset
              (some (List.replicate (r1.cnt.getD 0) Dwarf_Macro_Details.zero)) with
          | .error f => .error f
          | .ok r2 =>
            if r2.ret ≠ Dwarf_Dle.DW_DLE_NONE then .ok (Dwarf_Dle.DW_DLE_MEMORY, [])
            else
              macinfo_init_loop dbg ds fuel r2.off
                (mslist ++ [{ ms_mdlist := r2.dmd.getD [], ms_cnt := r1.cnt.getD 0 }])
    else .ok (Dwarf_Dle.DW_DLE_NONE, mslist)

/-- The function `_dwarf_macinfo_init` on a context whose queue `dbg_mslist`
is `mslist`. -/
def macinfo_init (dbg : Dwarf_Debug) (ds : Dwarf_Section) (mslist : List Dwarf_MacroSet) :
    Except Fault (Dwarf_Dle × List Dwarf_MacroSet) :=
  macinfo_init_loop dbg ds ds.ds_size 0 mslist

/-- Modelled from the spec: the loop that writes an unsigned LEB128 number,
seven bits a byte, least significant group first, bit 0x80 set on every byte
but the last. -/
def write_uleb128_loop : Nat → Nat → List Nat
  | 0, _ => []
  | fuel + 1, val =>
    if val / 128 ≠ 0 then (val % 128 + 128) :: write_uleb128_loop fuel (val / 128)
    else [val % 128]

/-- Modelled from the spec: the bytes that the macro `WRITE_ULEB128(v)`
appends to the section, the unsigned LEB128 form of `v` as a `uint64_t`, which
has at most ten bytes. -/
def WRITE_ULEB128 (v : Int) : List Nat := write_uleb128_loop 10 (to_u64 v)

/-- Modelled from the spec: the bytes that the macro `WRITE_STRING(s)` appends
to the section, the string with its NUL. -/
def WRITE_STRING (s : List Nat) : List Nat := Elfcopy.cstr s ++ [0]

/-- The loop of `_dwarf_macinfo_gen` over the records not yet written: `data`
is the section so far (`ds_size` is its length) and `done` the records written,
with the `dmd_offset` stored in them. `WRITE_VALUE(x, 1)` appends the byte
`x`; the writes are taken to succeed. -/
def macinfo_gen_loop :
    List Dwarf_Macro_Details → List Nat → List Dwarf_Macro_Details →
      Except Fault (List Nat × List Dwarf_Macro_Details)
  | [], data, done => .ok (data, done)
  | md :: rest, data, done =>
    if md.dmd_type = DW_MACINFO_define ∨ md.dmd_type = DW_MACINFO_undef ∨
        md.dmd_type = DW_MACINFO_vendor_ext then
      match md.dmd_macro with
      | none => .error Fault.assertion
      | some m =>
        macinfo_gen_loop rest
          (data ++ [md.dmd_type % 256] ++ WRITE_ULEB128 md.dmd_lineno ++ WRITE_STRING m)
          (done ++ [{ md with dmd_offset := data.length }])
    else if md.dmd_type = DW_MACINFO_start_file then
      macinfo_gen_loop rest
        (data ++ [md.dmd_type % 256] ++ WRITE_ULEB128 md.dmd_lineno ++
          WRITE_ULEB128 md.dmd_fileindex)
        (done ++ [{ md with dmd_offset := data.length }])
    else if md.dmd_type = DW_MACINFO_end_file then
      macinfo_gen_loop rest (data ++ [md.dmd_type % 256])
        (done ++ [{ md with dmd_offset := data.length }])
    else .error Fault.assertion

/-- The function `_dwarf_macinfo_gen` on the array `dbgp_mdlist` (`dbgp_mdcnt`
is its length): the code returned, the data of the section `.debug_macinfo`
(`none` when no section is created) and the array afterwards. -/
def macinfo_gen (dbgp_mdlist : List Dwarf_Macro_Details) :
    Except Fault (Dwarf_Dle × Option (List Nat) × List Dwarf_Macro_Details) :=
  if dbgp_mdlist.length = 0 then .ok (Dwarf_Dle.DW_DLE_NONE, none, dbgp_mdlist)
  else
    match macinfo_gen_loop dbgp_mdlist [] [] with
    | .error f => .error f
    | .ok (data, mds) => .ok (Dwarf_Dle.DW_DLE_NONE, some (data ++ [0]), mds)

/-! ## Specification side: macro records -/

/-- A macro record as the spec tabulates it. -/
inductive Macinfo_Record where
  | with_string (type lineno : Nat) (s : List Nat)
  | start_file (lineno fileindex : Nat)
  | end_file
  | terminator
deriving DecidableEq, Repr

/-- Spec wording: the bytes `leb` are an unsigned LEB128 number of value
`v`. -/
def is_uleb (leb : List Nat) (v : Nat) : Prop :=
  decode_uleb128 leb = (v, leb.length)

/-- Spec wording: the bytes `bs` are the record `r`: the type byte and the
payload of the table. -/
def encodes (r : Macinfo_Record) (bs : List Nat) : Prop :=
  match r with
  | .with_string t l s =>
    (t = DW_MACINFO_define ∨ t = DW_MACINFO_undef ∨ t = DW_MACINFO_vendor_ext) ∧ 0 ∉ s ∧
      ∃ leb, is_uleb leb l ∧ bs = t :: (leb ++ (s ++ [0]))
  | .start_file l f =>
    ∃ leb1 leb2, is_uleb leb1 l ∧ is_uleb leb2 f ∧
      bs = DW_MACINFO_start_file :: (leb1 ++ leb2)
  | .end_file => bs = [DW_MACINFO_end_file]
  | .terminator => bs = [0]

/-- The bytes of a stream of records. -/
def stream_bytes : List (Macinfo_Record × List Nat) → List Nat
  | [] => []
  | c :: rest => c.2 ++ stream_bytes rest

/-- The offsets of the records of a stream that starts at `off`. -/
def stream_offsets : List (Macinfo_Record × List Nat) → Nat → List Nat
  | [], _ => []
  | c :: rest, off => off :: stream_offsets rest (off + c.2.length)

/-- Spec wording: what the array entry `d` holds for the record `r` decoded
at the offset `off`. -/
def record_stored (d : Dwarf_Macro_Details) (off : Nat) (r : Macinfo_Record) : Prop :=
  d.dmd_offset = off ∧
  match r with
  | .with_string t l s =>
    d.dmd_type = t ∧ d.dmd_lineno = to_i64 l ∧ d.dmd_macro.map Elfcopy.cstr = some s
  | .start_file l f =>
    d.dmd_type = DW_MACINFO_start_file ∧ d.dmd_lineno = to_i64 l ∧
      d.dmd_fileindex = to_i64 f
  | .end_file => d.dmd_type = DW_MACINFO_end_file
  | .terminator => d.dmd_type = 0

/-- Spec wording: a well-formed stream: every chunk is a record, and no
record but the last is the terminator. -/
def well_formed (rs : List (Macinfo_Record × List Nat)) : Prop :=
  (∀ c ∈ rs, encodes c.1 c.2) ∧
  ∀ (k : Nat) (c : Macinfo_Record × List Nat), rs[k]? = some c →
    c.1 = Macinfo_Record.terminator → k + 1 = rs.length

/-- Spec wording: the stream ends with the terminator. -/
def ends_with_terminator (rs : List (Macinfo_Record × List Nat)) : Prop :=
  ∃ c ∈ rs.getLast?, c.1 = Macinfo_Record.terminator

/-- Spec wording: the array entries `ds` hold, in order, the records of the
stream `rs` that starts at the offset `off`. -/
def stored_stream : List Dwarf_Macro_Details → List (Macinfo_Record × List Nat) → Nat → Prop
  | [], [], _ => True
  | d :: ds, c :: rs, off => record_stored d off c.1 ∧ stored_stream ds rs (off + c.2.length)
  | _, _, _ => False

/-- The array `dmd` after the function `f` is applied to its entry `i`. -/
def dmd_apply (dmd : Option (List Dwarf_Macro_Details)) (i : Nat)
    (f : Dwarf_Macro_Details → Dwarf_Macro_Details) : Option (List Dwarf_Macro_Details) :=
  dmd.map (fun a => match a[i]? with
    | some d => a.set i (f d)
    | none => a)

/-- The index `i` lies inside the array `dmd`, if there is one. -/
def in_bounds (dmd : Option (List Dwarf_Macro_Details)) (i : Nat) : Prop :=
  ∀ a, dmd = some a → i < a.length

/-- Spec wording: a type byte outside 0, define, undef, start_file, end_file
and vendor_ext. -/
def invalid_type (t : Nat) : Prop :=
  t ≠ 0 ∧ t ≠ DW_MACINFO_define ∧ t ≠ DW_MACINFO_undef ∧ t ≠ DW_MACINFO_start_file ∧
    t ≠ DW_MACINFO_end_file ∧ t ≠ DW_MACINFO_vendor_ext

/-- A macro stream: `#define A` at line 5, the start of file 2 at line 1, the
end of the file, and the terminator. -/
def ex_macinfo : List (Macinfo_Record × List Nat) :=
  [(Macinfo_Record.with_string DW_MACINFO_define 5 [65], [0x01, 5, 65, 0]),
   (Macinfo_Record.start_file 1 2, [0x03, 1, 2]),
   (Macinfo_Record.end_file, [0x04]),
   (Macinfo_Record.terminator, [0])]

/-- The array that `_dwarf_macinfo_parse` fills for `ex_macinfo` from a zeroed
one. -/
def ex_macinfo_dmd : List Dwarf_Macro_Details :=
  [{ dmd_offset := 0, dmd_type := 1, dmd_lineno := 5, dmd_fileindex := -1,
     dmd_macro := some [65, 0, 3, 1, 2, 4, 0] },
   { dmd_offset := 4, dmd_type := 3, dmd_lineno := 1, dmd_fileindex := 2, dmd_macro := none },
   { dmd_offset := 7, dmd_type := 4, dmd_lineno := 0, dmd_fileindex := -1, dmd_macro := none },
   { dmd_offset := 8, dmd_type := 0, dmd_lineno := 0, dmd_fileindex := -1, dmd_macro := none }]

/-- Spec wording: the record type carries a macro string. -/
def string_type (t : Nat) : Prop :=
  t = DW_MACINFO_define ∨ t = DW_MACINFO_undef ∨ t = DW_MACINFO_vendor_ext

instance (t : Nat) : Decidable (string_type t) := by
  unfold string_type
  infer_instance

/-- Spec wording: the record type is one of define, undef, start_file,
end_file, vendor_ext. -/
def record_type (t : Nat) : Prop :=
  string_type t ∨ t = DW_MACINFO_start_file ∨ t = DW_MACINFO_end_file

instance (t : Nat) : Decidable (record_type t) := by
  unfold record_type
  infer_instance

/-- The value lies in the range of a `Dwarf_Signed`. -/
def is_i64 (x : Int) : Prop := -(2 ^ 63) ≤ x ∧ x < 2 ^ 63

instance (x : Int) : Decidable (is_i64 x) := by
  unfold is_i64
  infer_instance

/-- The record that `_dwarf_macinfo_gen` writes for the array entry `md`, and
its bytes. -/
def rec_of (md : Dwarf_Macro_Details) : Macinfo_Record × List Nat :=
  if string_type md.dmd_type then
    (Macinfo_Record.with_string md.dmd_type (to_u64 md.dmd_lineno)
        (Elfcopy.cstr (md.dmd_macro.getD [])),
      [md.dmd_type % 256] ++ WRITE_ULEB128 md.dmd_lineno ++ WRITE_STRING (md.dmd_macro.getD []))
  else if md.dmd_type = DW_MACINFO_start_file then
    (Macinfo_Record.start_file (to_u64 md.dmd_lineno) (to_u64 md.dmd_fileindex),
      [md.dmd_type % 256] ++ WRITE_ULEB128 md.dmd_lineno ++ WRITE_ULEB128 md.dmd_fileindex)
  else (Macinfo_Record.end_file, [md.dmd_type % 256])

/-- Spec wording: the record `o` read back is the record `md` written: the
same type, for define, undef and vendor_ext the same line number and macro
string, for start_file the same line number and file index. -/
def same_record (md o : Dwarf_Macro_Details) : Prop :=
  o.dmd_type = md.dmd_type ∧
  (string_type md.dmd_type →
    o.dmd_lineno = md.dmd_lineno ∧
      o.dmd_macro.map Elfcopy.cstr = md.dmd_macro.map Elfcopy.cstr) ∧
  (md.dmd_type = DW_MACINFO_start_file →
    o.dmd_lineno = md.dmd_lineno ∧ o.dmd_fileindex = md.dmd_fileindex)

/-- Three records given to the producer: `#define A` at line 5, the start of
file 2 at line 1, and the end of the file. -/
def ex_mdlist : List Dwarf_Macro_Details :=
  [{ dmd_offset := 0, dmd_type := 1, dmd_lineno := 5, dmd_fileindex := 0,
     dmd_macro := some [65, 0] },
   { dmd_offset := 0, dmd_type := 3, dmd_lineno := 1, dmd_fileindex := 2, dmd_macro := none },
   { dmd_offset := 0, dmd_type := 4, dmd_lineno := 0, dmd_fileindex := 0, dmd_macro := none }]

end Libdwarf

/-!
# brandelf

A shallow embedding of `brandelf.c`: the table `elftypes`, `iselftype`,
`elftype` and `main`. What the program prints is a list of events; the files
named on the command line are given by what the system and `libelf` report
for them.
-/

namespace Brandelf

/-- The OS/ABI values of the ELF headers, which are not among the sources:
the values of the ELF specification. -/
def ELFOSABI_SYSV : Int := 0
def ELFOSABI_NETBSD : Int := 2
def ELFOSABI_LINUX : Int := 3
def ELFOSABI_SOLARIS : Int := 6
def ELFOSABI_FREEBSD : Int := 9
def ELFOSABI_OPENBSD : Int := 12

/-- An entry of the table `elftypes` (`struct ELFtypes`). -/
structure ELFtypes where
  str : List Char
  value : Int
deriving DecidableEq, Repr

/-- The table `elftypes`. -/
def elftypes : List ELFtypes :=
  [{ str := "NetBSD".data, value := ELFOSABI_NETBSD },
   { str := "Linux".data, value := ELFOSABI_LINUX },
   { str := "Solaris".data, value := ELFOSABI_SOLARIS },
   { str := "FreeBSD".data, value := ELFOSABI_FREEBSD },
   { str := "OpenBSD".data, value := ELFOSABI_OPENBSD },
   { str := "SVR4".data, value := ELFOSABI_SYSV }]

/-- The function `iselftype`: the name of the first entry with the value
`etype`, or NULL. -/
def iselftype (etype : Int) : Option (List Char) :=
  (elftypes.find? (fun e => etype == e.value)).map (fun e => e.str)

/-- The test `strcasecmp(a, b) == 0`. -/
def strcaseeq (a b : List Char) : Bool := a.map Char.toLower == b.map Char.toLower

/-- The function `elftype`: the value of the first entry whose name equals
`elfstrtype`, letter case aside, or -1. -/
def elftype (elfstrtype : List Char) : Int :=
  match elftypes.find? (fun e => strcaseeq elfstrtype e.str) with
  | some e => e.value
  | none => -1

/-- What the program prints. -/
inductive Event where
  /-- The line "File '%s' is of brand '%s' (%u)." for the file with index
  `file`; `brand` is the pointer that `iselftype` returned. -/
  | brand_line (file : Nat) (brand : Option (List Char)) (osabi : Int)
  /-- The warning "ELF ABI Brand '%u' is unknown". -/
  | brand_unknown (type : Int)
  /-- The output of `printelftypes`. -/
  | known_types
  /-- Any other message of `warn`, `warnx` or `errx`. -/
  | message
  /-- The output of `usage`. -/
  | usage_line
deriving DecidableEq, Repr

/-- An option as `getopt` returns it; `atoi` and `errno` give the number of
`-f`. -/
inductive Opt where
  | f (atoi : Int) (erange : Bool)
  | l
  | v
  | t (optarg : List Char)
  | other
deriving DecidableEq, Repr

/-- A file named on the command line: what `isfile`, `open`, `openelf`,
`gelf_getehdr`, `gelf_update_ehdr`, `elf_update` and `close` report for it,
and its byte `e_ident[EI_OSABI]`. -/
structure InFile where
  isfile_ok : Bool
  open_ok : Bool
  openelf_ok : Bool
  getehdr_ok : Bool
  osabi : Int
  update_ehdr_ok : Bool
  elf_update_ok : Bool
  close_ok : Bool
deriving DecidableEq, Repr

/-- The variables of `main` that the options set. -/
structure Vars where
  strtype : List Char
  type : Int
  change : Bool
  verbose : Bool
  force : Bool
  listed : Bool
deriving DecidableEq, Repr

/-- The initial values of the variables of `main`. -/
def Vars.init : Vars :=
  { strtype := "FreeBSD".data, type := ELFOSABI_FREEBSD, change := false, verbose := false,
    force := false, listed := false }

/-- A run of the program: what it printed, the files afterwards and the exit
status. -/
structure Run where
  events : List Event
  files : List InFile
  status : Int
deriving DecidableEq, Repr

/-- The `getopt` loop of `main`: the variables and the events, or the events
of a run that `errx` or `usage` ended with status 1. -/
def parse_opts : List Opt → Vars → List Event → Except (List Event) (Vars × List Event)
  | [], vs, ev => .ok (vs, ev)
  | o :: rest, vs, ev =>
    match o with
    | Opt.f atoi erange =>
      if vs.change then .error (ev ++ [Event.message])
      else if erange ∨ atoi < 0 ∨ atoi > 255 then
        .error (ev ++ [Event.message, Event.usage_line])
      else parse_opts rest { vs with force := true, type := atoi } ev
    | Opt.l => parse_opts rest { vs with listed := true } (ev ++ [Event.known_types])
    | Opt.v => parse_opts rest { vs with verbose := true } ev
    | Opt.t optarg =>
      if vs.force then .error (ev ++ [Event.message])
      else parse_opts rest { vs with change := true, strtype := optarg } ev
    | Opt.other => .error (ev ++ [Event.usage_line])

/-- One round of the loop `while (argc)` of `main` for the file with index
`k`: the events, the file afterwards and whether `retval` is set to 1. After a
failed `open` the `close` of the descriptor -1 fails too. -/
def main_file (vs : Vars) (k : Nat) (file : InFile) : List Event × InFile × Bool :=
  if ¬ file.isfile_ok then ([Event.message], file, true)
  else if ¬ file.open_ok then ([Event.message, Event.message], file, true)
  else if ¬ file.openelf_ok then
    ((if file.close_ok then [Event.message] else [Event.message, Event.message]), file, true)
  else if ¬ file.getehdr_ok then
    ((if file.close_ok then [Event.message] else [Event.message, Event.message]), file, true)
  else if ¬ vs.change ∧ ¬ vs.force then
    ([Event.brand_line k (iselftype file.osabi) file.osabi] ++
      (if (iselftype vs.type).isNone then [Event.brand_unknown vs.type, Event.known_types]
       else []) ++
      (if file.close_ok then [] else [Event.message]),
     file, !file.close_ok)
  else if ¬ file.update_ehdr_ok then
    ((if file.close_ok then [Event.message] else [Event.message, Event.message]), file, true)
  else if ¬ file.elf_update_ok then
    ((if file.close_ok then [Event.message] else [Event.message, Event.message]), file, true)
  else
    ((if file.close_ok then [] else [Event.message]), { file with osabi := vs.type },
     !file.close_ok)

/-- The loop `while (argc)` of `main`, from the file with index `k` on. -/
def main_files (vs : Vars) : Nat → List InFile → List Event × List InFile × Int →
    List Event × List InFile × Int
  | _, [], acc => acc
  | k, file :: rest, acc =>
    main_files vs (k + 1) rest
      (acc.1 ++ (main_file vs k file).1, acc.2.1 ++ [(main_file vs k file).2.1],
       if (main_file vs k file).2.2 then 1 else acc.2.2)

/-- The function `main` for the options and files of the command line. -/
def main (opts : List Opt) (files : List InFile) : Run :=
  match parse_opts opts Vars.init [] with
  | .error ev => { events := ev, files := files, status := 1 }
  | .ok (vs, ev) =>
    if files = [] then
      if vs.listed then { events := ev, files := files, status := 0 }
      else { events := ev ++ [Event.message, Event.usage_line], files := files, status := 1 }
    else if ¬ vs.force ∧ elftype vs.strtype = -1 then
      { events := ev ++ [Event.message, Event.known_types, Event.usage_line], files := files,
        status := 1 }
    else
      let vs1 : Vars := if vs.force then vs else { vs with type := elftype vs.strtype }
      let r := main_files vs1 0 files (ev, [], 0)
      { events := r.1, files := r.2.1, status := r.2.2 }

/-- An ELF file that every call succeeds on, with the given OS/ABI byte. -/
def ex_file (osabi : Int) : InFile :=
  { isfile_ok := true, open_ok := true, openelf_ok := true, getehdr_ok := true,
    osabi := osabi, update_ehdr_ok := true, elf_update_ok := true, close_ok := true }

end Brandelf

/-!
# nm: relocation of a section copy

A shallow embedding of `relocate_sec` of `nm.c`. A buffer is the list of its
bytes; `memcpy` to and from an integer variable uses the byte order of the
host, which is a parameter. A `memcpy` outside the buffer ends the run
(`Fault`). Allocation is taken to succeed.
-/

namespace Nm

def ELFCLASSNONE : Nat := 0
def ELFCLASS32 : Nat := 1
def ELFCLASS64 : Nat := 2

/-- The size `sizeof(Elf32_Sword)` of the variable `add32`. -/
def sizeof_Elf32_Sword : Nat := 4

/-- The size `sizeof(Elf64_Sword)` of the variable `add64`. The type comes
from the ELF headers of the system, which are not among the sources; the ELF
specification defines `Elf64_Sword` as the signed 4-byte integer (the signed
8-byte integer is `Elf64_Sxword`). -/
def sizeof_Elf64_Sword : Nat := 4

/-- A relocation entry as `gelf_getrela` yields it. -/
structure GElf_Rela where
  r_offset : Nat
  r_info : Nat
  r_addend : Int
deriving DecidableEq, Repr

inductive Fault where
  | out_of_bounds
  | assertion
deriving DecidableEq, Repr

/-- The bits of an integer variable after `memcpy(&x, p, n)`: the value of the
bytes `bs` in the byte order of the host (`msb` for big-endian). -/
def load (msb : Bool) (bs : List Nat) : Nat :=
  if msb then bs.foldl (fun acc b => acc * 256 + b % 256) 0
  else bs.foldr (fun b acc => b % 256 + 256 * acc) 0

/-- The bytes that `memcpy(p, &x, n)` writes for the bits `v`. -/
def store (msb : Bool) : Nat → Nat → List Nat
  | 0, _ => []
  | n + 1, v =>
    if msb then store msb n (v / 256) ++ [v % 256] else v % 256 :: store msb n (v / 256)

/-- One round of the loop of `relocate_sec` with a variable of `w` bytes:
`memcpy(&add, rtn + ra.r_offset, w); add += (cast) ra.r_addend;
memcpy(rtn + ra.r_offset, &add, w)`; the addition wraps. -/
def patch (msb : Bool) (w : Nat) (rtn : List Nat) (ra : GElf_Rela) :
    Except Fault (List Nat) :=
  if ra.r_offset + w ≤ rtn.length then
    .ok (rtn.take ra.r_offset ++
      store msb w
        ((load msb ((rtn.drop ra.r_offset).take w) +
          (ra.r_addend % (2 : Int) ^ (8 * w)).toNat) % 2 ^ (8 * w)) ++
      rtn.drop (ra.r_offset + w))
  else .error Fault.out_of_bounds

/-- The loop `while (gelf_getrela(rela, i, &ra) != NULL)` over the entries of
the table, in order. -/
def relocate_loop (msb : Bool) (cls : Nat) : List GElf_Rela → List Nat →
    Except Fault (List Nat)
  | [], rtn => .ok rtn
  | ra :: rest, rtn =>
    match patch msb (if cls = ELFCLASS32 then sizeof_Elf32_Sword else sizeof_Elf64_Sword)
        rtn ra with
    | .error f => .error f
    | .ok rtn1 => relocate_loop msb cls rest rtn1

/-- The function `relocate_sec`: the new buffer, `none` for NULL. `org` is
the buffer of the section (`none` for a NULL descriptor), `rela` the entries
of the relocation table and `cls` the argument `class`. -/
def relocate_sec (msb : Bool) (org : Option (List Nat)) (rela : Option (List GElf_Rela))
    (cls : Nat) : Except Fault (Option (List Nat)) :=
  match org, rela with
  | some buf, some table =>
    if cls = ELFCLASSNONE then .ok none
    else if cls ≠ ELFCLASS32 ∧ cls ≠ ELFCLASS64 then .ok none
    else
      match relocate_loop msb cls table buf with
      | .error f => .error f
      | .ok rtn => .ok (some rtn)
  | _, _ => .ok none

/-- Spec wording: the buffer after one relocation of an object of class
`cls`: the 4-byte (class 32) or 8-byte (class 64) integer at `r_offset` is
replaced by its value plus the addend, modulo `2^32` or `2^64`. -/
def spec_patch (msb : Bool) (cls : Nat) (buf : List Nat) (ra : GElf_Rela) : List Nat :=
  buf.take ra.r_offset ++
    store msb (if cls = ELFCLASS32 then 4 else 8)
      ((load msb ((buf.drop ra.r_offset).take (if cls = ELFCLASS32 then 4 else 8)) +
        (ra.r_addend % (2 : Int) ^ (8 * (if cls = ELFCLASS32 then 4 else 8))).toNat) %
          2 ^ (8 * (if cls = ELFCLASS32 then 4 else 8))) ++
    buf.drop (ra.r_offset + (if cls = ELFCLASS32 then 4 else 8))

/-- Spec wording: the relocations applied in table order. -/
def spec_relocate (msb : Bool) (cls : Nat) (table : List GElf_Rela) (buf : List Nat) :
    List Nat :=
  table.foldl (spec_patch msb cls) buf

/-- A section of 8 bytes holding the little-endian integer `0xffffffff`. -/
def ex_buf : List Nat := [0xff, 0xff, 0xff, 0xff, 0, 0, 0, 0]

/-- A relocation table with one entry: offset 0, addend 1. -/
def ex_table : List GElf_Rela := [{ r_offset := 0, r_info := 0, r_addend := 1 }]

/-! ## Symbol types, the value comparison and the filter of `-g` (nm.c) -/

def SHN_UNDEF : Nat := 0
def SHN_ABS : Nat := 0xfff1
def SHN_COMMON : Nat := 0xfff2
def STB_LOCAL : Nat := 0
def STB_GLOBAL : Nat := 1
def STB_WEAK : Nat := 2
def STT_OBJECT : Nat := 1
def STT_FUNC : Nat := 2

/-- A symbol as `gelf_getsym` yields it (`GElf_Sym`): `st_info` is an
unsigned char, `st_shndx` a 16-bit and `st_value` a 64-bit unsigned integer. -/
structure GElf_Sym where
  st_name : Nat
  st_info : Nat
  st_other : Nat
  st_shndx : Nat
  st_value : Nat
  st_size : Nat
deriving DecidableEq, Repr

/-- The function `isupper` of the C locale. -/
def isupper (c : Nat) : Bool := decide (65 ≤ c ∧ c ≤ 90)

/-- The function `isalpha` of the C locale. -/
def isalpha (c : Nat) : Bool := decide ((65 ≤ c ∧ c ≤ 90) ∨ (97 ≤ c ∧ c ≤ 122))

/-- The function `tolower` of the C locale (the macro `TOLOWER`). -/
def tolower (c : Nat) : Nat := if 65 ≤ c ∧ c ≤ 90 then c + 32 else c

/-- The macro `IS_SYM_TYPE`. -/
def IS_SYM_TYPE (t : Nat) : Bool := t == '?'.toNat || isalpha t

/-- The macro `IS_UNDEF_SYM_TYPE`. -/
def IS_UNDEF_SYM_TYPE (t : Nat) : Bool :=
  t == 'U'.toNat || t == 'v'.toNat || t == 'w'.toNat

/-- The function `get_sym_type`; `none` stands for a NULL argument, and the
type table is the array of one character for each section. A read behind the
table is an access out of bounds. -/
def get_sym_type (sym : Option GElf_Sym) (type_table : Option (List Nat)) :
    Except Fault Nat :=
  match sym, type_table with
  | some s, some table =>
    if s.st_shndx = SHN_ABS then
      .ok (if s.st_info / 16 = STB_LOCAL then 'a'.toNat else 'A'.toNat)
    else if s.st_shndx = SHN_COMMON then .ok 'C'.toNat
    else if s.st_info / 16 = STB_WEAK then
      if s.st_info % 16 = STT_OBJECT then
        .ok (if s.st_shndx = SHN_UNDEF then 'v'.toNat else 'V'.toNat)
      else .ok (if s.st_shndx = SHN_UNDEF then 'w'.toNat else 'W'.toNat)
    else if s.st_shndx = SHN_UNDEF then .ok 'U'.toNat
    else
      match table[s.st_shndx]? with
      | none => .error Fault.out_of_bounds
      | some t =>
        .ok (if s.st_info / 16 = STB_LOCAL ∧ t ≠ 'N'.toNat then tolower t else t)
  | _, _ => .ok '?'.toNat

/-- The function `strcmp` on the contents of two C strings (the bytes before
the NUL): the difference of the first two bytes that differ, the NUL counted
as 0. -/
def strcmp : List Nat → List Nat → Int
  | [], [] => 0
  | [], b :: _ => 0 - (b : Int)
  | a :: _, [] => (a : Int)
  | a :: as, b :: bs => if a = b then strcmp as bs else (a : Int) - (b : Int)

/-- The conversion of a `uint64_t` to `int`: the low 32 bits in two's
complement. -/
def to_int (x : Nat) : Int :=
  if x % 2 ^ 32 < 2 ^ 31 then ((x % 2 ^ 32 : Nat) : Int)
  else ((x % 2 ^ 32 : Nat) : Int) - 2 ^ 32

/-- An element of the array that `sym_list_sort` sorts (`struct sym_entry`);
`none` for a NULL pointer. -/
structure sym_entry where
  name : Option (List Nat)
  sym : Option GElf_Sym
deriving DecidableEq, Repr

/-- The part of `struct sym_print_data` that `cmp_value` reads. -/
structure sym_print_data where
  t_table : Option (List Nat)
deriving DecidableEq, Repr

/-- The function `cmp_value`; `nm_print_data` is the global set by
`sym_list_sort`, and `none` for `l` or `r` a NULL pointer. The difference of
the two `st_value` is taken in `uint64_t` and returned as `int`. -/
def cmp_value (nm_print_data : Option sym_print_data) (lp rp : Option sym_entry) :
    Except Fault Int :=
  match nm_print_data, lp, rp with
  | some p, some l, some r =>
    match l.name, l.sym, r.name, r.sym, p.t_table with
    | some lname, some lsym, some rname, some rsym, some ttable =>
      match get_sym_type (some lsym) (some ttable), get_sym_type (some rsym) (some ttable) with
      | .ok lt, .ok rt =>
        let l_is_undef : Nat := if IS_UNDEF_SYM_TYPE lt then 1 else 0
        let r_is_undef : Nat := if IS_UNDEF_SYM_TYPE rt then 1 else 0
        if l_is_undef + r_is_undef = 0 then
          if lsym.st_value = rsym.st_value then .ok (strcmp lname rname)
          else .ok (to_int ((lsym.st_value + 2 ^ 64 - rsym.st_value) % 2 ^ 64))
        else if l_is_undef + r_is_undef = 1 then
          .ok (if l_is_undef = 0 then 1 else -1)
        else .ok (strcmp lname rname)
      | .error f, _ => .error f
      | _, .error f => .error f
    | _, _, _, _, _ => .error Fault.assertion
  | _, _, _ => .error Fault.assertion

/-- The function `sym_elem_global`, the filter of `-g`, on the type character
(the arguments `sym` and `name` are unused): a failed `assert(IS_SYM_TYPE(type))`
ends the run. -/
def sym_elem_global (type : Nat) : Except Fault Bool :=
  if IS_SYM_TYPE type then .ok (isupper type || type == 'w'.toNat)
  else .error Fault.assertion

/-- The filter of `-g` applied to a symbol: `sym_elem_global` on the type that
`get_sym_type` gives, as `sym_list_print_each` calls it. -/
def filter_global (sym : GElf_Sym) (type_table : List Nat) : Except Fault Bool :=
  match get_sym_type (some sym) (some type_table) with
  | .error f => .error f
  | .ok t => sym_elem_global t

/-- Spec wording: `l` comes before `r` in the order "undefined symbols first,
ordered by name; then defined symbols by increasing `st_value`, equal values
ordered by name"; `lu`, `ru` tell whether the symbols are undefined. -/
def comes_before (lu ru : Bool) (lname rname : List Nat) (lvalue rvalue : Nat) : Bool :=
  if lu && ru then decide (lname < rname)
  else if lu then true
  else if ru then false
  else decide (lvalue < rvalue) || (lvalue == rvalue && decide (lname < rname))

/-- Spec wording: the symbol's binding is not local. -/
def is_not_local (sym : GElf_Sym) : Bool := sym.st_info / 16 != STB_LOCAL

/-- A type table of an object with a text section 1 and a debug section 2. -/
def ex_ttable : List Nat := ['U'.toNat, 'T'.toNat, 'N'.toNat]

/-- A global function defined in section 1 at address `v`. -/
def ex_func (v : Nat) : GElf_Sym :=
  { st_name := 1, st_info := 0x12, st_other := 0, st_shndx := 1, st_value := v, st_size := 8 }

/-- The entry of the array for the function at address `v` with the name
`name`. -/
def ex_entry (name : List Nat) (v : Nat) : Option sym_entry :=
  some { name := some name, sym := some (ex_func v) }

/-- A weak undefined object. -/
def ex_weak_undef_object : GElf_Sym :=
  { st_name := 1, st_info := 0x21, st_other := 0, st_shndx := SHN_UNDEF, st_value := 0,
    st_size := 0 }

/-- The reserved symbol at index 0: local, undefined. -/
def ex_reserved : GElf_Sym :=
  { st_name := 0, st_info := 0, st_other := 0, st_shndx := SHN_UNDEF, st_value := 0,
    st_size := 0 }

/-- A local object in the debug section 2. -/
def ex_local_debug : GElf_Sym :=
  { st_name := 1, st_info := 0x01, st_other := 0, st_shndx := 2, st_value := 0,
    st_size := 4 }

/-- A local common object. -/
def ex_local_common : GElf_Sym :=
  { st_name := 1, st_info := 0x01, st_other := 0, st_shndx := SHN_COMMON, st_value := 4,
    st_size := 4 }

end Nm

/-!
# elfcopy: section flags and symbol-list files (main.c)
-/

namespace ElfcopyMain

open Elfcopy (Bytes cstr lit)

/-- How a run ends early: `errx(EX_USAGE, ...)`, `err(EX_IOERR, ...)`,
`err(EX_DATAERR, ...)`, or an access before the start of a buffer. -/
inductive Fault where
  | EX_USAGE
  | EX_IOERR
  | EX_DATAERR
  | out_of_bounds
deriving DecidableEq, Repr

/-! ## `parse_sec_flags` -/

/-- The values of the `SF_*` constants of `elfcopy.h`, which the table
`sec_flags` refers to. -/
structure sf_values where
  SF_ALLOC : Nat
  SF_LOAD : Nat
  SF_NOLOAD : Nat
  SF_READONLY : Nat
  SF_DEBUG : Nat
  SF_CODE : Nat
  SF_DATA : Nat
  SF_ROM : Nat
  SF_SHARED : Nat
  SF_CONTENTS : Nat
deriving DecidableEq, Repr

/-- The table `sec_flags`, without its closing `{NULL, 0}` entry. -/
def sec_flags (v : sf_values) : List (Bytes × Nat) :=
  [(lit "alloc", v.SF_ALLOC), (lit "load", v.SF_LOAD), (lit "noload", v.SF_NOLOAD),
   (lit "readonly", v.SF_READONLY), (lit "debug", v.SF_DEBUG), (lit "code", v.SF_CODE),
   (lit "data", v.SF_DATA), (lit "rom", v.SF_ROM), (lit "share", v.SF_SHARED),
   (lit "contents", v.SF_CONTENTS)]

/-- The function `tolower` of the C library in the C locale. -/
def tolower (c : Nat) : Nat := if 65 ≤ c ∧ c ≤ 90 then c + 32 else c

/-- The function `strcasecmp` of the C library in the C locale, on the bytes
of the two strings up to their NUL: the difference of the first two bytes that
differ after `tolower`, the end of a string counting as 0. -/
def strcasecmp : Bytes → Bytes → Int
  | [], [] => 0
  | [], b :: _ => - (tolower b : Int)
  | a :: _, [] => (tolower a : Int)
  | a :: as, b :: bs =>
    if tolower a = tolower b then strcasecmp as bs
    else (tolower a : Int) - (tolower b : Int)

/-- The function `strtok` of the C library with the delimiter `","`. `s`
holds the bytes from the position where the scan starts (the string given or
the position saved by the call before) up to the NUL. The result is `none` for
NULL, else the token and the bytes behind the delimiter that ended it, which
is the position saved for the next call. -/
def strtok (s : Bytes) : Option (Bytes × Bytes) :=
  let s1 := s.dropWhile (fun c => c == 44)
  if s1 = [] then none
  else some (s1.takeWhile (fun c => c != 44), (s1.dropWhile (fun c => c != 44)).drop 1)

/-- The inner loop of `parse_sec_flags` over the table: the flags afterwards
and the variable `found`. -/
def sec_flags_loop (flag : Bytes) : List (Bytes × Nat) → Nat → Nat × Bool
  | [], flags => (flags, false)
  | (name, value) :: rest, flags =>
    if strcasecmp name flag = 0 then (flags ||| value, true)
    else sec_flags_loop flag rest flags

/-- The outer loop of `parse_sec_flags`: `s` is the position from which the
next `strtok` call scans and `flags` is `sac->flags`. Every round with a token
consumes at least one byte, so one round more than the length of the string is
enough. -/
def parse_sec_flags_loop (v : sf_values) : Nat → Bytes → Nat → Except Fault Nat
  | 0, _, flags => .ok flags
  | fuel + 1, s, flags =>
    match strtok s with
    | none => .ok flags
    | some (flag, rest) =>
      match sec_flags_loop flag (sec_flags v) flags with
      | (flags1, true) => parse_sec_flags_loop v fuel rest flags1
      | (_, false) => .error Fault.EX_USAGE

/-- A section action (`struct sec_action` of `elfcopy.h`), as far as the
option handlers embedded here use it. -/
structure sec_action where
  name : Bytes
  newname : Option Bytes
  flags : Nat
  rename : Nat
deriving DecidableEq, Repr

/-- The function `parse_sec_flags` on the string `s`; the `printf` of the
flags at its end is not part of the model. -/
def parse_sec_flags (v : sf_values) (sac : sec_action) (s : Bytes) :
    Except Fault sec_action :=
  match parse_sec_flags_loop v ((cstr s).length + 1) (cstr s) sac.flags with
  | .error f => .error f
  | .ok flags => .ok { sac with flags := flags }

/-- The function `strchr` on a string: the bytes before the first `c` and the
bytes behind it, `none` for NULL. -/
def strchr_split (s : Bytes) (c : Nat) : Option (Bytes × Bytes) :=
  if c ∈ cstr s then
    some ((cstr s).takeWhile (fun x => x != c), ((cstr s).dropWhile (fun x => x != c)).drop 1)
  else none

/-- The case `ECP_RENAME_SECTION` of `elfcopy_main` on the option argument
`optarg`. `lookup_sec_act` is the function of that name with the third
argument 1: it gives the action kept for a section name. -/
def rename_section (v : sf_values) (lookup_sec_act : Bytes → sec_action) (optarg : Bytes) :
    Except Fault sec_action :=
  match strchr_split optarg 61 with
  | none => .error Fault.EX_USAGE
  | some (name, fn) =>
    match strchr_split fn 44 with
    | some (newname, s) =>
      parse_sec_flags v { lookup_sec_act name with rename := 1, newname := some newname } s
    | none => .ok { lookup_sec_act name with rename := 1, newname := some fn }

/-- The case `ECP_SET_SEC_FLAGS` of `elfcopy_main` on the option argument. -/
def set_section_flags (v : sf_values) (lookup_sec_act : Bytes → sec_action)
    (optarg : Bytes) : Except Fault sec_action :=
  match strchr_split optarg 61 with
  | none => .error Fault.EX_USAGE
  | some (name, s) => parse_sec_flags v (lookup_sec_act name) s

/-! ## Specification side: flag tokens -/

/-- Spec wording: the tokens of a comma-separated string, the non-empty
pieces between commas. -/
def tokens (s : Bytes) : List Bytes :=
  (s.splitOnP (fun c => c == 44)).filter (fun t => t ≠ [])

/-- Spec wording: two strings are equal ignoring letter case. -/
def eq_nocase (a b : Bytes) : Prop := a.map tolower = b.map tolower

instance (a b : Bytes) : Decidable (eq_nocase a b) := by
  unfold eq_nocase
  infer_instance

/-- Spec wording: the value of a flag token, that of the name of the table it
equals ignoring letter case; `none` when it equals none of them. -/
def flag_value (v : sf_values) (t : Bytes) : Option Nat :=
  ((sec_flags v).find? (fun e => decide (eq_nocase e.1 t))).map (fun e => e.2)

/-- Spec wording: the flags OR'ed with the values of all the tokens. -/
def or_values (v : sf_values) (ts : List Bytes) (flags : Nat) : Nat :=
  ts.foldl (fun f t => f ||| (flag_value v t).getD 0) flags

/-- Spec wording: the tokens are taken in order; a token that equals none of
the names aborts the run with a usage error, the tokens behind it are not
looked at. -/
def flags_of_tokens (v : sf_values) : List Bytes → Nat → Except Fault Nat
  | [], flags => .ok flags
  | t :: ts, flags =>
    match flag_value v t with
    | some val => flags_of_tokens v ts (flags ||| val)
    | none => .error Fault.EX_USAGE

/-- Example values of the `SF_*` constants. -/
def ex_sf : sf_values :=
  { SF_ALLOC := 0x0001, SF_LOAD := 0x0002, SF_NOLOAD := 0x0004, SF_READONLY := 0x0008,
    SF_DEBUG := 0x0010, SF_CODE := 0x0020, SF_DATA := 0x0040, SF_ROM := 0x0080,
    SF_SHARED := 0x0100, SF_CONTENTS := 0x0200 }

/-- An action list that holds no action yet: `lookup_sec_act` creates the
action for the name it is given. -/
def ex_lookup_sec_act (name : Bytes) : sec_action :=
  { name := name, newname := none, flags := 0, rename := 0 }

/-! ## `parse_symlist_file` -/

/-- A symbol-list file that was read (`struct symfile`). -/
structure symfile where
  dev : Nat
  ino : Nat
  size : Nat
  data : Bytes
deriving DecidableEq, Repr

/-- The file named `fn` as `stat` and `fread` see it: `st_size` is the length
of `content`. -/
structure File where
  st_dev : Nat
  st_ino : Nat
  content : Bytes
deriving DecidableEq, Repr

/-- The test `*p == '\t' || *p == ' '`. -/
def is_blank (c : Nat) : Bool := c == 9 || c == 32

/-- The test `*p == '\r' || *p == '\n' || *p == '\0'`. -/
def is_eol (c : Nat) : Bool := c == 13 || c == 10 || c == 0

/-- The variables of the loop of `parse_symlist_file`: the buffer `sf->data`,
the pointer `line` as an index into it (`none` for NULL), and the
symbol-action list of `ecp`. -/
structure symlist_vars (L : Type) where
  data : Bytes
  line : Option Nat
  list : L

/-- The loop `while (e != line && (*e == '\t' || *e == ' ')) *e-- = '\0'`,
with `e` as an index into the buffer. A write at index 0 leaves `e` before the
start of the buffer, where the next test reads. -/
def trim_loop (line : Nat) : Nat → Bytes → Except Fault Bytes
  | 0, data =>
    if 0 ≠ line ∧ is_blank (data.getD 0 0) = true then .error Fault.out_of_bounds
    else .ok data
  | e + 1, data =>
    if e + 1 ≠ line ∧ is_blank (data.getD (e + 1) 0) = true then
      trim_loop line e (data.set (e + 1) 0)
    else .ok data

/-- One round of the loop of `parse_symlist_file` with `p` at index `p`.
`add` is the function `add_to_symop_list`, which receives the string at
`line`. -/
def symlist_step {L : Type} (add : L → Bytes → Nat → L) (op : Nat) (p : Nat)
    (v : symlist_vars L) : Except Fault (symlist_vars L) :=
  if is_blank (v.data.getD p 0) = true ∧ v.line = none then .ok v
  else if is_eol (v.data.getD p 0) = true then
    match v.line with
    | some line =>
      if (v.data.set p 0).getD line 0 = 35 then
        .ok { v with data := v.data.set p 0, line := none }
      else
        match trim_loop line (p - 1) (v.data.set p 0) with
        | .error f => .error f
        | .ok data2 =>
          .ok { data := data2, line := none,
                list := add v.list (cstr (data2.drop line)) op }
    | none => .ok { v with data := v.data.set p 0 }
  else if v.line = none then .ok { v with line := some p }
  else .ok v

/-- The loop `for (p = sf->data; p < end; p++)`: `n` rounds are left and `p`
is at index `p`. -/
def symlist_loop {L : Type} (add : L → Bytes → Nat → L) (op : Nat) :
    Nat → Nat → symlist_vars L → Except Fault (symlist_vars L)
  | 0, _, v => .ok v
  | n + 1, p, v =>
    match symlist_step add op p v with
    | .error f => .error f
    | .ok v1 => symlist_loop add op n (p + 1) v1

/-- The part of `parse_symlist_file` behind the label `process_symfile`. -/
def process_symfile {L : Type} (add : L → Bytes → Nat → L) (list : L) (sf : symfile)
    (op : Nat) : Except Fault (symfile × L) :=
  match symlist_loop add op sf.size 0 { data := sf.data, line := none, list := list } with
  | .error f => .error f
  | .ok v => .ok ({ sf with data := v.data }, v.list)

/-- The function `parse_symlist_file`: `v_symfile` is the queue of the files
read before, `list` the symbol-action list, `f` the file named `fn` (`none`
when `stat` fails). `fopen` and `malloc` are taken to succeed and `fread` to
read the whole file. The result is the file record processed and the list. -/
def parse_symlist_file {L : Type} (add : L → Bytes → Nat → L) (v_symfile : List symfile)
    (list : L) (f : Option File) (op : Nat) : Except Fault (symfile × L) :=
  match f with
  | none => .error Fault.EX_IOERR
  | some f =>
    match v_symfile.find? (fun sf => sf.dev == f.st_dev && sf.ino == f.st_ino) with
    | some sf => process_symfile add list sf op
    | none =>
      if f.content.length = 0 then .error Fault.EX_DATAERR
      else
        process_symfile add list
          { dev := f.st_dev, ino := f.st_ino, size := f.content.length + 1,
            data := f.content ++ [0] } op

/-! ## Specification side: symbol-list files -/

/-- Spec wording: the lines of a file, separated by CR, LF or NUL; the last
line needs no terminator. -/
def lines (content : Bytes) : List Bytes := content.splitOnP is_eol

/-- Spec wording: a line without its leading and trailing spaces and tabs. -/
def trim (l : Bytes) : Bytes := (l.dropWhile is_blank).rdropWhile is_blank

/-- Spec wording: the name a line gives: its trimmed content, when that is
not empty and does not begin with `#`. -/
def name_of (l : Bytes) : Option Bytes :=
  if trim l ≠ [] ∧ (trim l).head? ≠ some 35 then some (trim l) else none

/-- Spec wording: the names of a file, in file order. -/
def symlist_names (content : Bytes) : List Bytes := (lines content).filterMap name_of

/-- Spec wording: one rule with the operation `op` is added for each name, in
order. -/
def add_names {L : Type} (add : L → Bytes → Nat → L) (op : Nat) (list : L)
    (names : List Bytes) : L :=
  names.foldl (fun l nm => add l nm op) list

/-- An action list that records the calls of `add_to_symop_list`. -/
def ex_add (l : List (Bytes × Nat)) (name : Bytes) (op : Nat) : List (Bytes × Nat) :=
  l ++ [(name, op)]

/-- A symbol-list file: a comment, a name with blanks around it, an empty
line, a line of blanks, and a last name without a terminator. -/
def ex_symlist : File :=
  { st_dev := 1, st_ino := 2, content := lit "# c\r\n  foo \t\n\n \nbar" }

/-- The record of `ex_symlist` after it is processed. -/
def ex_symlist_sf : symfile :=
  { dev := 1, ino := 2, size := 20,
    data := lit "# c" ++ [0, 0] ++ lit "  foo" ++ [0, 0, 0, 0] ++ lit " " ++ [0] ++ lit "bar" ++ [0] }

/-! ### Chunks of a buffer -/

/-- The bytes of a list of chunks, each a line and its terminator. -/
def flat : List (Bytes × Nat) → Bytes
  | [] => []
  | c :: rest => c.1 ++ c.2 :: flat rest

/-- Every chunk is a line without CR, LF and NUL, and a terminator. -/
def chunks_ok (cs : List (Bytes × Nat)) : Prop :=
  ∀ c ∈ cs, (∀ x ∈ c.1, is_eol x = false) ∧ is_eol c.2 = true

/-- The chunks that the loop leaves of the line `l` and its terminator: the
terminator is NUL, and so is every blank behind a name. -/
def rechunk (l : Bytes) : List (Bytes × Nat) :=
  match name_of l with
  | some nm =>
    (l.takeWhile is_blank ++ nm, 0) ::
      List.replicate ((l.dropWhile is_blank).length - nm.length) ([], 0)
  | none => [(l, 0)]

/-- The chunks that the loop leaves of a list of chunks. -/
def rechunks : List (Bytes × Nat) → List (Bytes × Nat)
  | [] => []
  | c :: rest => rechunk c.1 ++ rechunks rest

/-- The names of the lines of a list of chunks. -/
def names_of : List (Bytes × Nat) → List Bytes
  | [] => []
  | c :: rest =>
    match name_of c.1 with
    | some nm => nm :: names_of rest
    | none => names_of rest

end ElfcopyMain

/-!
# nm: the string vector (vector_str.c)
-/

namespace VectorStr

open Elfcopy (Bytes cstr lit)

inductive Fault where
  | out_of_bounds
  | segv
deriving DecidableEq, Repr

/-- The constants of `vector_str.h`, which is not among the sources:
`VECTOR_DEF_CAPACITY` and `BUFFER_GROWFACTOR`, the latter as the fraction
`num / den` (an integer constant has `den = 1`). -/
structure Consts where
  VECTOR_DEF_CAPACITY : Nat
  num : Nat
  den : Nat
deriving DecidableEq, Repr

/-- The product `x * BUFFER_GROWFACTOR` stored to the `size_t tmp_cap`: the
fraction is cut off. -/
def times_growfactor (c : Consts) (x : Nat) : Nat := x * c.num / c.den

/-- The structure `struct vector_str`: `container` is the allocated array of
string pointers, one slot for each element the allocation has room for; a slot
is `none` when it holds NULL or has not been written, otherwise it holds the
content of its string (the bytes before the NUL). -/
structure vector_str where
  size : Nat
  capacity : Nat
  container : List (Option Bytes)
deriving DecidableEq, Repr

/-- The string `v->container[i]` as `strlen`, `memcpy` and `strdup` read it. -/
def elem_at (v : vector_str) (i : Nat) : Except Fault Bytes :=
  match v.container[i]? with
  | none => .error Fault.out_of_bounds
  | some none => .error Fault.segv
  | some (some s) => .ok s

/-- The store `ctn[i] = p`. -/
def slot_set (ctn : List (Option Bytes)) (i : Nat) (p : Option Bytes) :
    Except Fault (List (Option Bytes)) :=
  if i < ctn.length then .ok (ctn.set i p) else .error Fault.out_of_bounds

/-- The loop `for (i = ..; ..; ++i) len += strlen(v->container[i])` over `n`
elements from index `i`. -/
def strlen_loop (v : vector_str) : Nat → Nat → Nat → Except Fault Nat
  | 0, _, len => .ok len
  | n + 1, i, len =>
    match elem_at v i with
    | .error f => .error f
    | .ok s => strlen_loop v n (i + 1) (len + s.length)

/-- The function `get_strlen_sum`. -/
def get_strlen_sum (v : Option vector_str) : Except Fault Nat :=
  match v with
  | none => .ok 0
  | some v => strlen_loop v v.size 0 0

/-- The loop that copies `n` elements from index `i` behind the bytes `rtn`
already written. -/
def memcpy_loop (v : vector_str) : Nat → Nat → Bytes → Except Fault Bytes
  | 0, _, rtn => .ok rtn
  | n + 1, i, rtn =>
    match elem_at v i with
    | .error f => .error f
    | .ok s => memcpy_loop v n (i + 1) (rtn ++ s)

/-- The function `vector_str_get_flat` with a non-NULL `l`: the string
returned and the value stored to `*l`; `none` for NULL. -/
def vector_str_get_flat (v : Option vector_str) : Except Fault (Option (Bytes × Nat)) :=
  match v with
  | none => .ok none
  | some v =>
    if v.size = 0 then .ok none
    else
      match get_strlen_sum (some v) with
      | .error f => .error f
      | .ok rtn_size =>
        if rtn_size = 0 then .ok none
        else
          match memcpy_loop v v.size 0 [] with
          | .error f => .error f
          | .ok rtn => .ok (some (rtn, rtn_size))

/-- The loop `for (i = 0; i < n; ++i) tmp_ctn[i + off] = ctn[i]`, from index
`i` with `n` rounds left. -/
def move_loop (ctn : List (Option Bytes)) (off : Nat) :
    Nat → Nat → List (Option Bytes) → Except Fault (List (Option Bytes))
  | 0, _, tmp_ctn => .ok tmp_ctn
  | n + 1, i, tmp_ctn =>
    match ctn[i]? with
    | none => .error Fault.out_of_bounds
    | some p =>
      match slot_set tmp_ctn (i + off) p with
      | .error f => .error f
      | .ok t => move_loop ctn off n (i + 1) t

/-- The function `vector_str_grow` on a non-NULL vector (the allocation
succeeds, also for no slot at all). -/
def vector_str_grow (c : Consts) (v : vector_str) : Except Fault vector_str :=
  match move_loop v.container 0 v.size 0
      (List.replicate (times_growfactor c v.capacity) none) with
  | .error f => .error f
  | .ok tmp_ctn =>
    .ok { v with container := tmp_ctn, capacity := times_growfactor c v.capacity }

/-- The function `vector_str_init` on a non-NULL vector; `false` with no
vector for NULL. -/
def vector_str_init (c : Consts) (v : Option vector_str) : Bool × Option vector_str :=
  match v with
  | none => (false, none)
  | some _ =>
    (true, some { size := 0, capacity := c.VECTOR_DEF_CAPACITY,
                  container := List.replicate c.VECTOR_DEF_CAPACITY none })

/-- The function `vector_str_pop`: the return value and the vector
afterwards. -/
def vector_str_pop (v : Option vector_str) : Except Fault (Bool × Option vector_str) :=
  match v with
  | none => .ok (false, none)
  | some v =>
    if v.size = 0 then .ok (true, some v)
    else
      match slot_set v.container (v.size - 1) none with
      | .error f => .error f
      | .ok ctn => .ok (true, some { v with size := v.size - 1, container := ctn })

/-- The bytes that `snprintf(p, size, "%s", str)` leaves as the string at `p`:
nothing is written for `size = 0`. -/
def snprintf (size : Nat) (str : Bytes) : Option Bytes :=
  if size = 0 then none else some ((cstr str).take (size - 1))

/-- The function `vector_str_push`: the return value and the vector
afterwards; `len + 1` is computed in `size_t`. -/
def vector_str_push (c : Consts) (v : Option vector_str) (str : Option Bytes) (len : Nat) :
    Except Fault (Bool × Option vector_str) :=
  match v, str with
  | some v, some s =>
    match (if v.size = v.capacity then vector_str_grow c v else .ok v) with
    | .error f => .error f
    | .ok v1 =>
      match slot_set v1.container v1.size (snprintf ((len + 1) % 2 ^ 64) s) with
      | .error f => .error f
      | .ok ctn => .ok (true, some { v1 with container := ctn, size := v1.size + 1 })
  | _, _ => .ok (false, v)

/-- The loop `for (i = 0; i < org->size; ++i) tmp_ctn[i] =
strdup(org->container[i])`, from index `i` with `n` rounds left. -/
def strdup_loop (org : vector_str) :
    Nat → Nat → List (Option Bytes) → Except Fault (List (Option Bytes))
  | 0, _, tmp_ctn => .ok tmp_ctn
  | n + 1, i, tmp_ctn =>
    match elem_at org i with
    | .error f => .error f
    | .ok s =>
      match slot_set tmp_ctn i (some s) with
      | .error f => .error f
      | .ok t => strdup_loop org n (i + 1) t

/-- The function `vector_str_push_vector_head` on two distinct vectors: the
return value and `dst` afterwards (`org` is only read). -/
def vector_str_push_vector_head (c : Consts) (dst org : Option vector_str) :
    Except Fault (Bool × Option vector_str) :=
  match dst, org with
  | some d, some o =>
    match strdup_loop o o.size 0
        (List.replicate (times_growfactor c (d.size + o.size)) none) with
    | .error f => .error f
    | .ok t1 =>
      match move_loop d.container o.size d.size 0 t1 with
      | .error f => .error f
      | .ok t2 =>
        .ok (true, some { size := d.size + o.size,
                          capacity := times_growfactor c (d.size + o.size),
                          container := t2 })
  | _, _ => .ok (false, dst)

/-- The function `vector_str_substr` with a non-NULL `r_len`: the string
returned and the value stored to `*r_len`; `none` for NULL. The bound
`end + 1` of the loops is computed in `size_t`. -/
def vector_str_substr (v : Option vector_str) (begin end_ : Nat) :
    Except Fault (Option (Bytes × Nat)) :=
  match v with
  | none => .ok none
  | some v =>
    if begin > end_ then .ok none
    else
      match strlen_loop v ((end_ + 1) % 2 ^ 64 - begin) begin 0 with
      | .error f => .error f
      | .ok len =>
        match memcpy_loop v ((end_ + 1) % 2 ^ 64 - begin) begin [] with
        | .error f => .error f
        | .ok rtn => .ok (some (rtn, len))

/-- The list of strings a vector stands for: `v` holds `l` when its first
`size` slots hold the strings of `l`, in order, and the allocated array has
`capacity` slots, at least `size`. -/
def holds (v : vector_str) (l : List Bytes) : Prop :=
  v.size = l.length ∧ v.size ≤ v.capacity ∧ v.container.length = v.capacity ∧
  v.container.take v.size = l.map some

/-- Constants with room for 8 strings and the growth factor 2. -/
def ex_consts : Consts := { VECTOR_DEF_CAPACITY := 8, num := 2, den := 1 }

/-- The vector after `vector_str_init`, `vector_str_push("ab", 2)` and
`vector_str_push("cdef", 2)` with `ex_consts`. -/
def ex_vector : vector_str :=
  { size := 2, capacity := 8,
    container := [some (lit "ab"), some (lit "cd"), none, none, none, none, none, none] }

/-- The vector `ex_vector` after `vector_str_push("cdef", 2)`. -/
def ex_vector3 : vector_str :=
  { size := 3, capacity := 8,
    container :=
      [some (lit "ab"), some (lit "cd"), some (lit "cd"), none, none, none, none, none] }

/-- A vector with one element whose array is full. -/
def ex_full : vector_str :=
  { size := 1, capacity := 1, container := [some (lit "x")] }

/-- The `dst` that `vector_str_push_vector_head` leaves for two empty
vectors: an array without a slot. -/
def ex_no_slot : vector_str := { size := 0, capacity := 0, container := [] }

/-- Constants with room for 8 strings and the growth factor 1.618. -/
def ex_consts_1618 : Consts := { VECTOR_DEF_CAPACITY := 8, num := 1618, den := 1000 }

/-- The vector after `vector_str_init` with room for 8 strings. -/
def ex_empty8 : vector_str :=
  { size := 0, capacity := 8, container := List.replicate 8 none }

/-- The vector `ex_empty8` after `vector_str_push("x", 1)`. -/
def ex_one8 : vector_str :=
  { size := 1, capacity := 8, container := some (lit "x") :: List.replicate 7 none }

end VectorStr

namespace Elfcopy

/-! ## Theorems -/

theorem lookup_isSome_eq (v : List symop) (name : Bytes) (op : Nat) :
    (lookup_symop_list v (some name) op).isSome = rule_names v op name := by
  unfold lookup_symop_list rule_names
  induction v with
  | nil => rfl
  | cons r rest ih =>
    simp only [List.find?_cons, List.any_cons, streq, symop_match]
    have hc : (cstr name == cstr r.name) = (cstr r.name == cstr name) := by
      by_cases h : cstr name = cstr r.name
      · simp [h]
      · have h2 : ¬ cstr r.name = cstr name := fun e => h e.symm
        simp [h, h2]
    rw [hc]
    cases hb : (cstr r.name == cstr name && (r.op &&& op) != 0)
    · simpa using ih
    · simp

/-! ### The queue and the list of rules -/

/-- On a queue whose walk reaches NULL, `lookup_symop_list` on the queue in
memory returns, and what it finds is what the lookup on the list of rules
visited finds. -/
theorem stailq_lookup_walk (nodes : List symop_node) (name : Option Bytes) (op : Nat) :
    ∀ (fuel : Nat) (cur : Option Nat) (l : List symop),
      stailq_walk nodes fuel cur = some l →
      ∃ r, stailq_lookup nodes name op fuel cur = some r ∧
        r.bind (fun k => nodes[k]?.map node_rule) = lookup_symop_list l name op := by
  intro fuel
  induction fuel with
  | zero =>
    intro cur l h
    cases cur with
    | none =>
      simp only [stailq_walk, Option.some.injEq] at h
      subst h
      exact ⟨none, by simp [stailq_lookup], rfl⟩
    | some k => simp [stailq_walk] at h
  | succ fuel ih =>
    intro cur l h
    cases cur with
    | none =>
      simp only [stailq_walk, Option.some.injEq] at h
      subst h
      exact ⟨none, by simp [stailq_lookup], rfl⟩
    | some k =>
      simp only [stailq_walk] at h
      cases hn : nodes[k]? with
      | none => simp [hn] at h
      | some n =>
        simp only [hn] at h
        cases hw : stailq_walk nodes fuel n.next with
        | none => simp [hw] at h
        | some rest =>
          simp only [hw, Option.some.injEq] at h
          subst h
          obtain ⟨r, hr1, hr2⟩ := ih n.next rest hw
          simp only [stailq_lookup, hn, lookup_symop_list, List.find?_cons]
          have hnr : symop_match name op (node_rule n).name (node_rule n).op =
              symop_match name op n.name n.op := rfl
          rw [hnr]
          cases hc : symop_match name op n.name n.op
          · exact ⟨r, by simpa using hr1, by simpa [lookup_symop_list] using hr2⟩
          · exact ⟨some k, by simp, by simp [hn]⟩

/-! ### `st_info` arithmetic -/

theorem GELF_ST_BIND_INFO (b t : Nat) : GELF_ST_BIND (GELF_ST_INFO b t) = b := by
  unfold GELF_ST_BIND GELF_ST_INFO
  have h : t &&& 0xf = t % 2 ^ 4 := Nat.and_pow_two_sub_one_eq_mod t 4
  rw [h, Nat.shiftLeft_eq, Nat.shiftRight_eq_div_pow]
  omega

theorem GELF_ST_TYPE_INFO (b t : Nat) : GELF_ST_TYPE (GELF_ST_INFO b t) = GELF_ST_TYPE t := by
  unfold GELF_ST_TYPE GELF_ST_INFO
  have h : ∀ x : Nat, x &&& 0xf = x % 2 ^ 4 := fun x => Nat.and_pow_two_sub_one_eq_mod x 4
  rw [h, h, Nat.shiftLeft_eq]
  omega

theorem set_bind_bind (sym : GElf_Sym) (b : Nat) :
    GELF_ST_BIND (set_bind sym b).st_info = b := by
  simp [set_bind, GELF_ST_BIND_INFO]

theorem GELF_ST_TYPE_idem (x : Nat) : GELF_ST_TYPE (GELF_ST_TYPE x) = GELF_ST_TYPE x := by
  unfold GELF_ST_TYPE
  have h : ∀ y : Nat, y &&& 0xf = y % 2 ^ 4 := fun y => Nat.and_pow_two_sub_one_eq_mod y 4
  rw [h, h]
  omega

theorem set_bind_type (sym : GElf_Sym) (b : Nat) :
    GELF_ST_TYPE (set_bind sym b).st_info = GELF_ST_TYPE sym.st_info := by
  simp [set_bind, GELF_ST_TYPE_INFO, GELF_ST_TYPE_idem]

theorem ite_set_bind_shndx (c : Prop) [Decidable c] (x : GElf_Sym) (b : Nat) :
    (if c then set_bind x b else x).st_shndx = x.st_shndx := by
  split_ifs <;> rfl

theorem ite_set_bind_bind (c : Prop) [Decidable c] (x : GElf_Sym) (b : Nat) :
    GELF_ST_BIND (if c then set_bind x b else x).st_info =
      if c then b else GELF_ST_BIND x.st_info := by
  split_ifs
  · exact set_bind_bind x b
  · rfl

theorem ite_set_bind_type (c : Prop) [Decidable c] (x : GElf_Sym) (b : Nat) :
    GELF_ST_TYPE (if c then set_bind x b else x).st_info = GELF_ST_TYPE x.st_info := by
  split_ifs
  · exact set_bind_type x b
  · rfl

theorem ite_set_bind_rest (c : Prop) [Decidable c] (x : GElf_Sym) (b : Nat) :
    (if c then set_bind x b else x).st_name = x.st_name ∧
    (if c then set_bind x b else x).st_other = x.st_other ∧
    (if c then set_bind x b else x).st_value = x.st_value ∧
    (if c then set_bind x b else x).st_size = x.st_size := by
  split_ifs <;> exact ⟨rfl, rfl, rfl, rfl⟩

theorem change_binding_type (ecp : elfcopy) (sym : GElf_Sym) (name : Bytes) :
    GELF_ST_TYPE (change_binding ecp sym name).st_info = GELF_ST_TYPE sym.st_info := by
  unfold change_binding
  by_cases hg : (is_global_symbol sym || is_weak_symbol sym) = true
  · simp only [hg, if_true, ite_set_bind_type]
  · simp only [hg, if_false, ite_set_bind_type, Bool.false_eq_true]

theorem change_binding_shndx (ecp : elfcopy) (sym : GElf_Sym) (name : Bytes) :
    (change_binding ecp sym name).st_shndx = sym.st_shndx := by
  unfold change_binding
  by_cases hg : (is_global_symbol sym || is_weak_symbol sym) = true
  · simp only [hg, if_true, ite_set_bind_shndx]
  · simp only [hg, if_false, ite_set_bind_shndx, Bool.false_eq_true]

theorem change_binding_rest (ecp : elfcopy) (sym : GElf_Sym) (name : Bytes) :
    (change_binding ecp sym name).st_name = sym.st_name ∧
    (change_binding ecp sym name).st_other = sym.st_other ∧
    (change_binding ecp sym name).st_value = sym.st_value ∧
    (change_binding ecp sym name).st_size = sym.st_size := by
  unfold change_binding
  by_cases hg : (is_global_symbol sym || is_weak_symbol sym) = true
  · simp only [hg, if_true, ite_set_bind_rest, and_self]
  · simp only [hg, if_false, ite_set_bind_rest, Bool.false_eq_true, and_self]

theorem lookup_isNone_eq (v : List symop) (name : Bytes) (op : Nat) :
    (lookup_symop_list v (some name) op).isNone = !rule_names v op name := by
  rw [← lookup_isSome_eq]
  cases lookup_symop_list v (some name) op <;> rfl

/-- For a symbol whose binding is local, global or weak the binding changes
of `generate_symbols` give the binding the claim states. -/
theorem change_binding_bind (ecp : elfcopy) (sym : GElf_Sym) (name : Bytes)
    (hb : GELF_ST_BIND sym.st_info = STB_LOCAL ∨ GELF_ST_BIND sym.st_info = STB_GLOBAL ∨
      GELF_ST_BIND sym.st_info = STB_WEAK) :
    GELF_ST_BIND (change_binding ecp sym name).st_info =
      binding_claimed ecp (GELF_ST_BIND sym.st_info) sym.st_shndx name := by
  unfold change_binding binding_claimed is_global_symbol is_weak_symbol
  by_cases hg : GELF_ST_BIND sym.st_info = STB_GLOBAL ∨ GELF_ST_BIND sym.st_info = STB_WEAK
  · have hg2 : (GELF_ST_BIND sym.st_info == STB_GLOBAL ||
        GELF_ST_BIND sym.st_info == STB_WEAK) = true := by simpa using hg
    have hnl : GELF_ST_BIND sym.st_info ≠ STB_LOCAL := by
      rcases hg with h | h <;> rw [h] <;> decide
    simp only [hg2, if_true, if_pos hnl, ite_set_bind_bind, ite_set_bind_shndx,
      lookup_isSome_eq, lookup_isNone_eq, Bool.not_eq_true']
  · have hg2 : ¬ ((GELF_ST_BIND sym.st_info == STB_GLOBAL ||
        GELF_ST_BIND sym.st_info == STB_WEAK) = true) := by simpa using hg
    have hl : GELF_ST_BIND sym.st_info = STB_LOCAL := by
      rcases hb with h | h | h
      · exact h
      · exact absurd (Or.inl h) hg
      · exact absurd (Or.inr h) hg
    have hl2 : ¬ GELF_ST_BIND sym.st_info ≠ STB_LOCAL := not_not.mpr hl
    simp only [if_neg hg2, if_neg hl2, ite_set_bind_bind, lookup_isSome_eq]

/-! ### Bit vectors -/

theorem and_two_pow_ne_zero (y q : Nat) : (y &&& 2 ^ q ≠ 0) ↔ y.testBit q = true := by
  constructor
  · intro h
    by_contra hq
    apply h
    apply Nat.eq_of_testBit_eq
    intro i
    rw [Nat.testBit_and, Nat.testBit_two_pow, Nat.zero_testBit]
    by_cases hi : q = i
    · subst hi
      simp only [Bool.not_eq_true] at hq
      simp [hq]
    · simp [hi]
  · intro h h0
    have h1 : (y &&& 2 ^ q).testBit q = true := by
      rw [Nat.testBit_and, Nat.testBit_two_pow_self, h]
      rfl
    rw [h0, Nat.zero_testBit] at h1
    exact Bool.false_ne_true h1

theorem BIT_ISSET_calloc (n m : Nat) : BIT_ISSET (calloc n) m = false := by
  unfold BIT_ISSET calloc
  have h : (List.replicate n 0).getD (m >>> 3) 0 = 0 := by
    rw [List.getD_eq_getElem?_getD, List.getElem?_replicate]
    split_ifs <;> rfl
  rw [h]
  simp

theorem BIT_ISSET_BIT_SET (v : Bytes) (n m : Nat) (h : BIT_ISSET (BIT_SET v n) m = true) :
    m = n ∨ BIT_ISSET v m = true := by
  unfold BIT_ISSET BIT_SET at *
  simp only [Nat.one_shiftLeft, bne_iff_ne, ne_eq, List.getD_eq_getElem?_getD] at *
  by_cases hb : n >>> 3 = m >>> 3
  · rw [hb] at h
    rw [List.getElem?_set] at h
    by_cases hlt : m >>> 3 < v.length
    · simp only [if_true, hlt, Option.getD_some] at h
      have h2 := (and_two_pow_ne_zero _ _).mp h
      rw [Nat.testBit_or, Nat.testBit_two_pow] at h2
      by_cases hp : n &&& 7 = m &&& 7
      · left
        have e1 : ∀ x : Nat, x &&& 7 = x % 2 ^ 3 := fun x => Nat.and_pow_two_sub_one_eq_mod x 3
        rw [e1, e1] at hp
        rw [Nat.shiftRight_eq_div_pow, Nat.shiftRight_eq_div_pow] at hb
        omega
      · right
        simp only [hp, decide_False, Bool.or_false] at h2
        exact (and_two_pow_ne_zero _ _).mpr h2
    · right
      have hnone : v[m >>> 3]? = none := List.getElem?_eq_none (by omega)
      simp only [if_true, hlt, if_false, hnone] at h
      simp [hnone] at h
  · right
    rw [List.getElem?_set_ne hb] at h
    exact h

/-! ### One round of the copy loop -/

theorem gen_step_removed (ecp : elfcopy) (sc i : Nat) (s : in_sym) (st : gen_state)
    (h : is_remove_symbol ecp sc i s.sym s.name = true) :
    gen_step ecp sc i s st = .ok { st with sym := s.sym } := by
  simp [gen_step, h]

theorem gen_step_kept (ecp : elfcopy) (sc i : Nat) (s : in_sym) (st st1 : gen_state)
    (h : is_remove_symbol ecp sc i s.sym s.name = false)
    (hstep : gen_step ecp sc i s st = .ok st1) :
    ∃ n buf,
      COPYSYM_name (change_binding ecp s.sym s.name) (redef_name ecp s.name)
        (if is_local_symbol (change_binding ecp s.sym s.name) then st.st_buf.l
         else st.st_buf.g) = .ok (n, buf) ∧
      st1.sy_buf =
        (if is_local_symbol (change_binding ecp s.sym s.name) then
          { st.sy_buf with l := st.sy_buf.l ++
              [COPYSYM_entry ecp (change_binding ecp s.sym s.name) 0 n] }
         else
          { st.sy_buf with g := st.sy_buf.g ++
              [COPYSYM_entry ecp (change_binding ecp s.sym s.name) 0 n] }) ∧
      st1.st_buf =
        (if is_local_symbol (change_binding ecp s.sym s.name) then
          { st.st_buf with l := buf }
         else { st.st_buf with g := buf }) ∧
      st1.symndx =
        (if is_global_symbol (change_binding ecp s.sym s.name) ||
            is_weak_symbol (change_binding ecp s.sym s.name) then
          st.symndx.set i st.sy_buf.ngs
         else st.symndx.set i st.sy_buf.nls) ∧
      st1.gsym =
        (if is_global_symbol (change_binding ecp s.sym s.name) ||
            is_weak_symbol (change_binding ecp s.sym s.name) then BIT_SET st.gsym i
         else st.gsym) ∧
      st1.v_secsym =
        (if GELF_ST_TYPE (change_binding ecp s.sym s.name).st_info = STT_SECTION then
          BIT_SET st.v_secsym (ecp.secndx (change_binding ecp s.sym s.name).st_shndx)
         else st.v_secsym) ∧
      st1.sym = change_binding ecp s.sym s.name := by
  unfold gen_step at hstep
  simp only [h, Bool.false_eq_true, if_false] at hstep
  by_cases hl : is_local_symbol (change_binding ecp s.sym s.name) = true
  · simp only [hl, if_true, COPYSYM] at hstep ⊢
    cases hc : COPYSYM_name (change_binding ecp s.sym s.name) (redef_name ecp s.name)
        st.st_buf.l with
    | error e => simp [hc] at hstep
    | ok r =>
      obtain ⟨n, buf⟩ := r
      simp only [hc, Except.ok.injEq] at hstep
      refine ⟨n, buf, rfl, ?_⟩
      subst hstep
      simp
  · simp only [hl, if_false, COPYSYM, Bool.false_eq_true] at hstep ⊢
    cases hc : COPYSYM_name (change_binding ecp s.sym s.name) (redef_name ecp s.name)
        st.st_buf.g with
    | error e => simp [hc] at hstep
    | ok r =>
      obtain ⟨n, buf⟩ := r
      simp only [hc, Except.ok.injEq] at hstep
      refine ⟨n, buf, rfl, ?_⟩
      subst hstep
      simp

/-! ### The copy loop -/

theorem gen_loop_cons (ecp : elfcopy) (sc i : Nat) (s : in_sym) (rest : List in_sym)
    (st st2 : gen_state) (h : gen_loop ecp sc i (s :: rest) st = .ok st2) :
    ∃ st1, gen_step ecp sc i s st = .ok st1 ∧ gen_loop ecp sc (i + 1) rest st1 = .ok st2 := by
  unfold gen_loop at h
  cases hs : gen_step ecp sc i s st with
  | error e => simp [hs] at h
  | ok st1 => exact ⟨st1, rfl, by simpa [hs] using h⟩

theorem gen_loop_bufs (ecp : elfcopy) (sc : Nat) (syms : List in_sym) :
    ∀ (i : Nat) (st st2 : gen_state), gen_loop ecp sc i syms st = .ok st2 →
      ∃ la lg, st2.sy_buf.l = st.sy_buf.l ++ la ∧ st2.sy_buf.g = st.sy_buf.g ++ lg ∧
        la.map unname = ((retained ecp sc i syms).filter (to_local ecp)).map (entry0 ecp) ∧
        lg.map unname =
          ((retained ecp sc i syms).filter (fun s => !to_local ecp s)).map (entry0 ecp) := by
  induction syms with
  | nil =>
    intro i st st2 h
    simp only [gen_loop, Except.ok.injEq] at h
    subst h
    exact ⟨[], [], by simp, by simp, by simp [retained], by simp [retained]⟩
  | cons s rest ih =>
    intro i st st2 h
    obtain ⟨st1, hstep, hrest⟩ := gen_loop_cons ecp sc i s rest st st2 h
    obtain ⟨la, lg, hl, hg, hla, hlg⟩ := ih (i + 1) st1 st2 hrest
    cases hrm : is_remove_symbol ecp sc i s.sym s.name with
    | true =>
      rw [gen_step_removed ecp sc i s st hrm] at hstep
      simp only [Except.ok.injEq] at hstep
      subst hstep
      refine ⟨la, lg, hl, hg, ?_, ?_⟩
      · simpa [retained, hrm] using hla
      · simpa [retained, hrm] using hlg
    | false =>
      obtain ⟨n, buf, _, hsy, _⟩ := gen_step_kept ecp sc i s st st1 hrm hstep
      cases hloc : to_local ecp s with
      | true =>
        have hloc2 : is_local_symbol (change_binding ecp s.sym s.name) = true := hloc
        simp only [hloc2, if_true] at hsy
        refine ⟨COPYSYM_entry ecp (change_binding ecp s.sym s.name) 0 n :: la, lg, ?_, ?_, ?_, ?_⟩
        · rw [hl, hsy]; simp
        · rw [hg, hsy]
        · simp only [retained, hrm, List.map_cons, Bool.false_eq_true, if_false,
            List.filter_cons, hloc, if_true, hla]
          rfl
        · simp only [retained, hrm, Bool.false_eq_true, if_false, List.filter_cons, hloc,
            Bool.not_true, hlg]
      | false =>
        have hloc2 : is_local_symbol (change_binding ecp s.sym s.name) = false := hloc
        simp only [hloc2, Bool.false_eq_true, if_false] at hsy
        refine ⟨la, COPYSYM_entry ecp (change_binding ecp s.sym s.name) 0 n :: lg, ?_, ?_, ?_, ?_⟩
        · rw [hl, hsy]
        · rw [hg, hsy]; simp
        · simp only [retained, hrm, Bool.false_eq_true, if_false, List.filter_cons, hloc,
            hla]
        · simp only [retained, hrm, List.map_cons, Bool.false_eq_true, if_false,
            List.filter_cons, hloc, Bool.not_false, if_true, hlg]
          rfl

theorem gen_loop_secsym (ecp : elfcopy) (sc : Nat) (syms : List in_sym) :
    ∀ (i : Nat) (st st2 : gen_state), gen_loop ecp sc i syms st = .ok st2 →
      ∀ m, BIT_ISSET st2.v_secsym m = true →
        BIT_ISSET st.v_secsym m = true ∨
        ∃ r ∈ retained ecp sc i syms,
          GELF_ST_TYPE r.sym.st_info = STT_SECTION ∧ ecp.secndx r.sym.st_shndx = m := by
  induction syms with
  | nil =>
    intro i st st2 h m hm
    simp only [gen_loop, Except.ok.injEq] at h
    subst h
    exact Or.inl hm
  | cons s rest ih =>
    intro i st st2 h m hm
    obtain ⟨st1, hstep, hrest⟩ := gen_loop_cons ecp sc i s rest st st2 h
    cases hrm : is_remove_symbol ecp sc i s.sym s.name with
    | true =>
      rw [gen_step_removed ecp sc i s st hrm] at hstep
      simp only [Except.ok.injEq] at hstep
      subst hstep
      rcases ih (i + 1) _ st2 hrest m hm with h1 | ⟨r, hr, h2⟩
      · exact Or.inl h1
      · exact Or.inr ⟨r, by simpa [retained, hrm] using hr, h2⟩
    | false =>
      obtain ⟨n, buf, _, _, _, _, _, hv, _⟩ := gen_step_kept ecp sc i s st st1 hrm hstep
      rw [change_binding_type, change_binding_shndx] at hv
      rcases ih (i + 1) st1 st2 hrest m hm with h1 | ⟨r, hr, h2⟩
      · rw [hv] at h1
        by_cases ht : GELF_ST_TYPE s.sym.st_info = STT_SECTION
        · simp only [ht, if_true] at h1
          rcases BIT_ISSET_BIT_SET _ _ _ h1 with h3 | h3
          · exact Or.inr ⟨s, by simp [retained, hrm], ht, h3.symm⟩
          · exact Or.inl h3
        · simp only [ht, if_false] at h1
          exact Or.inl h1
      · exact Or.inr ⟨r, by simp [retained, hrm, hr], h2⟩

/-! ### The section-symbol loop -/

theorem COPYSYM_name_zero (sym : GElf_Sym) (name : Option Bytes) (buf : Bytes)
    (h : sym.st_name = 0) : COPYSYM_name sym name buf = .ok (0, buf) := by
  simp [COPYSYM_name, h]

theorem secsym_step_ok (ecp : elfcopy) (s : Section) (st st1 : gen_state)
    (h : secsym_step ecp s st = .ok st1) :
    st1.sy_buf.g = st.sy_buf.g ∧ st1.st_buf = st.st_buf ∧ st1.symndx = st.symndx ∧
    st1.gsym = st.gsym ∧ st1.v_secsym = st.v_secsym ∧
    st1.sym.st_other = st.sym.st_other ∧
    (needs_secsym ecp s = true → elf_ndxscn s.os ≠ SHN_UNDEF) ∧
    st1.sy_buf.l = st.sy_buf.l ++
      (if (needs_secsym ecp s && !BIT_ISSET st.v_secsym (elf_ndxscn s.os)) = true then
        [secsym_entry st.sym.st_other s] else []) := by
  unfold secsym_step at h
  by_cases h1 : (streq s.name (lit ".symtab") || streq s.name (lit ".strtab") ||
      streq s.name (lit ".shstrtab")) = true
  · simp only [h1, if_true, Except.ok.injEq] at h
    subst h
    simp [needs_secsym, h1]
  · by_cases h2 : (ecp.flags.RELOCATABLE && (s.type == SHT_REL || s.type == SHT_RELA)) = true
    · simp only [h1, h2, if_true, if_false, Except.ok.injEq, Bool.false_eq_true] at h
      subst h
      simp [needs_secsym, h2]
    · have hneed : needs_secsym ecp s = true := by
        simp only [Bool.not_eq_true] at h1 h2
        simp [needs_secsym, h1, h2]
      by_cases h3 : elf_ndxscn s.os = SHN_UNDEF
      · simp [h1, h2, h3] at h
      · simp only [h1, h2, h3, if_false, Bool.false_eq_true] at h
        cases hb : BIT_ISSET st.v_secsym (elf_ndxscn s.os) with
        | true =>
          simp only [hb, Bool.not_true, Bool.false_eq_true, if_false, Except.ok.injEq] at h
          subst h
          simp [hneed, h3]
        | false =>
          simp only [hb, Bool.not_false, if_true, COPYSYM] at h
          rw [COPYSYM_name_zero _ _ _ rfl] at h
          simp only [Except.ok.injEq] at h
          subst h
          have h3b : elf_ndxscn s.os ≠ 0 := h3
          simp [hneed, h3, secsym_entry, COPYSYM_entry, COPYSYM_shndx, h3b]

theorem secsym_loop_ok (ecp : elfcopy) (secs : List Section) :
    ∀ (st st2 : gen_state), secsym_loop ecp secs st = .ok st2 →
      st2.sy_buf.g = st.sy_buf.g ∧ st2.st_buf = st.st_buf ∧ st2.symndx = st.symndx ∧
      st2.gsym = st.gsym ∧ st2.v_secsym = st.v_secsym ∧
      st2.sym.st_other = st.sym.st_other ∧
      (∀ s ∈ secs, needs_secsym ecp s = true → elf_ndxscn s.os ≠ SHN_UNDEF) ∧
      st2.sy_buf.l = st.sy_buf.l ++
        (secs.filter (fun s => needs_secsym ecp s &&
            !BIT_ISSET st.v_secsym (elf_ndxscn s.os))).map (secsym_entry st.sym.st_other) := by
  induction secs with
  | nil =>
    intro st st2 h
    simp only [secsym_loop, Except.ok.injEq] at h
    subst h
    simp
  | cons s rest ih =>
    intro st st2 h
    unfold secsym_loop at h
    cases hs : secsym_step ecp s st with
    | error e => simp [hs] at h
    | ok st1 =>
      simp only [hs] at h
      obtain ⟨a1, a2, a3, a4, a5, a6, a7, a8⟩ := secsym_step_ok ecp s st st1 hs
      obtain ⟨b1, b2, b3, b4, b5, b6, b7, b8⟩ := ih st1 st2 h
      refine ⟨b1.trans a1, b2.trans a2, b3.trans a3, b4.trans a4, b5.trans a5,
        b6.trans a6, ?_, ?_⟩
      · intro x hx
        rcases List.mem_cons.mp hx with rfl | hx
        · exact a7
        · exact b7 x hx
      · rw [b8, a8, a5, a6, List.filter_cons]
        split_ifs <;> simp

/-! ### The rebase loop -/

theorem rebase_name_unname (g : List GElf_Sym) (k lsz : Nat) :
    (rebase_name g k lsz).map unname = g.map unname := by
  unfold rebase_name
  cases hk : g[k]? with
  | none => rfl
  | some e =>
    simp only [List.map_set]
    apply List.ext_getElem?
    intro j
    by_cases hj : k = j
    · subst hj
      rw [List.getElem?_set]
      simp only [if_true, List.length_map, List.getElem?_map, hk, Option.map_some']
      have hlt : k < g.length := by
        rcases List.getElem?_eq_some_iff.mp hk with ⟨h, _⟩
        exact h
      simp [hlt, unname]
    · rw [List.getElem?_set_ne hj]

theorem rebase_step_ok (st : gen_state) (i : Nat) :
    (rebase_step st i).sy_buf.l = st.sy_buf.l ∧
    (rebase_step st i).sy_buf.g.map unname = st.sy_buf.g.map unname ∧
    (rebase_step st i).st_buf = st.st_buf ∧
    (rebase_step st i).v_secsym = st.v_secsym := by
  unfold rebase_step
  split_ifs
  · simp
  · simp [rebase_name_unname]

theorem rebase_loop_ok (idx : List Nat) :
    ∀ st : gen_state,
      (idx.foldl rebase_step st).sy_buf.l = st.sy_buf.l ∧
      (idx.foldl rebase_step st).sy_buf.g.map unname = st.sy_buf.g.map unname ∧
      (idx.foldl rebase_step st).st_buf = st.st_buf ∧
      (idx.foldl rebase_step st).v_secsym = st.v_secsym := by
  induction idx with
  | nil => intro st; simp
  | cons i rest ih =>
    intro st
    obtain ⟨a1, a2, a3, a4⟩ := rebase_step_ok st i
    obtain ⟨b1, b2, b3, b4⟩ := ih (rebase_step st i)
    simp only [List.foldl_cons]
    exact ⟨b1.trans a1, b2.trans a2, b3.trans a3, b4.trans a4⟩

/-! ### `generate_symbols` as a whole -/

theorem generate_symbols_ok (ecp : elfcopy) (syms : List in_sym) (st : gen_state)
    (h : generate_symbols ecp syms = .ok (true, st)) :
    ∃ st1 st2, gen_loop ecp syms.length 0 syms (gen_init ecp syms.length) = .ok st1 ∧
      ¬ (st1.sy_buf.nls ≤ 1 ∧ st1.sy_buf.ngs = 0) ∧
      secsym_loop ecp ecp.v_sec st1 = .ok st2 ∧
      st = (List.range syms.length).foldl rebase_step st2 := by
  unfold generate_symbols at h
  by_cases hsc : syms.length = 0
  · simp [hsc] at h
  · simp only [hsc, if_false] at h
    cases h1 : gen_loop ecp syms.length 0 syms (gen_init ecp syms.length) with
    | error e => simp [h1] at h
    | ok st1 =>
      simp only [h1] at h
      by_cases hn : st1.sy_buf.nls ≤ 1 ∧ st1.sy_buf.ngs = 0
      · simp [hn] at h
      · simp only [hn, if_false] at h
        cases h2 : secsym_loop ecp ecp.v_sec st1 with
        | error e => simp [h2] at h
        | ok st2 =>
          simp only [h2, Except.ok.injEq, Prod.mk.injEq, true_and] at h
          exact ⟨st1, st2, rfl, hn, h2, h.symm⟩

/-- What a run of `generate_symbols` that emits a table leaves in its buffers:
the local buffer is the copied part `la` followed by the created section
symbols, the global buffer is the copied part, and every bit of `v_secsym`
that is set comes from a retained symbol of type STT_SECTION. -/
theorem generate_symbols_bufs (ecp : elfcopy) (syms : List in_sym) (st : gen_state)
    (h : generate_symbols ecp syms = .ok (true, st)) :
    ∃ la v other,
      st.sy_buf.l = la ++
        (ecp.v_sec.filter (fun s => needs_secsym ecp s &&
          !BIT_ISSET v (elf_ndxscn s.os))).map (secsym_entry other) ∧
      la.map unname =
        ((retained ecp syms.length 0 syms).filter (to_local ecp)).map (entry0 ecp) ∧
      st.sy_buf.g.map unname =
        ((retained ecp syms.length 0 syms).filter (fun s => !to_local ecp s)).map
          (entry0 ecp) ∧
      (∀ m, BIT_ISSET v m = true →
        ∃ r ∈ retained ecp syms.length 0 syms,
          GELF_ST_TYPE r.sym.st_info = STT_SECTION ∧ ecp.secndx r.sym.st_shndx = m) ∧
      (∀ s ∈ ecp.v_sec, needs_secsym ecp s = true → elf_ndxscn s.os ≠ SHN_UNDEF) := by
  obtain ⟨st1, st2, h1, _, h2, h3⟩ := generate_symbols_ok ecp syms st h
  obtain ⟨la, lg, hl, hg, hla, hlg⟩ := gen_loop_bufs ecp syms.length syms 0 _ st1 h1
  obtain ⟨b1, _, _, _, _, _, b7, b8⟩ := secsym_loop_ok ecp ecp.v_sec st1 st2 h2
  obtain ⟨c1, c2, _, _⟩ := rebase_loop_ok (List.range syms.length) st2
  rw [← h3] at c1 c2
  refine ⟨la, st1.v_secsym, st1.sym.st_other, ?_, hla, ?_, ?_, b7⟩
  · rw [c1, b8, hl]
    simp [gen_init]
  · rw [c2, b1, hg]
    simpa [gen_init] using hlg
  · intro m hm
    rcases gen_loop_secsym ecp syms.length syms 0 _ st1 h1 m hm with h4 | h4
    · simp [gen_init, BIT_ISSET_calloc] at h4
    · exact h4

theorem unname_info (e : GElf_Sym) : (unname e).st_info = e.st_info := rfl

theorem unname_shndx (e : GElf_Sym) : (unname e).st_shndx = e.st_shndx := rfl

theorem mem_of_map_unname (ecp : elfcopy) (l : List GElf_Sym) (rs : List in_sym)
    (h : l.map unname = rs.map (entry0 ecp)) (e : GElf_Sym) (he : e ∈ l) :
    ∃ r ∈ rs, unname e = entry0 ecp r := by
  have h1 : unname e ∈ l.map unname := List.mem_map_of_mem unname he
  rw [h] at h1
  obtain ⟨r, hr, hre⟩ := List.mem_map.mp h1
  exact ⟨r, hr, hre.symm⟩

theorem map_unname_mem (ecp : elfcopy) (l : List GElf_Sym) (rs : List in_sym)
    (h : l.map unname = rs.map (entry0 ecp)) (r : in_sym) (hr : r ∈ rs) :
    ∃ e ∈ l, unname e = entry0 ecp r := by
  have h1 : entry0 ecp r ∈ rs.map (entry0 ecp) := List.mem_map_of_mem (entry0 ecp) hr
  rw [← h] at h1
  obtain ⟨e, he, hee⟩ := List.mem_map.mp h1
  exact ⟨e, he, hee⟩

theorem secsym_entry_bind (other : Nat) (s : Section) :
    GELF_ST_BIND (secsym_entry other s).st_info = STB_LOCAL := by
  simp [secsym_entry, GELF_ST_BIND_INFO]

theorem secsym_entry_type (other : Nat) (s : Section) :
    GELF_ST_TYPE (secsym_entry other s).st_info = STT_SECTION := by
  simp only [secsym_entry, GELF_ST_TYPE_INFO]
  decide

theorem generate_symbols_bindings (ecp : elfcopy) (syms : List in_sym) (st : gen_state)
    (h : generate_symbols ecp syms = .ok (true, st)) :
    (∀ e ∈ st.sy_buf.l, GELF_ST_BIND e.st_info = STB_LOCAL) ∧
    (∀ e ∈ st.sy_buf.g, GELF_ST_BIND e.st_info ≠ STB_LOCAL) := by
  obtain ⟨la, v, other, hl, hla, hg, _, _⟩ := generate_symbols_bufs ecp syms st h
  constructor
  · intro e he
    rw [hl] at he
    rcases List.mem_append.mp he with he | he
    · obtain ⟨r, hr, hre⟩ := mem_of_map_unname ecp la _ hla e he
      have hloc : to_local ecp r = true := (List.mem_filter.mp hr).2
      have hinfo : e.st_info = (change_binding ecp r.sym r.name).st_info := by
        rw [← unname_info e, hre]
        rfl
      rw [hinfo]
      simpa [to_local, is_local_symbol] using hloc
    · obtain ⟨x, _, hx⟩ := List.mem_map.mp he
      rw [← hx]
      exact secsym_entry_bind other x
  · intro e he
    obtain ⟨r, hr, hre⟩ := mem_of_map_unname ecp st.sy_buf.g _ hg e he
    have hloc : (!to_local ecp r) = true := (List.mem_filter.mp hr).2
    have hinfo : e.st_info = (change_binding ecp r.sym r.name).st_info := by
      rw [← unname_info e, hre]
      rfl
    rw [hinfo]
    simpa [to_local, is_local_symbol] using hloc

theorem create_symtab_regenerated (ecp : elfcopy) (oec : Nat) (syms : List in_sym)
    (o : symtab_out) (st : gen_state)
    (h : create_symtab ecp oec syms = .ok (symtab_result.regenerated o st)) :
    ∃ ecp1 : elfcopy, generate_symbols ecp1 syms = .ok (true, st) ∧ o = symtab_write oec st := by
  unfold create_symtab at h
  cases hm : max_ndx ecp.v_sec 0 with
  | error e => simp [hm] at h
  | ok maxndx =>
    simp only [hm] at h
    by_cases hi : ecp.flags.SYMTAB_INTACT = true
    · simp [hi] at h
    · simp only [hi, if_false, Bool.false_eq_true] at h
      generalize hecp1 : ({ ecp with secndx :=
          (Function.update (Function.update ecp.secndx ecp.symtab_is (maxndx + 1))
            ecp.strtab_is (maxndx + 2)) } : elfcopy) = ecp1 at h
      cases hgen : generate_symbols ecp1 syms with
      | error e => simp [hgen] at h
      | ok r =>
        obtain ⟨b, st1⟩ := r
        cases b with
        | false => simp [hgen] at h
        | true =>
          simp only [hgen, Except.ok.injEq, symtab_result.regenerated.injEq] at h
          obtain ⟨h1, h2⟩ := h
          subst h2
          exact ⟨ecp1, hgen, h1.symm⟩

theorem symtab_entries_write (oec : Nat) (st : gen_state) :
    symtab_entries (symtab_write oec st) = st.sy_buf.l ++ st.sy_buf.g := by
  unfold symtab_entries symtab_write symbuf.nls symbuf.ngs
  cases hl : st.sy_buf.l <;> cases hg : st.sy_buf.g <;> simp

theorem entry0_shndx (ecp : elfcopy) (s : in_sym) :
    (entry0 ecp s).st_shndx = remap_shndx ecp s.sym.st_shndx := by
  simp only [entry0, COPYSYM_entry, COPYSYM_shndx, remap_shndx, change_binding_shndx]
  simp

theorem map_shndx_of_unname (ecp : elfcopy) (l : List GElf_Sym) (rs : List in_sym)
    (h : l.map unname = rs.map (entry0 ecp)) :
    l.map (fun e => e.st_shndx) = rs.map (fun s => remap_shndx ecp s.sym.st_shndx) := by
  have h1 : (l.map unname).map (fun e => e.st_shndx) =
      (rs.map (entry0 ecp)).map (fun e => e.st_shndx) := by rw [h]
  simp only [List.map_map] at h1
  have h2 : ((fun e : GElf_Sym => e.st_shndx) ∘ unname) = (fun e => e.st_shndx) := by
    funext e
    rfl
  have h3 : ((fun e : GElf_Sym => e.st_shndx) ∘ entry0 ecp) =
      (fun s => remap_shndx ecp s.sym.st_shndx) := by
    funext s
    exact entry0_shndx ecp s
  rw [h2, h3] at h1
  exact h1

theorem copied_local_length (ecp : elfcopy) (syms : List in_sym) (la : List GElf_Sym)
    (hla : la.map unname =
      ((retained ecp syms.length 0 syms).filter (to_local ecp)).map (entry0 ecp)) :
    la.length = n_copied_local ecp syms := by
  have h := congrArg List.length hla
  simpa [n_copied_local] using h

theorem ite_step_prop {α : Type} (c : Prop) [Decidable c] (v a b : α) (h : ¬ c → a = b) :
    (if c then v else a) = (if decide c = true then v else b) := by
  by_cases hc : c
  · simp [hc]
  · simp [hc, h hc]

theorem ite_step_bool {α : Type} (c : Bool) (v a b : α) (h : c = false → a = b) :
    (if c = true then v else a) = (if c = true then v else b) := by
  cases c
  · simp [h rfl]
  · simp

theorem is_needed_symbol_eq (ecp : elfcopy) (v : Bytes) (i : Nat) (s : GElf_Sym) :
    is_needed_symbol ecp v i s =
      (BIT_ISSET v i ||
        (ecp.flags.RELOCATABLE &&
          (GELF_ST_BIND s.st_info == STB_GLOBAL || GELF_ST_BIND s.st_info == STB_WEAK))) := by
  unfold is_needed_symbol is_global_symbol is_weak_symbol
  cases BIT_ISSET v i <;>
    cases ecp.flags.RELOCATABLE <;>
    cases (GELF_ST_BIND s.st_info == STB_GLOBAL) <;>
    cases (GELF_ST_BIND s.st_info == STB_WEAK) <;> rfl

/-- C1: `is_remove_symbol` answers drop exactly when the first matching row of
the ten-row priority ladder says drop, for every symbol, input index,
symbol-action list, strip mode, flag set, section map and relocation-mark
vector. -/
theorem C1_is_remove_symbol_ladder (ecp : elfcopy) (sc i : Nat) (s : GElf_Sym)
    (name : Bytes) :
    is_remove_symbol ecp sc i s name =
      first_match (ladder ecp (v_rel_get ecp sc) i s name) := by
  unfold is_remove_symbol ladder
  simp only [first_match, lookup_isSome_eq, section_removed, is_needed_symbol_eq,
    is_local_symbol, is_debug_symbol]
  refine ite_step_bool _ _ _ _ (fun _ => ?_)
  refine ite_step_bool _ _ _ _ (fun _ => ?_)
  refine ite_step_prop _ _ _ _ (fun _ => ?_)
  refine ite_step_prop _ _ _ _ (fun _ => ?_)
  refine ite_step_prop _ _ _ _ (fun _ => ?_)
  refine ite_step_bool _ _ _ _ (fun _ => ?_)
  refine ite_step_prop _ _ _ _ (fun _ => ?_)
  refine ite_step_bool _ _ _ _ (fun _ => ?_)
  simp

/-- C8 (as stated) fails: symbol 1 is marked by the surviving relocation
section and the strip mode is not STRIP_ALL, yet the filter drops it, once
because a STRIP rule names it and once because its section was removed. -/
theorem C8_counterexample :
    (BIT_ISSET (v_rel_get ex_ecp_strip_foo 2) 1 = true ∧
      ex_ecp_strip_foo.strip ≠ strip_mode.STRIP_ALL ∧
      is_remove_symbol ex_ecp_strip_foo 2 1 ex_foo.sym ex_foo.name = true) ∧
    (BIT_ISSET (v_rel_get ex_ecp_no_text 2) 1 = true ∧
      ex_ecp_no_text.strip ≠ strip_mode.STRIP_ALL ∧
      is_remove_symbol ex_ecp_no_text 2 1 ex_foo.sym ex_foo.name = true) := by
  decide

/-- C8 (amended): a symbol whose index is marked as referenced by a surviving
relocation is retained by the filter when the strip mode is not STRIP_ALL, no
STRIP rule names it and its section was not removed. -/
theorem C8_marked_symbol_retained (ecp : elfcopy) (sc i : Nat) (s : GElf_Sym)
    (name : Bytes)
    (hmark : BIT_ISSET (v_rel_get ecp sc) i = true)
    (hmode : ecp.strip ≠ strip_mode.STRIP_ALL)
    (hrule : rule_names ecp.v_symop SYMOP_STRIP name = false)
    (hsec : section_removed ecp s = false) :
    is_remove_symbol ecp sc i s name = false := by
  unfold is_remove_symbol
  simp only [lookup_isSome_eq, hrule, is_needed_symbol_eq, hmark, Bool.true_or]
  unfold section_removed at hsec
  have hsec2 : ¬ (s.st_shndx ≠ SHN_UNDEF ∧ s.st_shndx < SHN_LORESERVE ∧
      ecp.secndx s.st_shndx = 0) := by simpa using hsec
  simp only [if_neg hsec2, if_neg hmode]
  split_ifs <;> simp_all

theorem C8_marked_symbol_retained_witness :
    is_remove_symbol ex_ecp 2 1 ex_foo.sym ex_foo.name = false :=
  C8_marked_symbol_retained ex_ecp 2 1 ex_foo.sym ex_foo.name (by decide) (by decide)
    (by decide) (by decide)

/-- The round of the copy loop for a retained symbol appends one entry to the
local or to the global buffer; its type bits are those of the input symbol,
and when the input binding is local, global or weak its binding is the one the
claim states. -/
theorem gen_step_binding (ecp : elfcopy) (sc i : Nat) (s : in_sym) (st st1 : gen_state)
    (hkeep : is_remove_symbol ecp sc i s.sym s.name = false)
    (hstep : gen_step ecp sc i s st = .ok st1) :
    ∃ e, ((st1.sy_buf.l = st.sy_buf.l ++ [e] ∧ st1.sy_buf.g = st.sy_buf.g) ∨
          (st1.sy_buf.g = st.sy_buf.g ++ [e] ∧ st1.sy_buf.l = st.sy_buf.l)) ∧
      GELF_ST_TYPE e.st_info = GELF_ST_TYPE s.sym.st_info ∧
      ((GELF_ST_BIND s.sym.st_info = STB_LOCAL ∨ GELF_ST_BIND s.sym.st_info = STB_GLOBAL ∨
          GELF_ST_BIND s.sym.st_info = STB_WEAK) →
        GELF_ST_BIND e.st_info =
          binding_claimed ecp (GELF_ST_BIND s.sym.st_info) s.sym.st_shndx s.name) := by
  obtain ⟨n, buf, _, hsy, _⟩ := gen_step_kept ecp sc i s st st1 hkeep hstep
  refine ⟨COPYSYM_entry ecp (change_binding ecp s.sym s.name) 0 n, ?_, ?_, ?_⟩
  · by_cases hl : is_local_symbol (change_binding ecp s.sym s.name) = true
    · left
      simp [hsy, hl]
    · right
      simp [hsy, hl]
  · simp only [COPYSYM_entry, change_binding_type]
  · intro hb
    simp only [COPYSYM_entry, change_binding_bind ecp s.sym s.name hb]

/-- C7 fails on the code: the branch of WEAKEN, LOCALIZE and KEEP_GLOBAL is
entered for a global or weak binding, and every other binding takes the
branch of GLOBALIZE, which the source comments as the branch of a local
binding. For the retained symbol `uniq` of binding 10 the claim makes the
binding weak under WEAKEN_ALL, and the code leaves 10; under a GLOBALIZE rule
the claim leaves 10 (the binding is not local), and the code makes it global.
For a binding that is local, global or weak the output binding is the one the
claim states, and the type bits are unchanged for every binding. -/
theorem C7_binding_neither_local_global_weak :
    (is_remove_symbol ex_ecp_weaken_all 2 1 ex_uniq.sym ex_uniq.name = false ∧
      GELF_ST_BIND ex_uniq.sym.st_info = 10 ∧
      GELF_ST_BIND (change_binding ex_ecp_weaken_all ex_uniq.sym ex_uniq.name).st_info = 10 ∧
      binding_claimed ex_ecp_weaken_all (GELF_ST_BIND ex_uniq.sym.st_info)
        ex_uniq.sym.st_shndx ex_uniq.name = STB_WEAK) ∧
    (is_remove_symbol ex_ecp_globalize 2 1 ex_uniq.sym ex_uniq.name = false ∧
      GELF_ST_BIND (change_binding ex_ecp_globalize ex_uniq.sym ex_uniq.name).st_info
        = STB_GLOBAL ∧
      binding_claimed ex_ecp_globalize (GELF_ST_BIND ex_uniq.sym.st_info)
        ex_uniq.sym.st_shndx ex_uniq.name = 10) ∧
    (gen_step ex_ecp_weaken_all 2 1 ex_foo (gen_init ex_ecp_weaken_all 2) = .ok ex_step_foo ∧
      GELF_ST_BIND ex_foo.sym.st_info = STB_GLOBAL ∧
      binding_claimed ex_ecp_weaken_all (GELF_ST_BIND ex_foo.sym.st_info)
        ex_foo.sym.st_shndx ex_foo.name = STB_WEAK) ∧
    ∀ (ecp : elfcopy) (sc i : Nat) (s : in_sym) (st st1 : gen_state),
      is_remove_symbol ecp sc i s.sym s.name = false →
      gen_step ecp sc i s st = .ok st1 →
      ∃ e, ((st1.sy_buf.l = st.sy_buf.l ++ [e] ∧ st1.sy_buf.g = st.sy_buf.g) ∨
            (st1.sy_buf.g = st.sy_buf.g ++ [e] ∧ st1.sy_buf.l = st.sy_buf.l)) ∧
        GELF_ST_TYPE e.st_info = GELF_ST_TYPE s.sym.st_info ∧
        ((GELF_ST_BIND s.sym.st_info = STB_LOCAL ∨ GELF_ST_BIND s.sym.st_info = STB_GLOBAL ∨
            GELF_ST_BIND s.sym.st_info = STB_WEAK) →
          GELF_ST_BIND e.st_info =
            binding_claimed ecp (GELF_ST_BIND s.sym.st_info) s.sym.st_shndx s.name) :=
  ⟨by decide, by decide, ⟨rfl, by decide, by decide⟩, gen_step_binding⟩

/-- C2: when `create_symtab` regenerates the table (SYMTAB_INTACT is not set and
`generate_symbols` emits a table), with `nls` the number of entries of the
local buffer, every entry of the output `.symtab` at an index below `nls` has
binding STB_LOCAL, every entry at an index from `nls` on has another binding,
and the `sh_info` written to the `.symtab` header is `nls`. -/
theorem C2_locals_before_globals (ecp : elfcopy) (oec : Nat) (syms : List in_sym)
    (o : symtab_out) (st : gen_state)
    (h : create_symtab ecp oec syms = .ok (symtab_result.regenerated o st)) :
    (∀ i e, (symtab_entries o)[i]? = some e →
      (i < st.sy_buf.nls → GELF_ST_BIND e.st_info = STB_LOCAL) ∧
      (st.sy_buf.nls ≤ i → GELF_ST_BIND e.st_info ≠ STB_LOCAL)) ∧
    o.shy_sh_info = st.sy_buf.nls := by
  obtain ⟨ecp1, hgen, ho⟩ := create_symtab_regenerated ecp oec syms o st h
  obtain ⟨hl, hg⟩ := generate_symbols_bindings ecp1 syms st hgen
  subst ho
  refine ⟨?_, rfl⟩
  intro i e hie
  rw [symtab_entries_write] at hie
  unfold symbuf.nls
  constructor
  · intro hi
    rw [List.getElem?_append_left hi] at hie
    exact hl e (List.getElem?_mem hie)
  · intro hi
    rw [List.getElem?_append_right hi] at hie
    exact hg e (List.getElem?_mem hie)

theorem C2_locals_before_globals_witness :
    create_symtab ex_ecp ELFCLASS64 ex_syms =
      .ok (symtab_result.regenerated (symtab_write ELFCLASS64 ex_gen_st) ex_gen_st) ∧
    (∀ i e, (symtab_entries (symtab_write ELFCLASS64 ex_gen_st))[i]? = some e →
      (i < ex_gen_st.sy_buf.nls → GELF_ST_BIND e.st_info = STB_LOCAL) ∧
      (ex_gen_st.sy_buf.nls ≤ i → GELF_ST_BIND e.st_info ≠ STB_LOCAL)) ∧
    (symtab_write ELFCLASS64 ex_gen_st).shy_sh_info = ex_gen_st.sy_buf.nls :=
  ⟨rfl, C2_locals_before_globals ex_ecp ELFCLASS64 ex_syms
    (symtab_write ELFCLASS64 ex_gen_st) ex_gen_st rfl⟩

/-- C4: whenever `generate_symbols` emits a table, the `st_shndx` of the
entries copied from the input are, in order, the remapped section indices of
the retained input symbols: `secndx[st_shndx]` for an input `st_shndx` that is
neither SHN_UNDEF nor at least SHN_LORESERVE, and the input `st_shndx` itself
for SHN_UNDEF and the special values. The copied entries are the first
`n_copied_local` entries of the local buffer and the whole global buffer. -/
theorem C4_section_index_remap (ecp : elfcopy) (syms : List in_sym) (st : gen_state)
    (h : generate_symbols ecp syms = .ok (true, st)) :
    (st.sy_buf.l.take (n_copied_local ecp syms)).map (fun e => e.st_shndx) =
      ((retained ecp syms.length 0 syms).filter (to_local ecp)).map
        (fun s => remap_shndx ecp s.sym.st_shndx) ∧
    st.sy_buf.g.map (fun e => e.st_shndx) =
      ((retained ecp syms.length 0 syms).filter (fun s => !to_local ecp s)).map
        (fun s => remap_shndx ecp s.sym.st_shndx) := by
  obtain ⟨la, v, other, hl, hla, hg, _, _⟩ := generate_symbols_bufs ecp syms st h
  constructor
  · have hlen := copied_local_length ecp syms la hla
    rw [hl, ← hlen, List.take_left]
    exact map_shndx_of_unname ecp la _ hla
  · exact map_shndx_of_unname ecp st.sy_buf.g _ hg

theorem C4_section_index_remap_witness :
    generate_symbols ex_ecp ex_syms = .ok (true, ex_gen_st) ∧
    (ex_gen_st.sy_buf.l.take (n_copied_local ex_ecp ex_syms)).map (fun e => e.st_shndx) =
      ((retained ex_ecp ex_syms.length 0 ex_syms).filter (to_local ex_ecp)).map
        (fun s => remap_shndx ex_ecp s.sym.st_shndx) ∧
    ex_gen_st.sy_buf.g.map (fun e => e.st_shndx) =
      ((retained ex_ecp ex_syms.length 0 ex_syms).filter (fun s => !to_local ex_ecp s)).map
        (fun s => remap_shndx ex_ecp s.sym.st_shndx) :=
  ⟨rfl, C4_section_index_remap ex_ecp ex_syms ex_gen_st rfl⟩

/-- C9 (as stated) fails: a table whose entry 0 is the local symbol `loc`, not
the reserved symbol, is not rejected; a table is emitted and its entry 0 is the
copy of `loc`. A table that has the reserved symbol loses it at index 0 when a
GLOBALIZE rule or a STRIP rule names the empty name. -/
theorem C9_counterexample :
    (ex_loc.sym ≠ sym0 ∧
      (emitted_table (generate_symbols ex_ecp [ex_loc, ex_foo])).map (fun t => t[0]?) =
        some (some { st_name := 1, st_info := 1, st_other := 0, st_shndx := 2,
                     st_value := 8196, st_size := 4 })) ∧
    (emitted_table (generate_symbols (ex_ecp_rule_empty SYMOP_GLOBALIZE) ex_syms)).map
        (fun t => t[0]?) =
      some (some { st_name := 1, st_info := 1, st_other := 0, st_shndx := 2,
                   st_value := 8196, st_size := 4 }) ∧
    (emitted_table (generate_symbols (ex_ecp_rule_empty SYMOP_STRIP) ex_syms)).map
        (fun t => t[0]?) =
      some (some { st_name := 1, st_info := 1, st_other := 0, st_shndx := 2,
                   st_value := 8196, st_size := 4 }) := by
  decide

/-- C9 (amended): for every input symbol table whose entry 0 is the all-zero
reserved symbol, and every action program in which the name of that entry is
named by no GLOBALIZE rule and by no STRIP rule unless a KEEP rule names it
too, whenever `generate_symbols` emits a table the entry at output index 0 is
the all-zero reserved symbol. -/
theorem C9_reserved_symbol_first (ecp : elfcopy) (s0 : in_sym) (rest : List in_sym)
    (st : gen_state)
    (h : generate_symbols ecp (s0 :: rest) = .ok (true, st))
    (hz : s0.sym = sym0)
    (hstrip : rule_names ecp.v_symop SYMOP_KEEP s0.name = true ∨
      rule_names ecp.v_symop SYMOP_STRIP s0.name = false)
    (hglob : rule_names ecp.v_symop SYMOP_GLOBALIZE s0.name = false) :
    (st.sy_buf.l ++ st.sy_buf.g)[0]? = some sym0 := by
  obtain ⟨st1, st2, h1, _, h2, h3⟩ := generate_symbols_ok ecp (s0 :: rest) st h
  obtain ⟨stA, hstep, hrest⟩ := gen_loop_cons ecp _ 0 s0 rest _ st1 h1
  have hrm : is_remove_symbol ecp (s0 :: rest).length 0 s0.sym s0.name = false := by
    unfold is_remove_symbol
    simp only [lookup_isSome_eq]
    rcases hstrip with hk | hs
    · simp [hk]
    · simp [hs, hz]
  have hcb : change_binding ecp s0.sym s0.name = sym0 := by
    unfold change_binding
    rw [hz]
    have hgw : (is_global_symbol sym0 || is_weak_symbol sym0) = false := by decide
    simp only [hgw, Bool.false_eq_true, if_false, lookup_isSome_eq, hglob]
  obtain ⟨n, buf, hname, hsy, _⟩ := gen_step_kept ecp _ 0 s0 _ stA hrm hstep
  rw [hcb] at hname hsy
  rw [COPYSYM_name_zero sym0 _ _ rfl] at hname
  simp only [Except.ok.injEq, Prod.mk.injEq] at hname
  have hn : n = 0 := hname.1.symm
  subst hn
  have hloc : is_local_symbol sym0 = true := by decide
  simp only [hloc, if_true] at hsy
  have he : COPYSYM_entry ecp sym0 0 0 = sym0 := by
    simp [COPYSYM_entry, COPYSYM_shndx, sym0]
  obtain ⟨la, lg, hl, _, _, _⟩ := gen_loop_bufs ecp _ rest 1 stA st1 hrest
  obtain ⟨_, _, _, _, _, _, _, b8⟩ := secsym_loop_ok ecp ecp.v_sec st1 st2 h2
  obtain ⟨c1, _, _, _⟩ := rebase_loop_ok (List.range (s0 :: rest).length) st2
  rw [← h3] at c1
  rw [c1, b8, hl, hsy, he]
  simp [gen_init]

theorem C9_reserved_symbol_first_witness :
    generate_symbols ex_ecp (ex_sym0 :: [ex_loc, ex_foo]) = .ok (true, ex_gen_st) ∧
    (ex_gen_st.sy_buf.l ++ ex_gen_st.sy_buf.g)[0]? = some sym0 :=
  ⟨rfl, C9_reserved_symbol_first ex_ecp ex_sym0 [ex_loc, ex_foo] ex_gen_st rfl rfl
    (Or.inr (by decide)) (by decide)⟩

/-- C10: whenever `generate_symbols` emits a table, for every output section
of the section list other than `.symtab`, `.strtab`, `.shstrtab` and, when the
output is relocatable, SHT_REL/SHT_RELA sections, the emitted table contains a
symbol of type STT_SECTION whose `st_shndx` is the output index of the section;
and when no retained input symbol of type STT_SECTION maps to the section,
exactly one created symbol has that `st_shndx`, with local binding, type
STT_SECTION, name offset 0, size 0 and the address of the section as value.
The section map sends SHN_UNDEF to SHN_UNDEF, a retained symbol of type
STT_SECTION has an `st_shndx` below SHN_LORESERVE, and the sections that get a
section symbol have distinct output indices. -/
theorem C10_section_symbols (ecp : elfcopy) (syms : List in_sym) (st : gen_state)
    (h : generate_symbols ecp syms = .ok (true, st))
    (h0 : ecp.secndx SHN_UNDEF = SHN_UNDEF)
    (hres : ∀ r ∈ retained ecp syms.length 0 syms,
      GELF_ST_TYPE r.sym.st_info = STT_SECTION → r.sym.st_shndx < SHN_LORESERVE)
    (hnd : ((ecp.v_sec.filter (needs_secsym ecp)).map (fun s => elf_ndxscn s.os)).Nodup) :
    ∀ s ∈ ecp.v_sec, needs_secsym ecp s = true →
      (∃ e ∈ st.sy_buf.l ++ st.sy_buf.g,
        GELF_ST_TYPE e.st_info = STT_SECTION ∧ e.st_shndx = elf_ndxscn s.os) ∧
      ((∀ r ∈ retained ecp syms.length 0 syms,
          ¬ (GELF_ST_TYPE r.sym.st_info = STT_SECTION ∧
              ecp.secndx r.sym.st_shndx = elf_ndxscn s.os)) →
        ((synthesized ecp syms st).map (fun e => e.st_shndx)).count (elf_ndxscn s.os) = 1 ∧
        ∀ e ∈ synthesized ecp syms st, e.st_shndx = elf_ndxscn s.os →
          GELF_ST_BIND e.st_info = STB_LOCAL ∧ GELF_ST_TYPE e.st_info = STT_SECTION ∧
          e.st_name = 0 ∧ e.st_size = 0 ∧ e.st_value = s.vma) := by
  obtain ⟨la, v, other, hl, hla, hg, hv, hndx⟩ := generate_symbols_bufs ecp syms st h
  intro s hs hneed
  have hne : elf_ndxscn s.os ≠ SHN_UNDEF := hndx s hs hneed
  constructor
  · cases hb : BIT_ISSET v (elf_ndxscn s.os) with
    | false =>
      refine ⟨secsym_entry other s, ?_, secsym_entry_type other s, rfl⟩
      rw [hl]
      apply List.mem_append_left
      apply List.mem_append_right
      apply List.mem_map_of_mem
      exact List.mem_filter.mpr ⟨hs, by simp [hneed, hb]⟩
    | true =>
      obtain ⟨r, hr, hrt, hrs⟩ := hv _ hb
      have hlt := hres r hr hrt
      have hnz : r.sym.st_shndx ≠ SHN_UNDEF := by
        intro hz
        rw [hz, h0] at hrs
        exact hne hrs.symm
      have hremap : remap_shndx ecp r.sym.st_shndx = elf_ndxscn s.os := by
        unfold remap_shndx
        have : ¬ (r.sym.st_shndx = SHN_UNDEF ∨ r.sym.st_shndx ≥ SHN_LORESERVE) := by
          intro hc
          rcases hc with hc | hc
          · exact hnz hc
          · exact absurd hlt (Nat.not_lt.mpr hc)
        rw [if_neg this]
        exact hrs
      have hfind : ∃ e ∈ st.sy_buf.l ++ st.sy_buf.g, unname e = entry0 ecp r := by
        cases hloc : to_local ecp r with
        | true =>
          obtain ⟨e, he, hee⟩ := map_unname_mem ecp la _ hla r
            (List.mem_filter.mpr ⟨hr, hloc⟩)
          refine ⟨e, ?_, hee⟩
          rw [hl]
          exact List.mem_append_left _ (List.mem_append_left _ he)
        | false =>
          obtain ⟨e, he, hee⟩ := map_unname_mem ecp st.sy_buf.g _ hg r
            (List.mem_filter.mpr ⟨hr, by simp [hloc]⟩)
          exact ⟨e, List.mem_append_right _ he, hee⟩
      obtain ⟨e, he, hee⟩ := hfind
      refine ⟨e, he, ?_, ?_⟩
      · rw [← unname_info e, hee]
        simp only [entry0, COPYSYM_entry, change_binding_type]
        exact hrt
      · rw [← unname_shndx e, hee, entry0_shndx]
        exact hremap
  · intro hno
    have hb : BIT_ISSET v (elf_ndxscn s.os) = false := by
      cases hb : BIT_ISSET v (elf_ndxscn s.os) with
      | false => rfl
      | true =>
        obtain ⟨r, hr, hrt, hrs⟩ := hv _ hb
        exact absurd ⟨hrt, hrs⟩ (hno r hr)
    have hsyn : synthesized ecp syms st =
        ((ecp.v_sec.filter (needs_secsym ecp)).filter
          (fun s => !BIT_ISSET v (elf_ndxscn s.os))).map (secsym_entry other) := by
      unfold synthesized
      rw [hl, List.drop_left' (copied_local_length ecp syms la hla), List.filter_filter]
      congr 1
      apply List.filter_congr
      intro x _
      exact Bool.and_comm _ _
    have hmem : s ∈ (ecp.v_sec.filter (needs_secsym ecp)).filter
        (fun s => !BIT_ISSET v (elf_ndxscn s.os)) :=
      List.mem_filter.mpr ⟨List.mem_filter.mpr ⟨hs, hneed⟩, by simp [hb]⟩
    constructor
    · have hmap : (synthesized ecp syms st).map (fun e => e.st_shndx) =
          ((ecp.v_sec.filter (needs_secsym ecp)).filter
            (fun s => !BIT_ISSET v (elf_ndxscn s.os))).map (fun s => elf_ndxscn s.os) := by
        rw [hsyn, List.map_map]
        rfl
      rw [hmap]
      apply List.count_eq_one_of_mem
      · exact List.Nodup.sublist ((List.filter_sublist _).map _) hnd
      · exact List.mem_map_of_mem _ hmem
    · intro e he hes
      rw [hsyn] at he
      obtain ⟨x, hx, hxe⟩ := List.mem_map.mp he
      have hxs : x = s := by
        apply List.inj_on_of_nodup_map hnd (List.mem_filter.mp hx).1
          (List.mem_filter.mpr ⟨hs, hneed⟩)
        rw [← hes, ← hxe]
        rfl
      subst hxs
      rw [← hxe]
      exact ⟨secsym_entry_bind other x, secsym_entry_type other x, rfl, rfl, rfl⟩

theorem C10_section_symbols_witness :
    generate_symbols ex_ecp ex_syms_sec = .ok (true, ex_gen_st_sec) ∧
    ex_ecp.secndx SHN_UNDEF = SHN_UNDEF ∧
    ∀ s ∈ ex_ecp.v_sec, needs_secsym ex_ecp s = true →
      (∃ e ∈ ex_gen_st_sec.sy_buf.l ++ ex_gen_st_sec.sy_buf.g,
        GELF_ST_TYPE e.st_info = STT_SECTION ∧ e.st_shndx = elf_ndxscn s.os) ∧
      ((∀ r ∈ retained ex_ecp ex_syms_sec.length 0 ex_syms_sec,
          ¬ (GELF_ST_TYPE r.sym.st_info = STT_SECTION ∧
              ex_ecp.secndx r.sym.st_shndx = elf_ndxscn s.os)) →
        ((synthesized ex_ecp ex_syms_sec ex_gen_st_sec).map
          (fun e => e.st_shndx)).count (elf_ndxscn s.os) = 1 ∧
        ∀ e ∈ synthesized ex_ecp ex_syms_sec ex_gen_st_sec, e.st_shndx = elf_ndxscn s.os →
          GELF_ST_BIND e.st_info = STB_LOCAL ∧ GELF_ST_TYPE e.st_info = STT_SECTION ∧
          e.st_name = 0 ∧ e.st_size = 0 ∧ e.st_value = s.vma) :=
  ⟨rfl, rfl,
    C10_section_symbols ex_ecp ex_syms_sec ex_gen_st_sec rfl rfl (by decide) (by decide)⟩

/-- C3 fails on the code: for the table {reserved, `uniq` of binding 10, `loc`}
a table is emitted with `nls` = 4; `uniq` is emitted into the global buffer, at
output index 4, but `symndx[1]` is 1, the output index of the copy of `loc`. -/
theorem C3_symndx_other_binding :
    (emitted_state (generate_symbols ex_ecp [ex_sym0, ex_uniq, ex_loc])).map
      (fun st => (st.sy_buf.nls, st.symndx,
        (st.sy_buf.l ++ st.sy_buf.g).map (fun e => e.st_value))) =
      some (4, [0, 1, 1], [0, 8196, 4096, 8192, 8200]) := by
  decide

/-- C5 fails on the code: for the table {reserved, global symbol without a
name} the emitted entry of the global symbol, at output index 3, has the final
`st_name` 1, while the string table has size `lsz + gsz` = 1 and consists of
one NUL byte. -/
theorem C5_unnamed_global_name_offset :
    (regenerated_out (create_symtab ex_ecp ELFCLASS64 [ex_sym0, ex_anon])).map
      (fun o => ((symtab_entries o).map (fun e => e.st_name), o.sht_sh_size,
        strtab_bytes o)) =
      some ([0, 0, 0, 1], 1, [0]) := by
  decide

/-- C6 fails on the code: for the table {reserved, global symbol without a
name, `foo`} the string at the final `st_name` of the symbol without a name is
`foo`, not the empty string; and after the rules KEEP `foo`, KEEP `other`,
REDEF `foo` to `bar` the queue holds the single rule `foo` with a NULL new
name, and the run for {reserved, `foo`} ends in a NULL dereference instead of
emitting `bar`; after KEEP `foo`, REDEF `foo` to `bar` the links form a cycle. -/
theorem C6_emitted_names :
    (regenerated_out (create_symtab ex_ecp ELFCLASS64 [ex_sym0, ex_anon, ex_foo])).map
      (fun o => ((symtab_entries o).map (fun e => string_at (strtab_bytes o) e.st_name))) =
      some [[], [], [], lit "foo", lit "foo"] ∧
    ex_queue_redef.bind stailq_list =
      some [{ name := lit "foo", newname := none, op := SYMOP_KEEP ||| SYMOP_REDEF }] ∧
    generate_symbols ex_ecp_redef [ex_sym0, ex_foo] = .error Fault.segv ∧
    ex_queue_redef2.isSome = true ∧
    ex_queue_redef2.bind stailq_list = none :=
  ⟨by decide, by decide, rfl, by decide, by decide⟩

theorem retained_sublist (ecp : elfcopy) (sc : Nat) (syms : List in_sym) :
    ∀ i, List.Sublist (retained ecp sc i syms) syms := by
  induction syms with
  | nil => intro i; simp [retained]
  | cons s rest ih =>
    intro i
    unfold retained
    split_ifs
    · exact List.Sublist.cons s (ih (i + 1))
    · exact List.Sublist.cons₂ s (ih (i + 1))

/-- C11: after the copy loop of `generate_symbols` the local buffer lists, in
input order, exactly the retained symbols whose binding after the binding
changes is STB_LOCAL, and the global buffer lists, in input order, exactly the
retained symbols whose binding after the changes is not STB_LOCAL (entries
compared up to their name offset; the retained symbols are a sublist of the
input table). When a table is emitted, the local buffer is that list followed
only by created section symbols and the global buffer holds the same entries. -/
theorem C11_buckets_in_input_order (ecp : elfcopy) (syms : List in_sym) (st1 : gen_state)
    (h : gen_loop ecp syms.length 0 syms (gen_init ecp syms.length) = .ok st1) :
    List.Sublist (retained ecp syms.length 0 syms) syms ∧
    st1.sy_buf.l.map unname =
      ((retained ecp syms.length 0 syms).filter (to_local ecp)).map (entry0 ecp) ∧
    st1.sy_buf.g.map unname =
      ((retained ecp syms.length 0 syms).filter (fun s => !to_local ecp s)).map
        (entry0 ecp) ∧
    ∀ st, generate_symbols ecp syms = .ok (true, st) →
      (∃ created, st.sy_buf.l = st1.sy_buf.l ++ created ∧
        ∀ e ∈ created, ∃ s ∈ ecp.v_sec, ∃ other, e = secsym_entry other s) ∧
      st.sy_buf.g.map unname = st1.sy_buf.g.map unname := by
  obtain ⟨la, lg, hl, hg, hla, hlg⟩ := gen_loop_bufs ecp syms.length syms 0 _ st1 h
  have hl2 : st1.sy_buf.l = la := by simpa [gen_init] using hl
  have hg2 : st1.sy_buf.g = lg := by simpa [gen_init] using hg
  refine ⟨retained_sublist ecp syms.length syms 0, by rw [hl2]; exact hla,
    by rw [hg2]; exact hlg, ?_⟩
  intro st hst
  obtain ⟨st1b, st2, h1, _, h2, h3⟩ := generate_symbols_ok ecp syms st hst
  rw [h] at h1
  simp only [Except.ok.injEq] at h1
  subst h1
  obtain ⟨b1, _, _, _, _, _, _, b8⟩ := secsym_loop_ok ecp ecp.v_sec st1 st2 h2
  obtain ⟨c1, c2, _, _⟩ := rebase_loop_ok (List.range syms.length) st2
  rw [← h3] at c1 c2
  constructor
  · refine ⟨_, by rw [c1, b8], ?_⟩
    intro e he
    obtain ⟨s, hs, hse⟩ := List.mem_map.mp he
    exact ⟨s, (List.mem_filter.mp hs).1, _, hse.symm⟩
  · rw [c2, b1]

theorem C11_buckets_in_input_order_witness :
    gen_loop ex_ecp ex_syms.length 0 ex_syms (gen_init ex_ecp ex_syms.length) =
      .ok ex_loop_st ∧
    List.Sublist (retained ex_ecp ex_syms.length 0 ex_syms) ex_syms ∧
    ex_loop_st.sy_buf.l.map unname =
      ((retained ex_ecp ex_syms.length 0 ex_syms).filter (to_local ex_ecp)).map
        (entry0 ex_ecp) ∧
    ex_loop_st.sy_buf.g.map unname =
      ((retained ex_ecp ex_syms.length 0 ex_syms).filter
        (fun s => !to_local ex_ecp s)).map (entry0 ex_ecp) ∧
    ∀ st, generate_symbols ex_ecp ex_syms = .ok (true, st) →
      (∃ created, st.sy_buf.l = ex_loop_st.sy_buf.l ++ created ∧
        ∀ e ∈ created, ∃ s ∈ ex_ecp.v_sec, ∃ other, e = secsym_entry other s) ∧
      st.sy_buf.g.map unname = ex_loop_st.sy_buf.g.map unname :=
  ⟨rfl, C11_buckets_in_input_order ex_ecp ex_syms ex_loop_st rfl⟩

/-! ### The relocation marks -/

/-- A section with two data descriptors, which `elf_getdata` yields only for
a section whose data were added in memory: the entry of the first descriptor
has symbol index 20, at least `sh_size` = 16, so the guard `n < sh.sh_size`
ends the loop and the entry of the second descriptor is not read. -/
theorem mark_data_second_descriptor :
    file_data ex_rel_two_blocks = false ∧
    BIT_ISSET (mark_symbols ex_ecp_two_blocks 32) 5 = false ∧
    BIT_ISSET (mark_symbols ex_ecp_two_blocks 32) 20 = true := by
  decide

theorem BIT_SET_length (v : Bytes) (n : Nat) : (BIT_SET v n).length = v.length := by
  unfold BIT_SET
  exact List.length_set _ _ _

theorem BIT_ISSET_BIT_SET_self (v : Bytes) (n : Nat) (h : n >>> 3 < v.length) :
    BIT_ISSET (BIT_SET v n) n = true := by
  unfold BIT_ISSET BIT_SET
  simp only [Nat.one_shiftLeft, bne_iff_ne, ne_eq, List.getD_eq_getElem?_getD]
  rw [List.getElem?_set_self h]
  simp only [Option.getD_some]
  apply (and_two_pow_ne_zero _ _).mpr
  rw [Nat.testBit_or, Nat.testBit_two_pow_self]
  simp

theorem BIT_ISSET_BIT_SET_mono (v : Bytes) (n m : Nat) (h : BIT_ISSET v m = true) :
    BIT_ISSET (BIT_SET v n) m = true := by
  unfold BIT_ISSET BIT_SET at *
  simp only [Nat.one_shiftLeft, bne_iff_ne, ne_eq, List.getD_eq_getElem?_getD] at *
  by_cases hb : n >>> 3 = m >>> 3
  · rw [hb, List.getElem?_set]
    by_cases hlt : m >>> 3 < v.length
    · simp only [if_true, hlt, Option.getD_some]
      apply (and_two_pow_ne_zero _ _).mpr
      rw [Nat.testBit_or]
      have h2 := (and_two_pow_ne_zero _ _).mp h
      rw [List.getElem?_eq_getElem hlt] at h2
      simp only [Option.getD_some] at h2
      rw [List.getElem?_eq_getElem hlt]
      simp only [Option.getD_some]
      rw [h2]
      rfl
    · have hnone : v[m >>> 3]? = none := List.getElem?_eq_none (by omega)
      rw [hnone] at h
      simp at h
  · rw [List.getElem?_set_ne hb]
    exact h

theorem BIT_ISSET_BIT_SET_iff (v : Bytes) (n m : Nat) (h : n >>> 3 < v.length) :
    BIT_ISSET (BIT_SET v n) m = true ↔ (m = n ∨ BIT_ISSET v m = true) := by
  constructor
  · exact BIT_ISSET_BIT_SET v n m
  · intro hm
    rcases hm with hm | hm
    · rw [hm]
      exact BIT_ISSET_BIT_SET_self v n h
    · exact BIT_ISSET_BIT_SET_mono v n m hm

theorem bit_in_bounds (sc r : Nat) (h : r < sc) : r >>> 3 < (sc + 7) / 8 := by
  rw [Nat.shiftRight_eq_div_pow]
  have : (2 : Nat) ^ 3 = 8 := by norm_num
  rw [this]
  omega

/-- The loop over the entries of one descriptor marks the symbol indices
`0 < r < sc` of its entries and no other bit. -/
theorem mark_entries_marks (sc : Nat) :
    ∀ (rs : List Nat) (v : Bytes) (n : Nat), v.length = (sc + 7) / 8 →
      (mark_entries sc rs v n).1.length = (sc + 7) / 8 ∧
      ∀ m, BIT_ISSET (mark_entries sc rs v n).1 m = true ↔
        (BIT_ISSET v m = true ∨ (0 < m ∧ m < sc ∧ m ∈ rs)) := by
  intro rs
  induction rs with
  | nil =>
    intro v n hv
    simp [mark_entries, hv]
  | cons r rest ih =>
    intro v n hv
    unfold mark_entries
    by_cases hr : 0 < r ∧ r < sc
    · rw [if_pos hr]
      have hlen : (BIT_SET v r).length = (sc + 7) / 8 := by rw [BIT_SET_length, hv]
      obtain ⟨h1, h2⟩ := ih (BIT_SET v r) r hlen
      refine ⟨h1, ?_⟩
      intro m
      rw [h2 m, BIT_ISSET_BIT_SET_iff v r m (by rw [hv]; exact bit_in_bounds sc r hr.2)]
      constructor
      · intro h
        rcases h with (h | h) | h
        · right
          rw [h]
          exact ⟨hr.1, hr.2, List.mem_cons_self _ _⟩
        · left; exact h
        · right
          exact ⟨h.1, h.2.1, List.mem_cons_of_mem _ h.2.2⟩
      · intro h
        rcases h with h | ⟨h1, h2, h3⟩
        · left; right; exact h
        · rcases List.mem_cons.mp h3 with h4 | h4
          · left; left; exact h4
          · right; exact ⟨h1, h2, h4⟩
    · rw [if_neg hr]
      obtain ⟨h1, h2⟩ := ih v r hv
      refine ⟨h1, ?_⟩
      intro m
      rw [h2 m]
      constructor
      · intro h
        rcases h with h | h
        · left; exact h
        · right
          exact ⟨h.1, h.2.1, List.mem_cons_of_mem _ h.2.2⟩
      · intro h
        rcases h with h | ⟨h1, h2, h3⟩
        · left; exact h
        · rcases List.mem_cons.mp h3 with h4 | h4
          · exact absurd ⟨h4 ▸ h1, h4 ▸ h2⟩ hr
          · right; exact ⟨h1, h2, h4⟩

/-- The loop over the descriptors of a section of a file marks the symbol
indices of all entries of the section. -/
theorem mark_data_marks (sc : Nat) (sh : in_scn) (v : Bytes) (hfile : file_data sh = true)
    (hv : v.length = (sc + 7) / 8) :
    (mark_data sc sh sh.data v 0).length = (sc + 7) / 8 ∧
    ∀ m, BIT_ISSET (mark_data sc sh sh.data v 0) m = true ↔
      (BIT_ISSET v m = true ∨ (0 < m ∧ m < sc ∧
        sh.data.any (fun d => (d.r_sym.take (d.d_size / sh.sh_entsize)).contains m) = true)) := by
  unfold file_data at hfile
  cases hd : sh.data with
  | nil => simp [mark_data, hv]
  | cons d rest =>
    cases rest with
    | cons d2 rest2 => simp [hd] at hfile
    | nil =>
      simp only [hd, beq_iff_eq] at hfile
      by_cases hsz : 0 < sh.sh_size
      · simp only [mark_data, if_pos hsz]
        obtain ⟨h1, h2⟩ := mark_entries_marks sc
          (d.r_sym.take (d.d_size / sh.sh_entsize)) v 0 hv
        refine ⟨h1, ?_⟩
        intro m
        rw [h2 m]
        simp
      · have hz : sh.sh_size = 0 := by omega
        simp only [mark_data, if_neg hsz]
        refine ⟨hv, ?_⟩
        intro m
        simp [hfile, hz]

/-- The test that `mark_symbols` and the spec make on a section: a relocation
section that survives and is linked to the symbol table. -/
theorem mark_scns_marks (ecp : elfcopy) (sc : Nat) :
    ∀ (secs : List in_scn) (v : Bytes), (∀ sh ∈ secs, file_data sh = true) →
      v.length = (sc + 7) / 8 →
      ∀ m, BIT_ISSET (mark_scns ecp sc secs v) m = true ↔
        (BIT_ISSET v m = true ∨ (0 < m ∧ m < sc ∧
          secs.any (fun sh =>
            (sh.sh_type == SHT_REL || sh.sh_type == SHT_RELA) &&
            !(ecp.is_remove_section sh.name || ecp.is_remove_reloc_sec sh.sh_info) &&
            sh.sh_link == ecp.symtab_is &&
            sh.data.any (fun d =>
              (d.r_sym.take (d.d_size / sh.sh_entsize)).contains m)) = true)) := by
  intro secs
  induction secs with
  | nil => intro v _ _ m; simp [mark_scns]
  | cons sh rest ih =>
    intro v hfile hv m
    have hrest : ∀ x ∈ rest, file_data x = true :=
      fun x hx => hfile x (List.mem_cons_of_mem _ hx)
    unfold mark_scns
    by_cases h1 : (sh.sh_type != SHT_REL && sh.sh_type != SHT_RELA) = true
    · rw [if_pos h1, ih v hrest hv m]
      have h1b : (sh.sh_type == SHT_REL || sh.sh_type == SHT_RELA) = false := by
        cases ha : sh.sh_type == SHT_REL <;> cases hb : sh.sh_type == SHT_RELA <;>
          simp [bne, ha, hb] at h1 ⊢
      simp only [List.any_cons, h1b, Bool.false_and, Bool.false_or]
    · rw [if_neg h1]
      have h1b : (sh.sh_type == SHT_REL || sh.sh_type == SHT_RELA) = true := by
        cases ha : sh.sh_type == SHT_REL <;> cases hb : sh.sh_type == SHT_RELA <;>
          simp [bne, ha, hb] at h1 ⊢
      by_cases h2 : (ecp.is_remove_section sh.name ||
          ecp.is_remove_reloc_sec sh.sh_info) = true
      · rw [if_pos h2, ih v hrest hv m]
        simp only [List.any_cons, h1b, h2, Bool.not_true, Bool.and_false, Bool.false_and,
          Bool.false_or]
      · rw [if_neg h2]
        have h2b : (ecp.is_remove_section sh.name ||
            ecp.is_remove_reloc_sec sh.sh_info) = false := by simpa using h2
        by_cases h3 : (sh.sh_link != ecp.symtab_is) = true
        · rw [if_pos h3, ih v hrest hv m]
          have h3b : (sh.sh_link == ecp.symtab_is) = false := by
            cases hc : sh.sh_link == ecp.symtab_is <;> simp [bne, hc] at h3 ⊢
          simp only [List.any_cons, h1b, h2b, h3b, Bool.not_false, Bool.and_true,
            Bool.and_false, Bool.false_and, Bool.false_or]
        · rw [if_neg h3]
          have h3b : (sh.sh_link == ecp.symtab_is) = true := by
            cases hc : sh.sh_link == ecp.symtab_is <;> simp [bne, hc] at h3 ⊢
          obtain ⟨hl, hm⟩ := mark_data_marks sc sh v
            (hfile sh (List.mem_cons_self _ _)) hv
          rw [ih _ hrest hl m, hm m]
          simp only [List.any_cons, h1b, h2b, h3b, Bool.not_false, Bool.true_and,
            Bool.or_eq_true]
          tauto

/-- C12: for an input whose sections have the data descriptors of a file
opened for reading (at most one descriptor for each section, holding the whole
section) and whose relocation sections have a non-zero `sh_entsize` (the
divisor of the entry count), after `mark_symbols` on a symbol table of `sc`
entries bit `i` of the relocation vector is set if and only if `0 < i < sc`
and some entry of an SHT_REL or SHT_RELA section that survives and is linked
to the symbol table has symbol index `i`. The function has no failing path: an
entry with a symbol index of `sc` or more marks nothing. -/
theorem C12_marked_iff_referenced (ecp : elfcopy) (sc i : Nat)
    (hfile : ∀ sh ∈ ecp.ein, file_data sh = true)
    (_hent : ∀ sh ∈ ecp.ein, sh.sh_type = SHT_REL ∨ sh.sh_type = SHT_RELA →
      0 < sh.sh_entsize) :
    BIT_ISSET (mark_symbols ecp sc) i = true ↔
      (0 < i ∧ i < sc ∧ reloc_refers ecp i = true) := by
  unfold mark_symbols reloc_refers
  rw [mark_scns_marks ecp sc ecp.ein _ hfile (by simp [calloc]) i, BIT_ISSET_calloc]
  simp

theorem C12_marked_iff_referenced_witness :
    (∀ sh ∈ ex_ecp.ein, file_data sh = true) ∧
    (∀ sh ∈ ex_ecp.ein, sh.sh_type = SHT_REL ∨ sh.sh_type = SHT_RELA → 0 < sh.sh_entsize) ∧
    reloc_refers ex_ecp 1 = true ∧
    BIT_ISSET (mark_symbols ex_ecp 2) 1 = true ∧
    (BIT_ISSET (mark_symbols ex_ecp 2) 1 = true ↔
      (0 < 1 ∧ 1 < 2 ∧ reloc_refers ex_ecp 1 = true)) :=
  ⟨by decide, by decide, by decide, by decide,
    C12_marked_iff_referenced ex_ecp 2 1 (by decide) (by decide)⟩

theorem max_ndx_ok (secs : List Section) (h : ∀ s ∈ secs, s.os ≠ some SHN_UNDEF) :
    ∀ m, ∃ r, max_ndx secs m = .ok r := by
  induction secs with
  | nil => intro m; exact ⟨m, rfl⟩
  | cons s rest ih =>
    intro m
    have hrest : ∀ x ∈ rest, x.os ≠ some SHN_UNDEF :=
      fun x hx => h x (List.mem_cons_of_mem s hx)
    unfold max_ndx
    cases hos : s.os with
    | none => exact ih hrest m
    | some ndx =>
      have hne : ndx ≠ SHN_UNDEF := by
        intro hz
        exact h s (List.mem_cons_self s rest) (by rw [hos, hz])
      simp only [hne, if_false]
      exact ih hrest _

/-- C13: when no strip mode is selected and the symbol-action list is empty,
`create_elf` leaves SYMTAB_INTACT set and `create_symtab` takes the verbatim
path (its result is `intact`, which is returned before `generate_symbols` is
called); the output `.symtab` and `.strtab` are then the copies of the input
tables. `create_scn` keeps the strip mode, the rules and SYMTAB_INTACT, sets
SYMTAB_EXIST (the input has a symbol table) and gives every output section an
index. -/
theorem C13_verbatim_copy (ecp : elfcopy) (e_type : Nat) (create_scn : elfcopy → elfcopy)
    (oec : Nat) (syms : List in_sym) (in_strtab : Bytes)
    (hmode : ecp.strip = strip_mode.NONE) (hrules : ecp.v_symop = [])
    (htype : e_type = ET_EXEC ∨ e_type = ET_DYN ∨ e_type = ET_REL)
    (hs1 : ∀ e, (create_scn e).strip = e.strip)
    (hs2 : ∀ e, (create_scn e).v_symop = e.v_symop)
    (hs3 : ∀ e, (create_scn e).flags.SYMTAB_INTACT = e.flags.SYMTAB_INTACT)
    (hs4 : ∀ e, (create_scn e).flags.SYMTAB_EXIST = true)
    (hs5 : ∀ e, ∀ s ∈ (create_scn e).v_sec, s.os ≠ some SHN_UNDEF) :
    create_elf ecp e_type create_scn oec syms = .ok (some symtab_result.intact) ∧
    written_symtab symtab_result.intact (syms.map (fun s => s.sym)) =
      some (syms.map (fun s => s.sym)) ∧
    written_strtab symtab_result.intact in_strtab = some in_strtab := by
  refine ⟨?_, rfl, rfl⟩
  unfold create_elf
  have ht : ¬ (e_type ≠ ET_EXEC ∧ e_type ≠ ET_DYN ∧ e_type ≠ ET_REL) := by
    rintro ⟨h1, h2, h3⟩
    rcases htype with h | h | h
    · exact h1 h
    · exact h2 h
    · exact h3 h
  have hsym : ∀ e : elfcopy, e.flags.SYMTAB_INTACT = true →
      create_symtab (create_scn e) oec syms = .ok symtab_result.intact := by
    intro e he
    unfold create_symtab
    obtain ⟨m, hm⟩ := max_ndx_ok (create_scn e).v_sec (hs5 e) 0
    simp only [hm, hs3, he, if_true]
  by_cases hrel : e_type = ET_REL
  · simp only [if_neg ht, if_pos hrel, hs1, hs2, hs4, hmode, hrules, if_true]
    simp [hsym, hs4]
  · simp only [if_neg ht, if_neg hrel, hs1, hs2, hs4, hmode, hrules, if_true]
    simp [hsym, hs4]

theorem C13_verbatim_copy_witness :
    ex_ecp_plain.strip = strip_mode.NONE ∧ ex_ecp_plain.v_symop = [] ∧
    create_elf ex_ecp_plain ET_EXEC ex_create_scn ELFCLASS64 ex_syms =
      .ok (some symtab_result.intact) ∧
    written_symtab symtab_result.intact (ex_syms.map (fun s => s.sym)) =
      some (ex_syms.map (fun s => s.sym)) ∧
    written_strtab symtab_result.intact ([0] ++ lit "loc" ++ [0] ++ lit "foo" ++ [0]) =
      some ([0] ++ lit "loc" ++ [0] ++ lit "foo" ++ [0]) :=
  ⟨rfl, rfl,
    C13_verbatim_copy ex_ecp_plain ET_EXEC ex_create_scn ELFCLASS64 ex_syms
      ([0] ++ lit "loc" ++ [0] ++ lit "foo" ++ [0]) rfl rfl (Or.inl rfl)
      (fun _ => rfl) (fun _ => rfl) (fun _ => rfl) (fun _ => rfl)
      (by
        intro e s hs
        simp only [ex_create_scn, List.mem_cons, List.mem_singleton, List.not_mem_nil,
          or_false] at hs
        rcases hs with h | h <;> rw [h] <;> decide)⟩

/-- C14 fails on the code: in a run with DISCARD_LOCAL alone (no strip mode,
no rule) `create_elf` leaves SYMTAB_INTACT set, because its test for a changed
symbol table names STRIP_DEBUG, STRIP_UNNEEDED and the rule list only; so
`create_symtab` copies the input table and the local symbol `loc`, which is
neither the reserved symbol nor needed, is in the output. The ladder
`is_remove_symbol`, had it been run, drops that symbol. -/
theorem C14_discard_local_not_applied :
    ex_ecp_discard.flags.DISCARD_LOCAL = true ∧
    ex_ecp_discard.strip = strip_mode.NONE ∧ ex_ecp_discard.v_symop = [] ∧
    create_elf ex_ecp_discard ET_EXEC ex_create_scn ELFCLASS64 ex_syms =
      .ok (some symtab_result.intact) ∧
    written_symtab symtab_result.intact (ex_syms.map (fun s => s.sym)) =
      some [ex_sym0.sym, ex_loc.sym, ex_foo.sym] ∧
    is_local_symbol ex_loc.sym = true ∧ ex_loc.sym ≠ sym0 ∧
    is_needed_symbol (ex_create_scn ex_ecp_discard)
      (v_rel_get (ex_create_scn ex_ecp_discard) 3) 1 ex_loc.sym = false ∧
    is_remove_symbol (ex_create_scn ex_ecp_discard) 3 1 ex_loc.sym ex_loc.name = true :=
  ⟨rfl, rfl, rfl, rfl, rfl, by decide, by decide, by decide, by decide⟩

theorem is_remove_symbol_strip_all (ecp : elfcopy) (sc i : Nat) (s : GElf_Sym) (name : Bytes)
    (hmode : ecp.strip = strip_mode.STRIP_ALL) (hrules : ecp.v_symop = []) :
    is_remove_symbol ecp sc i s name = !decide (i = 0 ∧ s = sym0) := by
  by_cases h0 : i = 0 ∧ s = sym0
  · simp [is_remove_symbol, hrules, lookup_symop_list, h0]
  · simp only [is_remove_symbol, hrules, lookup_symop_list, hmode, h0]
    simp

theorem gen_loop_strip_all (ecp : elfcopy) (sc : Nat)
    (hmode : ecp.strip = strip_mode.STRIP_ALL) (hrules : ecp.v_symop = []) :
    ∀ (syms : List in_sym) (i : Nat) (st : gen_state), 0 < i →
      ∃ st1, gen_loop ecp sc i syms st = .ok st1 ∧ st1.sy_buf = st.sy_buf ∧
        retained ecp sc i syms = [] := by
  intro syms
  induction syms with
  | nil => intro i st _; exact ⟨st, rfl, rfl, rfl⟩
  | cons s rest ih =>
    intro i st hi
    have hrem : is_remove_symbol ecp sc i s.sym s.name = true := by
      rw [is_remove_symbol_strip_all ecp sc i s.sym s.name hmode hrules]
      have : ¬ (i = 0 ∧ s.sym = sym0) := fun h => absurd h.1 (Nat.pos_iff_ne_zero.mp hi)
      simp [this]
    obtain ⟨st1, h1, h2, h3⟩ := ih (i + 1) { st with sym := s.sym } (Nat.succ_pos i)
    refine ⟨st1, ?_, h2, ?_⟩
    · simp only [gen_loop, gen_step_removed ecp sc i s st hrem]
      exact h1
    · simp only [retained, hrem, if_true]
      exact h3

theorem change_binding_sym0 (ecp : elfcopy) (name : Bytes) (hrules : ecp.v_symop = []) :
    change_binding ecp sym0 name = sym0 := by
  have h1 : (is_global_symbol sym0 || is_weak_symbol sym0) = false := by decide
  simp [change_binding, h1, hrules, lookup_symop_list]

/-- C15 is false as stated: the table is reserved, FILE, SECTION `.text` and
global `main`, the mode is STRIP_ALL with no rule, and the surviving section
`.rela.text` refers to `main` (symbol 3, marked in the relocation vector);
the filter still drops `main` and `generate_symbols` reports that no table is
emitted, so no table with the entries reserved and `main` is produced. -/
theorem C15_counterexample :
    ex_ecp_strip_all.strip = strip_mode.STRIP_ALL ∧ ex_ecp_strip_all.v_symop = [] ∧
    reloc_refers ex_ecp_strip_all 3 = true ∧
    BIT_ISSET (v_rel_get ex_ecp_strip_all 4) 3 = true ∧
    retained ex_ecp_strip_all ex_syms_main.length 0 ex_syms_main = [ex_sym0] ∧
    ex_main ∉ retained ex_ecp_strip_all ex_syms_main.length 0 ex_syms_main ∧
    ∀ st, generate_symbols ex_ecp_strip_all ex_syms_main ≠ .ok (true, st) := by
  refine ⟨rfl, rfl, by decide, by decide, by decide, by decide, ?_⟩
  intro st hst
  have h : ∃ st1, generate_symbols ex_ecp_strip_all ex_syms_main = .ok (false, st1) :=
    ⟨_, rfl⟩
  obtain ⟨st1, h1⟩ := h
  rw [h1] at hst
  cases hst

/-- C15, amended: with STRIP_ALL active and no symbol rule, for every input
symbol table that starts with the reserved symbol (so for the table reserved,
FILE, SECTION `.text`, global `main`), whether or not a surviving relocation
refers to `main`: the filter retains only the reserved symbol and
`generate_symbols` reports that no symbol table is emitted (one local entry,
no global entry). -/
theorem C15_strip_all_keeps_reserved_only (ecp : elfcopy) (s0 : in_sym) (rest : List in_sym)
    (hmode : ecp.strip = strip_mode.STRIP_ALL) (hrules : ecp.v_symop = [])
    (hfirst : s0.sym = sym0) :
    retained ecp (s0 :: rest).length 0 (s0 :: rest) = [s0] ∧
    ∃ st, generate_symbols ecp (s0 :: rest) = .ok (false, st) ∧
      st.sy_buf.nls = 1 ∧ st.sy_buf.ngs = 0 := by
  have hrem : is_remove_symbol ecp (s0 :: rest).length 0 s0.sym s0.name = false := by
    rw [is_remove_symbol_strip_all ecp _ 0 s0.sym s0.name hmode hrules]
    simp [hfirst]
  have hstep : ∃ stA, gen_step ecp (s0 :: rest).length 0 s0
      (gen_init ecp (s0 :: rest).length) = .ok stA ∧
      stA.sy_buf.l.length = 1 ∧ stA.sy_buf.g = [] := by
    have hloc : is_local_symbol sym0 = true := by decide
    have hgw : (is_global_symbol sym0 || is_weak_symbol sym0) = false := by decide
    have hrem0 := hrem
    rw [hfirst] at hrem0
    simp only [gen_step, hrem0, hfirst, change_binding_sym0 ecp _ hrules, hloc, hgw, if_true,
      COPYSYM, COPYSYM_name_zero sym0 _ _ rfl, Bool.false_eq_true, if_false]
    exact ⟨_, rfl, rfl, rfl⟩
  obtain ⟨stA, hA, hAl, hAg⟩ := hstep
  obtain ⟨st1, h1, h2, h3⟩ :=
    gen_loop_strip_all ecp (s0 :: rest).length hmode hrules rest 1 stA Nat.one_pos
  constructor
  · simp only [retained, hrem, Bool.false_eq_true, if_false]
    rw [h3]
  · refine ⟨st1, ?_, ?_, ?_⟩
    · have hsc : ¬ ((s0 :: rest).length = 0) := by simp
      have hcond : st1.sy_buf.nls ≤ 1 ∧ st1.sy_buf.ngs = 0 := by
        rw [h2]
        simp [symbuf.nls, symbuf.ngs, hAl, hAg]
      simp only [generate_symbols, if_neg hsc, gen_loop, hA, h1]
      simp only [hcond, and_self, if_true]
    · rw [h2]; simpa [symbuf.nls] using hAl
    · rw [h2]; simp [symbuf.ngs, hAg]

theorem C15_strip_all_keeps_reserved_only_witness :
    ex_ecp_strip_all.strip = strip_mode.STRIP_ALL ∧ ex_ecp_strip_all.v_symop = [] ∧
    ex_sym0.sym = sym0 ∧
    retained ex_ecp_strip_all ex_syms_main.length 0 ex_syms_main = [ex_sym0] ∧
    ∃ st, generate_symbols ex_ecp_strip_all ex_syms_main = .ok (false, st) ∧
      st.sy_buf.nls = 1 ∧ st.sy_buf.ngs = 0 :=
  ⟨rfl, rfl, rfl,
    C15_strip_all_keeps_reserved_only ex_ecp_strip_all ex_sym0 [ex_file, ex_sec_text, ex_main]
      rfl rfl rfl⟩


/-! ### `lookup_exact_string` on a buffer of entries -/

theorem cstr_entry (e rest : Bytes) (h : 0 ∉ e) : cstr (e ++ [0] ++ rest) = e := by
  unfold cstr
  induction e with
  | nil => simp [List.takeWhile]
  | cons a e ih =>
    have ha : a ≠ 0 := fun h0 => h (by simp [h0])
    have he : 0 ∉ e := fun h0 => h (List.mem_cons_of_mem a h0)
    simp only [List.cons_append, List.takeWhile_cons, bne_iff_ne, ne_eq, ha, not_false_eq_true,
      decide_True, if_true]
    have := ih he
    simp only [List.append_assoc] at this ⊢
    rw [this]

/-- The loop of `lookup_exact_string` on a buffer of NUL-terminated entries
returns the offset of the first entry equal to the string `s`. -/
theorem lookup_loop_entries (s : Bytes) :
    ∀ (es : List Bytes) (off fuel : Nat), (∀ e ∈ es, 0 ∉ e) →
      (strtab_of es).length ≤ fuel →
      lookup_exact_string_loop s fuel (strtab_of es) off =
        first_entry_offset (cstr s) es off := by
  intro es
  induction es with
  | nil =>
    intro off fuel _ _
    cases fuel with
    | zero => rfl
    | succ n => simp [lookup_exact_string_loop, strtab_of, first_entry_offset]
  | cons e rest ih =>
    intro off fuel hwf hfuel
    have he : 0 ∉ e := hwf e (List.mem_cons_self e rest)
    have hrest : ∀ x ∈ rest, 0 ∉ x := fun x hx => hwf x (List.mem_cons_of_mem e hx)
    have hlen : (strtab_of (e :: rest)).length = e.length + 1 + (strtab_of rest).length := by
      simp only [strtab_of, List.length_append, List.length_cons, List.length_nil]
    cases fuel with
    | zero => omega
    | succ n =>
      have hc : cstr (strtab_of (e :: rest)) = e := cstr_entry e (strtab_of rest) he
      have hs : strlen (strtab_of (e :: rest)) = e.length := by
        unfold strlen; rw [hc]
      have hne : strtab_of (e :: rest) ≠ [] := by
        intro h0
        rw [h0] at hlen
        simp only [List.length_nil] at hlen
        omega
      have hdrop : (strtab_of (e :: rest)).drop (e.length + 1) = strtab_of rest := by
        show (e ++ [0] ++ strtab_of rest).drop (e.length + 1) = _
        rw [List.drop_append_of_le_length (by simp)]
        simp
      have hnext := ih (off + (e.length + 1)) n hrest (by omega)
      unfold lookup_exact_string_loop first_entry_offset
      rw [if_neg hne, hs, hdrop]
      by_cases heq : e = cstr s
      · have hl : ¬ (e.length ≠ strlen s) := by
          unfold strlen; rw [← heq]; simp
        rw [if_neg hl, if_pos heq]
        have hstr : streq (strtab_of (e :: rest)) s = true := by
          unfold streq; rw [hc, heq]; simp
        rw [if_pos hstr]
      · rw [if_neg heq]
        by_cases hl : e.length ≠ strlen s
        · rw [if_pos hl]
          exact hnext
        · rw [if_neg hl]
          have hstr : ¬ (streq (strtab_of (e :: rest)) s = true) := by
            unfold streq; rw [hc]; simpa using heq
          rw [if_neg hstr]
          exact hnext

theorem lookup_entries (s : Bytes) (es : List Bytes) (hwf : ∀ e ∈ es, 0 ∉ e) :
    lookup_exact_string (strtab_of es) (strtab_of es).length s =
      first_entry_offset (cstr s) es 0 := by
  unfold lookup_exact_string
  rw [List.take_length]
  exact lookup_loop_entries s es 0 _ hwf (Nat.le_refl _)

theorem first_entry_offset_none (s : Bytes) :
    ∀ (es : List Bytes) (off : Nat), first_entry_offset s es off = -1 ↔ s ∉ es := by
  intro es
  induction es with
  | nil => intro off; simp [first_entry_offset]
  | cons e rest ih =>
    intro off
    unfold first_entry_offset
    by_cases heq : e = s
    · rw [if_pos heq]
      simp only [heq, List.mem_cons, true_or, not_true_eq_false, iff_false]
      omega
    · rw [if_neg heq, ih]
      simp only [List.mem_cons, not_or]
      exact ⟨fun h => ⟨fun h1 => heq h1.symm, h⟩, fun h => h.2⟩

theorem first_entry_offset_some (s : Bytes) :
    ∀ (pre post : List Bytes) (off : Nat), s ∉ pre →
      first_entry_offset s (pre ++ s :: post) off = ((off + (strtab_of pre).length : Nat) : Int) := by
  intro pre
  induction pre with
  | nil => intro post off _; simp [first_entry_offset, strtab_of]
  | cons e rest ih =>
    intro post off h
    have heq : e ≠ s := fun h1 => h (by simp [h1])
    have hrest : s ∉ rest := fun h1 => h (List.mem_cons_of_mem e h1)
    show first_entry_offset s (e :: (rest ++ s :: post)) off = _
    unfold first_entry_offset
    rw [if_neg heq, ih post _ hrest]
    simp only [strtab_of, List.length_append, List.length_cons, List.length_nil]
    push_cast
    omega

/-! ### The string buffers of `generate_symbols` -/

theorem strtab_of_append (a b : List Bytes) :
    strtab_of (a ++ b) = strtab_of a ++ strtab_of b := by
  induction a with
  | nil => rfl
  | cons e rest ih => simp [strtab_of, ih]

theorem cstr_no_nul (p : Bytes) : 0 ∉ cstr p := by
  unfold cstr
  intro h
  have := List.mem_takeWhile_imp h
  simp at this

theorem no_name_twice_snoc (es : List Bytes) (x : Bytes) (h : no_name_twice es)
    (hx : x ∉ es) : no_name_twice (es ++ [x]) := by
  intro k1 k2 y h1 h2 hy
  have hcase : ∀ k : Nat, (es ++ [x])[k]? = some y →
      (k < es.length ∧ es[k]? = some y) ∨ (k = es.length ∧ y = x) := by
    intro k hk
    by_cases hlt : k < es.length
    · left
      rw [List.getElem?_append_left hlt] at hk
      exact ⟨hlt, hk⟩
    · right
      rw [List.getElem?_append_right (by omega)] at hk
      cases hd : k - es.length with
      | zero =>
        rw [hd] at hk
        simp only [List.getElem?_cons_zero, Option.some.injEq] at hk
        exact ⟨by omega, hk.symm⟩
      | succ m =>
        rw [hd] at hk
        simp at hk
  rcases hcase k1 h1 with ⟨_, a1⟩ | ⟨a1, b1⟩
  · rcases hcase k2 h2 with ⟨_, a2⟩ | ⟨_, b2⟩
    · exact h k1 k2 y a1 a2 hy
    · exfalso
      apply hx
      rw [← b2]
      exact List.getElem?_mem a1
  · rcases hcase k2 h2 with ⟨_, a2⟩ | ⟨a2, _⟩
    · exfalso
      apply hx
      rw [← b1]
      exact List.getElem?_mem a2
    · omega

/-- The string part of `COPYSYM` keeps a string buffer made of entries with
no non-empty name twice, only appends to its entries, and the offset it
stores for a name it looks up is the offset of the entry holding that name. -/
theorem COPYSYM_name_entries (sym : GElf_Sym) (name : Option Bytes) (es : List Bytes)
    (buf buf1 : Bytes) (n : Nat) (hok : half_ok es buf)
    (h : COPYSYM_name sym name buf = .ok (n, buf1)) :
    ∃ t, half_ok (es ++ t) buf1 ∧
      ∀ nm, sym.st_name ≠ 0 → name = some nm → cstr nm ≠ [] →
        ∃ k : Nat, (es ++ t)[k]? = some (cstr nm) ∧
          n = (strtab_of ((es ++ t).take k)).length := by
  obtain ⟨hb, hwf, hnd⟩ := hok
  unfold COPYSYM_name at h
  by_cases h0 : sym.st_name ≠ 0
  · rw [if_pos h0] at h
    cases name with
    | none => simp at h
    | some nm =>
      simp only at h
      by_cases he : cstr nm ≠ []
      · rw [if_pos he] at h
        rw [hb, lookup_entries nm es hwf] at h
        by_cases hpos : first_entry_offset (cstr nm) es 0 ≠ -1
        · simp only [if_pos hpos, Except.ok.injEq, Prod.mk.injEq] at h
          obtain ⟨hn, hbuf⟩ := h
          have hmem : cstr nm ∈ es := by
            by_contra hno
            exact hpos ((first_entry_offset_none (cstr nm) es 0).mpr hno)
          obtain ⟨pre, post, hsplit, hpre⟩ := List.eq_append_cons_of_mem hmem
          refine ⟨[], ⟨by rw [← hbuf, List.append_nil], by simpa using hwf,
            by simpa using hnd⟩, ?_⟩
          intro nm1 _ hnm1 _
          simp only [Option.some.injEq] at hnm1
          subst hnm1
          refine ⟨pre.length, ?_, ?_⟩
          · rw [List.append_nil, hsplit,
              List.getElem?_append_right (Nat.le_refl _), Nat.sub_self]
            exact List.getElem?_cons_zero
          · rw [← hn, List.append_nil]
            have := first_entry_offset_some (cstr nm) pre post 0 hpre
            rw [← hsplit] at this
            rw [this]
            have htake : es.take pre.length = pre := by
              rw [hsplit]; simp
            rw [htake]
            simp
        · have hpos1 : first_entry_offset (cstr nm) es 0 = -1 := not_not.mp hpos
          simp only [hpos1, ne_eq, not_true_eq_false, if_false, Except.ok.injEq,
            Prod.mk.injEq] at h
          obtain ⟨hn, hbuf⟩ := h
          have hno : cstr nm ∉ es := (first_entry_offset_none (cstr nm) es 0).mp hpos1
          refine ⟨[cstr nm], ⟨?_, ?_, no_name_twice_snoc es (cstr nm) hnd hno⟩, ?_⟩
          · rw [← hbuf, strtab_of_append]
            simp [strtab_of]
          · intro e hmem
            rcases List.mem_append.mp hmem with hm | hm
            · exact hwf e hm
            · simp only [List.mem_singleton] at hm
              rw [hm]
              exact cstr_no_nul nm
          · intro nm1 _ hnm1 _
            simp only [Option.some.injEq] at hnm1
            subst hnm1
            refine ⟨es.length, by simp, ?_⟩
            rw [← hn]
            simp
      · rw [if_neg he] at h
        simp only [Except.ok.injEq, Prod.mk.injEq] at h
        refine ⟨[], ⟨by rw [← h.2, List.append_nil]; exact hb, by simpa using hwf,
          by simpa using hnd⟩, ?_⟩
        intro nm1 _ hnm1 hne
        simp only [Option.some.injEq] at hnm1
        subst hnm1
        exact absurd hne he
  · rw [if_neg h0] at h
    simp only [Except.ok.injEq, Prod.mk.injEq] at h
    refine ⟨[], ⟨by rw [← h.2, List.append_nil]; exact hb, by simpa using hwf,
      by simpa using hnd⟩, ?_⟩
    intro nm1 hne _ _
    exact absurd hne h0

theorem name_placed_mono (ecp : elfcopy) (es t : List Bytes) (e : GElf_Sym) (s : in_sym)
    (h : name_placed ecp es e s) : name_placed ecp (es ++ t) e s := by
  intro nm hnm
  obtain ⟨k, hk, hoff⟩ := h nm hnm
  have hlt : k < es.length := by
    by_contra hge
    rw [List.getElem?_eq_none (by omega)] at hk
    cases hk
  refine ⟨k, ?_, ?_⟩
  · rw [List.getElem?_append_left hlt]
    exact hk
  · rw [hoff, List.take_append_of_le_length (Nat.le_of_lt hlt)]

theorem stored_name_some (ecp : elfcopy) (s : in_sym) (nm : Bytes)
    (h : stored_name ecp s = some nm) :
    (change_binding ecp s.sym s.name).st_name ≠ 0 ∧
      ∃ nm1, redef_name ecp s.name = some nm1 ∧ cstr nm1 ≠ [] ∧ nm = cstr nm1 := by
  unfold stored_name at h
  by_cases h0 : (change_binding ecp s.sym s.name).st_name ≠ 0
  · rw [if_pos h0] at h
    cases hr : redef_name ecp s.name with
    | none => simp [hr] at h
    | some nm1 =>
      simp only [hr] at h
      by_cases he : cstr nm1 ≠ []
      · rw [if_pos he] at h
        simp only [Option.some.injEq] at h
        exact ⟨h0, nm1, rfl, he, h.symm⟩
      · rw [if_neg he] at h
        cases h
  · rw [if_neg h0] at h
    cases h

theorem stored_name_ne_nil (ecp : elfcopy) (s : in_sym) (nm : Bytes)
    (h : stored_name ecp s = some nm) : nm ≠ [] := by
  obtain ⟨_, nm1, _, hne, heq⟩ := stored_name_some ecp s nm h
  rw [heq]
  exact hne

/-- One kept symbol: the string buffer of its bucket stays a buffer of
entries and the entry stored for it carries the offset of its name. -/
theorem copy_name_placed (ecp : elfcopy) (s : in_sym) (es : List Bytes) (buf buf1 : Bytes)
    (n : Nat) (hok : half_ok es buf)
    (h : COPYSYM_name (change_binding ecp s.sym s.name) (redef_name ecp s.name) buf
      = .ok (n, buf1)) :
    ∃ t, half_ok (es ++ t) buf1 ∧
      name_placed ecp (es ++ t) (COPYSYM_entry ecp (change_binding ecp s.sym s.name) 0 n) s := by
  obtain ⟨t, hok1, hp⟩ := COPYSYM_name_entries _ _ es buf buf1 n hok h
  refine ⟨t, hok1, ?_⟩
  intro nm hnm
  obtain ⟨h0, nm1, hr, hne, heq⟩ := stored_name_some ecp s nm hnm
  obtain ⟨k, hk, hoff⟩ := hp nm1 h0 hr hne
  exact ⟨k, by rw [heq]; exact hk, hoff⟩

/-- The copy loop keeps both string buffers buffers of entries with no
non-empty name twice, and every entry it appends to a symbol buffer carries
the offset of the entry that holds the symbol's name. -/
theorem gen_loop_names (ecp : elfcopy) (sc : Nat) (syms : List in_sym) :
    ∀ (i : Nat) (st st2 : gen_state) (esl esg : List Bytes),
      half_ok esl st.st_buf.l → half_ok esg st.st_buf.g →
      gen_loop ecp sc i syms st = .ok st2 →
      ∃ tl tg la lg, half_ok (esl ++ tl) st2.st_buf.l ∧ half_ok (esg ++ tg) st2.st_buf.g ∧
        st2.sy_buf.l = st.sy_buf.l ++ la ∧ st2.sy_buf.g = st.sy_buf.g ++ lg ∧
        List.Forall₂ (name_placed ecp (esl ++ tl)) la
          ((retained ecp sc i syms).filter (to_local ecp)) ∧
        List.Forall₂ (name_placed ecp (esg ++ tg)) lg
          ((retained ecp sc i syms).filter (fun s => !to_local ecp s)) := by
  induction syms with
  | nil =>
    intro i st st2 esl esg hl hg h
    simp only [gen_loop, Except.ok.injEq] at h
    subst h
    refine ⟨[], [], [], [], ?_, ?_, by simp, by simp, ?_, ?_⟩
    · rw [List.append_nil]; exact hl
    · rw [List.append_nil]; exact hg
    · simp [retained]
    · simp [retained]
  | cons s rest ih =>
    intro i st st2 esl esg hl hg h
    obtain ⟨st1, hstep, hrest⟩ := gen_loop_cons ecp sc i s rest st st2 h
    cases hrm : is_remove_symbol ecp sc i s.sym s.name with
    | true =>
      rw [gen_step_removed ecp sc i s st hrm] at hstep
      simp only [Except.ok.injEq] at hstep
      subst hstep
      obtain ⟨tl, tg, la, lg, a1, a2, a3, a4, a5, a6⟩ :=
        ih (i + 1) { st with sym := s.sym } st2 esl esg hl hg hrest
      refine ⟨tl, tg, la, lg, a1, a2, a3, a4, ?_, ?_⟩
      · simpa [retained, hrm] using a5
      · simpa [retained, hrm] using a6
    | false =>
      obtain ⟨n, buf, hname, hsy, hst, _⟩ := gen_step_kept ecp sc i s st st1 hrm hstep
      cases hloc : to_local ecp s with
      | true =>
        have hloc2 : is_local_symbol (change_binding ecp s.sym s.name) = true := hloc
        simp only [hloc2, if_true] at hsy hst hname
        obtain ⟨t1, hok1, hp⟩ := copy_name_placed ecp s esl _ buf n hl hname
        have hl1 : half_ok (esl ++ t1) st1.st_buf.l := by rw [hst]; exact hok1
        have hg1 : half_ok esg st1.st_buf.g := by rw [hst]; exact hg
        obtain ⟨tl, tg, la, lg, a1, a2, a3, a4, a5, a6⟩ :=
          ih (i + 1) st1 st2 (esl ++ t1) esg hl1 hg1 hrest
        rw [List.append_assoc] at a1 a5
        refine ⟨t1 ++ tl, tg,
          COPYSYM_entry ecp (change_binding ecp s.sym s.name) 0 n :: la, lg,
          a1, a2, ?_, ?_, ?_, ?_⟩
        · rw [a3, hsy]; simp
        · rw [a4, hsy]
        · simp only [retained, hrm, Bool.false_eq_true, if_false, List.filter_cons, hloc,
            if_true]
          refine List.Forall₂.cons ?_ a5
          rw [← List.append_assoc]
          exact name_placed_mono ecp (esl ++ t1) tl _ s hp
        · simpa [retained, hrm, List.filter_cons, hloc] using a6
      | false =>
        have hloc2 : is_local_symbol (change_binding ecp s.sym s.name) = false := hloc
        simp only [hloc2, Bool.false_eq_true, if_false] at hsy hst hname
        obtain ⟨t1, hok1, hp⟩ := copy_name_placed ecp s esg _ buf n hg hname
        have hl1 : half_ok esl st1.st_buf.l := by rw [hst]; exact hl
        have hg1 : half_ok (esg ++ t1) st1.st_buf.g := by rw [hst]; exact hok1
        obtain ⟨tl, tg, la, lg, a1, a2, a3, a4, a5, a6⟩ :=
          ih (i + 1) st1 st2 esl (esg ++ t1) hl1 hg1 hrest
        rw [List.append_assoc] at a2 a6
        refine ⟨tl, t1 ++ tg, la,
          COPYSYM_entry ecp (change_binding ecp s.sym s.name) 0 n :: lg,
          a1, a2, ?_, ?_, ?_, ?_⟩
        · rw [a3, hsy]
        · rw [a4, hsy]; simp
        · simpa [retained, hrm, List.filter_cons, hloc] using a5
        · simp only [retained, hrm, Bool.false_eq_true, if_false, List.filter_cons, hloc,
            Bool.not_false, if_true]
          refine List.Forall₂.cons ?_ a6
          rw [← List.append_assoc]
          exact name_placed_mono ecp (esg ++ t1) tg _ s hp

theorem string_at_entry (es : List Bytes) (k : Nat) (nm : Bytes) (hwf : ∀ e ∈ es, 0 ∉ e)
    (hk : es[k]? = some nm) :
    string_at (strtab_of es) (strtab_of (es.take k)).length = nm := by
  have hlt : k < es.length := by
    by_contra hge
    rw [List.getElem?_eq_none (by omega)] at hk
    cases hk
  have hget : es[k] = nm := by
    rw [List.getElem?_eq_getElem hlt] at hk
    exact Option.some.inj hk
  have hsplit : es = es.take k ++ nm :: es.drop (k + 1) := by
    rw [← hget]
    simp
  have hnm : 0 ∉ nm := hwf nm (List.getElem?_mem hk)
  have htab : strtab_of es
      = strtab_of (es.take k) ++ (nm ++ [0] ++ strtab_of (es.drop (k + 1))) := by
    conv_lhs => rw [hsplit]
    rw [strtab_of_append]
    rfl
  unfold string_at
  rw [htab, List.drop_left]
  exact cstr_entry nm _ hnm

theorem placed_same_offset (ecp : elfcopy) (es : List Bytes) (tab : Bytes)
    (out : List GElf_Sym) (inp : List in_sym) (hok : half_ok es tab)
    (h : List.Forall₂ (name_placed ecp es) out inp) :
    same_name_same_offset ecp tab out inp := by
  obtain ⟨htab, hwf, hnd⟩ := hok
  refine ⟨h.length_eq, ?_⟩
  intro j k ej ek sj sk nm hj hk hsj hsk hnj hnk
  have hget : ∀ (m : Nat) (e : GElf_Sym) (s : in_sym), out[m]? = some e → inp[m]? = some s →
      name_placed ecp es e s := by
    intro m e s he hs
    have hm : m < out.length := by
      by_contra hge
      rw [List.getElem?_eq_none (by omega)] at he
      cases he
    have hm2 : m < inp.length := by rw [← h.length_eq]; exact hm
    have := List.Forall₂.get h hm hm2
    rw [List.getElem?_eq_getElem hm] at he
    rw [List.getElem?_eq_getElem hm2] at hs
    simp only [List.get_eq_getElem] at this
    rw [Option.some.inj he, Option.some.inj hs] at this
    exact this
  obtain ⟨k1, hk1, ho1⟩ := hget j ej sj hj hsj nm hnj
  obtain ⟨k2, hk2, ho2⟩ := hget k ek sk hk hsk nm hnk
  have hkk : k1 = k2 := hnd k1 k2 nm hk1 hk2 (stored_name_ne_nil ecp sj nm hnj)
  refine ⟨by rw [ho1, ho2, hkk], ?_⟩
  rw [ho1, htab]
  exact string_at_entry es k1 nm hwf hk1

theorem half_ok_init_l : half_ok [[]] [0] :=
  ⟨rfl, by simp, by
    intro k1 k2 x h1 h2 hx
    cases k1 with
    | zero =>
      simp only [List.getElem?_cons_zero, Option.some.injEq] at h1
      exact absurd h1.symm hx
    | succ m => simp at h1⟩

theorem half_ok_init_g : half_ok [] [] :=
  ⟨rfl, by simp, by
    intro k1 k2 x h1
    simp at h1⟩

/-- C29: on a buffer made of NUL-terminated entries `lookup_exact_string`
returns -1 when no entry equals the string sought (a proper suffix of an entry
is no entry) and the offset of the first entry equal to it otherwise; and
after the copy loop of `generate_symbols` each half of the string table is such
a buffer with no non-empty name twice, two symbols of one bucket with equal
non-empty names carry the same name offset, at which the name stands, and the
string buffers at return are those the copy loop left. -/
theorem C29_lookup_exact_string_dedup (ecp : elfcopy) (syms : List in_sym) (st1 : gen_state)
    (hrun : gen_loop ecp syms.length 0 syms (gen_init ecp syms.length) = .ok st1) :
    (∀ (es : List Bytes) (s : Bytes), (∀ e ∈ es, 0 ∉ e) →
      (cstr s ∉ es →
        lookup_exact_string (strtab_of es) (strtab_of es).length s = -1) ∧
      (∀ pre post, es = pre ++ cstr s :: post → cstr s ∉ pre →
        lookup_exact_string (strtab_of es) (strtab_of es).length s
          = ((strtab_of pre).length : Int))) ∧
    (∃ esl esg, half_ok esl st1.st_buf.l ∧ half_ok esg st1.st_buf.g) ∧
    same_name_same_offset ecp st1.st_buf.l st1.sy_buf.l
      ((retained ecp syms.length 0 syms).filter (to_local ecp)) ∧
    same_name_same_offset ecp st1.st_buf.g st1.sy_buf.g
      ((retained ecp syms.length 0 syms).filter (fun s => !to_local ecp s)) ∧
    (∀ st, generate_symbols ecp syms = .ok (true, st) → st.st_buf = st1.st_buf) := by
  obtain ⟨tl, tg, la, lg, a1, a2, a3, a4, a5, a6⟩ :=
    gen_loop_names ecp syms.length syms 0 (gen_init ecp syms.length) st1 [[]] []
      half_ok_init_l half_ok_init_g hrun
  have hl : st1.sy_buf.l = la := by rw [a3]; rfl
  have hg : st1.sy_buf.g = lg := by rw [a4]; rfl
  refine ⟨?_, ⟨_, _, a1, a2⟩, ?_, ?_, ?_⟩
  · intro es s hwf
    refine ⟨?_, ?_⟩
    · intro hno
      rw [lookup_entries s es hwf]
      exact (first_entry_offset_none (cstr s) es 0).mpr hno
    · intro pre post hsplit hpre
      rw [lookup_entries s es hwf, hsplit, first_entry_offset_some (cstr s) pre post 0 hpre]
      simp
  · rw [hl]
    exact placed_same_offset ecp _ _ la _ a1 a5
  · rw [hg]
    exact placed_same_offset ecp _ _ lg _ a2 a6
  · intro st hst
    obtain ⟨s1, s2, h1, _, h2, h3⟩ := generate_symbols_ok ecp syms st hst
    rw [hrun] at h1
    simp only [Except.ok.injEq] at h1
    subst h1
    rw [h3, (rebase_loop_ok _ s2).2.2.1, (secsym_loop_ok ecp ecp.v_sec _ s2 h2).2.1]

theorem C29_lookup_exact_string_dedup_witness :
    gen_loop ex_ecp ex_syms_twice.length 0 ex_syms_twice
        (gen_init ex_ecp ex_syms_twice.length) = .ok ex_twice_st ∧
    same_name_same_offset ex_ecp ex_twice_st.st_buf.l ex_twice_st.sy_buf.l
      ((retained ex_ecp ex_syms_twice.length 0 ex_syms_twice).filter (to_local ex_ecp)) :=
  ⟨rfl, (C29_lookup_exact_string_dedup ex_ecp ex_syms_twice ex_twice_st rfl).2.2.1⟩
/-! ## Rules named twice -/

/-- C38 fails on the code: `add_to_symop_list` inserts the node it found once
more at the tail. After KEEP `foo`, STRIP `foo` the only node links to itself:
the queue is no finite sequence, a lookup for another name walks without end
for every number of steps, and a further `add_to_symop_list` does not return.
After KEEP `foo`, KEEP `bar`, STRIP `foo` the queue holds `foo` alone: the
rule KEEP `bar`, which a lookup found before the third call, is lost. -/
theorem C38_rule_named_twice :
    ex_queue_keep_strip = some ex_cycle ∧
    stailq_list ex_cycle = none ∧
    (∀ fuel, stailq_lookup ex_cycle.nodes (some (lit "bar")) SYMOP_ANY fuel
        ex_cycle.stqh_first = none) ∧
    (∀ fuel, stailq_walk ex_cycle.nodes fuel ex_cycle.stqh_first = none) ∧
    add_to_symop_list ex_cycle (lit "bar") none SYMOP_KEEP = none ∧
    ex_queue_foo_bar.bind stailq_list =
      some [{ name := lit "foo", newname := none, op := SYMOP_KEEP },
            { name := lit "bar", newname := none, op := SYMOP_KEEP }] ∧
    (ex_queue_foo_bar.map (fun h => lookup_symop_list ((stailq_list h).getD [])
        (some (lit "bar")) SYMOP_KEEP)) =
      some (some { name := lit "bar", newname := none, op := SYMOP_KEEP }) ∧
    ex_queue_foo_bar_foo.bind stailq_list =
      some [{ name := lit "foo", newname := none, op := SYMOP_KEEP ||| SYMOP_STRIP }] ∧
    (ex_queue_foo_bar_foo.map (fun h => lookup_symop_list ((stailq_list h).getD [])
        (some (lit "bar")) SYMOP_KEEP)) = some none := by
  refine ⟨by decide, by decide, ?_, ?_, by decide, by decide, by decide, by decide, by decide⟩
  · intro fuel
    induction fuel with
    | zero => rfl
    | succ n ih => exact ih
  · intro fuel
    induction fuel with
    | zero => rfl
    | succ n ih =>
      show (match stailq_walk ex_cycle.nodes n ex_cycle.stqh_first with
        | none => none
        | some rest => some (node_rule _ :: rest)) = none
      rw [ih]

/-! ## The `st_other` of created section symbols -/

/-- The variable `sym` after the copy loop holds the `st_other` of the last
symbol read. -/
theorem gen_loop_last_other (ecp : elfcopy) (sc : Nat) (syms : List in_sym) :
    ∀ (i : Nat) (st st2 : gen_state) (last : in_sym),
      gen_loop ecp sc i syms st = .ok st2 → syms.getLast? = some last →
      st2.sym.st_other = last.sym.st_other := by
  induction syms with
  | nil => intro i st st2 last _ hl; simp at hl
  | cons s rest ih =>
    intro i st st2 last h hl
    obtain ⟨st1, hstep, hrest⟩ := gen_loop_cons ecp sc i s rest st st2 h
    cases rest with
    | nil =>
      simp only [gen_loop, Except.ok.injEq] at hrest
      subst hrest
      simp only [List.getLast?_singleton, Option.some.injEq] at hl
      subst hl
      cases hrm : is_remove_symbol ecp sc i s.sym s.name with
      | true =>
        rw [gen_step_removed ecp sc i s st hrm] at hstep
        simp only [Except.ok.injEq] at hstep
        subst hstep
        rfl
      | false =>
        obtain ⟨n, buf, _, _, _, _, _, _, hsym⟩ := gen_step_kept ecp sc i s st st1 hrm hstep
        rw [hsym]
        exact (change_binding_rest ecp s.sym s.name).2.1
    | cons r rest2 =>
      apply ih (i + 1) st1 st2 last hrest
      rw [List.getLast?_cons_cons] at hl
      exact hl

/-- C39 fails on the code: the section symbols that `generate_symbols` creates
carry the `st_other` of the last input symbol read (the variable `sym` is
reused and its `st_other` never assigned), so they are not determined by their
section alone. -/
theorem C39_section_symbols_keep_last_st_other (ecp : elfcopy) (syms : List in_sym)
    (st : gen_state) (last : in_sym)
    (h : generate_symbols ecp syms = .ok (true, st))
    (hlast : syms.getLast? = some last) :
    (∃ v, synthesized ecp syms st =
      (ecp.v_sec.filter (fun s => needs_secsym ecp s &&
        !BIT_ISSET v (elf_ndxscn s.os))).map (secsym_entry last.sym.st_other)) ∧
    ∀ e ∈ synthesized ecp syms st, e.st_other = last.sym.st_other := by
  obtain ⟨st1, st2, h1, _, h2, h3⟩ := generate_symbols_ok ecp syms st h
  obtain ⟨la, lg, hl, _, hla, _⟩ := gen_loop_bufs ecp syms.length syms 0 _ st1 h1
  obtain ⟨_, _, _, _, _, _, _, b8⟩ := secsym_loop_ok ecp ecp.v_sec st1 st2 h2
  obtain ⟨c1, _, _, _⟩ := rebase_loop_ok (List.range syms.length) st2
  rw [← h3] at c1
  have ho := gen_loop_last_other ecp syms.length syms 0 _ st1 last h1 hlast
  have hsyn : synthesized ecp syms st =
      (ecp.v_sec.filter (fun s => needs_secsym ecp s &&
        !BIT_ISSET st1.v_secsym (elf_ndxscn s.os))).map (secsym_entry last.sym.st_other) := by
    unfold synthesized
    rw [c1, b8, hl, ho]
    simp only [gen_init, List.nil_append]
    rw [List.drop_left' (copied_local_length ecp syms la hla)]
  refine ⟨⟨st1.v_secsym, hsyn⟩, ?_⟩
  intro e he
  rw [hsyn] at he
  obtain ⟨x, _, hxe⟩ := List.mem_map.mp he
  rw [← hxe]
  rfl

theorem C39_section_symbols_keep_last_st_other_witness :
    generate_symbols ex_ecp (ex_syms_other 2) = .ok (true, ex_gen_st_other) ∧
    (ex_syms_other 2).getLast? =
      some { ex_foo with sym := { ex_foo.sym with st_other := 2 } } ∧
    generate_symbols ex_ecp (ex_syms_other 0) = .ok (true, ex_gen_st) ∧
    synthesized ex_ecp (ex_syms_other 2) ex_gen_st_other =
      [{ st_name := 0, st_info := 3, st_other := 2, st_shndx := 1, st_value := 4096,
         st_size := 0 },
       { st_name := 0, st_info := 3, st_other := 2, st_shndx := 2, st_value := 8192,
         st_size := 0 }] ∧
    synthesized ex_ecp (ex_syms_other 0) ex_gen_st =
      [{ st_name := 0, st_info := 3, st_other := 0, st_shndx := 1, st_value := 4096,
         st_size := 0 },
       { st_name := 0, st_info := 3, st_other := 0, st_shndx := 2, st_value := 8192,
         st_size := 0 }] ∧
    ((∃ v, synthesized ex_ecp (ex_syms_other 2) ex_gen_st_other =
      (ex_ecp.v_sec.filter (fun s => needs_secsym ex_ecp s &&
        !BIT_ISSET v (elf_ndxscn s.os))).map (secsym_entry 2)) ∧
    ∀ e ∈ synthesized ex_ecp (ex_syms_other 2) ex_gen_st_other, e.st_other = 2) :=
  ⟨rfl, rfl, rfl, by decide, by decide,
    C39_section_symbols_keep_last_st_other ex_ecp (ex_syms_other 2) ex_gen_st_other
      { ex_foo with sym := { ex_foo.sym with st_other := 2 } } rfl rfl⟩

end Elfcopy

namespace Libdwarf

/-! ## The switch and the operand-shape table -/

theorem contains_false_of_bound (l : List Nat) (op : Nat) (hl : ∀ x ∈ l, x < 256)
    (hop : 256 ≤ op) : l.contains op = false := by
  cases h : l.contains op with
  | false => rfl
  | true =>
    have hmem : op ∈ l := by simpa using h
    have := hl op hmem
    omega

set_option maxRecDepth 100000 in
theorem switch_arm_small :
    ∀ op < 256, switch_arm op = (op_shape op).elim Arm.default shape_arm := by
  decide

theorem switch_arm_large (op : Nat) (hop : 256 ≤ op) : switch_arm op = Arm.default := by
  unfold switch_arm
  rw [contains_false_of_bound case_no_operand op (by decide) hop,
    contains_false_of_bound case_1byte op (by decide) hop,
    contains_false_of_bound case_2byte op (by decide) hop,
    contains_false_of_bound case_4byte op (by decide) hop,
    contains_false_of_bound case_8byte op (by decide) hop,
    contains_false_of_bound case_uleb op (by decide) hop,
    contains_false_of_bound case_sleb op (by decide) hop]
  have h1 : op ≠ DW_OP_bregx := by unfold DW_OP_bregx; omega
  have h2 : op ≠ DW_OP_addr := by unfold DW_OP_addr; omega
  simp [h1, h2]

theorem op_shape_large (op : Nat) (hop : 256 ≤ op) : op_shape op = none := by
  simp only [op_shape, List.mem_cons, List.mem_singleton, List.not_mem_nil, or_false,
    DW_OP_abs, DW_OP_addr, DW_OP_and, DW_OP_bra, DW_OP_breg0, DW_OP_bregx,
    DW_OP_const1s, DW_OP_const1u, DW_OP_const2s, DW_OP_const2u, DW_OP_const4s,
    DW_OP_const4u, DW_OP_const8s, DW_OP_const8u, DW_OP_consts, DW_OP_constu,
    DW_OP_deref, DW_OP_deref_size, DW_OP_div, DW_OP_drop, DW_OP_dup, DW_OP_eq,
    DW_OP_fbreg, DW_OP_ge, DW_OP_gt, DW_OP_le, DW_OP_lit0, DW_OP_lt, DW_OP_minus,
    DW_OP_mod, DW_OP_mul, DW_OP_ne, DW_OP_neg, DW_OP_nop, DW_OP_not, DW_OP_or,
    DW_OP_over, DW_OP_pick, DW_OP_piece, DW_OP_plus, DW_OP_plus_uconst, DW_OP_reg0,
    DW_OP_regx, DW_OP_rot, DW_OP_shl, DW_OP_shr, DW_OP_shra, DW_OP_skip, DW_OP_swap,
    DW_OP_xderef, DW_OP_xderef_size, DW_OP_xor]
  repeat rw [if_neg (by omega)]

/-- Both switches select, for every operator byte, the arm of the shape that
the operand-shape table gives it, and the `default` arm for any other byte. -/
theorem switch_arm_shape (op : Nat) :
    switch_arm op = (op_shape op).elim Arm.default shape_arm := by
  by_cases h : op < 256
  · exact switch_arm_small op h
  · rw [switch_arm_large op (by omega), op_shape_large op (by omega)]
    rfl

theorem op_shape_fixed (op n : Nat) (h : op_shape op = some (Shape.fixed n)) :
    n = 1 ∨ n = 2 ∨ n = 4 ∨ n = 8 := by
  unfold op_shape at h
  split_ifs at h <;> simp at h <;> omega

/-! ## LEB128 numbers that lie inside the expression -/

theorem uleb_inside (E t : List Nat) (h : leb_inside E = true) :
    decode_uleb128 (E ++ t) = decode_uleb128 E ∧ (decode_uleb128 E).2 ≤ E.length := by
  induction E with
  | nil => simp [leb_inside] at h
  | cons b rest ih =>
    by_cases hb : b &&& 0x80 = 0
    · simp [decode_uleb128, hb]
    · have hr : leb_inside rest = true := by
        simpa [leb_inside, hb] using h
      obtain ⟨h1, h2⟩ := ih hr
      show decode_uleb128 (b :: (rest ++ t)) = decode_uleb128 (b :: rest) ∧ _
      simp only [decode_uleb128, hb, if_false, h1, List.length_cons]
      exact ⟨trivial, by omega⟩

theorem sleb_inside (E t : List Nat) (h : leb_inside E = true) :
    decode_sleb128 (E ++ t) = decode_sleb128 E ∧ (decode_sleb128 E).2 ≤ E.length := by
  induction E with
  | nil => simp [leb_inside] at h
  | cons b rest ih =>
    by_cases hb : b &&& 0x80 = 0
    · simp [decode_sleb128, hb]
    · have hr : leb_inside rest = true := by
        simpa [leb_inside, hb] using h
      obtain ⟨h1, h2⟩ := ih hr
      show decode_sleb128 (b :: (rest ++ t)) = decode_sleb128 (b :: rest) ∧ _
      simp only [decode_sleb128, hb, if_false, h1, List.length_cons]
      exact ⟨trivial, by omega⟩

/-! ## One operator: the switch arms against the shape table -/

theorem headD_append_of_pos (E t : List Nat) (h : 1 ≤ E.length) :
    (E ++ t).headD 0 = E.headD 0 := by
  cases E with
  | nil => simp at h
  | cons e rest => rfl

/-- For an operator of the table whose operands lie inside `E`, the switch of
`loc_fill_loc` computes the operands of its shape and both switches skip the
same operand bytes, whatever follows `E` in memory. -/
theorem shape_step (dbg : Dwarf_Debug) (ps op : Nat) (sh : Shape) (E : List Nat)
    (r : Nat × Nat × Nat) (hsh : op_shape op = some sh)
    (hop : spec_operands dbg ps sh E = some r) :
    r.2.2 ≤ E.length ∧ switch_arm op ≠ Arm.default ∧
    ∀ t, fill_operands dbg ps (switch_arm op) (E ++ t) = r ∧
      op_num_skip ps (switch_arm op) (E ++ t) = r.2.2 := by
  have harm : switch_arm op = shape_arm sh := by
    rw [switch_arm_shape, hsh]; rfl
  rw [harm]
  cases sh with
  | no_operand =>
    simp only [spec_operands, Option.some.injEq] at hop
    subst hop
    exact ⟨Nat.zero_le _, by simp [shape_arm], fun t => ⟨rfl, rfl⟩⟩
  | fixed n =>
    have hn := op_shape_fixed op n hsh
    simp only [spec_operands] at hop
    by_cases hle : n ≤ E.length
    · rw [if_pos hle] at hop
      simp only [Option.some.injEq] at hop
      subst hop
      rcases hn with h | h | h | h <;> subst h
      · exact ⟨hle, by simp [shape_arm], fun t => by
          have hh := headD_append_of_pos E t hle
          simp only [shape_arm, fill_operands, op_num_skip, hh, eq_self_iff_true, if_true,
            and_self]⟩
      · exact ⟨hle, by simp [shape_arm], fun t => by
          simp [shape_arm, fill_operands, op_num_skip, List.take_append_of_le_length hle]⟩
      · exact ⟨hle, by simp [shape_arm], fun t => by
          simp [shape_arm, fill_operands, op_num_skip, List.take_append_of_le_length hle]⟩
      · exact ⟨hle, by simp [shape_arm], fun t => by
          simp [shape_arm, fill_operands, op_num_skip, List.take_append_of_le_length hle]⟩
    · rw [if_neg hle] at hop
      cases hop
  | uleb =>
    simp only [spec_operands] at hop
    by_cases hin : leb_inside E = true
    · rw [if_pos hin] at hop
      simp only [Option.some.injEq] at hop
      subst hop
      refine ⟨(uleb_inside E [] hin).2, by simp [shape_arm], fun t => ?_⟩
      simp [shape_arm, fill_operands, op_num_skip, (uleb_inside E t hin).1]
    · rw [if_neg hin] at hop
      cases hop
  | sleb =>
    simp only [spec_operands] at hop
    by_cases hin : leb_inside E = true
    · rw [if_pos hin] at hop
      simp only [Option.some.injEq] at hop
      subst hop
      refine ⟨(sleb_inside E [] hin).2, by simp [shape_arm], fun t => ?_⟩
      simp [shape_arm, fill_operands, op_num_skip, (sleb_inside E t hin).1]
    · rw [if_neg hin] at hop
      cases hop
  | uleb_sleb =>
    simp only [spec_operands] at hop
    by_cases hin : leb_inside E = true ∧ leb_inside (E.drop (decode_uleb128 E).2) = true
    · rw [if_pos hin] at hop
      simp only [Option.some.injEq] at hop
      subst hop
      have h1 := uleb_inside E [] hin.1
      have h2 := sleb_inside (E.drop (decode_uleb128 E).2) [] hin.2
      refine ⟨?_, by simp [shape_arm], fun t => ?_⟩
      · have := h2.2
        rw [List.length_drop] at this
        show (decode_uleb128 E).2 + (decode_sleb128 (E.drop (decode_uleb128 E).2)).2 ≤ E.length
        have := h1.2
        omega
      · have hd : (E ++ t).drop (decode_uleb128 E).2 = E.drop (decode_uleb128 E).2 ++ t :=
          List.drop_append_of_le_length h1.2
        simp [shape_arm, fill_operands, op_num_skip, (uleb_inside E t hin.1).1, hd,
          (sleb_inside (E.drop (decode_uleb128 E).2) t hin.2).1]
    · rw [if_neg hin] at hop
      cases hop
  | addr =>
    simp only [spec_operands] at hop
    by_cases hle : ps ≤ E.length
    · rw [if_pos hle] at hop
      simp only [Option.some.injEq] at hop
      subst hop
      exact ⟨hle, by simp [shape_arm], fun t => by
        simp [shape_arm, fill_operands, op_num_skip, List.take_append_of_le_length hle]⟩
    · rw [if_neg hle] at hop
      cases hop

/-! ## The counting pass -/

theorem op_num_loop_neg (ps : Nat) (fuel : Nat) (p : List Nat) (rem count : Int)
    (h : count < 0) : loc_op_num_loop ps fuel p rem count = count := by
  cases fuel with
  | zero => rfl
  | succ n =>
    unfold loc_op_num_loop
    rw [if_neg (by omega)]

theorem op_num_loop_end (ps : Nat) (fuel : Nat) (p : List Nat) (count : Int) :
    loc_op_num_loop ps fuel p 0 count = count := by
  cases fuel with
  | zero => rfl
  | succ n =>
    unfold loc_op_num_loop
    rw [if_neg (by omega)]

/-- The counting pass on a valid expression: one count per operator. -/
theorem op_num_of_scan (dbg : Dwarf_Debug) (ps : Nat) :
    ∀ (f : Nat) (E t : List Nat) (fuel : Nat) (count : Int) (recs : List Dwarf_Loc),
      spec_scan dbg ps f E = Scan.ok recs → E.length ≤ f → E.length ≤ fuel → 0 ≤ count →
      loc_op_num_loop ps fuel (E ++ t) E.length count = count + recs.length := by
  intro f
  induction f with
  | zero =>
    intro E t fuel count recs h hf _ _
    have hE : E = [] := List.length_eq_zero.mp (Nat.le_zero.mp hf)
    subst hE
    simp only [spec_scan, Scan.ok.injEq] at h
    subst h
    simpa using op_num_loop_end ps fuel ([] ++ t) count
  | succ f ih =>
    intro E t fuel count recs h hf hfuel hc
    cases E with
    | nil =>
      simp only [spec_scan, Scan.ok.injEq] at h
      subst h
      simpa using op_num_loop_end ps fuel ([] ++ t) count
    | cons op rest =>
      cases hsh : op_shape op with
      | none => simp [spec_scan, hsh] at h
      | some sh =>
        cases hop : spec_operands dbg ps sh rest with
        | none => simp [spec_scan, hsh, hop] at h
        | some r =>
          cases hsub : spec_scan dbg ps f (rest.drop r.2.2) with
          | bad_opcode => simp [spec_scan, hsh, hop, hsub] at h
          | truncated => simp [spec_scan, hsh, hop, hsub] at h
          | ok recs1 =>
            simp only [spec_scan, hsh, hop, hsub, Scan.ok.injEq] at h
            subst h
            obtain ⟨hn, hdef, hstep⟩ := shape_step dbg ps op sh rest r hsh hop
            cases fuel with
            | zero => simp at hfuel
            | succ fuel1 =>
              have hlen : ((op :: rest).length : Int) = (rest.length : Int) + 1 := by simp
              have hrest := ih (rest.drop r.2.2) t fuel1 (count + 1) recs1 hsub
                (by simp only [List.length_drop, List.length_cons] at hf ⊢; omega)
                (by simp only [List.length_drop, List.length_cons] at hfuel ⊢; omega)
                (by omega)
              show loc_op_num_loop ps (fuel1 + 1) (op :: (rest ++ t)) _ count = _
              unfold loc_op_num_loop
              rw [if_pos ⟨by omega, hc⟩]
              simp only [List.headD_cons, List.tail_cons, (hstep t).2, if_neg hdef,
                List.drop_append_of_le_length hn]
              have hrem : ((op :: rest).length : Int) - 1 - (r.2.2 : Nat) =
                  ((rest.drop r.2.2).length : Int) := by
                rw [hlen, List.length_drop]
                omega
              rw [hrem, hrest]
              simp only [List.length_cons]
              push_cast
              omega

/-- The counting pass on a byte string with an undefined opcode at an operator
position: the count is -1. -/
theorem op_num_of_bad (dbg : Dwarf_Debug) (ps : Nat) :
    ∀ (f : Nat) (E t : List Nat) (fuel : Nat) (count : Int),
      spec_scan dbg ps f E = Scan.bad_opcode → E.length ≤ f → E.length ≤ fuel → 0 ≤ count →
      loc_op_num_loop ps fuel (E ++ t) E.length count = -1 := by
  intro f
  induction f with
  | zero =>
    intro E t fuel count h _ _ _
    simp [spec_scan] at h
  | succ f ih =>
    intro E t fuel count h hf hfuel hc
    cases E with
    | nil => simp [spec_scan] at h
    | cons op rest =>
      cases fuel with
      | zero => simp at hfuel
      | succ fuel1 =>
        have hlen : ((op :: rest).length : Int) = (rest.length : Int) + 1 := by simp
        show loc_op_num_loop ps (fuel1 + 1) (op :: (rest ++ t)) _ count = _
        unfold loc_op_num_loop
        rw [if_pos ⟨by omega, hc⟩]
        cases hsh : op_shape op with
        | none =>
          have harm : switch_arm op = Arm.default := by
            rw [switch_arm_shape, hsh]; rfl
          simp only [List.headD_cons, harm, if_true]
          exact op_num_loop_neg ps fuel1 _ _ (-1) (by omega)
        | some sh =>
          cases hop : spec_operands dbg ps sh rest with
          | none => simp [spec_scan, hsh, hop] at h
          | some r =>
            cases hsub : spec_scan dbg ps f (rest.drop r.2.2) with
            | ok recs1 => simp [spec_scan, hsh, hop, hsub] at h
            | truncated => simp [spec_scan, hsh, hop, hsub] at h
            | bad_opcode =>
              obtain ⟨hn, hdef, hstep⟩ := shape_step dbg ps op sh rest r hsh hop
              have hrest := ih (rest.drop r.2.2) t fuel1 (count + 1) hsub
                (by simp only [List.length_drop, List.length_cons] at hf ⊢; omega)
                (by simp only [List.length_drop, List.length_cons] at hfuel ⊢; omega)
                (by omega)
              simp only [List.headD_cons, List.tail_cons, (hstep t).2, if_neg hdef,
                List.drop_append_of_le_length hn]
              have hrem : ((op :: rest).length : Int) - 1 - (r.2.2 : Nat) =
                  ((rest.drop r.2.2).length : Int) := by
                rw [hlen, List.length_drop]
                omega
              rw [hrem, hrest]

/-! ## The filling pass -/

theorem fill_loop_end (dbg : Dwarf_Debug) (ps : Nat) (fuel : Nat) (p : List Nat)
    (ld_s : List Dwarf_Loc) (count : Nat) :
    loc_fill_loc_loop dbg ps fuel p 0 ld_s count = .ok (ld_s, count) := by
  cases fuel with
  | zero => rfl
  | succ n =>
    unfold loc_fill_loc_loop
    rw [if_neg (by omega)]

/-- The filling pass on a valid expression: the records of the parse are
stored, in order, in the slots from `count` on; `written` holds the slots
filled before. -/
theorem fill_of_scan (dbg : Dwarf_Debug) (ps : Nat) :
    ∀ (f : Nat) (E t : List Nat) (fuel : Nat) (written slots recs : List Dwarf_Loc),
      spec_scan dbg ps f E = Scan.ok recs → E.length ≤ f → E.length ≤ fuel →
      recs.length ≤ slots.length →
      loc_fill_loc_loop dbg ps fuel (E ++ t) E.length (written ++ slots) written.length =
        .ok (written ++ recs ++ slots.drop recs.length, written.length + recs.length) := by
  intro f
  induction f with
  | zero =>
    intro E t fuel written slots recs h hf _ _
    have hE : E = [] := List.length_eq_zero.mp (Nat.le_zero.mp hf)
    subst hE
    simp only [spec_scan, Scan.ok.injEq] at h
    subst h
    simpa using fill_loop_end dbg ps fuel ([] ++ t) (written ++ slots) written.length
  | succ f ih =>
    intro E t fuel written slots recs h hf hfuel hslots
    cases E with
    | nil =>
      simp only [spec_scan, Scan.ok.injEq] at h
      subst h
      simpa using fill_loop_end dbg ps fuel ([] ++ t) (written ++ slots) written.length
    | cons op rest =>
      cases hsh : op_shape op with
      | none => simp [spec_scan, hsh] at h
      | some sh =>
        cases hop : spec_operands dbg ps sh rest with
        | none => simp [spec_scan, hsh, hop] at h
        | some r =>
          cases hsub : spec_scan dbg ps f (rest.drop r.2.2) with
          | bad_opcode => simp [spec_scan, hsh, hop, hsub] at h
          | truncated => simp [spec_scan, hsh, hop, hsub] at h
          | ok recs1 =>
            simp only [spec_scan, hsh, hop, hsub, Scan.ok.injEq] at h
            subst h
            obtain ⟨hn, _, hstep⟩ := shape_step dbg ps op sh rest r hsh hop
            cases fuel with
            | zero => simp at hfuel
            | succ fuel1 =>
              cases slots with
              | nil => simp at hslots
              | cons s0 slots1 =>
                have hlen : ((op :: rest).length : Int) = (rest.length : Int) + 1 := by simp
                have hrest := ih (rest.drop r.2.2) t fuel1
                  (written ++ [{ lr_atom := op, lr_number := r.1, lr_number2 := r.2.1 }])
                  slots1 recs1 hsub
                  (by simp only [List.length_drop, List.length_cons] at hf ⊢; omega)
                  (by simp only [List.length_drop, List.length_cons] at hfuel ⊢; omega)
                  (by simp only [List.length_cons] at hslots; omega)
                show loc_fill_loc_loop dbg ps (fuel1 + 1) (op :: (rest ++ t)) _ _ _ = _
                unfold loc_fill_loc_loop
                rw [if_pos (by omega), if_pos (by simp)]
                simp only [List.headD_cons, List.tail_cons, (hstep t).1,
                  List.drop_append_of_le_length hn]
                have hrem : ((op :: rest).length : Int) - 1 - (r.2.2 : Nat) =
                    ((rest.drop r.2.2).length : Int) := by
                  rw [hlen, List.length_drop]
                  omega
                have hset : (written ++ s0 :: slots1).set written.length
                    { lr_atom := op, lr_number := r.1, lr_number2 := r.2.1 } =
                    (written ++ [{ lr_atom := op, lr_number := r.1, lr_number2 := r.2.1 }]) ++
                      slots1 := by
                  simp
                have hcount : written.length + 1 =
                    (written ++ [({ lr_atom := op, lr_number := r.1, lr_number2 := r.2.1 } :
                      Dwarf_Loc)]).length := by simp
                rw [hrem, hset, hcount, hrest]
                simp only [List.length_append, List.length_cons, List.length_nil,
                  List.append_assoc, List.singleton_append, List.drop_succ_cons,
                  Except.ok.injEq, Prod.mk.injEq, true_and]
                omega

/-! ## `loc_fill_locdesc` -/

theorem to_int_small (n : Nat) (h : n < 2 ^ 31) : to_int n = (n : Int) := by
  unfold to_int
  have hmod : n % 2 ^ 32 = n := Nat.mod_eq_of_lt (by omega)
  rw [hmod, if_pos h]

theorem op_num_valid (dbg : Dwarf_Debug) (ps : Nat) (E t : List Nat) (recs : List Dwarf_Loc)
    (hlen : E.length < 2 ^ 31) (h : parse_expr dbg ps E = Scan.ok recs) :
    loc_op_num ps (E ++ t) (to_int E.length) = (recs.length : Int) := by
  rw [to_int_small _ hlen]
  unfold loc_op_num
  have := op_num_of_scan dbg ps E.length E t (E.length : Int).toNat 0 recs h (Nat.le_refl _)
    (by simp) (Int.le_refl _)
  simpa using this

theorem fill_loop_valid (dbg : Dwarf_Debug) (ps : Nat) (E t : List Nat)
    (recs : List Dwarf_Loc) (hlen : E.length < 2 ^ 31)
    (h : parse_expr dbg ps E = Scan.ok recs) :
    loc_fill_loc_loop dbg ps (to_int E.length).toNat (E ++ t) (to_int E.length)
      (List.replicate recs.length Dwarf_Loc.zero) 0 = .ok (recs, recs.length) := by
  rw [to_int_small _ hlen]
  have := fill_of_scan dbg ps E.length E t (E.length : Int).toNat []
    (List.replicate recs.length Dwarf_Loc.zero) recs h (Nat.le_refl _) (by simp) (by simp)
  simpa using this

/-- On a non-empty valid expression `loc_fill_locdesc` succeeds and stores
the records of the parse. -/
theorem fill_locdesc_valid (dbg : Dwarf_Debug) (llbuf : Dwarf_Locdesc) (ps : Nat)
    (E t : List Nat) (recs : List Dwarf_Loc) (hne : E ≠ []) (hlen : E.length < 2 ^ 31)
    (h : parse_expr dbg ps E = Scan.ok recs) :
    loc_fill_locdesc dbg llbuf (E ++ t) E.length ps =
      .ok (Dwarf_Err.DWARF_E_NONE, { llbuf with ld_cents := recs.length, ld_s := recs }) := by
  have hpos : 0 < E.length := List.length_pos.mpr hne
  unfold loc_fill_locdesc
  rw [if_neg (not_not.mpr hpos), op_num_valid dbg ps E t recs hlen h,
    if_neg (by omega)]
  unfold loc_fill_loc
  simp only [Int.toNat_ofNat, fill_loop_valid dbg ps E t recs hlen h]

theorem scan_bad_ne_nil (dbg : Dwarf_Debug) (ps : Nat) (E : List Nat)
    (h : parse_expr dbg ps E = Scan.bad_opcode) : E ≠ [] := by
  intro hE
  subst hE
  simp [parse_expr, spec_scan] at h

/-- C16: for every pointer size and every non-empty byte string `E` (shorter
than `2^31` bytes, the range of the `int` length) that is a valid expression,
whatever follows it in memory: `loc_fill_locdesc` succeeds, `ld_cents` is the
count that `loc_op_num` computes, the count is not negative, and the loop of
`loc_fill_loc` on the array of `ld_cents` zeroed slots ends with `count =
ld_cents` and every slot holding the record of one operator of the parse. -/
theorem C16_count_then_fill (dbg : Dwarf_Debug) (llbuf : Dwarf_Locdesc) (ps : Nat)
    (E t : List Nat) (recs : List Dwarf_Loc) (hne : E ≠ []) (hlen : E.length < 2 ^ 31)
    (hvalid : parse_expr dbg ps E = Scan.ok recs) :
    ∃ desc, loc_fill_locdesc dbg llbuf (E ++ t) E.length ps =
        .ok (Dwarf_Err.DWARF_E_NONE, desc) ∧
      (desc.ld_cents : Int) = loc_op_num ps (E ++ t) (to_int E.length) ∧
      0 ≤ loc_op_num ps (E ++ t) (to_int E.length) ∧
      loc_fill_loc_loop dbg ps (to_int E.length).toNat (E ++ t) (to_int E.length)
        (List.replicate desc.ld_cents Dwarf_Loc.zero) 0 = .ok (desc.ld_s, desc.ld_cents) ∧
      desc.ld_s.length = desc.ld_cents ∧ desc.ld_s = recs := by
  refine ⟨{ llbuf with ld_cents := recs.length, ld_s := recs },
    fill_locdesc_valid dbg llbuf ps E t recs hne hlen hvalid, ?_, ?_, ?_, rfl, rfl⟩
  · rw [op_num_valid dbg ps E t recs hlen hvalid]
  · rw [op_num_valid dbg ps E t recs hlen hvalid]
    exact Int.natCast_nonneg _
  · exact fill_loop_valid dbg ps E t recs hlen hvalid

theorem C16_count_then_fill_witness :
    ex_all ≠ [] ∧ ex_all.length < 2 ^ 31 ∧
    parse_expr (dbg_lsb [] []) 4 ex_all = Scan.ok
      [{ lr_atom := DW_OP_deref, lr_number := 0, lr_number2 := 0 },
       { lr_atom := DW_OP_const1u, lr_number := 7, lr_number2 := 0 },
       { lr_atom := DW_OP_const2u, lr_number := 0x1234, lr_number2 := 0 },
       { lr_atom := DW_OP_const4s, lr_number := 0xffffffff, lr_number2 := 0 },
       { lr_atom := DW_OP_const8u, lr_number := 1, lr_number2 := 0 },
       { lr_atom := DW_OP_constu, lr_number := 300, lr_number2 := 0 },
       { lr_atom := DW_OP_consts, lr_number := 2 ^ 64 - 2, lr_number2 := 0 },
       { lr_atom := DW_OP_bregx, lr_number := 5, lr_number2 := 2 ^ 64 - 1 },
       { lr_atom := DW_OP_addr, lr_number := 0x1000, lr_number2 := 0 }] ∧
    ∃ desc, loc_fill_locdesc (dbg_lsb [] []) Dwarf_Locdesc.zero (ex_all ++ [1, 2, 3])
        ex_all.length 4 = .ok (Dwarf_Err.DWARF_E_NONE, desc) ∧
      (desc.ld_cents : Int) = loc_op_num 4 (ex_all ++ [1, 2, 3]) (to_int ex_all.length) ∧
      0 ≤ loc_op_num 4 (ex_all ++ [1, 2, 3]) (to_int ex_all.length) ∧
      loc_fill_loc_loop (dbg_lsb [] []) 4 (to_int ex_all.length).toNat (ex_all ++ [1, 2, 3])
        (to_int ex_all.length) (List.replicate desc.ld_cents Dwarf_Loc.zero) 0 =
          .ok (desc.ld_s, desc.ld_cents) ∧
      desc.ld_s.length = desc.ld_cents ∧
      desc.ld_s =
        [{ lr_atom := DW_OP_deref, lr_number := 0, lr_number2 := 0 },
         { lr_atom := DW_OP_const1u, lr_number := 7, lr_number2 := 0 },
         { lr_atom := DW_OP_const2u, lr_number := 0x1234, lr_number2 := 0 },
         { lr_atom := DW_OP_const4s, lr_number := 0xffffffff, lr_number2 := 0 },
         { lr_atom := DW_OP_const8u, lr_number := 1, lr_number2 := 0 },
         { lr_atom := DW_OP_constu, lr_number := 300, lr_number2 := 0 },
         { lr_atom := DW_OP_consts, lr_number := 2 ^ 64 - 2, lr_number2 := 0 },
         { lr_atom := DW_OP_bregx, lr_number := 5, lr_number2 := 2 ^ 64 - 1 },
         { lr_atom := DW_OP_addr, lr_number := 0x1000, lr_number2 := 0 }] :=
  ⟨by decide, by decide, by decide,
    C16_count_then_fill (dbg_lsb [] []) Dwarf_Locdesc.zero 4 ex_all [1, 2, 3] _
      (by decide) (by decide) (by decide)⟩

/-- C17: for every pointer size and every byte string `E` (shorter than
`2^31` bytes) in which, decoding left to right, some operator position holds a
byte that is not a defined opcode, whatever follows it in memory:
`loc_op_num` returns -1 and `loc_fill_locdesc` fails with
`DWARF_E_INVALID_EXPR`, leaving the description as it was (no operator record
is stored). -/
theorem C17_undefined_opcode (dbg : Dwarf_Debug) (llbuf : Dwarf_Locdesc) (ps : Nat)
    (E t : List Nat) (hlen : E.length < 2 ^ 31)
    (hbad : parse_expr dbg ps E = Scan.bad_opcode) :
    loc_op_num ps (E ++ t) (to_int E.length) = -1 ∧
    loc_fill_locdesc dbg llbuf (E ++ t) E.length ps =
      .ok (Dwarf_Err.DWARF_E_INVALID_EXPR, llbuf) := by
  have hnum : loc_op_num ps (E ++ t) (to_int E.length) = -1 := by
    rw [to_int_small _ hlen]
    unfold loc_op_num
    have := op_num_of_bad dbg ps E.length E t (E.length : Int).toNat 0 hbad (Nat.le_refl _)
      (by simp) (Int.le_refl _)
    simpa using this
  refine ⟨hnum, ?_⟩
  have hpos : 0 < E.length := List.length_pos.mpr (scan_bad_ne_nil dbg ps E hbad)
  unfold loc_fill_locdesc
  rw [if_neg (not_not.mpr hpos), hnum, if_pos (by omega)]

theorem C17_undefined_opcode_witness :
    ex_bad.length < 2 ^ 31 ∧ parse_expr (dbg_lsb [] []) 8 ex_bad = Scan.bad_opcode ∧
    loc_op_num 8 (ex_bad ++ [0x12]) (to_int ex_bad.length) = -1 ∧
    loc_fill_locdesc (dbg_lsb [] []) Dwarf_Locdesc.zero (ex_bad ++ [0x12]) ex_bad.length 8 =
      .ok (Dwarf_Err.DWARF_E_INVALID_EXPR, Dwarf_Locdesc.zero) :=
  ⟨by decide, by decide,
    C17_undefined_opcode (dbg_lsb [] []) Dwarf_Locdesc.zero 8 ex_bad [0x12] (by decide)
      (by decide)⟩

/-! ## The records of a valid expression -/

theorem getD_append_length (pre rest : List Nat) (op : Nat) :
    (pre ++ op :: rest).getD pre.length 0 = op := by
  induction pre with
  | nil => rfl
  | cons a pre ih => simpa using ih

/-- The records of the parse are the records of the operator positions, in
order. -/
theorem scan_positions (dbg : Dwarf_Debug) (ps : Nat) :
    ∀ (f : Nat) (pre cur : List Nat) (recs : List Dwarf_Loc),
      spec_scan dbg ps f cur = Scan.ok recs →
      recs = (op_positions dbg ps f pre.length cur).map (record_at dbg ps (pre ++ cur)) := by
  intro f
  induction f with
  | zero =>
    intro pre cur recs h
    simp only [spec_scan, Scan.ok.injEq] at h
    subst h
    rfl
  | succ f ih =>
    intro pre cur recs h
    cases cur with
    | nil =>
      simp only [spec_scan, Scan.ok.injEq] at h
      subst h
      rfl
    | cons op rest =>
      cases hsh : op_shape op with
      | none => simp [spec_scan, hsh] at h
      | some sh =>
        cases hop : spec_operands dbg ps sh rest with
        | none => simp [spec_scan, hsh, hop] at h
        | some r =>
          cases hsub : spec_scan dbg ps f (rest.drop r.2.2) with
          | bad_opcode => simp [spec_scan, hsh, hop, hsub] at h
          | truncated => simp [spec_scan, hsh, hop, hsub] at h
          | ok recs1 =>
            simp only [spec_scan, hsh, hop, hsub, Scan.ok.injEq] at h
            subst h
            obtain ⟨hn, _, _⟩ := shape_step dbg ps op sh rest r hsh hop
            have hget : (pre ++ op :: rest).getD pre.length 0 = op :=
              getD_append_length pre rest op
            have hdrop : (pre ++ op :: rest).drop (pre.length + 1) = rest := by
              rw [List.drop_append_eq_append_drop]
              simp
            have hrec : record_at dbg ps (pre ++ op :: rest) pre.length =
                { lr_atom := op, lr_number := r.1, lr_number2 := r.2.1 } := by
              simp only [record_at, hget, hsh, hdrop, hop]
            have hsplit : pre ++ op :: rest =
                (pre ++ op :: rest.take r.2.2) ++ rest.drop r.2.2 := by
              simp
            have hlen : (pre ++ op :: rest.take r.2.2).length = pre.length + 1 + r.2.2 := by
              simp only [List.length_append, List.length_cons, List.length_take,
                Nat.min_eq_left hn]
              omega
            have hrest := ih (pre ++ op :: rest.take r.2.2) (rest.drop r.2.2) recs1 hsub
            rw [← hsplit, hlen] at hrest
            simp only [op_positions, hsh, hop, List.map_cons, hrec]
            rw [← hrest]

theorem op_shape_bregx (op : Nat) (h : op_shape op = some Shape.uleb_sleb) :
    op = DW_OP_bregx := by
  unfold op_shape at h
  split_ifs at h with h1 h2 h3 h4 h5 h6 h7 h8 h9 <;> first | exact h8 | simp at h

theorem spec_operands_second (dbg : Dwarf_Debug) (ps : Nat) (sh : Shape) (E : List Nat)
    (r : Nat × Nat × Nat) (h : spec_operands dbg ps sh E = some r)
    (hsh : sh ≠ Shape.uleb_sleb) : r.2.1 = 0 := by
  cases sh with
  | uleb_sleb => exact absurd rfl hsh
  | no_operand =>
    simp only [spec_operands, Option.some.injEq] at h
    subst h; rfl
  | fixed n =>
    simp only [spec_operands] at h
    by_cases hle : n ≤ E.length
    · rw [if_pos hle] at h
      simp only [Option.some.injEq] at h
      subst h; rfl
    · rw [if_neg hle] at h
      cases h
  | uleb =>
    simp only [spec_operands] at h
    split_ifs at h
    simp only [Option.some.injEq] at h
    subst h; rfl
  | sleb =>
    simp only [spec_operands] at h
    split_ifs at h
    simp only [Option.some.injEq] at h
    subst h; rfl
  | addr =>
    simp only [spec_operands] at h
    split_ifs at h
    simp only [Option.some.injEq] at h
    subst h; rfl

/-- In the records of a parse `operand2` is 0 unless the opcode is
`DW_OP_bregx`. -/
theorem scan_second_operand (dbg : Dwarf_Debug) (ps : Nat) :
    ∀ (f : Nat) (E : List Nat) (recs : List Dwarf_Loc),
      spec_scan dbg ps f E = Scan.ok recs →
      ∀ x ∈ recs, x.lr_atom ≠ DW_OP_bregx → x.lr_number2 = 0 := by
  intro f
  induction f with
  | zero =>
    intro E recs h
    simp only [spec_scan, Scan.ok.injEq] at h
    subst h
    simp
  | succ f ih =>
    intro E recs h
    cases E with
    | nil =>
      simp only [spec_scan, Scan.ok.injEq] at h
      subst h
      simp
    | cons op rest =>
      cases hsh : op_shape op with
      | none => simp [spec_scan, hsh] at h
      | some sh =>
        cases hop : spec_operands dbg ps sh rest with
        | none => simp [spec_scan, hsh, hop] at h
        | some r =>
          cases hsub : spec_scan dbg ps f (rest.drop r.2.2) with
          | bad_opcode => simp [spec_scan, hsh, hop, hsub] at h
          | truncated => simp [spec_scan, hsh, hop, hsub] at h
          | ok recs1 =>
            simp only [spec_scan, hsh, hop, hsub, Scan.ok.injEq] at h
            subst h
            intro x hx hne
            rcases List.mem_cons.mp hx with hx | hx
            · subst hx
              apply spec_operands_second dbg ps sh rest r hop
              intro hs
              subst hs
              exact hne (op_shape_bregx op hsh)
            · exact ih _ recs1 hsub x hx hne

/-! ## Little-endian bytes -/

theorem le_bytes_length (n v : Nat) : (le_bytes n v).length = n := by
  induction n generalizing v with
  | zero => rfl
  | succ n ih => simp [le_bytes, ih]

theorem decode_lsb_le_bytes (n : Nat) : ∀ v, n ≤ 8 → v < 256 ^ n →
    decode_lsb (le_bytes n v) = v := by
  induction n with
  | zero =>
    intro v _ hv
    simp at hv
    subst hv
    rfl
  | succ n ih =>
    intro v hn hv
    have hq : v / 256 < 256 ^ n := by
      rw [Nat.div_lt_iff_lt_mul (by norm_num)]
      rw [pow_succ] at hv
      exact hv
    have hbound : v < 2 ^ 64 := by
      have h1 : (256 : Nat) ^ (n + 1) ≤ 256 ^ 8 := Nat.pow_le_pow_right (by norm_num) hn
      have h2 : (256 : Nat) ^ 8 = 2 ^ 64 := by norm_num
      omega
    simp only [le_bytes, decode_lsb, ih (v / 256) (by omega) hq, Nat.mod_mod]
    rw [Nat.mod_add_div v 256]
    exact Nat.mod_eq_of_lt hbound

theorem spec_scan_nil (dbg : Dwarf_Debug) (ps f : Nat) : spec_scan dbg ps f [] = Scan.ok [] := by
  cases f <;> rfl

/-- The parse of `DW_OP_addr` followed by the little-endian bytes of `v`, in a
little-endian object. -/
theorem parse_addr_lsb (buf : List Nat) (cache : List Dwarf_Loclist) (ps v : Nat)
    (hps : ps ≤ 8) (hv : v < 256 ^ ps) :
    parse_expr (dbg_lsb buf cache) ps (DW_OP_addr :: le_bytes ps v) =
      Scan.ok [{ lr_atom := DW_OP_addr, lr_number := v, lr_number2 := 0 }] := by
  have hshape : op_shape DW_OP_addr = some Shape.addr := by decide
  have hlen := le_bytes_length ps v
  have hops : spec_operands (dbg_lsb buf cache) ps Shape.addr (le_bytes ps v) =
      some (v, 0, ps) := by
    simp only [spec_operands, hlen, Nat.le_refl, if_true, dbg_lsb]
    rw [List.take_of_length_le (Nat.le_of_eq hlen), decode_lsb_le_bytes ps v hps hv]
  simp only [parse_expr, List.length_cons, spec_scan, hshape, hops]
  rw [List.drop_of_length_le (Nat.le_of_eq hlen), spec_scan_nil]

/-- C18: for every valid expression `E` (shorter than `2^31` bytes) and
pointer size, `loc_fill_loc` stores in the zeroed array the records of the
parse; the k-th record is the record of the k-th operator position: its opcode
is the byte there and its operands are those of the opcode's shape, decoded
from the bytes that follow (`spec_operands`); `operand2` is 0 unless the
opcode is `DW_OP_bregx`. In a little-endian object `DW_OP_addr` followed by
the pointer-size bytes of `v` gives the single record `DW_OP_addr`, `v`, 0. -/
theorem C18_record_contents (dbg : Dwarf_Debug) (llbuf : Dwarf_Locdesc) (ps : Nat)
    (E t : List Nat) (recs : List Dwarf_Loc) (hlen : E.length < 2 ^ 31)
    (hvalid : parse_expr dbg ps E = Scan.ok recs) :
    loc_fill_loc dbg
        { llbuf with ld_cents := recs.length,
                     ld_s := List.replicate recs.length Dwarf_Loc.zero }
        ps (E ++ t) (to_int E.length) =
      .ok (Dwarf_Err.DWARF_E_NONE, { llbuf with ld_cents := recs.length, ld_s := recs }) ∧
    recs = (op_positions dbg ps E.length 0 E).map (record_at dbg ps E) ∧
    (∀ x ∈ recs, x.lr_atom ≠ DW_OP_bregx → x.lr_number2 = 0) ∧
    (∀ (buf : List Nat) (cache : List Dwarf_Loclist) (v : Nat), ps ≤ 8 → v < 256 ^ ps →
      loc_fill_locdesc (dbg_lsb buf cache) llbuf (DW_OP_addr :: le_bytes ps v ++ t)
          (ps + 1) ps =
        .ok (Dwarf_Err.DWARF_E_NONE,
             { llbuf with
               ld_cents := 1
               ld_s := [{ lr_atom := DW_OP_addr, lr_number := v, lr_number2 := 0 }] })) := by
  refine ⟨?_, scan_positions dbg ps E.length [] E recs hvalid,
    scan_second_operand dbg ps E.length E recs hvalid, ?_⟩
  · unfold loc_fill_loc
    simp only [fill_loop_valid dbg ps E t recs hlen hvalid]
  · intro buf cache v hps hv
    have hl : (DW_OP_addr :: le_bytes ps v).length = ps + 1 := by
      simp [le_bytes_length]
    have := fill_locdesc_valid (dbg_lsb buf cache) llbuf ps (DW_OP_addr :: le_bytes ps v) t
      [{ lr_atom := DW_OP_addr, lr_number := v, lr_number2 := 0 }] (by simp)
      (by rw [hl]; omega) (parse_addr_lsb buf cache ps v hps hv)
    rw [hl] at this
    exact this

theorem C18_record_contents_witness :
    ex_addr.length < 2 ^ 31 ∧
    parse_expr (dbg_lsb [] []) 8 ex_addr =
      Scan.ok [{ lr_atom := DW_OP_addr, lr_number := 0x12345678, lr_number2 := 0 }] ∧
    loc_fill_loc (dbg_lsb [] [])
        { Dwarf_Locdesc.zero with
          ld_cents := [({ lr_atom := DW_OP_addr, lr_number := 0x12345678, lr_number2 := 0 } :
            Dwarf_Loc)].length
          ld_s := List.replicate
            [({ lr_atom := DW_OP_addr, lr_number := 0x12345678, lr_number2 := 0 } :
              Dwarf_Loc)].length Dwarf_Loc.zero }
        8 (ex_addr ++ [0x96]) (to_int ex_addr.length) =
      .ok (Dwarf_Err.DWARF_E_NONE,
           { Dwarf_Locdesc.zero with
             ld_cents := [({ lr_atom := DW_OP_addr, lr_number := 0x12345678,
                             lr_number2 := 0 } : Dwarf_Loc)].length
             ld_s := [{ lr_atom := DW_OP_addr, lr_number := 0x12345678, lr_number2 := 0 }] }) ∧
    [({ lr_atom := DW_OP_addr, lr_number := 0x12345678, lr_number2 := 0 } : Dwarf_Loc)] =
      (op_positions (dbg_lsb [] []) 8 ex_addr.length 0 ex_addr).map
        (record_at (dbg_lsb [] []) 8 ex_addr) ∧
    (∀ x ∈ [({ lr_atom := DW_OP_addr, lr_number := 0x12345678, lr_number2 := 0 } :
        Dwarf_Loc)], x.lr_atom ≠ DW_OP_bregx → x.lr_number2 = 0) ∧
    (∀ (buf : List Nat) (cache : List Dwarf_Loclist) (v : Nat), 8 ≤ 8 → v < 256 ^ 8 →
      loc_fill_locdesc (dbg_lsb buf cache) Dwarf_Locdesc.zero
          (DW_OP_addr :: le_bytes 8 v ++ [0x96]) (8 + 1) 8 =
        .ok (Dwarf_Err.DWARF_E_NONE,
             { Dwarf_Locdesc.zero with
               ld_cents := 1
               ld_s := [{ lr_atom := DW_OP_addr, lr_number := v, lr_number2 := 0 }] })) :=
  ⟨by decide, by decide,
    C18_record_contents (dbg_lsb [] []) Dwarf_Locdesc.zero 8 ex_addr [0x96] _ (by decide)
      (by decide)⟩

/-! ## Location lists -/

theorem base_select_iff (ps start : Nat) (hps : ps = 4 ∨ ps = 8) :
    ((ps = 4 ∧ start = 2 ^ 32 - 1) ∨ (ps = 8 ∧ start = 2 ^ 64 - 1)) ↔
      start = 2 ^ (8 * ps) - 1 := by
  rcases hps with h | h <;> subst h <;> norm_num

/-- The first pass (`ld == NULL`) over a well-formed list: it counts one
entry per decoded pair. -/
theorem locdesc_loop_count (dbg : Dwarf_Debug) (ps : Nat) (d : Elf_Data)
    (hps : ps = 4 ∨ ps = 8) :
    ∀ (f off i total : Nat) (entries : List Dwarf_Locdesc),
      nonempty_entries dbg ps d.d_buf f off = some entries →
      ∃ off1 total1,
        loclist_add_locdesc_loop dbg ps d f
            { off := off, ld := none, i := i, total_len := total } =
          .ok (Dwarf_Err.DWARF_E_NONE,
               { off := off1, ld := none, i := i + entries.length, total_len := total1 }) := by
  intro f
  induction f with
  | zero => intro off i total entries h; simp [nonempty_entries] at h
  | succ f ih =>
    intro off i total entries h
    have hpos : 0 < ps := by rcases hps with h | h <;> omega
    unfold nonempty_entries at h
    by_cases hin : off + ps + ps ≤ d.d_buf.length
    · rw [if_pos hin] at h
      have hlt : off < d.d_size := by unfold Elf_Data.d_size; omega
      unfold loclist_add_locdesc_loop
      simp only [if_pos hlt, set_range]
      by_cases hend : dbg.read ((d.d_buf.drop off).take ps) = 0 ∧
          dbg.read ((d.d_buf.drop (off + ps)).take ps) = 0
      · rw [if_pos hend] at h
        simp only [Option.some.injEq] at h
        subst h
        rw [if_pos hend]
        exact ⟨_, _, rfl⟩
      · rw [if_neg hend] at h
        rw [if_neg hend]
        by_cases hbase : dbg.read ((d.d_buf.drop off).take ps) = 2 ^ (8 * ps) - 1
        · rw [if_pos hbase] at h
          rw [if_pos ((base_select_iff ps _ hps).mpr hbase)]
          cases hsub : nonempty_entries dbg ps d.d_buf f (off + ps + ps) with
          | none => simp [hsub] at h
          | some tl =>
            simp only [hsub, Option.map_some', Option.some.injEq] at h
            subst h
            obtain ⟨off1, total1, hr⟩ := ih (off + ps + ps) (i + 1) (total + 2 * ps) tl hsub
            refine ⟨off1, total1, ?_⟩
            rw [hr]
            simp only [List.length_cons]
            rw [Nat.add_assoc, Nat.add_comm 1]
        · rw [if_neg hbase] at h
          rw [if_neg (fun hc => hbase ((base_select_iff ps _ hps).mp hc))]
          by_cases hL : 0 < dbg.read ((d.d_buf.drop (off + ps + ps)).take 2) ∧
              dbg.read ((d.d_buf.drop (off + ps + ps)).take 2) < 2 ^ 16 ∧
              off + ps + ps + 2 + dbg.read ((d.d_buf.drop (off + ps + ps)).take 2) ≤
                d.d_buf.length
          · rw [if_pos hL] at h
            have hnot : ¬ (off + ps + ps + 2 +
                dbg.read ((d.d_buf.drop (off + ps + ps)).take 2) > d.d_size) := by
              unfold Elf_Data.d_size; omega
            rw [if_neg hnot]
            cases hparse : parse_expr dbg ps ((d.d_buf.drop (off + ps + ps + 2)).take
                (dbg.read ((d.d_buf.drop (off + ps + ps)).take 2))) with
            | bad_opcode => simp [hparse] at h
            | truncated => simp [hparse] at h
            | ok recs =>
              simp only [hparse] at h
              cases hsub : nonempty_entries dbg ps d.d_buf f (off + ps + ps + 2 +
                  dbg.read ((d.d_buf.drop (off + ps + ps)).take 2)) with
              | none => simp [hsub] at h
              | some tl =>
                simp only [hsub, Option.map_some', Option.some.injEq] at h
                subst h
                obtain ⟨off1, total1, hr⟩ := ih _ (i + 1)
                  (total + 2 * ps + dbg.read ((d.d_buf.drop (off + ps + ps)).take 2)) tl hsub
                refine ⟨off1, total1, ?_⟩
                rw [hr]
                simp only [List.length_cons]
                rw [Nat.add_assoc, Nat.add_comm 1]
          · rw [if_neg hL] at h
            cases h
    · rw [if_neg hin] at h
      cases h

theorem get?_append_length {α : Type} (w r : List α) (x : α) :
    (w ++ x :: r).get? w.length = some x := by
  induction w with
  | nil => rfl
  | cons a w ih => simpa using ih

theorem set_append_length {α : Type} (w r : List α) (x y : α) :
    (w ++ x :: r).set w.length y = w ++ y :: r := by
  induction w with
  | nil => rfl
  | cons a w ih => simp [List.set, ih]

/-- The second pass (`ld` is the zeroed array) over a well-formed list: the
entries of the list are stored, in order, in the slots from `i` on; `written`
holds the slots filled before. -/
theorem locdesc_loop_fill (dbg : Dwarf_Debug) (ps : Nat) (d : Elf_Data)
    (hps : ps = 4 ∨ ps = 8) :
    ∀ (f off : Nat) (written : List Dwarf_Locdesc) (n total : Nat)
      (entries : List Dwarf_Locdesc),
      nonempty_entries dbg ps d.d_buf f off = some entries → entries.length ≤ n →
      ∃ off1 total1,
        loclist_add_locdesc_loop dbg ps d f
            { off := off, ld := some (written ++ List.replicate n Dwarf_Locdesc.zero),
              i := written.length, total_len := total } =
          .ok (Dwarf_Err.DWARF_E_NONE,
               { off := off1,
                 ld := some (written ++ entries ++
                   List.replicate (n - entries.length) Dwarf_Locdesc.zero),
                 i := written.length + entries.length, total_len := total1 }) := by
  intro f
  induction f with
  | zero => intro off written n total entries h; simp [nonempty_entries] at h
  | succ f ih =>
    intro off written n total entries h hn
    have hpos : 0 < ps := by rcases hps with h | h <;> omega
    unfold nonempty_entries at h
    by_cases hin : off + ps + ps ≤ d.d_buf.length
    · rw [if_pos hin] at h
      have hlt : off < d.d_size := by unfold Elf_Data.d_size; omega
      have hn1 : ∃ n1, n = n1 + 1 := by
        cases n with
        | zero =>
          exfalso
          split_ifs at h
          · simp only [Option.some.injEq] at h
            subst h
            simp at hn
          · cases hs : nonempty_entries dbg ps d.d_buf f (off + ps + ps) with
            | none => simp [hs] at h
            | some tl =>
              simp only [hs, Option.map_some', Option.some.injEq] at h
              subst h
              simp at hn
          · cases hp : parse_expr dbg ps ((d.d_buf.drop (off + ps + ps + 2)).take
                (dbg.read ((d.d_buf.drop (off + ps + ps)).take 2))) with
            | bad_opcode => simp [hp] at h
            | truncated => simp [hp] at h
            | ok recs =>
              simp only [hp] at h
              cases hs : nonempty_entries dbg ps d.d_buf f (off + ps + ps + 2 +
                  dbg.read ((d.d_buf.drop (off + ps + ps)).take 2)) with
              | none => simp [hs] at h
              | some tl =>
                simp only [hs, Option.map_some', Option.some.injEq] at h
                subst h
                simp at hn
        | succ n1 => exact ⟨n1, rfl⟩
      obtain ⟨n1, hn1⟩ := hn1
      subst hn1
      unfold loclist_add_locdesc_loop
      simp only [if_pos hlt, set_range, List.replicate_succ, get?_append_length,
        set_append_length]
      by_cases hend : dbg.read ((d.d_buf.drop off).take ps) = 0 ∧
          dbg.read ((d.d_buf.drop (off + ps)).take ps) = 0
      · rw [if_pos hend] at h
        simp only [Option.some.injEq] at h
        subst h
        rw [if_pos hend]
        refine ⟨off + ps + ps, total + 2 * ps, ?_⟩
        simp [hend.1, hend.2, Dwarf_Locdesc.zero]
      · rw [if_neg hend] at h
        rw [if_neg hend]
        by_cases hbase : dbg.read ((d.d_buf.drop off).take ps) = 2 ^ (8 * ps) - 1
        · rw [if_pos hbase] at h
          rw [if_pos ((base_select_iff ps _ hps).mpr hbase)]
          cases hsub : nonempty_entries dbg ps d.d_buf f (off + ps + ps) with
          | none => simp [hsub] at h
          | some tl =>
            simp only [hsub, Option.map_some', Option.some.injEq] at h
            subst h
            obtain ⟨off1, total1, hr⟩ := ih (off + ps + ps)
              (written ++ [{ Dwarf_Locdesc.zero with
                ld_lopc := dbg.read ((d.d_buf.drop off).take ps),
                ld_hipc := dbg.read ((d.d_buf.drop (off + ps)).take ps) }])
              n1 (total + 2 * ps) tl hsub
              (by simp only [List.length_cons] at hn; omega)
            refine ⟨off1, total1, ?_⟩
            simp only [List.append_assoc, List.singleton_append, List.length_append,
              List.length_cons, List.length_nil] at hr
            rw [hr]
            simp [Dwarf_Locdesc.zero, Nat.add_assoc]
            omega
        · rw [if_neg hbase] at h
          rw [if_neg (fun hc => hbase ((base_select_iff ps _ hps).mp hc))]
          by_cases hL : 0 < dbg.read ((d.d_buf.drop (off + ps + ps)).take 2) ∧
              dbg.read ((d.d_buf.drop (off + ps + ps)).take 2) < 2 ^ 16 ∧
              off + ps + ps + 2 + dbg.read ((d.d_buf.drop (off + ps + ps)).take 2) ≤
                d.d_buf.length
          · rw [if_pos hL] at h
            have hnot : ¬ (off + ps + ps + 2 +
                dbg.read ((d.d_buf.drop (off + ps + ps)).take 2) > d.d_size) := by
              unfold Elf_Data.d_size; omega
            rw [if_neg hnot]
            cases hparse : parse_expr dbg ps ((d.d_buf.drop (off + ps + ps + 2)).take
                (dbg.read ((d.d_buf.drop (off + ps + ps)).take 2))) with
            | bad_opcode => simp [hparse] at h
            | truncated => simp [hparse] at h
            | ok recs =>
              simp only [hparse] at h
              cases hsub : nonempty_entries dbg ps d.d_buf f (off + ps + ps + 2 +
                  dbg.read ((d.d_buf.drop (off + ps + ps)).take 2)) with
              | none => simp [hsub] at h
              | some tl =>
                simp only [hsub, Option.map_some', Option.some.injEq] at h
                subst h
                have hElen : ((d.d_buf.drop (off + ps + ps + 2)).take
                    (dbg.read ((d.d_buf.drop (off + ps + ps)).take 2))).length =
                    dbg.read ((d.d_buf.drop (off + ps + ps)).take 2) := by
                  rw [List.length_take, List.length_drop]
                  omega
                have hfill := fill_locdesc_valid dbg
                  { Dwarf_Locdesc.zero with
                    ld_lopc := dbg.read ((d.d_buf.drop off).take ps),
                    ld_hipc := dbg.read ((d.d_buf.drop (off + ps)).take ps) }
                  ps
                  ((d.d_buf.drop (off + ps + ps + 2)).take
                    (dbg.read ((d.d_buf.drop (off + ps + ps)).take 2)))
                  ((d.d_buf.drop (off + ps + ps + 2)).drop
                    (dbg.read ((d.d_buf.drop (off + ps + ps)).take 2)))
                  recs
                  (by
                    intro hnil
                    rw [hnil] at hElen
                    simp at hElen
                    omega)
                  (by rw [hElen]; omega)
                  hparse
                rw [List.take_append_drop, hElen] at hfill
                obtain ⟨off1, total1, hr⟩ := ih
                  (off + ps + ps + 2 + dbg.read ((d.d_buf.drop (off + ps + ps)).take 2))
                  (written ++ [{ Dwarf_Locdesc.zero with
                    ld_lopc := dbg.read ((d.d_buf.drop off).take ps),
                    ld_hipc := dbg.read ((d.d_buf.drop (off + ps)).take ps),
                    ld_cents := recs.length, ld_s := recs }])
                  n1
                  (total + 2 * ps + dbg.read ((d.d_buf.drop (off + ps + ps)).take 2)) tl hsub
                  (by simp only [List.length_cons] at hn; omega)
                refine ⟨off1, total1, ?_⟩
                simp only [List.append_assoc, List.singleton_append, List.length_append,
                  List.length_cons, List.length_nil] at hr
                simp only [hfill, ne_eq, not_true_eq_false, if_false, set_append_length]
                simp only [Dwarf_Locdesc.zero] at hr ⊢
                rw [hr]
                simp [Nat.add_assoc]
                omega
          · rw [if_neg hL] at h
            cases h
    · rw [if_neg hin] at h
      cases h

/-- The first pass over a list with a normal entry whose expression extends
past the end of the section: it returns `DWARF_E_INVALID_LOCLIST`. -/
theorem locdesc_loop_truncated (dbg : Dwarf_Debug) (ps : Nat) (d : Elf_Data)
    (hps : ps = 4 ∨ ps = 8) :
    ∀ (f off i total : Nat), reaches_truncated dbg ps d.d_buf f off = true →
      ∃ st,
        loclist_add_locdesc_loop dbg ps d f
            { off := off, ld := none, i := i, total_len := total } =
          .ok (Dwarf_Err.DWARF_E_INVALID_LOCLIST, st) := by
  intro f
  induction f with
  | zero => intro off i total h; simp [reaches_truncated] at h
  | succ f ih =>
    intro off i total h
    have hpos : 0 < ps := by rcases hps with h | h <;> omega
    unfold reaches_truncated at h
    by_cases hin : off + ps + ps ≤ d.d_buf.length
    · rw [if_pos hin] at h
      have hlt : off < d.d_size := by unfold Elf_Data.d_size; omega
      unfold loclist_add_locdesc_loop
      simp only [if_pos hlt, set_range]
      by_cases hend : dbg.read ((d.d_buf.drop off).take ps) = 0 ∧
          dbg.read ((d.d_buf.drop (off + ps)).take ps) = 0
      · rw [if_pos hend] at h
        cases h
      · rw [if_neg hend] at h
        rw [if_neg hend]
        by_cases hbase : dbg.read ((d.d_buf.drop off).take ps) = 2 ^ (8 * ps) - 1
        · rw [if_pos hbase] at h
          rw [if_pos ((base_select_iff ps _ hps).mpr hbase)]
          exact ih _ _ _ h
        · rw [if_neg hbase] at h
          rw [if_neg (fun hc => hbase ((base_select_iff ps _ hps).mp hc))]
          by_cases hlenin : off + ps + ps + 2 ≤ d.d_buf.length
          · rw [if_pos hlenin] at h
            by_cases hover : off + ps + ps + 2 +
                dbg.read ((d.d_buf.drop (off + ps + ps)).take 2) > d.d_buf.length
            · have hover1 : off + ps + ps + 2 +
                  dbg.read ((d.d_buf.drop (off + ps + ps)).take 2) > d.d_size := hover
              rw [if_pos hover1]
              exact ⟨_, rfl⟩
            · rw [if_neg hover] at h
              have hover1 : ¬ (off + ps + ps + 2 +
                  dbg.read ((d.d_buf.drop (off + ps + ps)).take 2) > d.d_size) := hover
              rw [if_neg hover1]
              exact ih _ _ _ h
          · rw [if_neg hlenin] at h
            cases h
    · rw [if_neg hin] at h
      cases h

/-- The entries of a well-formed list end with the end entry, and no entry
before it has `lopc = hipc = 0`. -/
theorem nonempty_entries_last (dbg : Dwarf_Debug) (ps : Nat) (buf : List Nat) :
    ∀ (f off : Nat) (entries : List Dwarf_Locdesc),
      nonempty_entries dbg ps buf f off = some entries →
      ∃ init, entries = init ++ [Dwarf_Locdesc.zero] ∧
        ∀ e ∈ init, ¬ (e.ld_lopc = 0 ∧ e.ld_hipc = 0) := by
  intro f
  induction f with
  | zero => intro off entries h; simp [nonempty_entries] at h
  | succ f ih =>
    intro off entries h
    unfold nonempty_entries at h
    by_cases hin : off + ps + ps ≤ buf.length
    · rw [if_pos hin] at h
      by_cases hend : dbg.read ((buf.drop off).take ps) = 0 ∧
          dbg.read ((buf.drop (off + ps)).take ps) = 0
      · rw [if_pos hend] at h
        simp only [Option.some.injEq] at h
        subst h
        exact ⟨[], rfl, by simp⟩
      · rw [if_neg hend] at h
        by_cases hbase : dbg.read ((buf.drop off).take ps) = 2 ^ (8 * ps) - 1
        · rw [if_pos hbase] at h
          cases hsub : nonempty_entries dbg ps buf f (off + ps + ps) with
          | none => simp [hsub] at h
          | some tl =>
            simp only [hsub, Option.map_some', Option.some.injEq] at h
            subst h
            obtain ⟨init, hi, hall⟩ := ih _ tl hsub
            refine ⟨_ :: init, by rw [hi]; rfl, ?_⟩
            intro e he
            rcases List.mem_cons.mp he with he | he
            · subst he; exact hend
            · exact hall e he
        · rw [if_neg hbase] at h
          split_ifs at h
          cases hparse : parse_expr dbg ps ((buf.drop (off + ps + ps + 2)).take
              (dbg.read ((buf.drop (off + ps + ps)).take 2))) with
          | bad_opcode => simp [hparse] at h
          | truncated => simp [hparse] at h
          | ok recs =>
            simp only [hparse] at h
            cases hsub : nonempty_entries dbg ps buf f (off + ps + ps + 2 +
                dbg.read ((buf.drop (off + ps + ps)).take 2)) with
            | none => simp [hsub] at h
            | some tl =>
              simp only [hsub, Option.map_some', Option.some.injEq] at h
              subst h
              obtain ⟨init, hi, hall⟩ := ih _ tl hsub
              refine ⟨_ :: init, by rw [hi]; rfl, ?_⟩
              intro e he
              rcases List.mem_cons.mp he with he | he
              · subst he; exact hend
              · exact hall e he
    · rw [if_neg hin] at h
      cases h

/-- A list without an empty expression is a well-formed list with the same
entries. -/
theorem nonempty_entries_spec (dbg : Dwarf_Debug) (ps : Nat) (buf : List Nat) :
    ∀ (f off : Nat) (entries : List Dwarf_Locdesc),
      nonempty_entries dbg ps buf f off = some entries →
      spec_entries dbg ps buf f off = some entries := by
  intro f
  induction f with
  | zero => intro off entries h; simp [nonempty_entries] at h
  | succ f ih =>
    intro off entries h
    unfold nonempty_entries at h
    unfold spec_entries
    by_cases hin : off + ps + ps ≤ buf.length
    · rw [if_pos hin] at h ⊢
      by_cases hend : dbg.read ((buf.drop off).take ps) = 0 ∧
          dbg.read ((buf.drop (off + ps)).take ps) = 0
      · rw [if_pos hend] at h ⊢
        exact h
      · rw [if_neg hend] at h ⊢
        by_cases hbase : dbg.read ((buf.drop off).take ps) = 2 ^ (8 * ps) - 1
        · rw [if_pos hbase] at h ⊢
          cases hsub : nonempty_entries dbg ps buf f (off + ps + ps) with
          | none => simp [hsub] at h
          | some tl =>
            rw [ih _ tl hsub]
            simpa [hsub] using h
        · rw [if_neg hbase] at h ⊢
          by_cases hc : 0 < dbg.read ((buf.drop (off + ps + ps)).take 2) ∧
              dbg.read ((buf.drop (off + ps + ps)).take 2) < 2 ^ 16 ∧
              off + ps + ps + 2 + dbg.read ((buf.drop (off + ps + ps)).take 2) ≤ buf.length
          · rw [if_pos hc] at h
            rw [if_pos hc.2]
            cases hparse : parse_expr dbg ps ((buf.drop (off + ps + ps + 2)).take
                (dbg.read ((buf.drop (off + ps + ps)).take 2))) with
            | bad_opcode => simp [hparse] at h
            | truncated => simp [hparse] at h
            | ok recs =>
              simp only [hparse] at h ⊢
              cases hsub : nonempty_entries dbg ps buf f (off + ps + ps + 2 +
                  dbg.read ((buf.drop (off + ps + ps)).take 2)) with
              | none => simp [hsub] at h
              | some tl =>
                rw [ih _ tl hsub]
                simpa [hsub] using h
          · rw [if_neg hc] at h
            cases h
    · rw [if_neg hin] at h
      cases h

/-- For a pointer size of 4 or 8 and an offset that is not cached at which a
list without an empty expression starts, `loclist_add` succeeds and adds to
the cache a list with `ll_offset = O` whose entries are, one to one and in
order, the entries of the decoded pairs up to and including the first pair
`(0, 0)`; `ll_ldlen` is their number, the last entry is the end entry and no
entry before it has `lopc = hipc = 0`. -/
theorem list_entries_nonempty (dbg : Dwarf_Debug) (ps O : Nat)
    (entries : List Dwarf_Locdesc)
    (hps : ps = 4 ∨ ps = 8)
    (hnew : (loclist_find dbg O).1 = Dwarf_Err.DWARF_E_NO_ENTRY)
    (hwf : nonempty_list dbg ps dbg.debug_loc.d_buf O = some entries) :
    spec_list dbg ps dbg.debug_loc.d_buf O = some entries ∧
    ∃ len, loclist_add dbg ps O =
      .ok (Dwarf_Err.DWARF_E_NONE,
           { dbg with
             dbg_loclist :=
               loclist_insert
                 { ll_offset := O, ll_length := len, ll_ldlen := entries.length,
                   ll_ldlist := entries }
                 dbg.dbg_loclist }) ∧
      ∃ init, entries = init ++ [Dwarf_Locdesc.zero] ∧
        ∀ e ∈ init, ¬ (e.ld_lopc = 0 ∧ e.ld_hipc = 0) := by
  obtain ⟨off1, total1, h1⟩ := locdesc_loop_count dbg ps dbg.debug_loc hps
    (dbg.debug_loc.d_buf.length + 1) O 0 0 entries hwf
  obtain ⟨off2, total2, h2⟩ := locdesc_loop_fill dbg ps dbg.debug_loc hps
    (dbg.debug_loc.d_buf.length + 1) O [] entries.length 0 entries hwf (Nat.le_refl _)
  simp only [List.nil_append, List.length_nil, Nat.zero_add, Nat.sub_self,
    List.replicate_zero, List.append_nil] at h1 h2
  refine ⟨nonempty_entries_spec dbg ps _ _ O entries hwf, total2, ?_,
    nonempty_entries_last dbg ps _ _ O entries hwf⟩
  unfold loclist_add
  rw [if_neg (not_not.mpr hnew)]
  simp only [loclist_add_locdesc, Elf_Data.d_size, h1, h2, ne_eq, not_true_eq_false,
    if_false, Option.getD_some]

/-- C19 fails on the code: the list of a 64-bit object with one normal entry
[0x10, 0x20) of length `L = 0` followed by the end pair is well-formed, and its
decoded entries are the entry with that range and no operators and the end
entry; `loclist_add` does not build them but ends in the failed assertion of
`loc_fill_locdesc`. For every well-formed list in which no normal entry has
`L = 0` (pointer size 4 or 8, offset not cached) `loclist_add` succeeds with
the decoded entries, one to one and in order, the end entry last; the list of
one normal entry [0x10, 0x20) holding `DW_OP_reg0` yields `ll_ldlen = 2`. -/
theorem C19_list_with_empty_expression :
    spec_list (dbg_lsb ex_loc64_empty []) 8 ex_loc64_empty 0 =
      some [{ ld_lopc := 0x10, ld_hipc := 0x20, ld_cents := 0, ld_s := [] },
            { ld_lopc := 0, ld_hipc := 0, ld_cents := 0, ld_s := [] }] ∧
    (loclist_find (dbg_lsb ex_loc64_empty []) 0).1 = Dwarf_Err.DWARF_E_NO_ENTRY ∧
    loclist_add (dbg_lsb ex_loc64_empty []) 8 0 = .error Fault.assertion ∧
    spec_list (dbg_lsb ex_loc32 []) 4 ex_loc32 0 =
      some [{ ld_lopc := 0x10, ld_hipc := 0x20, ld_cents := 1,
              ld_s := [{ lr_atom := DW_OP_reg0, lr_number := 0, lr_number2 := 0 }] },
            { ld_lopc := 0, ld_hipc := 0, ld_cents := 0, ld_s := [] }] ∧
    (loclist_add (dbg_lsb ex_loc32 []) 4 0).map
        (fun r => (r.1, r.2.dbg_loclist.map (fun ll => (ll.ll_offset, ll.ll_ldlen)))) =
      .ok (Dwarf_Err.DWARF_E_NONE, [(0, 2)]) ∧
    ∀ (dbg : Dwarf_Debug) (ps O : Nat) (entries : List Dwarf_Locdesc),
      ps = 4 ∨ ps = 8 →
      (loclist_find dbg O).1 = Dwarf_Err.DWARF_E_NO_ENTRY →
      nonempty_list dbg ps dbg.debug_loc.d_buf O = some entries →
      spec_list dbg ps dbg.debug_loc.d_buf O = some entries ∧
      ∃ len, loclist_add dbg ps O =
        .ok (Dwarf_Err.DWARF_E_NONE,
             { dbg with
               dbg_loclist :=
                 loclist_insert
                   { ll_offset := O, ll_length := len, ll_ldlen := entries.length,
                     ll_ldlist := entries }
                   dbg.dbg_loclist }) ∧
        ∃ init, entries = init ++ [Dwarf_Locdesc.zero] ∧
          ∀ e ∈ init, ¬ (e.ld_lopc = 0 ∧ e.ld_hipc = 0) :=
  ⟨by decide, by decide, rfl, by decide, rfl, list_entries_nonempty⟩

/-- C20: for every `.debug_loc` content, pointer size 4 or 8 and offset `O`
that is not cached: if the decoding from `O` reaches a normal entry whose
2-byte length `L` makes its expression extend past the end of the section,
`loclist_add` returns `DWARF_E_INVALID_LOCLIST` and the debug context, with
its location-list cache, is the one before the call: `loclist_find` still
finds no list for `O`. -/
theorem C20_truncated_list (dbg : Dwarf_Debug) (ps O : Nat) (hps : ps = 4 ∨ ps = 8)
    (hnew : (loclist_find dbg O).1 = Dwarf_Err.DWARF_E_NO_ENTRY)
    (htrunc : reaches_truncated dbg ps dbg.debug_loc.d_buf
      (dbg.debug_loc.d_buf.length + 1) O = true) :
    loclist_add dbg ps O = .ok (Dwarf_Err.DWARF_E_INVALID_LOCLIST, dbg) ∧
    ∀ dbg1, loclist_add dbg ps O = .ok (Dwarf_Err.DWARF_E_INVALID_LOCLIST, dbg1) →
      dbg1.dbg_loclist = dbg.dbg_loclist ∧
      (loclist_find dbg1 O).1 = Dwarf_Err.DWARF_E_NO_ENTRY := by
  obtain ⟨st, h1⟩ := locdesc_loop_truncated dbg ps dbg.debug_loc hps
    (dbg.debug_loc.d_buf.length + 1) O 0 0 htrunc
  have hres : loclist_add dbg ps O = .ok (Dwarf_Err.DWARF_E_INVALID_LOCLIST, dbg) := by
    unfold loclist_add
    rw [if_neg (not_not.mpr hnew)]
    simp only [loclist_add_locdesc, Elf_Data.d_size, h1, ne_eq]
    simp
  refine ⟨hres, ?_⟩
  intro dbg1 h
  rw [hres] at h
  simp only [Except.ok.injEq, Prod.mk.injEq, true_and] at h
  subst h
  exact ⟨rfl, hnew⟩

theorem C20_truncated_list_witness :
    (4 = 4 ∨ 4 = 8) ∧
    (loclist_find (dbg_lsb ex_loc32_short []) 0).1 = Dwarf_Err.DWARF_E_NO_ENTRY ∧
    reaches_truncated (dbg_lsb ex_loc32_short []) 4
      (dbg_lsb ex_loc32_short []).debug_loc.d_buf
      ((dbg_lsb ex_loc32_short []).debug_loc.d_buf.length + 1) 0 = true ∧
    loclist_add (dbg_lsb ex_loc32_short []) 4 0 =
      .ok (Dwarf_Err.DWARF_E_INVALID_LOCLIST, dbg_lsb ex_loc32_short []) ∧
    ∀ dbg1, loclist_add (dbg_lsb ex_loc32_short []) 4 0 =
        .ok (Dwarf_Err.DWARF_E_INVALID_LOCLIST, dbg1) →
      dbg1.dbg_loclist = (dbg_lsb ex_loc32_short []).dbg_loclist ∧
      (loclist_find dbg1 0).1 = Dwarf_Err.DWARF_E_NO_ENTRY :=
  ⟨Or.inl rfl, by decide, by decide,
    C20_truncated_list (dbg_lsb ex_loc32_short []) 4 0 (Or.inl rfl) (by decide) (by decide)⟩

/-! ## The cache of location lists -/

theorem find_no_entry_iff (dbg : Dwarf_Debug) (O : Nat) :
    (loclist_find dbg O).1 = Dwarf_Err.DWARF_E_NO_ENTRY ↔
      ∀ ll ∈ dbg.dbg_loclist, ll.ll_offset ≠ O := by
  unfold loclist_find
  cases h : dbg.dbg_loclist.find? (fun ll => ll.ll_offset == O) with
  | none =>
    simp only [true_iff]
    intro ll hll heq
    have := List.find?_eq_none.mp h ll hll
    simp [heq] at this
  | some ll =>
    simp only [false_iff, reduceCtorEq]
    intro hall
    have hmem := List.mem_of_find?_eq_some h
    have hp := List.find?_some h
    exact hall ll hmem (by simpa using hp)

theorem loclist_insert_mem (ll x : Dwarf_Loclist) (l : List Dwarf_Loclist) :
    x ∈ loclist_insert ll l ↔ x = ll ∨ x ∈ l := by
  induction l with
  | nil => simp [loclist_insert]
  | cons t rest ih =>
    unfold loclist_insert
    split_ifs
    · simp
    · simp only [List.mem_cons, ih]
      tauto

/-- The sorted insertion keeps a cache strictly increasing when the offset
of the new list is not in it. -/
theorem loclist_insert_sorted (ll : Dwarf_Loclist) (l : List Dwarf_Loclist)
    (hs : List.Pairwise (fun a b => a.ll_offset < b.ll_offset) l)
    (hnew : ∀ x ∈ l, x.ll_offset ≠ ll.ll_offset) :
    List.Pairwise (fun a b => a.ll_offset < b.ll_offset) (loclist_insert ll l) := by
  induction l with
  | nil => simp [loclist_insert]
  | cons t rest ih =>
    have hs1 := List.pairwise_cons.mp hs
    unfold loclist_insert
    by_cases hgt : t.ll_offset > ll.ll_offset
    · rw [if_pos hgt]
      refine List.pairwise_cons.mpr ⟨?_, hs⟩
      intro x hx
      rcases List.mem_cons.mp hx with hx | hx
      · subst hx; exact hgt
      · exact Nat.lt_trans hgt (hs1.1 x hx)
    · rw [if_neg hgt]
      refine List.pairwise_cons.mpr ⟨?_, ih hs1.2 (fun x hx => hnew x (List.mem_cons_of_mem t hx))⟩
      intro x hx
      rcases (loclist_insert_mem ll x rest).mp hx with hx | hx
      · subst hx
        have := hnew t (List.mem_cons_self t rest)
        omega
      · exact hs1.1 x hx

/-- What a call of `loclist_add` that returns can have done: nothing, with
`DWARF_E_NONE` when the offset is cached and with an error otherwise; or the
insertion of a list for the offset, which was not cached. -/
theorem loclist_add_cases (dbg dbg1 : Dwarf_Debug) (ps O : Nat) (ret : Dwarf_Err)
    (h : loclist_add dbg ps O = .ok (ret, dbg1)) :
    (dbg1 = dbg ∧ ret = Dwarf_Err.DWARF_E_NONE ∧
      (loclist_find dbg O).1 ≠ Dwarf_Err.DWARF_E_NO_ENTRY) ∨
    (dbg1 = dbg ∧ ret ≠ Dwarf_Err.DWARF_E_NONE ∧
      (loclist_find dbg O).1 = Dwarf_Err.DWARF_E_NO_ENTRY) ∨
    (ret = Dwarf_Err.DWARF_E_NONE ∧
      (loclist_find dbg O).1 = Dwarf_Err.DWARF_E_NO_ENTRY ∧
      ∃ ll, ll.ll_offset = O ∧
        dbg1 = { dbg with dbg_loclist := loclist_insert ll dbg.dbg_loclist }) := by
  unfold loclist_add at h
  by_cases hf : (loclist_find dbg O).1 ≠ Dwarf_Err.DWARF_E_NO_ENTRY
  · rw [if_pos hf] at h
    simp only [Except.ok.injEq, Prod.mk.injEq] at h
    exact Or.inl ⟨h.2.symm, h.1.symm, hf⟩
  · rw [if_neg hf] at h
    have hf1 : (loclist_find dbg O).1 = Dwarf_Err.DWARF_E_NO_ENTRY := not_not.mp hf
    cases h1 : loclist_add_locdesc dbg ps dbg.debug_loc O none with
    | error f => simp [h1] at h
    | ok r1 =>
      obtain ⟨ret1, st1⟩ := r1
      simp only [h1] at h
      by_cases hr1 : ret1 ≠ Dwarf_Err.DWARF_E_NONE
      · rw [if_pos hr1] at h
        simp only [Except.ok.injEq, Prod.mk.injEq] at h
        exact Or.inr (Or.inl ⟨h.2.symm, by rw [← h.1]; exact hr1, hf1⟩)
      · rw [if_neg hr1] at h
        cases h2 : loclist_add_locdesc dbg ps dbg.debug_loc O
            (some (List.replicate st1.i Dwarf_Locdesc.zero)) with
        | error f => simp [h2] at h
        | ok r2 =>
          obtain ⟨ret2, st2⟩ := r2
          simp only [h2] at h
          by_cases hr2 : ret2 ≠ Dwarf_Err.DWARF_E_NONE
          · rw [if_pos hr2] at h
            simp only [Except.ok.injEq, Prod.mk.injEq] at h
            exact Or.inr (Or.inl ⟨h.2.symm, by rw [← h.1]; exact hr2, hf1⟩)
          · rw [if_neg hr2] at h
            simp only [Except.ok.injEq, Prod.mk.injEq] at h
            refine Or.inr (Or.inr ⟨by rw [← h.1]; exact not_not.mp hr2, hf1, _, rfl, h.2.symm⟩)

/-- One call keeps the cache strictly increasing, and the cached offsets
afterwards are those before, with the offset of the call when it returned
`DWARF_E_NONE`. -/
theorem loclist_add_inv (dbg dbg1 : Dwarf_Debug) (ps O : Nat) (ret : Dwarf_Err)
    (hs : List.Pairwise (fun a b => a.ll_offset < b.ll_offset) dbg.dbg_loclist)
    (h : loclist_add dbg ps O = .ok (ret, dbg1)) :
    List.Pairwise (fun a b => a.ll_offset < b.ll_offset) dbg1.dbg_loclist ∧
    ∀ O1, (∃ x ∈ dbg1.dbg_loclist, x.ll_offset = O1) ↔
      (∃ x ∈ dbg.dbg_loclist, x.ll_offset = O1) ∨
        (ret = Dwarf_Err.DWARF_E_NONE ∧ O1 = O) := by
  rcases loclist_add_cases dbg dbg1 ps O ret h with ⟨h1, h2, h3⟩ | ⟨h1, h2, _⟩ | ⟨h2, h3, ll, hll, h1⟩
  · subst h1
    refine ⟨hs, fun O1 => ⟨fun hx => Or.inl hx, fun hx => ?_⟩⟩
    rcases hx with hx | ⟨_, hx⟩
    · exact hx
    · subst hx
      by_contra hno
      apply h3
      rw [find_no_entry_iff]
      intro x hx heq
      exact hno ⟨x, hx, heq⟩
  · subst h1
    refine ⟨hs, fun O1 => ⟨fun hx => Or.inl hx, fun hx => ?_⟩⟩
    rcases hx with hx | ⟨hx, _⟩
    · exact hx
    · exact absurd hx h2
  · subst h1
    have hnew := (find_no_entry_iff dbg O).mp h3
    refine ⟨loclist_insert_sorted ll _ hs (fun x hx => by rw [hll]; exact hnew x hx), ?_⟩
    intro O1
    constructor
    · rintro ⟨x, hx, hxo⟩
      rcases (loclist_insert_mem ll x _).mp hx with hx | hx
      · subst hx
        exact Or.inr ⟨h2, by rw [← hxo, hll]⟩
      · exact Or.inl ⟨x, hx, hxo⟩
    · rintro (⟨x, hx, hxo⟩ | ⟨_, hx⟩)
      · exact ⟨x, (loclist_insert_mem ll x _).mpr (Or.inr hx), hxo⟩
      · exact ⟨ll, (loclist_insert_mem ll ll _).mpr (Or.inl rfl), by rw [hll, hx]⟩

/-- A run of calls keeps the cache strictly increasing, and the cached
offsets afterwards are those before and those of the calls that returned
`DWARF_E_NONE`. -/
theorem loclist_adds_inv :
    ∀ (calls : List (Nat × Nat)) (dbg dbg1 : Dwarf_Debug) (added : List Nat),
      List.Pairwise (fun a b => a.ll_offset < b.ll_offset) dbg.dbg_loclist →
      loclist_adds dbg calls = .ok (dbg1, added) →
      List.Pairwise (fun a b => a.ll_offset < b.ll_offset) dbg1.dbg_loclist ∧
      ∀ O1, (∃ x ∈ dbg1.dbg_loclist, x.ll_offset = O1) ↔
        (∃ x ∈ dbg.dbg_loclist, x.ll_offset = O1) ∨ O1 ∈ added := by
  intro calls
  induction calls with
  | nil =>
    intro dbg dbg1 added hs h
    simp only [loclist_adds, Except.ok.injEq, Prod.mk.injEq] at h
    obtain ⟨h1, h2⟩ := h
    subst h1 h2
    exact ⟨hs, fun O1 => by simp⟩
  | cons c rest ih =>
    intro dbg dbg1 added hs h
    unfold loclist_adds at h
    cases hc : loclist_add dbg c.1 c.2 with
    | error f => simp [hc] at h
    | ok r =>
      obtain ⟨ret, dbgm⟩ := r
      simp only [hc] at h
      cases hr : loclist_adds dbgm rest with
      | error f => simp [hr] at h
      | ok r2 =>
        obtain ⟨dbg2, added2⟩ := r2
        simp only [hr, Except.ok.injEq, Prod.mk.injEq] at h
        obtain ⟨h1, h2⟩ := h
        subst h1
        obtain ⟨hsm, hom⟩ := loclist_add_inv dbg dbgm c.1 c.2 ret hs hc
        obtain ⟨hs2, ho2⟩ := ih dbgm dbg2 added2 hsm hr
        refine ⟨hs2, fun O1 => ?_⟩
        rw [ho2 O1, hom O1, ← h2]
        generalize (∃ x ∈ dbg.dbg_loclist, x.ll_offset = O1) = P
        by_cases hret : ret = Dwarf_Err.DWARF_E_NONE
        · simp only [hret, true_and, if_true, List.mem_cons]
          tauto
        · simp only [hret, false_and, or_false, if_false]

theorem sorted_unique (l : List Dwarf_Loclist) (x : Dwarf_Loclist) (O : Nat)
    (hs : List.Pairwise (fun a b => a.ll_offset < b.ll_offset) l) (hx : x ∈ l)
    (hxo : x.ll_offset = O) :
    l.filter (fun ll => ll.ll_offset == O) = [x] ∧
    l.find? (fun ll => ll.ll_offset == O) = some x := by
  induction l with
  | nil => simp at hx
  | cons t rest ih =>
    have hs1 := List.pairwise_cons.mp hs
    by_cases ht : t.ll_offset = O
    · have hrest : ∀ y ∈ rest, (y.ll_offset == O) = false := by
        intro y hy
        have := hs1.1 y hy
        simp only [beq_eq_false_iff_ne, ne_eq]
        omega
      have hxt : x = t := by
        rcases List.mem_cons.mp hx with h | h
        · exact h
        · have := hs1.1 x h
          omega
      subst hxt
      constructor
      · rw [List.filter_cons_of_pos (by simpa using ht)]
        congr 1
        exact List.filter_eq_nil_iff.mpr (fun y hy => by simp [hrest y hy])
      · rw [List.find?_cons_of_pos _ (by simpa using ht)]
    · have hxr : x ∈ rest := by
        rcases List.mem_cons.mp hx with h | h
        · subst h; exact absurd hxo ht
        · exact h
      obtain ⟨h1, h2⟩ := ih hs1.2 hxr
      constructor
      · rw [List.filter_cons_of_neg (by simpa using ht)]
        exact h1
      · rw [List.find?_cons_of_neg _ (by simpa using ht)]
        exact h2

theorem find_none_of_absent (dbg : Dwarf_Debug) (O : Nat)
    (h : ¬ ∃ x ∈ dbg.dbg_loclist, x.ll_offset = O) :
    loclist_find dbg O = (Dwarf_Err.DWARF_E_NO_ENTRY, none) := by
  unfold loclist_find
  have hn : dbg.dbg_loclist.find? (fun ll => ll.ll_offset == O) = none := by
    apply List.find?_eq_none.mpr
    intro x hx hp
    exact h ⟨x, hx, by simpa using hp⟩
  rw [hn]

/-- C21: in a debug context reached from an empty cache by a sequence of
`loclist_add` calls, when `loclist_add` for offset `O` succeeds, a second call
for `O` (with any unit) succeeds and returns the same context; the cache holds
exactly one list with `ll_offset = O` and `loclist_find` returns it; and
`loclist_find` returns `DWARF_E_NO_ENTRY` for every offset other than `O` that
no call of the sequence added successfully. -/
theorem C21_add_twice (dbg0 dbg dbg1 : Dwarf_Debug) (calls : List (Nat × Nat))
    (added : List Nat) (ps O : Nat) (h0 : dbg0.dbg_loclist = [])
    (hrun : loclist_adds dbg0 calls = .ok (dbg, added))
    (hadd : loclist_add dbg ps O = .ok (Dwarf_Err.DWARF_E_NONE, dbg1)) :
    (∀ ps2, loclist_add dbg1 ps2 O = .ok (Dwarf_Err.DWARF_E_NONE, dbg1)) ∧
    (∃ ll, ll.ll_offset = O ∧
      dbg1.dbg_loclist.filter (fun l => l.ll_offset == O) = [ll] ∧
      loclist_find dbg1 O = (Dwarf_Err.DWARF_E_NONE, some ll)) ∧
    (∀ O1, O1 ∉ added → O1 ≠ O →
      loclist_find dbg1 O1 = (Dwarf_Err.DWARF_E_NO_ENTRY, none)) := by
  have hs0 : List.Pairwise (fun a b => a.ll_offset < b.ll_offset) dbg0.dbg_loclist := by
    rw [h0]; exact List.Pairwise.nil
  obtain ⟨hs, ho⟩ := loclist_adds_inv calls dbg0 dbg added hs0 hrun
  obtain ⟨hs1, ho1⟩ := loclist_add_inv dbg dbg1 ps O _ hs hadd
  obtain ⟨ll, hll, hllo⟩ := (ho1 O).mpr (Or.inr ⟨rfl, rfl⟩)
  obtain ⟨hfilter, hfind⟩ := sorted_unique dbg1.dbg_loclist ll O hs1 hll hllo
  have hfound : loclist_find dbg1 O = (Dwarf_Err.DWARF_E_NONE, some ll) := by
    unfold loclist_find
    rw [hfind]
  refine ⟨?_, ⟨ll, hllo, hfilter, hfound⟩, ?_⟩
  · intro ps2
    unfold loclist_add
    rw [if_pos (by rw [hfound]; simp)]
  · intro O1 hnot hne
    apply find_none_of_absent
    intro hex
    rcases (ho1 O1).mp hex with hex | ⟨_, hex⟩
    · rcases (ho O1).mp hex with ⟨x, hx, _⟩ | hex
      · rw [h0] at hx
        simp at hx
      · exact hnot hex
    · exact hne hex

theorem C21_add_twice_witness :
    (dbg_lsb ex_loc32_base []).dbg_loclist = [] ∧
    loclist_adds (dbg_lsb ex_loc32_base []) [(4, 8), (4, 10), (4, 20)] =
      .ok (dbg_lsb ex_loc32_base [ex_ll8, ex_ll20], [8, 20]) ∧
    loclist_add (dbg_lsb ex_loc32_base [ex_ll8, ex_ll20]) 4 0 =
      .ok (Dwarf_Err.DWARF_E_NONE, dbg_lsb ex_loc32_base [ex_ll0, ex_ll8, ex_ll20]) ∧
    (∀ ps2, loclist_add (dbg_lsb ex_loc32_base [ex_ll0, ex_ll8, ex_ll20]) ps2 0 =
      .ok (Dwarf_Err.DWARF_E_NONE, dbg_lsb ex_loc32_base [ex_ll0, ex_ll8, ex_ll20])) ∧
    (∃ ll, ll.ll_offset = 0 ∧
      (dbg_lsb ex_loc32_base [ex_ll0, ex_ll8, ex_ll20]).dbg_loclist.filter
        (fun l => l.ll_offset == 0) = [ll] ∧
      loclist_find (dbg_lsb ex_loc32_base [ex_ll0, ex_ll8, ex_ll20]) 0 =
        (Dwarf_Err.DWARF_E_NONE, some ll)) ∧
    (∀ O1, O1 ∉ [8, 20] → O1 ≠ 0 →
      loclist_find (dbg_lsb ex_loc32_base [ex_ll0, ex_ll8, ex_ll20]) O1 =
        (Dwarf_Err.DWARF_E_NO_ENTRY, none)) :=
  ⟨rfl, rfl, rfl,
    C21_add_twice (dbg_lsb ex_loc32_base []) (dbg_lsb ex_loc32_base [ex_ll8, ex_ll20])
      (dbg_lsb ex_loc32_base [ex_ll0, ex_ll8, ex_ll20]) [(4, 8), (4, 10), (4, 20)] [8, 20]
      4 0 rfl rfl rfl⟩

/-- C30: after any sequence of `loclist_add` calls, successful or failed,
on a debug context whose cache was empty, the cache is strictly increasing in
`ll_offset` from head to tail, so it holds at most one list per offset. -/
theorem C30_cache_strictly_increasing (dbg0 dbg : Dwarf_Debug) (calls : List (Nat × Nat))
    (added : List Nat) (h0 : dbg0.dbg_loclist = [])
    (hrun : loclist_adds dbg0 calls = .ok (dbg, added)) :
    List.Pairwise (fun a b => a.ll_offset < b.ll_offset) dbg.dbg_loclist ∧
    ∀ O, (dbg.dbg_loclist.filter (fun l => l.ll_offset == O)).length ≤ 1 := by
  have hs0 : List.Pairwise (fun a b => a.ll_offset < b.ll_offset) dbg0.dbg_loclist := by
    rw [h0]; exact List.Pairwise.nil
  obtain ⟨hs, _⟩ := loclist_adds_inv calls dbg0 dbg added hs0 hrun
  refine ⟨hs, fun O => ?_⟩
  by_cases hex : ∃ x ∈ dbg.dbg_loclist, x.ll_offset = O
  · obtain ⟨x, hx, hxo⟩ := hex
    rw [(sorted_unique dbg.dbg_loclist x O hs hx hxo).1]
    simp
  · have : dbg.dbg_loclist.filter (fun l => l.ll_offset == O) = [] := by
      apply List.filter_eq_nil_iff.mpr
      intro y hy hp
      exact hex ⟨y, hy, by simpa using hp⟩
    rw [this]
    simp

theorem C30_cache_strictly_increasing_witness :
    (dbg_lsb ex_loc32_base []).dbg_loclist = [] ∧
    loclist_adds (dbg_lsb ex_loc32_base []) [(4, 8), (4, 10), (4, 0), (4, 8), (4, 20)] =
      .ok (dbg_lsb ex_loc32_base [ex_ll0, ex_ll8, ex_ll20], [8, 0, 8, 20]) ∧
    List.Pairwise (fun a b => a.ll_offset < b.ll_offset)
      (dbg_lsb ex_loc32_base [ex_ll0, ex_ll8, ex_ll20]).dbg_loclist ∧
    ∀ O, ((dbg_lsb ex_loc32_base [ex_ll0, ex_ll8, ex_ll20]).dbg_loclist.filter
      (fun l => l.ll_offset == O)).length ≤ 1 :=
  ⟨rfl, rfl,
    C30_cache_strictly_increasing (dbg_lsb ex_loc32_base [])
      (dbg_lsb ex_loc32_base [ex_ll0, ex_ll8, ex_ll20])
      [(4, 8), (4, 10), (4, 0), (4, 8), (4, 20)] [8, 0, 8, 20] rfl rfl⟩

/-! ## `dwarf_get_abbrev_entry` -/

theorem int_succ_small (i : Int) (h0 : 0 ≤ i) (h1 : i + 1 < 2 ^ 31) : int_succ i = i + 1 := by
  unfold int_succ
  have hmod : (i + 1) % 2 ^ 32 = i + 1 := Int.emod_eq_of_lt (by omega) (by omega)
  rw [hmod]
  have hlt : (i + 1).toNat < 2 ^ 31 := by omega
  rw [to_int_small _ hlt]
  omega

/-- The walk reaches the definition with the wanted index when the list is
long enough and the index is in the range of `int`. -/
theorem attrdef_walk_drop :
    ∀ (l : List Dwarf_AttrDef) (i index : Int), 0 ≤ i → i ≤ index → index < 2 ^ 31 →
      attrdef_walk i index l = l.drop (index - i).toNat := by
  intro l
  induction l with
  | nil => intro i index _ _ _; simp [attrdef_walk]
  | cons ad rest ih =>
    intro i index h0 h1 h2
    unfold attrdef_walk
    by_cases hlt : i < index
    · rw [if_pos hlt, int_succ_small i h0 (by omega), ih (i + 1) index (by omega) (by omega) h2]
      have : (index - i).toNat = (index - (i + 1)).toNat + 1 := by omega
      rw [this, List.drop_succ_cons]
    · rw [if_neg hlt]
      have : (index - i).toNat = 0 := by omega
      rw [this, List.drop_zero]

theorem is_uleb_append (leb : List Nat) :
    ∀ (v : Nat) (rest : List Nat), is_uleb leb v →
      decode_uleb128 (leb ++ rest) = (v, leb.length) := by
  unfold is_uleb
  induction leb with
  | nil =>
    intro v rest h
    simp [decode_uleb128] at h
  | cons b t ih =>
    intro v rest h
    by_cases hb : b &&& 0x80 = 0
    · simp only [decode_uleb128, hb, if_true, Prod.mk.injEq, List.length_cons] at h
      have ht : t = [] := List.length_eq_zero.mp (by omega)
      subst ht
      simp [decode_uleb128, hb, h.1]
    · simp only [decode_uleb128, hb, if_false, Prod.mk.injEq, List.length_cons] at h
      have h2 : decode_uleb128 t = ((decode_uleb128 t).1, t.length) := by
        apply Prod.ext
        · rfl
        · simp only; omega
      have h3 := ih (decode_uleb128 t).1 rest h2
      show decode_uleb128 (b :: (t ++ rest)) = (v, (b :: t).length)
      rw [decode_uleb128, if_neg hb, h3, List.length_cons, ← h.1]

theorem read_uleb128_at (pre leb rest : List Nat) (v : Nat) (h : is_uleb leb v) :
    read_uleb128 (pre ++ leb ++ rest) pre.length = .ok (v % 2 ^ 64, pre.length + leb.length) := by
  unfold read_uleb128
  rw [List.append_assoc, List.drop_left, is_uleb_append leb v rest h]
  simp

theorem dmd_update_ok (dmd : Option (List Dwarf_Macro_Details)) (i : Nat)
    (f : Dwarf_Macro_Details → Dwarf_Macro_Details) (h : in_bounds dmd i) :
    dmd_update dmd i f = .ok (dmd_apply dmd i f) := by
  cases dmd with
  | none => rfl
  | some a =>
    have hi := h a rfl
    simp [dmd_update, dmd_apply, List.getElem?_eq_getElem hi]

theorem in_bounds_apply (dmd : Option (List Dwarf_Macro_Details)) (i : Nat)
    (f : Dwarf_Macro_Details → Dwarf_Macro_Details) (h : in_bounds dmd i) :
    in_bounds (dmd_apply dmd i f) i := by
  cases dmd with
  | none => intro a ha; cases ha
  | some a =>
    have hi := h a rfl
    intro b hb
    simp only [dmd_apply, Option.map_some', List.getElem?_eq_getElem hi,
      Option.some.injEq] at hb
    rw [← hb, List.length_set]
    exact hi

theorem dmd_apply_apply (dmd : Option (List Dwarf_Macro_Details)) (i : Nat)
    (f g : Dwarf_Macro_Details → Dwarf_Macro_Details) :
    dmd_apply (dmd_apply dmd i f) i g = dmd_apply dmd i (fun d => g (f d)) := by
  cases dmd with
  | none => rfl
  | some a =>
    by_cases hi : i < a.length
    · simp [dmd_apply, List.getElem?_eq_getElem hi, List.getElem?_set, hi]
    · simp [dmd_apply, List.getElem?_eq_none (Nat.le_of_not_lt hi)]

theorem dmd_apply_none (i : Nat) (f : Dwarf_Macro_Details → Dwarf_Macro_Details) :
    dmd_apply none i f = none := rfl

theorem dmd_apply_at (done more : List Dwarf_Macro_Details) (d : Dwarf_Macro_Details)
    (f : Dwarf_Macro_Details → Dwarf_Macro_Details) :
    dmd_apply (some (done ++ d :: more)) done.length f = some (done ++ f d :: more) := by
  have h : (done ++ d :: more)[done.length]? = some d := by
    rw [List.getElem?_append_right (Nat.le_refl _), Nat.sub_self]
    exact List.getElem?_cons_zero
  simp only [dmd_apply, Option.map_some', h]
  simp

theorem to_int_byte (b : Nat) (h : b < 256) : to_int b = (b : Int) := by
  unfold to_int
  have h1 : b % 2 ^ 32 = b := Nat.mod_eq_of_lt (by omega)
  rw [h1, if_pos (by omega)]

theorem to_i64_mod (x : Nat) : to_i64 (x % 2 ^ 64) = to_i64 x := by
  unfold to_i64
  rw [Nat.mod_mod]

theorem type_byte (dbg : Dwarf_Debug) (hread : ∀ b, b < 256 → dbg.read [b] = b)
    (pre rest : List Nat) (t : Nat) (ht : t < 256) :
    to_int (dbg.read [(pre ++ t :: rest).getD pre.length 0]) = (t : Int) := by
  have h : (pre ++ t :: rest).getD pre.length 0 = t := by
    rw [List.getD_eq_getElem?_getD, List.getElem?_append_right (Nat.le_refl _), Nat.sub_self,
      List.getElem?_cons_zero]
    rfl
  rw [h, hread t ht, to_int_byte t ht]

theorem dmd_update_apply (dmd : Option (List Dwarf_Macro_Details)) (i : Nat)
    (hb : in_bounds dmd i) (f g : Dwarf_Macro_Details → Dwarf_Macro_Details) :
    dmd_update (dmd_apply dmd i f) i g = .ok (dmd_apply dmd i (fun d => g (f d))) := by
  rw [dmd_update_ok _ _ _ (in_bounds_apply _ _ _ hb), dmd_apply_apply]

theorem parse_round_terminator (dbg : Dwarf_Debug) (ds : Dwarf_Section)
    (hread : ∀ b, b < 256 → dbg.read [b] = b) (pre rest : List Nat)
    (hdata : ds.ds_data = pre ++ 0 :: rest) (i : Nat)
    (dmd : Option (List Dwarf_Macro_Details)) (hb : in_bounds dmd i) :
    ∃ F : Dwarf_Macro_Details → Dwarf_Macro_Details,
      macinfo_parse_round dbg ds { off := pre.length, i := i, dmd := dmd } =
        .ok (true, 0, { off := pre.length + 1, i := i, dmd := dmd_apply dmd i F }) ∧
      ∀ d, record_stored (F d) pre.length Macinfo_Record.terminator := by
  have hty := type_byte dbg hread pre rest 0 (by decide)
  rw [← hdata] at hty
  refine ⟨fun d => { d with dmd_offset := pre.length, dmd_type := 0, dmd_fileindex := -1 },
    ?_, ?_⟩
  · have hty0 : to_int (dbg.read [ds.ds_data.getD pre.length 0]) = 0 := hty
    simp only [macinfo_parse_round, dmd_update_ok _ _ _ hb, dmd_update_apply _ _ hb, hty0,
      if_true]
    rfl
  · intro d
    exact ⟨rfl, rfl⟩

theorem parse_round_end_file (dbg : Dwarf_Debug) (ds : Dwarf_Section)
    (hread : ∀ b, b < 256 → dbg.read [b] = b) (pre rest : List Nat)
    (hdata : ds.ds_data = pre ++ DW_MACINFO_end_file :: rest) (i : Nat)
    (dmd : Option (List Dwarf_Macro_Details)) (hb : in_bounds dmd i) :
    ∃ F : Dwarf_Macro_Details → Dwarf_Macro_Details,
      macinfo_parse_round dbg ds { off := pre.length, i := i, dmd := dmd } =
        .ok (true, 4, { off := pre.length + 1, i := i, dmd := dmd_apply dmd i F }) ∧
      ∀ d, record_stored (F d) pre.length Macinfo_Record.end_file := by
  have hty := type_byte dbg hread pre rest DW_MACINFO_end_file (by decide)
  rw [← hdata] at hty
  refine ⟨fun d => { d with dmd_offset := pre.length, dmd_type := 4, dmd_fileindex := -1 },
    ?_, ?_⟩
  · have hty0 : to_int (dbg.read [ds.ds_data.getD pre.length 0]) = 4 := hty
    have b0 : ¬ ((4 : Int) = 0) := by decide
    have b1 : ¬ ((4 : Int) = (DW_MACINFO_define : Int) ∨ (4 : Int) = (DW_MACINFO_undef : Int) ∨
        (4 : Int) = (DW_MACINFO_vendor_ext : Int)) := by decide
    have b2 : ¬ ((4 : Int) = (DW_MACINFO_start_file : Int)) := by decide
    have b3 : (4 : Int) = (DW_MACINFO_end_file : Int) := by decide
    simp only [macinfo_parse_round, dmd_update_ok _ _ _ hb, dmd_update_apply _ _ hb, hty0,
      b0, b1, b2, b3, if_true, if_false]
    rfl
  · intro d
    exact ⟨rfl, rfl⟩

theorem parse_round_start_file (dbg : Dwarf_Debug) (ds : Dwarf_Section)
    (hread : ∀ b, b < 256 → dbg.read [b] = b) (pre rest leb1 leb2 : List Nat) (l f : Nat)
    (h1 : is_uleb leb1 l) (h2 : is_uleb leb2 f)
    (hdata : ds.ds_data = pre ++ DW_MACINFO_start_file :: (leb1 ++ leb2 ++ rest)) (i : Nat)
    (dmd : Option (List Dwarf_Macro_Details)) (hb : in_bounds dmd i) :
    ∃ F : Dwarf_Macro_Details → Dwarf_Macro_Details,
      macinfo_parse_round dbg ds { off := pre.length, i := i, dmd := dmd } =
        .ok (true, 3, { off := pre.length + 1 + leb1.length + leb2.length, i := i,
                        dmd := dmd_apply dmd i F }) ∧
      ∀ d, record_stored (F d) pre.length (Macinfo_Record.start_file l f) := by
  have hty := type_byte dbg hread pre (leb1 ++ leb2 ++ rest) DW_MACINFO_start_file (by decide)
  rw [← hdata] at hty
  have hr1 : read_uleb128 ds.ds_data (pre.length + 1) =
      .ok (l % 2 ^ 64, pre.length + 1 + leb1.length) := by
    have e : (pre ++ [DW_MACINFO_start_file]).length = pre.length + 1 := by
      simp only [List.length_append, List.length_singleton]
    have d : ds.ds_data = (pre ++ [DW_MACINFO_start_file]) ++ leb1 ++ (leb2 ++ rest) := by
      rw [hdata]; simp
    rw [d, ← e]
    exact read_uleb128_at _ leb1 _ l h1
  have hr2 : read_uleb128 ds.ds_data (pre.length + 1 + leb1.length) =
      .ok (f % 2 ^ 64, pre.length + 1 + leb1.length + leb2.length) := by
    have e : (pre ++ [DW_MACINFO_start_file] ++ leb1).length = pre.length + 1 + leb1.length := by
      simp only [List.length_append, List.length_singleton]
    have d : ds.ds_data = (pre ++ [DW_MACINFO_start_file] ++ leb1) ++ leb2 ++ rest := by
      rw [hdata]; simp
    rw [d, ← e]
    exact read_uleb128_at _ leb2 _ f h2
  refine ⟨fun d => { d with dmd_offset := pre.length, dmd_type := 3,
                            dmd_lineno := to_i64 l, dmd_fileindex := to_i64 f }, ?_, ?_⟩
  · have hty0 : to_int (dbg.read [ds.ds_data.getD pre.length 0]) = 3 := hty
    have b0 : ¬ ((3 : Int) = 0) := by decide
    have b1 : ¬ ((3 : Int) = (DW_MACINFO_define : Int) ∨ (3 : Int) = (DW_MACINFO_undef : Int) ∨
        (3 : Int) = (DW_MACINFO_vendor_ext : Int)) := by decide
    have b2 : (3 : Int) = (DW_MACINFO_start_file : Int) := by decide
    simp only [macinfo_parse_round, dmd_update_ok _ _ _ hb, dmd_update_apply _ _ hb, hty0,
      b0, b1, b2, if_true, if_false, hr1, hr2, to_i64_mod]
    rfl
  · intro d
    exact ⟨rfl, rfl, rfl, rfl⟩

theorem parse_round_with_string (dbg : Dwarf_Debug) (ds : Dwarf_Section)
    (hread : ∀ b, b < 256 → dbg.read [b] = b) (pre rest leb s : List Nat) (t l : Nat)
    (ht : t = DW_MACINFO_define ∨ t = DW_MACINFO_undef ∨ t = DW_MACINFO_vendor_ext)
    (hs : 0 ∉ s) (h1 : is_uleb leb l)
    (hdata : ds.ds_data = pre ++ t :: (leb ++ (s ++ [0]) ++ rest)) (i : Nat)
    (dmd : Option (List Dwarf_Macro_Details)) (hb : in_bounds dmd i) :
    ∃ F : Dwarf_Macro_Details → Dwarf_Macro_Details,
      macinfo_parse_round dbg ds { off := pre.length, i := i, dmd := dmd } =
        .ok (true, (t : Int),
          parse_vars.mk (pre.length + 1 + leb.length + (s.length + 1)) i
            (dmd_apply dmd i F)) ∧
      ∀ d, record_stored (F d) pre.length (Macinfo_Record.with_string t l s) := by
  have ht256 : t < 256 := by
    rcases ht with h | h | h <;> (rw [h]; decide)
  have hty := type_byte dbg hread pre (leb ++ (s ++ [0]) ++ rest) t ht256
  rw [← hdata] at hty
  have hr1 : read_uleb128 ds.ds_data (pre.length + 1) =
      .ok (l % 2 ^ 64, pre.length + 1 + leb.length) := by
    have e : (pre ++ [t]).length = pre.length + 1 := by
      simp only [List.length_append, List.length_singleton]
    have d : ds.ds_data = (pre ++ [t]) ++ leb ++ ((s ++ [0]) ++ rest) := by
      rw [hdata]; simp
    rw [d, ← e]
    exact read_uleb128_at _ leb _ l h1
  have hdrop : ds.ds_data.drop (pre.length + 1 + leb.length) = s ++ [0] ++ rest := by
    have e : (pre ++ [t] ++ leb).length = pre.length + 1 + leb.length := by
      simp only [List.length_append, List.length_singleton]
    have d : ds.ds_data = (pre ++ [t] ++ leb) ++ (s ++ [0] ++ rest) := by
      rw [hdata]; simp
    rw [d, ← e, List.drop_left]
  have hcstr : Elfcopy.cstr (s ++ [0] ++ rest) = s := Elfcopy.cstr_entry s rest hs
  have hmem : 0 ∈ s ++ [0] ++ rest := by simp
  have ht0 : (t : Int) ≠ 0 := by
    rcases ht with h | h | h <;> (rw [h]; decide)
  have htc : (t : Int) = (DW_MACINFO_define : Int) ∨ (t : Int) = (DW_MACINFO_undef : Int) ∨
      (t : Int) = (DW_MACINFO_vendor_ext : Int) := by
    rcases ht with h | h | h <;> simp [h]
  have htn : ((t : Int) % 256).toNat = t := by omega
  refine ⟨fun d => { d with dmd_offset := pre.length, dmd_type := t, dmd_fileindex := -1,
                            dmd_lineno := to_i64 l,
                            dmd_macro := some (s ++ [0] ++ rest) }, ?_, ?_⟩
  · simp only [macinfo_parse_round, dmd_update_ok _ _ _ hb, dmd_update_apply _ _ hb, hty, hr1,
      ht0, htc, if_true, if_false, hdrop, hcstr, hmem, htn, to_i64_mod]
  · intro d
    refine ⟨rfl, rfl, rfl, ?_⟩
    simp only [Option.map_some', hcstr]

theorem parse_round_invalid (dbg : Dwarf_Debug) (ds : Dwarf_Section)
    (hread : ∀ b, b < 256 → dbg.read [b] = b) (pre rest : List Nat) (t : Nat) (ht : t < 256)
    (hinv : t ≠ 0 ∧ t ≠ DW_MACINFO_define ∧ t ≠ DW_MACINFO_undef ∧ t ≠ DW_MACINFO_start_file ∧
      t ≠ DW_MACINFO_end_file ∧ t ≠ DW_MACINFO_vendor_ext)
    (hdata : ds.ds_data = pre ++ t :: rest) (i : Nat)
    (dmd : Option (List Dwarf_Macro_Details)) (hb : in_bounds dmd i) :
    ∃ v1, macinfo_parse_round dbg ds { off := pre.length, i := i, dmd := dmd } =
        .ok (false, (t : Int), v1) := by
  have hty := type_byte dbg hread pre rest t ht
  rw [← hdata] at hty
  obtain ⟨a0, a1, a2, a3, a4, a5⟩ := hinv
  simp only [DW_MACINFO_end_file, DW_MACINFO_define, DW_MACINFO_undef, DW_MACINFO_vendor_ext,
      DW_MACINFO_start_file] at a1 a2 a3 a4 a5
  have b0 : (t : Int) ≠ 0 := by omega
  have b1 : ¬ ((t : Int) = (DW_MACINFO_define : Int) ∨ (t : Int) = (DW_MACINFO_undef : Int) ∨
      (t : Int) = (DW_MACINFO_vendor_ext : Int)) := by
    simp only [DW_MACINFO_define, DW_MACINFO_undef, DW_MACINFO_vendor_ext]
    omega
  have b2 : (t : Int) ≠ (DW_MACINFO_start_file : Int) := by
    simp only [DW_MACINFO_start_file]; omega
  have b3 : (t : Int) ≠ (DW_MACINFO_end_file : Int) := by
    simp only [DW_MACINFO_end_file]; omega
  simp only [macinfo_parse_round, dmd_update_ok _ _ _ hb, dmd_update_apply _ _ hb, hty,
    b0, b1, b2, b3, if_false]
  exact ⟨_, rfl⟩

/-- One round of the loop of `_dwarf_macinfo_parse` on a record of the
stream. -/
theorem parse_round_record (dbg : Dwarf_Debug) (ds : Dwarf_Section)
    (hread : ∀ b, b < 256 → dbg.read [b] = b) (r : Macinfo_Record) (bs : List Nat)
    (hc : encodes r bs) (pre rest : List Nat) (hdata : ds.ds_data = pre ++ bs ++ rest)
    (i : Nat) (dmd : Option (List Dwarf_Macro_Details)) (hb : in_bounds dmd i) :
    ∃ (ty : Int) (F : Dwarf_Macro_Details → Dwarf_Macro_Details),
      macinfo_parse_round dbg ds { off := pre.length, i := i, dmd := dmd } =
        .ok (true, ty, parse_vars.mk (pre.length + bs.length) i (dmd_apply dmd i F)) ∧
      (ty = 0 ↔ r = Macinfo_Record.terminator) ∧
      (∀ d, record_stored (F d) pre.length r) ∧ 0 < bs.length := by
  cases r with
  | with_string t l s =>
    obtain ⟨ht, hs, leb, hleb, hbs⟩ := hc
    have hd : ds.ds_data = pre ++ t :: (leb ++ (s ++ [0]) ++ rest) := by
      rw [hdata, hbs]; simp
    obtain ⟨F, h1, h2⟩ := parse_round_with_string dbg ds hread pre rest leb s t l ht hs hleb hd
      i dmd hb
    refine ⟨(t : Int), F, ?_, ?_, h2, by rw [hbs]; simp⟩
    · rw [h1, hbs]
      have : pre.length + 1 + leb.length + (s.length + 1)
          = pre.length + (t :: (leb ++ (s ++ [0]))).length := by
        simp only [List.length_cons, List.length_append, List.length_nil]; omega
      rw [this]
    · constructor
      · intro h0
        exfalso
        rcases ht with h | h | h <;> (rw [h] at h0; revert h0; decide)
      · intro h; cases h
  | start_file l f =>
    obtain ⟨leb1, leb2, hl1, hl2, hbs⟩ := hc
    have hd : ds.ds_data = pre ++ DW_MACINFO_start_file :: (leb1 ++ leb2 ++ rest) := by
      rw [hdata, hbs]; simp
    obtain ⟨F, h1, h2⟩ := parse_round_start_file dbg ds hread pre rest leb1 leb2 l f hl1 hl2 hd
      i dmd hb
    refine ⟨3, F, ?_, ?_, h2, by rw [hbs]; simp⟩
    · rw [h1, hbs]
      have : pre.length + 1 + leb1.length + leb2.length
          = pre.length + (DW_MACINFO_start_file :: (leb1 ++ leb2)).length := by
        simp only [List.length_cons, List.length_append]; omega
      rw [this]
    · constructor
      · intro h0; exfalso; revert h0; decide
      · intro h; cases h
  | end_file =>
    have hbs : bs = [DW_MACINFO_end_file] := hc
    have hd : ds.ds_data = pre ++ DW_MACINFO_end_file :: rest := by
      rw [hdata, hbs]; simp
    obtain ⟨F, h1, h2⟩ := parse_round_end_file dbg ds hread pre rest hd i dmd hb
    refine ⟨4, F, ?_, ?_, h2, by rw [hbs]; simp⟩
    · rw [h1, hbs]; rfl
    · constructor
      · intro h0; exfalso; revert h0; decide
      · intro h; cases h
  | terminator =>
    have hbs : bs = [0] := hc
    have hd : ds.ds_data = pre ++ 0 :: rest := by
      rw [hdata, hbs]; simp
    obtain ⟨F, h1, h2⟩ := parse_round_terminator dbg ds hread pre rest hd i dmd hb
    refine ⟨0, F, ?_, ?_, h2, by rw [hbs]; simp⟩
    · rw [h1, hbs]; rfl
    · simp

theorem well_formed_cons (c : Macinfo_Record × List Nat) (rs : List (Macinfo_Record × List Nat))
    (h : well_formed (c :: rs)) :
    encodes c.1 c.2 ∧ well_formed rs ∧ (c.1 = Macinfo_Record.terminator → rs = []) := by
  obtain ⟨h1, h2⟩ := h
  refine ⟨h1 c (List.mem_cons_self _ _), ⟨fun x hx => h1 x (List.mem_cons_of_mem _ hx), ?_⟩, ?_⟩
  · intro k x hk hx
    have := h2 (k + 1) x (by simpa using hk) hx
    simp only [List.length_cons] at this
    omega
  · intro hc
    have := h2 0 c List.getElem?_cons_zero hc
    simp only [List.length_cons] at this
    exact List.length_eq_zero.mp (by omega)

theorem ends_with_terminator_cons (c : Macinfo_Record × List Nat)
    (rs : List (Macinfo_Record × List Nat)) (hc : c.1 ≠ Macinfo_Record.terminator)
    (h : ends_with_terminator (c :: rs)) : ends_with_terminator rs := by
  obtain ⟨x, hx, hxt⟩ := h
  cases rs with
  | nil =>
    simp only [List.getLast?_singleton, Option.mem_def, Option.some.injEq] at hx
    rw [← hx] at hxt
    exact absurd hxt hc
  | cons y ys =>
    rw [List.getLast?_cons_cons] at hx
    exact ⟨x, hx, hxt⟩

/-- The loop of `_dwarf_macinfo_parse` with a NULL array on a well-formed
stream: it counts the records and stops behind the last one. -/
theorem parse_loop_count (dbg : Dwarf_Debug) (ds : Dwarf_Section)
    (hread : ∀ b, b < 256 → dbg.read [b] = b) :
    ∀ (rs : List (Macinfo_Record × List Nat)) (fuel : Nat) (pre rest : List Nat) (i : Nat),
      well_formed rs → ds.ds_data = pre ++ stream_bytes rs ++ rest →
      (ends_with_terminator rs ∨ rest = []) → rs.length ≤ fuel →
      macinfo_parse_loop dbg ds fuel { off := pre.length, i := i, dmd := none } =
        .ok (Dwarf_Dle.DW_DLE_NONE,
          parse_vars.mk (pre.length + (stream_bytes rs).length) (i + rs.length) none) := by
  intro rs
  induction rs with
  | nil =>
    intro fuel pre rest i _ hdata hend _
    have hrest : rest = [] := by
      rcases hend with ⟨x, hx, _⟩ | h
      · simp at hx
      · exact h
    have hsz : ds.ds_size = pre.length := by
      simp [Dwarf_Section.ds_size, hdata, hrest, stream_bytes]
    cases fuel with
    | zero => simp [macinfo_parse_loop, stream_bytes]
    | succ fuel => simp [macinfo_parse_loop, stream_bytes, hsz]
  | cons c rs ih =>
    intro fuel pre rest i hwf hdata hend hfuel
    obtain ⟨henc, hwf1, hterm⟩ := well_formed_cons c rs hwf
    cases fuel with
    | zero => simp at hfuel
    | succ fuel =>
      have hd : ds.ds_data = pre ++ c.2 ++ (stream_bytes rs ++ rest) := by
        rw [hdata]; simp [stream_bytes]
      obtain ⟨ty, F, hround, hty, _, hpos⟩ :=
        parse_round_record dbg ds hread c.1 c.2 henc pre _ hd i none (by intro a ha; cases ha)
      have hlt : pre.length < ds.ds_size := by
        simp only [Dwarf_Section.ds_size, hd, List.length_append]; omega
      unfold macinfo_parse_loop
      simp only [hlt, if_true, hround, dmd_apply_none]
      by_cases h0 : ty = 0
      · have hnil := hterm (hty.mp h0)
        subst hnil
        simp [h0, stream_bytes]
      · rw [if_neg h0]
        have hend1 : ends_with_terminator rs ∨ rest = [] := by
          rcases hend with h | h
          · exact Or.inl (ends_with_terminator_cons c rs (fun hc => h0 (hty.mpr hc)) h)
          · exact Or.inr h
        have hd1 : ds.ds_data = (pre ++ c.2) ++ stream_bytes rs ++ rest := by
          rw [hd]; simp
        have := ih fuel (pre ++ c.2) rest (i + 1) hwf1 hd1 hend1
          (by simp only [List.length_cons] at hfuel; omega)
        simp only [List.length_append] at this
        rw [this]
        simp only [stream_bytes, List.length_append, List.length_cons]
        congr 3 <;> omega

/-- The loop of `_dwarf_macinfo_parse` with an array on a well-formed stream:
the entries from `i` on receive the records in order. -/
theorem parse_loop_fill (dbg : Dwarf_Debug) (ds : Dwarf_Section)
    (hread : ∀ b, b < 256 → dbg.read [b] = b) :
    ∀ (rs : List (Macinfo_Record × List Nat)) (fuel : Nat) (pre rest : List Nat)
      (done todo : List Dwarf_Macro_Details),
      well_formed rs → ds.ds_data = pre ++ stream_bytes rs ++ rest →
      (ends_with_terminator rs ∨ rest = []) → rs.length ≤ fuel → rs.length ≤ todo.length →
      ∃ new, macinfo_parse_loop dbg ds fuel
          { off := pre.length, i := done.length, dmd := some (done ++ todo) } =
        .ok (Dwarf_Dle.DW_DLE_NONE,
          parse_vars.mk (pre.length + (stream_bytes rs).length) (done.length + rs.length)
            (some (done ++ new ++ todo.drop rs.length))) ∧
        stored_stream new rs pre.length ∧ new.length = rs.length := by
  intro rs
  induction rs with
  | nil =>
    intro fuel pre rest done todo _ hdata hend _ _
    have hrest : rest = [] := by
      rcases hend with ⟨x, hx, _⟩ | h
      · simp at hx
      · exact h
    have hsz : ds.ds_size = pre.length := by
      simp [Dwarf_Section.ds_size, hdata, hrest, stream_bytes]
    refine ⟨[], ?_, trivial, rfl⟩
    cases fuel with
    | zero => simp [macinfo_parse_loop, stream_bytes]
    | succ fuel => simp [macinfo_parse_loop, stream_bytes, hsz]
  | cons c rs ih =>
    intro fuel pre rest done todo hwf hdata hend hfuel htodo
    obtain ⟨henc, hwf1, hterm⟩ := well_formed_cons c rs hwf
    cases fuel with
    | zero => simp at hfuel
    | succ fuel =>
      cases todo with
      | nil => simp at htodo
      | cons d more =>
        have hd : ds.ds_data = pre ++ c.2 ++ (stream_bytes rs ++ rest) := by
          rw [hdata]; simp [stream_bytes]
        have hb : in_bounds (some (done ++ d :: more)) done.length := by
          intro a ha
          simp only [Option.some.injEq] at ha
          rw [← ha]
          simp
        obtain ⟨ty, F, hround, hty, hst, hpos⟩ :=
          parse_round_record dbg ds hread c.1 c.2 henc pre _ hd done.length _ hb
        rw [dmd_apply_at] at hround
        have hlt : pre.length < ds.ds_size := by
          simp only [Dwarf_Section.ds_size, hd, List.length_append]; omega
        unfold macinfo_parse_loop
        simp only [hlt, if_true, hround]
        by_cases h0 : ty = 0
        · have hnil := hterm (hty.mp h0)
          subst hnil
          refine ⟨[F d], ?_, ⟨hst d, trivial⟩, rfl⟩
          simp [h0, stream_bytes]
        · rw [if_neg h0]
          have hend1 : ends_with_terminator rs ∨ rest = [] := by
            rcases hend with h | h
            · exact Or.inl (ends_with_terminator_cons c rs (fun hc => h0 (hty.mpr hc)) h)
            · exact Or.inr h
          have hd1 : ds.ds_data = (pre ++ c.2) ++ stream_bytes rs ++ rest := by
            rw [hd]; simp
          obtain ⟨new, hloop, hnew, hlen⟩ := ih fuel (pre ++ c.2) rest (done ++ [F d]) more
            hwf1 hd1 hend1 (by simp only [List.length_cons] at hfuel; omega)
            (by simp only [List.length_cons] at htodo; omega)
          simp only [List.length_append, List.length_singleton, List.append_assoc,
            List.singleton_append] at hloop
          rw [List.length_append] at hnew
          refine ⟨F d :: new, ?_, ⟨hst d, hnew⟩, by simp [hlen]⟩
          rw [hloop]
          simp only [stream_bytes, List.length_append, List.length_cons, List.drop_succ_cons,
            List.append_assoc, List.cons_append]
          congr 3 <;> omega

theorem dmd_apply_length (dmd : Option (List Dwarf_Macro_Details)) (i : Nat)
    (f : Dwarf_Macro_Details → Dwarf_Macro_Details) (a : List Dwarf_Macro_Details)
    (h : dmd_apply dmd i f = some a) : ∃ a0, dmd = some a0 ∧ a.length = a0.length := by
  cases dmd with
  | none => cases h
  | some a0 =>
    refine ⟨a0, rfl, ?_⟩
    simp only [dmd_apply, Option.map_some', Option.some.injEq] at h
    rw [← h]
    cases a0[i]? <;> simp

theorem ends_with_terminator_tail (c : Macinfo_Record × List Nat)
    (rs : List (Macinfo_Record × List Nat)) (h : ends_with_terminator rs) :
    ends_with_terminator (c :: rs) := by
  obtain ⟨x, hx, hxt⟩ := h
  cases rs with
  | nil => simp at hx
  | cons y ys =>
    refine ⟨x, ?_, hxt⟩
    rw [List.getLast?_cons_cons]
    exact hx

/-- The loop of `_dwarf_macinfo_parse` on records followed by a type byte
that is none of the six: the default arm returns the error. -/
theorem parse_loop_invalid (dbg : Dwarf_Debug) (ds : Dwarf_Section)
    (hread : ∀ b, b < 256 → dbg.read [b] = b) (t : Nat) (ht : t < 256) (hinv : invalid_type t) :
    ∀ (rs : List (Macinfo_Record × List Nat)) (fuel : Nat) (pre rest : List Nat) (i : Nat)
      (dmd : Option (List Dwarf_Macro_Details)),
      well_formed rs → ¬ ends_with_terminator rs →
      ds.ds_data = pre ++ stream_bytes rs ++ t :: rest → rs.length < fuel →
      (∀ a, dmd = some a → i + rs.length < a.length) →
      ∃ v, macinfo_parse_loop dbg ds fuel { off := pre.length, i := i, dmd := dmd } =
        .ok (Dwarf_Dle.DWARF_E_INVALID_MACINFO, v) := by
  intro rs
  induction rs with
  | nil =>
    intro fuel pre rest i dmd _ _ hdata hfuel hroom
    cases fuel with
    | zero => simp at hfuel
    | succ fuel =>
      have hd : ds.ds_data = pre ++ t :: rest := by rw [hdata]; simp [stream_bytes]
      have hb : in_bounds dmd i := by
        intro a ha
        have := hroom a ha
        omega
      obtain ⟨v1, hround⟩ := parse_round_invalid dbg ds hread pre rest t ht hinv hd i dmd hb
      have hlt : pre.length < ds.ds_size := by
        simp [Dwarf_Section.ds_size, hd]
      unfold macinfo_parse_loop
      simp only [hlt, if_true, hround]
      exact ⟨_, rfl⟩
  | cons c rs ih =>
    intro fuel pre rest i dmd hwf hend hdata hfuel hroom
    obtain ⟨henc, hwf1, hterm⟩ := well_formed_cons c rs hwf
    cases fuel with
    | zero => simp at hfuel
    | succ fuel =>
      have hd : ds.ds_data = pre ++ c.2 ++ (stream_bytes rs ++ t :: rest) := by
        rw [hdata]; simp [stream_bytes]
      have hb : in_bounds dmd i := by
        intro a ha
        have := hroom a ha
        omega
      obtain ⟨ty, F, hround, hty, _, hpos⟩ :=
        parse_round_record dbg ds hread c.1 c.2 henc pre _ hd i dmd hb
      have hlt : pre.length < ds.ds_size := by
        simp only [Dwarf_Section.ds_size, hd, List.length_append]; omega
      have h0 : ty ≠ 0 := by
        intro h0
        have hnil := hterm (hty.mp h0)
        subst hnil
        exact hend ⟨c, by simp, hty.mp h0⟩
      unfold macinfo_parse_loop
      simp only [hlt, if_true, hround, h0, if_false]
      have hd1 : ds.ds_data = (pre ++ c.2) ++ stream_bytes rs ++ t :: rest := by
        rw [hd]; simp
      have := ih fuel (pre ++ c.2) rest (i + 1) (dmd_apply dmd i F) hwf1
        (fun h => hend (ends_with_terminator_tail c rs h)) hd1
        (by simp only [List.length_cons] at hfuel; omega)
        (by
          intro a ha
          obtain ⟨a0, ha0, hl⟩ := dmd_apply_length dmd i F a ha
          have := hroom a0 ha0
          simp only [List.length_cons] at this
          omega)
      simp only [List.length_append] at this
      exact this

theorem encodes_length (r : Macinfo_Record) (bs : List Nat) (h : encodes r bs) :
    0 < bs.length := by
  cases r with
  | with_string t l s =>
    obtain ⟨_, _, leb, _, hbs⟩ := h
    rw [hbs]; simp
  | start_file l f =>
    obtain ⟨leb1, leb2, _, _, hbs⟩ := h
    rw [hbs]; simp
  | end_file =>
    have hbs : bs = [DW_MACINFO_end_file] := h
    rw [hbs]; simp
  | terminator =>
    have hbs : bs = [0] := h
    rw [hbs]; simp

theorem stream_bytes_length (rs : List (Macinfo_Record × List Nat))
    (h : ∀ c ∈ rs, encodes c.1 c.2) : rs.length ≤ (stream_bytes rs).length := by
  induction rs with
  | nil => simp
  | cons c rs ih =>
    have h1 := encodes_length c.1 c.2 (h c (List.mem_cons_self _ _))
    have h2 := ih (fun x hx => h x (List.mem_cons_of_mem _ hx))
    simp only [stream_bytes, List.length_cons, List.length_append]
    omega

theorem decode_lsb_byte (b : Nat) (h : b < 256) : decode_lsb [b] = b := by
  simp only [decode_lsb]
  omega

theorem ex_macinfo_wf : well_formed ex_macinfo := by
  refine ⟨?_, ?_⟩
  · intro c hc
    simp only [ex_macinfo, List.mem_cons, List.mem_singleton, List.not_mem_nil, or_false] at hc
    rcases hc with h | h | h | h <;> subst h
    · exact ⟨Or.inl rfl, by decide, [5], rfl, rfl⟩
    · exact ⟨[1], [2], rfl, rfl, rfl⟩
    · exact rfl
    · exact rfl
  · intro k c hk ht
    rcases k with _ | _ | _ | _ | k
    · simp only [ex_macinfo, List.getElem?_cons_zero, Option.some.injEq] at hk
      subst hk; cases ht
    · simp only [ex_macinfo, List.getElem?_cons_succ, List.getElem?_cons_zero,
        Option.some.injEq] at hk
      subst hk; cases ht
    · simp only [ex_macinfo, List.getElem?_cons_succ, List.getElem?_cons_zero,
        Option.some.injEq] at hk
      subst hk; cases ht
    · rfl
    · simp [ex_macinfo] at hk

set_option maxRecDepth 100000 in
theorem leb_bits : ∀ x : Nat, x < 128 →
    x &&& 128 = 0 ∧ x &&& 127 = x ∧ (x + 128) &&& 128 ≠ 0 ∧ (x + 128) &&& 127 = x := by
  decide

theorem write_uleb128_loop_ok :
    ∀ (fuel v : Nat), v < 128 ^ (fuel + 1) → is_uleb (write_uleb128_loop (fuel + 1) v) v := by
  intro fuel
  induction fuel with
  | zero =>
    intro v hv
    have hv1 : v < 128 := by simpa using hv
    obtain ⟨h1, h2, _, _⟩ := leb_bits v hv1
    have hd : v / 128 = 0 := Nat.div_eq_of_lt hv1
    have hm : v % 128 = v := Nat.mod_eq_of_lt hv1
    simp [write_uleb128_loop, hd, hm, is_uleb, decode_uleb128, h1, h2]
  | succ fuel ih =>
    intro v hv
    by_cases hd : v / 128 = 0
    · have hv1 : v < 128 := by
        by_contra hge
        have : 0 < v / 128 := Nat.div_pos (by omega) (by decide)
        omega
      obtain ⟨h1, h2, _, _⟩ := leb_bits v hv1
      have hm : v % 128 = v := Nat.mod_eq_of_lt hv1
      simp [write_uleb128_loop, hd, hm, is_uleb, decode_uleb128, h1, h2]
    · have hlt : v / 128 < 128 ^ (fuel + 1) := by
        rw [Nat.div_lt_iff_lt_mul (by decide)]
        rw [Nat.pow_succ] at hv
        exact hv
      have hrec := ih (v / 128) hlt
      unfold is_uleb at hrec ⊢
      obtain ⟨_, _, h3, h4⟩ := leb_bits (v % 128) (Nat.mod_lt _ (by decide))
      rw [write_uleb128_loop, if_pos hd, decode_uleb128, if_neg h3, hrec, h4]
      simp only [List.length_cons, Prod.mk.injEq, and_true]
      omega

theorem WRITE_ULEB128_ok (x : Int) : is_uleb (WRITE_ULEB128 x) (to_u64 x) := by
  unfold WRITE_ULEB128
  apply write_uleb128_loop_ok
  have : to_u64 x < 2 ^ 64 := by
    unfold to_u64
    omega
  calc to_u64 x < 2 ^ 64 := this
    _ ≤ 128 ^ (9 + 1) := by decide

theorem to_i64_to_u64 (x : Int) (h : is_i64 x) : to_i64 (to_u64 x) = x := by
  unfold is_i64 at h
  unfold to_i64 to_u64
  have h1 : (x % 2 ^ 64).toNat % 2 ^ 64 = (x % 2 ^ 64).toNat := by omega
  rw [h1]
  split_ifs <;> omega

/-- The loop of `_dwarf_macinfo_gen` appends the bytes of the records. -/
theorem macinfo_gen_loop_stream (mds : List Dwarf_Macro_Details) :
    ∀ (data : List Nat) (done : List Dwarf_Macro_Details),
      (∀ md ∈ mds, record_type md.dmd_type) →
      (∀ md ∈ mds, string_type md.dmd_type → md.dmd_macro ≠ none) →
      ∃ mds1, macinfo_gen_loop mds data done =
        .ok (data ++ stream_bytes (mds.map rec_of), mds1) := by
  induction mds with
  | nil => intro data done _ _; exact ⟨done, by simp [macinfo_gen_loop, stream_bytes]⟩
  | cons md rest ih =>
    intro data done hty hmac
    have hty1 := hty md (List.mem_cons_self _ _)
    have hr1 : ∀ x ∈ rest, record_type x.dmd_type := fun x hx => hty x (List.mem_cons_of_mem _ hx)
    have hr2 : ∀ x ∈ rest, string_type x.dmd_type → x.dmd_macro ≠ none :=
      fun x hx => hmac x (List.mem_cons_of_mem _ hx)
    by_cases hs : string_type md.dmd_type
    · have hs1 : md.dmd_type = DW_MACINFO_define ∨ md.dmd_type = DW_MACINFO_undef ∨
          md.dmd_type = DW_MACINFO_vendor_ext := hs
      cases hm : md.dmd_macro with
      | none => exact absurd hm (hmac md (List.mem_cons_self _ _) hs)
      | some m =>
        obtain ⟨mds1, h⟩ := ih
          (data ++ [md.dmd_type % 256] ++ WRITE_ULEB128 md.dmd_lineno ++ WRITE_STRING m)
          (done ++ [{ md with dmd_offset := data.length }]) hr1 hr2
        refine ⟨mds1, ?_⟩
        rw [macinfo_gen_loop, if_pos hs1]
        simp only [hm] at h ⊢
        rw [h]
        simp only [stream_bytes, List.map_cons, rec_of, if_pos hs, hm, Option.getD_some,
          List.append_assoc]
    · have hs1 : ¬ (md.dmd_type = DW_MACINFO_define ∨ md.dmd_type = DW_MACINFO_undef ∨
          md.dmd_type = DW_MACINFO_vendor_ext) := hs
      by_cases hf : md.dmd_type = DW_MACINFO_start_file
      · obtain ⟨mds1, h⟩ := ih
          (data ++ [md.dmd_type % 256] ++ WRITE_ULEB128 md.dmd_lineno ++
            WRITE_ULEB128 md.dmd_fileindex)
          (done ++ [{ md with dmd_offset := data.length }]) hr1 hr2
        refine ⟨mds1, ?_⟩
        rw [macinfo_gen_loop, if_neg hs1, if_pos hf, h]
        simp only [stream_bytes, List.map_cons, rec_of, if_neg hs, if_pos hf,
          List.append_assoc]
      · have he : md.dmd_type = DW_MACINFO_end_file := by
          rcases hty1 with h | h | h
          · exact absurd h hs
          · exact absurd h hf
          · exact h
        obtain ⟨mds1, h⟩ := ih (data ++ [md.dmd_type % 256])
          (done ++ [{ md with dmd_offset := data.length }]) hr1 hr2
        refine ⟨mds1, ?_⟩
        rw [macinfo_gen_loop, if_neg hs1, if_neg hf, if_pos he, h]
        simp only [stream_bytes, List.map_cons, rec_of, if_neg hs, if_neg hf,
          List.append_assoc]

theorem rec_of_encodes (md : Dwarf_Macro_Details) (hty : record_type md.dmd_type) :
    encodes (rec_of md).1 (rec_of md).2 ∧ (rec_of md).1 ≠ Macinfo_Record.terminator := by
  unfold rec_of
  by_cases hs : string_type md.dmd_type
  · rw [if_pos hs]
    have h256 : md.dmd_type % 256 = md.dmd_type := by
      rcases hs with h | h | h <;> (rw [h]; rfl)
    refine ⟨⟨hs, Elfcopy.cstr_no_nul _, WRITE_ULEB128 md.dmd_lineno,
      WRITE_ULEB128_ok _, ?_⟩, by intro h; cases h⟩
    simp [h256, WRITE_STRING]
  · rw [if_neg hs]
    by_cases hf : md.dmd_type = DW_MACINFO_start_file
    · rw [if_pos hf]
      refine ⟨⟨WRITE_ULEB128 md.dmd_lineno, WRITE_ULEB128 md.dmd_fileindex,
        WRITE_ULEB128_ok _, WRITE_ULEB128_ok _, ?_⟩, by intro h; cases h⟩
      simp [hf, DW_MACINFO_start_file]
    · rw [if_neg hf]
      have he : md.dmd_type = DW_MACINFO_end_file := by
        rcases hty with h | h | h
        · exact absurd h hs
        · exact absurd h hf
        · exact h
      refine ⟨?_, by intro h; cases h⟩
      show [md.dmd_type % 256] = [DW_MACINFO_end_file]
      rw [he]; rfl

theorem gen_stream_wf (mds : List Dwarf_Macro_Details)
    (hty : ∀ md ∈ mds, record_type md.dmd_type) :
    well_formed (mds.map rec_of ++ [(Macinfo_Record.terminator, [0])]) ∧
    ends_with_terminator (mds.map rec_of ++ [(Macinfo_Record.terminator, [0])]) := by
  refine ⟨⟨?_, ?_⟩, ⟨(Macinfo_Record.terminator, [0]), by simp, rfl⟩⟩
  · intro c hc
    rcases List.mem_append.mp hc with h | h
    · obtain ⟨md, hmd, rfl⟩ := List.mem_map.mp h
      exact (rec_of_encodes md (hty md hmd)).1
    · simp only [List.mem_singleton] at h
      subst h
      rfl
  · intro k c hk hc
    by_cases hlt : k < (mds.map rec_of).length
    · rw [List.getElem?_append_left hlt] at hk
      obtain ⟨md, hmd, rfl⟩ := List.mem_map.mp (List.getElem?_mem hk)
      exact absurd hc (rec_of_encodes md (hty md hmd)).2
    · rw [List.getElem?_append_right (by omega)] at hk
      have : k - (mds.map rec_of).length = 0 := by
        by_contra hne
        obtain ⟨m, hm⟩ := Nat.exists_eq_succ_of_ne_zero hne
        rw [hm] at hk
        simp at hk
      simp only [List.length_append, List.length_singleton]
      omega

theorem stored_stream_same (mds : List Dwarf_Macro_Details) :
    ∀ (new : List Dwarf_Macro_Details) (off : Nat),
      (∀ md ∈ mds, record_type md.dmd_type) →
      (∀ md ∈ mds, is_i64 md.dmd_lineno ∧ is_i64 md.dmd_fileindex) →
      (∀ md ∈ mds, string_type md.dmd_type → md.dmd_macro ≠ none) →
      stored_stream new (mds.map rec_of ++ [(Macinfo_Record.terminator, [0])]) off →
      new.length = mds.length + 1 ∧
      (∀ (k : Nat) (md : Dwarf_Macro_Details), mds[k]? = some md →
        ∃ o, new[k]? = some o ∧ same_record md o) ∧
      ∃ o, new[mds.length]? = some o ∧ o.dmd_type = 0 := by
  induction mds with
  | nil =>
    intro new off _ _ _ h
    cases new with
    | nil => exact absurd h (by simp [stored_stream])
    | cons d ds =>
      cases ds with
      | nil =>
        simp only [List.map_nil, List.nil_append, stored_stream, and_true] at h
        exact ⟨rfl, by intro k md hk; simp at hk, d, rfl, h.2⟩
      | cons d2 ds2 => simp [stored_stream] at h
  | cons md rest ih =>
    intro new off hty hrange hmac h
    cases new with
    | nil => exact absurd h (by simp [stored_stream])
    | cons d ds =>
      simp only [List.map_cons, List.cons_append, stored_stream] at h
      obtain ⟨hd, hrest⟩ := h
      obtain ⟨a1, a2, a3⟩ := ih ds _ (fun x hx => hty x (List.mem_cons_of_mem _ hx))
        (fun x hx => hrange x (List.mem_cons_of_mem _ hx))
        (fun x hx => hmac x (List.mem_cons_of_mem _ hx)) hrest
      have hsame : same_record md d := by
        have hr := hrange md (List.mem_cons_self _ _)
        have ht := hty md (List.mem_cons_self _ _)
        obtain ⟨_, hd2⟩ := hd
        unfold rec_of at hd2
        by_cases hs : string_type md.dmd_type
        · rw [if_pos hs] at hd2
          obtain ⟨b1, b2, b3⟩ := hd2
          have hne : md.dmd_type ≠ DW_MACINFO_start_file := by
            rcases hs with h | h | h <;> (rw [h]; decide)
          refine ⟨b1, fun _ => ⟨?_, ?_⟩, fun h => absurd h hne⟩
          · rw [b2, to_i64_to_u64 _ hr.1]
          · rw [b3]
            cases hm : md.dmd_macro with
            | none => exact absurd hm (hmac md (List.mem_cons_self _ _) hs)
            | some m => rfl
        · rw [if_neg hs] at hd2
          by_cases hf : md.dmd_type = DW_MACINFO_start_file
          · rw [if_pos hf] at hd2
            obtain ⟨b1, b2, b3⟩ := hd2
            refine ⟨by rw [b1, hf], fun h => absurd h hs, fun _ => ⟨?_, ?_⟩⟩
            · rw [b2, to_i64_to_u64 _ hr.1]
            · rw [b3, to_i64_to_u64 _ hr.2]
          · rw [if_neg hf] at hd2
            have he : md.dmd_type = DW_MACINFO_end_file := by
              rcases ht with h | h | h
              · exact absurd h hs
              · exact absurd h hf
              · exact h
            have b1 : d.dmd_type = DW_MACINFO_end_file := hd2
            exact ⟨by rw [b1, he], fun h => absurd h hs, fun h => absurd h hf⟩
      refine ⟨by simp [a1], ?_, ?_⟩
      · intro k x hk
        cases k with
        | zero =>
          simp only [List.getElem?_cons_zero, Option.some.injEq] at hk
          subst hk
          exact ⟨d, List.getElem?_cons_zero, hsame⟩
        | succ k =>
          simp only [List.getElem?_cons_succ] at hk ⊢
          exact a2 k x hk
      · simpa using a3

theorem stream_bytes_append (a b : List (Macinfo_Record × List Nat)) :
    stream_bytes (a ++ b) = stream_bytes a ++ stream_bytes b := by
  induction a with
  | nil => rfl
  | cons c rest ih => simp [stream_bytes, ih]

/-- On a section that is one well-formed stream ended by the terminator,
`_dwarf_macinfo_init` builds one macro set with the records of the stream. -/
theorem macinfo_init_one_set (dbg : Dwarf_Debug) (hread : ∀ b, b < 256 → dbg.read [b] = b)
    (rs : List (Macinfo_Record × List Nat)) (hwf : well_formed rs)
    (hend : ends_with_terminator rs) :
    ∃ new, macinfo_init dbg { ds_data := stream_bytes rs } [] =
        .ok (Dwarf_Dle.DW_DLE_NONE, [{ ms_mdlist := new, ms_cnt := rs.length }]) ∧
      stored_stream new rs 0 := by
  have hne : rs ≠ [] := by
    intro h
    obtain ⟨x, hx, _⟩ := hend
    rw [h] at hx
    simp at hx
  have hpos : 0 < rs.length := List.length_pos.mpr hne
  have hlen := stream_bytes_length rs hwf.1
  have hdata : (Dwarf_Section.mk (stream_bytes rs)).ds_data = [] ++ stream_bytes rs ++ [] := by
    simp
  have hsz : (Dwarf_Section.mk (stream_bytes rs)).ds_size = (stream_bytes rs).length := rfl
  have h1 := parse_loop_count dbg (Dwarf_Section.mk (stream_bytes rs)) hread rs
    (stream_bytes rs).length [] [] 0 hwf hdata (Or.inl hend) hlen
  obtain ⟨new, h2, hst, hnl⟩ := parse_loop_fill dbg (Dwarf_Section.mk (stream_bytes rs)) hread rs
    (stream_bytes rs).length [] [] [] (List.replicate rs.length Dwarf_Macro_Details.zero)
    hwf hdata (Or.inl hend) hlen (by simp)
  simp only [List.length_nil, Nat.zero_add, List.nil_append, List.length_replicate,
    List.drop_length, List.append_nil] at h1 h2
  have hp1 : macinfo_parse dbg (Dwarf_Section.mk (stream_bytes rs)) 0 none =
      .ok { ret := Dwarf_Dle.DW_DLE_NONE, off := (stream_bytes rs).length, dmd := none,
            cnt := some rs.length } := by
    unfold macinfo_parse
    rw [hsz, h1]
    simp
  have hdrop : List.drop rs.length (List.replicate rs.length Dwarf_Macro_Details.zero) = [] := by
    simp
  have hp2 : macinfo_parse dbg (Dwarf_Section.mk (stream_bytes rs)) 0
      (some (List.replicate rs.length Dwarf_Macro_Details.zero)) =
      .ok { ret := Dwarf_Dle.DW_DLE_NONE, off := (stream_bytes rs).length, dmd := some new,
            cnt := some rs.length } := by
    unfold macinfo_parse
    rw [hsz, h2]
    simp
  refine ⟨new, ?_, hst⟩
  unfold macinfo_init
  rw [hsz]
  obtain ⟨m, hm⟩ := Nat.exists_eq_succ_of_ne_zero (by omega : (stream_bytes rs).length ≠ 0)
  rw [hm, macinfo_init_loop]
  have hlt : 0 < (Dwarf_Section.mk (stream_bytes rs)).ds_size := by rw [hsz]; omega
  have hcnt : rs.length ≠ 0 := by omega
  simp only [hlt, if_true, hp1, hp2, ne_eq, not_true_eq_false, if_false, Option.getD_some,
    hcnt, List.nil_append]
  cases m with
  | zero => rfl
  | succ k =>
    rw [macinfo_init_loop, if_neg (by rw [hsz]; omega)]

/-- C35 fails on the code: for every pointer size and every content `rest` of
the memory behind it, the expression of length 1 that consists of the byte
`DW_OP_addr` is counted as one operator by `loc_op_num`, and `loc_fill_locdesc`
stores as its operand the value of the `pointer_size` bytes at index 1 and
above, all of them at an index >= len. The same holds for a fixed-size operand
(`DW_OP_const4u`, len 1) and for a LEB128 operand that continues past len
(`DW_OP_constu 0x80`, len 2): buffers that agree on their first len bytes give
different operator records. -/
theorem C35_operands_read_past_len (dbg : Dwarf_Debug) (pointer_size : Nat)
    (rest : List Nat) :
    loc_op_num pointer_size (DW_OP_addr :: rest) 1 = 1 ∧
    loc_fill_locdesc dbg Dwarf_Locdesc.zero (DW_OP_addr :: rest) 1 pointer_size =
      .ok (Dwarf_Err.DWARF_E_NONE,
        { ld_lopc := 0, ld_hipc := 0, ld_cents := 1,
          ld_s := [{ lr_atom := DW_OP_addr, lr_number := dbg.decode (rest.take pointer_size),
                     lr_number2 := 0 }] }) ∧
    loc_op_num 8 [DW_OP_const4u, 1, 2, 3, 4] 1 = 1 ∧
    loc_fill_locdesc (dbg_lsb [] []) Dwarf_Locdesc.zero [DW_OP_const4u, 1, 2, 3, 4] 1 8 =
      .ok (Dwarf_Err.DWARF_E_NONE,
        { ld_lopc := 0, ld_hipc := 0, ld_cents := 1,
          ld_s := [{ lr_atom := DW_OP_const4u, lr_number := 0x04030201, lr_number2 := 0 }] }) ∧
    loc_op_num 8 [DW_OP_constu, 0x80, 0x80, 0x01] 2 = 1 ∧
    loc_fill_locdesc (dbg_lsb [] []) Dwarf_Locdesc.zero [DW_OP_constu, 0x80, 0x80, 0x01] 2 8 =
      .ok (Dwarf_Err.DWARF_E_NONE,
        { ld_lopc := 0, ld_hipc := 0, ld_cents := 1,
          ld_s := [{ lr_atom := DW_OP_constu, lr_number := 0x4000, lr_number2 := 0 }] }) ∧
    loc_fill_locdesc (dbg_lsb [] []) Dwarf_Locdesc.zero [DW_OP_constu, 0x80, 0x80, 0x02] 2 8 =
      .ok (Dwarf_Err.DWARF_E_NONE,
        { ld_lopc := 0, ld_hipc := 0, ld_cents := 1,
          ld_s := [{ lr_atom := DW_OP_constu, lr_number := 0x8000, lr_number2 := 0 }] }) := by
  have ha : switch_arm DW_OP_addr = Arm.addr := by decide
  have h1 : loc_op_num pointer_size (DW_OP_addr :: rest) 1 = 1 := by
    show loc_op_num_loop pointer_size 1 (DW_OP_addr :: rest) 1 0 = 1
    simp only [loc_op_num_loop, List.headD_cons, ha]
    simp
  refine ⟨h1, ?_, by decide, rfl, by decide, rfl, rfl⟩
  have h2 : to_int 1 = 1 := by decide
  unfold loc_fill_locdesc
  rw [h2, h1]
  have h3 : ¬ ((1 : Int) < 0) := by decide
  simp only [Nat.zero_lt_one, not_true_eq_false, if_false, h3]
  unfold loc_fill_loc
  have h4 : loc_fill_loc_loop dbg pointer_size (Int.toNat 1) (DW_OP_addr :: rest) 1
      (List.replicate (Int.toNat 1) Dwarf_Loc.zero) 0 =
      .ok ([{ lr_atom := DW_OP_addr, lr_number := dbg.decode (rest.take pointer_size),
              lr_number2 := 0 }], 1) := by
    show loc_fill_loc_loop dbg pointer_size 1 (DW_OP_addr :: rest) 1 [Dwarf_Loc.zero] 0 = _
    simp [loc_fill_loc_loop, ha, fill_operands]
  simp only [h4]
  rfl

/-- C36 fails on the code: for the list of a 32-bit object with one normal
entry [0x10, 0x20) of expression length 0 followed by the end entry, the
counting pass of `loclist_add_locdesc` succeeds with two entries, and
`loclist_add` then ends in the failed assertion `in_len > 0` of
`loc_fill_locdesc`, which fails for every buffer when the length is 0; no list
is recorded. -/
theorem C36_empty_expression_asserts :
    loclist_add_locdesc (dbg_lsb ex_loc32_empty []) 4 { d_buf := ex_loc32_empty } 0 none =
      .ok (Dwarf_Err.DWARF_E_NONE, { off := 18, ld := none, i := 2, total_len := 16 }) ∧
    (∀ dbg llbuf inp pointer_size,
      loc_fill_locdesc dbg llbuf inp 0 pointer_size = .error Fault.assertion) ∧
    loclist_add (dbg_lsb ex_loc32_empty []) 4 0 = .error Fault.assertion :=
  ⟨rfl, fun _ _ _ _ => rfl, rfl⟩

/-- C37 fails on the code: the list of `ex_loc32` occupies the 19 bytes of the
section (the pass ends with the offset 19 just past the end entry) and is
recorded with `ll_length` 17; the list of `ex_loc32_base` occupies 28 bytes
and is recorded with 26. The 2 bytes of the length field of each normal entry
are not counted; the list at offset 20, the end entry alone, gets its 8
bytes. -/
theorem C37_recorded_length_short :
    (loclist_add_locdesc (dbg_lsb ex_loc32 []) 4 { d_buf := ex_loc32 } 0 none).map
      (fun r => (r.1, r.2.off, r.2.total_len)) = .ok (Dwarf_Err.DWARF_E_NONE, 19, 17) ∧
    ex_loc32.length = 19 ∧
    loclist_add (dbg_lsb ex_loc32 []) 4 0 =
      .ok (Dwarf_Err.DWARF_E_NONE, dbg_lsb ex_loc32
        [{ ll_offset := 0, ll_length := 17, ll_ldlen := 2,
           ll_ldlist :=
            [{ ld_lopc := 0x10, ld_hipc := 0x20, ld_cents := 1,
               ld_s := [{ lr_atom := DW_OP_reg0, lr_number := 0, lr_number2 := 0 }] },
             { ld_lopc := 0, ld_hipc := 0, ld_cents := 0, ld_s := [] }] }]) ∧
    (loclist_add_locdesc (dbg_lsb ex_loc32_base []) 4 { d_buf := ex_loc32_base } 0 none).map
      (fun r => (r.1, r.2.off, r.2.total_len)) = .ok (Dwarf_Err.DWARF_E_NONE, 28, 26) ∧
    loclist_add (dbg_lsb ex_loc32_base []) 4 0 =
      .ok (Dwarf_Err.DWARF_E_NONE, dbg_lsb ex_loc32_base [ex_ll0]) ∧
    ex_ll0.ll_length = 26 ∧
    loclist_add (dbg_lsb ex_loc32_base []) 4 20 =
      .ok (Dwarf_Err.DWARF_E_NONE, dbg_lsb ex_loc32_base [ex_ll20]) ∧
    ex_ll20.ll_length = 8 :=
  ⟨rfl, rfl, rfl, rfl, rfl, rfl, rfl, rfl⟩

/-! ## `dwarf_get_abbrev` -/

theorem abbrev_loop_some (offset : Nat) (abs : List Dwarf_Abbrev) (ab : Dwarf_Abbrev)
    (h : abbrev_loop offset abs = some ab) : ab ∈ abs ∧ ab.ab_offset = offset := by
  induction abs with
  | nil => simp [abbrev_loop] at h
  | cons a rest ih =>
    unfold abbrev_loop at h
    by_cases ha : a.ab_offset = offset
    · simp only [ha, if_true, Option.some.injEq] at h
      subst h
      exact ⟨List.mem_cons_self _ _, ha⟩
    · simp only [ha, if_false] at h
      exact ⟨List.mem_cons_of_mem _ (ih h).1, (ih h).2⟩

theorem abbrev_loop_none (offset : Nat) (abs : List Dwarf_Abbrev)
    (h : abbrev_loop offset abs = none) : ∀ ab ∈ abs, ab.ab_offset ≠ offset := by
  induction abs with
  | nil => intro ab hab; cases hab
  | cons a rest ih =>
    unfold abbrev_loop at h
    by_cases ha : a.ab_offset = offset
    · simp [ha] at h
    · simp only [ha, if_false] at h
      intro ab hab
      rcases List.mem_cons.mp hab with h1 | h1
      · rw [h1]; exact ha
      · exact ih h ab h1

/-- The outer loop leaves in `ab` the result of the inner loop on the last
unit. -/
theorem cu_loop_last (offset : Nat) (cus : List Dwarf_CU) :
    ∀ ab0, cu_loop offset cus ab0 =
      match cus.getLast? with
      | none => ab0
      | some cu => abbrev_loop offset cu.cu_abbrev := by
  induction cus with
  | nil => intro ab0; rfl
  | cons cu rest ih =>
    intro ab0
    unfold cu_loop
    rw [ih]
    cases rest with
    | nil => rfl
    | cons r rest2 =>
      rw [List.getLast?_cons_cons]
      cases hl : (r :: rest2).getLast? with
      | none => simp at hl
      | some c => rfl

/-- C34 fails on the code: the `break` leaves the inner loop only, so the
outer loop goes on and the search of each further unit assigns `ab` anew.
`dwarf_get_abbrev` returns `DW_DLV_OK` exactly when the last unit of the
context has an abbreviation with the offset (and `DW_DLV_ERROR` with ARGUMENT
otherwise, also for a context without units). For the context `ex_units` and
offset 0 the first unit has the abbreviation `ex_abbrev` with that offset and
the call returns `DW_DLV_ERROR`. -/
theorem C34_only_last_unit_searched :
    (∀ (cus : List Dwarf_CU) (last : Dwarf_CU) (offset : Nat),
      (dwarf_get_abbrev (some (cus ++ [last])) offset true true true).ret =
          Dwarf_Dlv.DW_DLV_OK ↔
        ∃ ab ∈ last.cu_abbrev, ab.ab_offset = offset) ∧
    (∀ (cus : List Dwarf_CU) (last : Dwarf_CU) (offset : Nat),
      (∀ ab ∈ last.cu_abbrev, ab.ab_offset ≠ offset) →
      dwarf_get_abbrev (some (cus ++ [last])) offset true true true =
        { ret := Dwarf_Dlv.DW_DLV_ERROR, error := some Dwarf_Err.DWARF_E_ARGUMENT,
          return_abbrev := none, length := none, attr_count := none }) ∧
    some_unit_has ex_units 0 ∧
    dwarf_get_abbrev (some ex_units) 0 true true true =
      { ret := Dwarf_Dlv.DW_DLV_ERROR, error := some Dwarf_Err.DWARF_E_ARGUMENT,
        return_abbrev := none, length := none, attr_count := none } ∧
    dwarf_get_abbrev (some ex_units) 10 true true true =
      { ret := Dwarf_Dlv.DW_DLV_OK, error := none, return_abbrev := some ex_abbrev10,
        length := some 4, attr_count := some 0 } := by
  have key : ∀ (cus : List Dwarf_CU) (last : Dwarf_CU) (offset : Nat),
      cu_loop offset (cus ++ [last]) none = abbrev_loop offset last.cu_abbrev := by
    intro cus last offset
    rw [cu_loop_last, List.getLast?_concat]
  refine ⟨?_, ?_, ?_, rfl, rfl⟩
  · intro cus last offset
    unfold dwarf_get_abbrev
    simp only [Bool.true_eq_false, or_self, if_false, key]
    cases h : abbrev_loop offset last.cu_abbrev with
    | none =>
      constructor
      · intro hc; cases hc
      · intro hex
        obtain ⟨ab, hab, hoff⟩ := hex
        exact absurd hoff (abbrev_loop_none offset _ h ab hab)
    | some ab =>
      constructor
      · intro _
        exact ⟨ab, abbrev_loop_some offset _ ab h⟩
      · intro _
        rfl
  · intro cus last offset hno
    unfold dwarf_get_abbrev
    simp only [Bool.true_eq_false, or_self, if_false, key]
    cases h : abbrev_loop offset last.cu_abbrev with
    | none => rfl
    | some ab =>
      exact absurd (abbrev_loop_some offset _ ab h).2 (hno ab (abbrev_loop_some offset _ ab h).1)
  · exact ⟨_, List.mem_cons_self _ _, ex_abbrev, List.mem_cons_self _ _, rfl⟩

end Libdwarf

namespace Brandelf

/-! ## The brand warning of the inspection mode -/

theorem main_file_known (vs : Vars) (k : Nat) (file : InFile) (t : Int)
    (hknown : (iselftype vs.type).isNone = false) :
    Event.brand_unknown t ∉ (main_file vs k file).1 := by
  unfold main_file
  rw [hknown]
  simp only [Bool.false_eq_true, if_false, List.append_nil]
  split_ifs <;> simp

theorem main_files_known (vs : Vars) (t : Int) (hknown : (iselftype vs.type).isNone = false) :
    ∀ (files : List InFile) (k : Nat) (acc : List Event × List InFile × Int),
      Event.brand_unknown t ∉ acc.1 →
      Event.brand_unknown t ∉ (main_files vs k files acc).1 := by
  intro files
  induction files with
  | nil => intro k acc h; exact h
  | cons file rest ih =>
    intro k acc h
    unfold main_files
    apply ih
    simp only [List.mem_append, not_or]
    exact ⟨h, main_file_known vs k file t hknown⟩

/-- C28 fails on the code: in inspection mode (no option) the file with the
OS/ABI byte 200, which is the value of no known brand, is reported with a
NULL brand name and no "ELF ABI Brand is unknown" warning follows: the test
before the warning is `iselftype(type)`, and `type` is the value of the
default brand name "FreeBSD", not the byte of the file. In inspection mode
the warning is printed for no file at all. -/
theorem C28_unknown_brand_not_reported :
    iselftype 200 = none ∧
    (main [] [ex_file 200, ex_file 9]).events =
      [Event.brand_line 0 none 200, Event.brand_line 1 (some "FreeBSD".data) 9] ∧
    (main [] [ex_file 200, ex_file 9]).status = 0 ∧
    ∀ (files : List InFile) (t : Int), Event.brand_unknown t ∉ (main [] files).events := by
  refine ⟨by decide, by decide, by decide, ?_⟩
  intro files t
  have htype : elftype Vars.init.strtype = 9 := by decide
  unfold main
  simp only [parse_opts]
  by_cases hf : files = []
  · simp [hf, Vars.init]
  · rw [if_neg hf, if_neg (by rw [htype]; simp)]
    simp only [Vars.init, Bool.false_eq_true, if_false]
    apply main_files_known
    · decide
    · simp

end Brandelf

namespace Nm

/-- The rounds of `relocate_sec` for class 32 are those of the spec: when
every patched integer lies inside the buffer, the new buffer is the one the
spec describes and has the length of the section. -/
theorem relocate_loop_class32 (msb : Bool) :
    ∀ (table : List GElf_Rela) (buf : List Nat),
      (∀ ra ∈ table, ra.r_offset + 4 ≤ buf.length) →
      relocate_loop msb ELFCLASS32 table buf = .ok (spec_relocate msb ELFCLASS32 table buf) ∧
      (spec_relocate msb ELFCLASS32 table buf).length = buf.length := by
  have hstore : ∀ (n v : Nat), (store msb n v).length = n := by
    intro n
    induction n with
    | zero => intro v; rfl
    | succ n ih =>
      intro v
      unfold store
      split_ifs <;> simp [ih]
  intro table
  induction table with
  | nil => intro buf _; exact ⟨rfl, rfl⟩
  | cons ra rest ih =>
    intro buf h
    have hra := h ra (List.mem_cons_self ra rest)
    have hlen : (spec_patch msb ELFCLASS32 buf ra).length = buf.length := by
      simp only [spec_patch, if_true, List.length_append, List.length_take, List.length_drop,
        hstore]
      omega
    have hrest : ∀ x ∈ rest, x.r_offset + 4 ≤ (spec_patch msb ELFCLASS32 buf ra).length := by
      intro x hx
      rw [hlen]
      exact h x (List.mem_cons_of_mem ra hx)
    obtain ⟨h1, h2⟩ := ih (spec_patch msb ELFCLASS32 buf ra) hrest
    have hpatch : patch msb sizeof_Elf32_Sword buf ra =
        .ok (spec_patch msb ELFCLASS32 buf ra) := by
      unfold patch sizeof_Elf32_Sword
      rw [if_pos hra]
      simp only [spec_patch, if_true]
    constructor
    · unfold relocate_loop
      simp only [if_true, hpatch]
      exact h1
    · show (spec_relocate msb ELFCLASS32 rest (spec_patch msb ELFCLASS32 buf ra)).length = _
      rw [h2, hlen]

/-- C25 fails on the code for class 64: the variable `add64` has the type
`Elf64_Sword`, which is 4 bytes wide, so for a class 64 object `relocate_sec`
adds the addend to the 4-byte integer at `r_offset`, modulo `2^32`, and the
carry into the upper half of the 8-byte integer is lost. For the 8-byte
little-endian integer `0xffffffff` and the addend 1 the new buffer holds 0,
where the sum modulo `2^64` is `0x100000000`; on a big-endian host the upper
half of the integer is patched. -/
theorem C25_class64_adds_four_bytes :
    relocate_sec false (some ex_buf) (some ex_table) ELFCLASS64 =
      .ok (some [0, 0, 0, 0, 0, 0, 0, 0]) ∧
    spec_relocate false ELFCLASS64 ex_table ex_buf = [0, 0, 0, 0, 1, 0, 0, 0] ∧
    load false [0, 0, 0, 0, 1, 0, 0, 0] = (load false ex_buf + 1) % 2 ^ 64 ∧
    load false [0, 0, 0, 0, 0, 0, 0, 0] ≠ (load false ex_buf + 1) % 2 ^ 64 ∧
    relocate_sec true (some ex_buf.reverse) (some ex_table) ELFCLASS64 =
      .ok (some [0, 0, 0, 1, 0xff, 0xff, 0xff, 0xff]) ∧
    spec_relocate true ELFCLASS64 ex_table ex_buf.reverse = [0, 0, 0, 1, 0, 0, 0, 0] :=
  ⟨rfl, by decide, by decide, by decide, rfl, by decide⟩

/-! ## The value comparison and the filter of `-g` -/

/-- The type of the function `ex_func v` under `ex_ttable` is `T`: the symbol
is defined, whatever its address. -/
theorem ex_func_type (v : Nat) :
    get_sym_type (some (ex_func v)) (some ex_ttable) = .ok 'T'.toNat := by
  simp [get_sym_type, ex_func, ex_ttable, SHN_ABS, SHN_COMMON, SHN_UNDEF, STB_WEAK,
    STB_LOCAL]

/-- The comparison of two defined functions with different addresses is the
difference of the addresses in 64 bits, cut to `int`. -/
theorem cmp_value_defined (lname rname : List Nat) (lv rv : Nat) (h : lv ≠ rv) :
    cmp_value (some { t_table := some ex_ttable }) (ex_entry lname lv) (ex_entry rname rv) =
      .ok (to_int ((lv + 2 ^ 64 - rv) % 2 ^ 64)) := by
  simp only [cmp_value, ex_entry, ex_func_type]
  have hu : IS_UNDEF_SYM_TYPE 'T'.toNat = false := by decide
  simp only [hu, Bool.false_eq_true, if_false, Nat.add_zero, if_true]
  have hne : ¬ (ex_func lv).st_value = (ex_func rv).st_value := h
  rw [if_neg hne]
  rfl

/-- C31 fails on the code: for two defined symbols with different values
`cmp_value` returns the 64-bit difference of the values converted to `int`,
that is its low 32 bits. For the values 2^32 and 0 it returns 0, although the
symbol with value 0 comes before the other; for the values 2^31 and 0 it is
negative in both argument orders; and for the values 0, 2^31 - 1 and 2^32 - 2
the first is put before the second, the second before the third and the third
before the first. -/
theorem C31_value_difference_truncated :
    (∀ (lname rname : List Nat) (lv rv : Nat), lv ≠ rv →
      cmp_value (some { t_table := some ex_ttable }) (ex_entry lname lv)
          (ex_entry rname rv) =
        .ok (to_int ((lv + 2 ^ 64 - rv) % 2 ^ 64))) ∧
    IS_UNDEF_SYM_TYPE 'T'.toNat = false ∧
    cmp_value (some { t_table := some ex_ttable }) (ex_entry [97] (2 ^ 32)) (ex_entry [98] 0) =
      .ok 0 ∧
    comes_before false false [98] [97] 0 (2 ^ 32) = true ∧
    cmp_value (some { t_table := some ex_ttable }) (ex_entry [97] (2 ^ 31)) (ex_entry [98] 0) =
      .ok (-2147483648) ∧
    cmp_value (some { t_table := some ex_ttable }) (ex_entry [98] 0) (ex_entry [97] (2 ^ 31)) =
      .ok (-2147483648) ∧
    comes_before false false [97] [98] (2 ^ 31) 0 = false ∧
    cmp_value (some { t_table := some ex_ttable }) (ex_entry [97] 0)
        (ex_entry [98] (2 ^ 31 - 1)) = .ok (-2147483647) ∧
    cmp_value (some { t_table := some ex_ttable }) (ex_entry [98] (2 ^ 31 - 1))
        (ex_entry [99] (2 ^ 32 - 2)) = .ok (-2147483647) ∧
    cmp_value (some { t_table := some ex_ttable }) (ex_entry [97] 0)
        (ex_entry [99] (2 ^ 32 - 2)) = .ok 2 ∧
    comes_before false false [97] [99] 0 (2 ^ 32 - 2) = true := by
  refine ⟨cmp_value_defined, by decide, ?_, by decide, ?_, ?_, by decide, ?_, ?_, ?_, by decide⟩
  · rw [cmp_value_defined _ _ _ _ (by decide)]; rfl
  · rw [cmp_value_defined _ _ _ _ (by decide)]; rfl
  · rw [cmp_value_defined _ _ _ _ (by decide)]; rfl
  · rw [cmp_value_defined _ _ _ _ (by decide)]; rfl
  · rw [cmp_value_defined _ _ _ _ (by decide)]; rfl
  · rw [cmp_value_defined _ _ _ _ (by decide)]; rfl

/-- C32 fails on the code: the filter looks at the type letter only and
accepts the upper-case letters and `w`. A weak undefined object has the type
`v` and is rejected, for every type table and whatever its other fields; a
local undefined symbol has the type `U`, a local common symbol the type `C`
and a local symbol of a section of type `N` the type `N`, and these are
accepted. -/
theorem C32_global_filter_by_type_letter :
    (∀ (table : List Nat) (sym : GElf_Sym),
      sym.st_info / 16 = STB_WEAK → sym.st_info % 16 = STT_OBJECT →
      sym.st_shndx = SHN_UNDEF →
      is_not_local sym = true ∧ get_sym_type (some sym) (some table) = .ok 'v'.toNat ∧
      filter_global sym table = .ok false) ∧
    (∀ (table : List Nat) (sym : GElf_Sym),
      sym.st_info / 16 = STB_LOCAL → sym.st_shndx = SHN_UNDEF →
      is_not_local sym = false ∧ get_sym_type (some sym) (some table) = .ok 'U'.toNat ∧
      filter_global sym table = .ok true) ∧
    (∀ (table : List Nat) (sym : GElf_Sym),
      sym.st_info / 16 = STB_LOCAL → sym.st_shndx = SHN_COMMON →
      is_not_local sym = false ∧ get_sym_type (some sym) (some table) = .ok 'C'.toNat ∧
      filter_global sym table = .ok true) ∧
    is_not_local ex_weak_undef_object = true ∧
    filter_global ex_weak_undef_object ex_ttable = .ok false ∧
    is_not_local ex_reserved = false ∧
    filter_global ex_reserved ex_ttable = .ok true ∧
    is_not_local ex_local_common = false ∧
    filter_global ex_local_common ex_ttable = .ok true ∧
    is_not_local ex_local_debug = false ∧
    get_sym_type (some ex_local_debug) (some ex_ttable) = .ok 'N'.toNat ∧
    filter_global ex_local_debug ex_ttable = .ok true ∧
    is_not_local (ex_func 0) = true ∧
    filter_global (ex_func 0) ex_ttable = .ok true := by
  refine ⟨?_, ?_, ?_, by decide, rfl, by decide, rfl, by decide, rfl, by decide, rfl, rfl,
    by decide, rfl⟩
  · intro table sym hw ho hu
    have ht : get_sym_type (some sym) (some table) = .ok 'v'.toNat := by
      simp [get_sym_type, hw, ho, hu, SHN_UNDEF, SHN_ABS, SHN_COMMON]
    refine ⟨by simp [is_not_local, hw, STB_WEAK, STB_LOCAL], ht, ?_⟩
    simp only [filter_global, ht]
    rfl
  · intro table sym hl hu
    have ht : get_sym_type (some sym) (some table) = .ok 'U'.toNat := by
      simp [get_sym_type, hl, hu, SHN_UNDEF, SHN_ABS, SHN_COMMON, STB_LOCAL, STB_WEAK]
    refine ⟨by simp [is_not_local, hl], ht, ?_⟩
    simp only [filter_global, ht]
    rfl
  · intro table sym hl hc
    have ht : get_sym_type (some sym) (some table) = .ok 'C'.toNat := by
      simp [get_sym_type, hl, hc, SHN_ABS, SHN_COMMON]
    refine ⟨by simp [is_not_local, hl], ht, ?_⟩
    simp only [filter_global, ht]
    rfl

end Nm

namespace ElfcopyMain

open Elfcopy (Bytes cstr lit)

/-! ## `parse_sec_flags` -/

theorem tolower_eq_zero (c : Nat) : tolower c = 0 ↔ c = 0 := by
  unfold tolower
  by_cases h : 65 ≤ c ∧ c ≤ 90
  · rw [if_pos h]; omega
  · rw [if_neg h]

theorem strcasecmp_eq_zero (a : Bytes) :
    ∀ b : Bytes, 0 ∉ a → 0 ∉ b → (strcasecmp a b = 0 ↔ eq_nocase a b) := by
  unfold eq_nocase
  induction a with
  | nil =>
    intro b _ hb
    cases b with
    | nil => simp [strcasecmp]
    | cons x xs =>
      have hx : x ≠ 0 := fun h0 => hb (by simp [h0])
      have : tolower x ≠ 0 := fun h0 => hx ((tolower_eq_zero x).mp h0)
      simp only [strcasecmp, List.map_nil, List.map_cons]
      constructor
      · intro h; omega
      · intro h; cases h
  | cons y ys ih =>
    intro b ha hb
    have hy : y ≠ 0 := fun h0 => ha (by simp [h0])
    have hty : tolower y ≠ 0 := fun h0 => hy ((tolower_eq_zero y).mp h0)
    cases b with
    | nil =>
      simp only [strcasecmp, List.map_nil, List.map_cons]
      constructor
      · intro h; omega
      · intro h; cases h
    | cons x xs =>
      have hys : 0 ∉ ys := fun h0 => ha (List.mem_cons_of_mem y h0)
      have hxs : 0 ∉ xs := fun h0 => hb (List.mem_cons_of_mem x h0)
      simp only [strcasecmp, List.map_cons, List.cons.injEq]
      by_cases he : tolower y = tolower x
      · rw [if_pos he, ih xs hys hxs]
        simp [he]
      · rw [if_neg he]
        constructor
        · intro h; omega
        · intro h; exact absurd h.1 he

theorem sec_flags_loop_find (flag : Bytes) (hflag : 0 ∉ flag) (tab : List (Bytes × Nat))
    (htab : ∀ e ∈ tab, 0 ∉ e.1) (flags : Nat) :
    sec_flags_loop flag tab flags =
      match tab.find? (fun e => decide (eq_nocase e.1 flag)) with
      | some e => (flags ||| e.2, true)
      | none => (flags, false) := by
  induction tab with
  | nil => rfl
  | cons e rest ih =>
    obtain ⟨name, value⟩ := e
    have hname : 0 ∉ name := htab (name, value) (List.mem_cons_self _ _)
    have hrest : ∀ e ∈ rest, 0 ∉ e.1 := fun e he => htab e (List.mem_cons_of_mem _ he)
    simp only [sec_flags_loop, List.find?_cons]
    by_cases h : eq_nocase name flag
    · rw [if_pos ((strcasecmp_eq_zero name flag hname hflag).mpr h)]
      simp [h]
    · rw [if_neg (fun h0 => h ((strcasecmp_eq_zero name flag hname hflag).mp h0))]
      simp only [h, decide_False]
      exact ih hrest

theorem sec_flags_names (v : sf_values) : ∀ e ∈ sec_flags v, 0 ∉ e.1 := by
  intro e he
  simp only [sec_flags, List.mem_cons, List.mem_singleton, List.not_mem_nil, or_false] at he
  rcases he with h | h | h | h | h | h | h | h | h | h <;>
    (rw [h]; show 0 ∉ lit _; decide)

theorem sec_flags_loop_value (v : sf_values) (flag : Bytes) (hflag : 0 ∉ flag) (flags : Nat) :
    sec_flags_loop flag (sec_flags v) flags =
      match flag_value v flag with
      | some val => (flags ||| val, true)
      | none => (flags, false) := by
  rw [sec_flags_loop_find flag hflag (sec_flags v) (sec_flags_names v) flags]
  unfold flag_value
  cases (sec_flags v).find? (fun e => decide (eq_nocase e.1 flag)) <;> rfl

/-! ### `strtok` and the tokens of a string -/

theorem dropWhile_cases (p : Nat → Bool) (l : Bytes) :
    (l.dropWhile p = [] ∧ l.takeWhile p = l) ∨
    ∃ c r, l.dropWhile p = c :: r ∧ p c = false ∧ l = l.takeWhile p ++ c :: r := by
  induction l with
  | nil => left; simp
  | cons x xs ih =>
    cases hx : p x with
    | true =>
      rcases ih with ⟨h1, h2⟩ | ⟨c, r, h1, h2, h3⟩
      · left
        simp [List.dropWhile_cons, List.takeWhile_cons, hx, h1, h2]
      · right
        refine ⟨c, r, by simp [List.dropWhile_cons, hx, h1], h2, ?_⟩
        simp only [List.takeWhile_cons, hx, if_true, List.cons_append]
        rw [← h3]
    | false =>
      right
      exact ⟨x, xs, by simp [List.dropWhile_cons, hx], hx, by simp [List.takeWhile_cons, hx]⟩

theorem tokens_nil : tokens [] = [] := by
  simp [tokens, List.splitOnP_nil]

theorem tokens_comma (s : Bytes) : tokens (44 :: s) = tokens s := by
  simp [tokens, List.splitOnP_cons]

theorem tokens_dropWhile (s : Bytes) : tokens (s.dropWhile (fun c => c == 44)) = tokens s := by
  induction s with
  | nil => rfl
  | cons x xs ih =>
    by_cases hx : x = 44
    · subst hx
      rw [tokens_comma]
      simpa [List.dropWhile_cons] using ih
    · simp [List.dropWhile_cons, hx]

theorem tokens_single (t : Bytes) (ht : ∀ x ∈ t, x ≠ 44) (hne : t ≠ []) : tokens t = [t] := by
  unfold tokens
  rw [List.splitOnP_eq_single]
  · simp [hne]
  · intro x hx
    simpa using ht x hx

theorem tokens_first (t r : Bytes) (ht : ∀ x ∈ t, x ≠ 44) (hne : t ≠ []) :
    tokens (t ++ 44 :: r) = t :: tokens r := by
  unfold tokens
  rw [List.splitOnP_first (fun c => c == 44) t (by intro x hx; simpa using ht x hx) 44
    (by simp) r]
  simp [hne]

theorem strtok_none (s : Bytes) (h : strtok s = none) : tokens s = [] := by
  unfold strtok at h
  simp only at h
  by_cases h1 : s.dropWhile (fun c => c == 44) = []
  · rw [← tokens_dropWhile, h1, tokens_nil]
  · rw [if_neg h1] at h
    cases h

theorem strtok_some (s tok rest : Bytes) (h : strtok s = some (tok, rest)) :
    tokens s = tok :: tokens rest ∧ rest.length < s.length ∧ tok ≠ [] ∧
      (0 ∉ s → 0 ∉ tok ∧ 0 ∉ rest) := by
  unfold strtok at h
  simp only at h
  by_cases h1 : s.dropWhile (fun c => c == 44) = []
  · rw [if_pos h1] at h
    cases h
  · rw [if_neg h1] at h
    simp only [Option.some.injEq, Prod.mk.injEq] at h
    obtain ⟨htok, hrest⟩ := h
    have hlen1 : (s.dropWhile (fun c => c == 44)).length ≤ s.length :=
      (List.dropWhile_sublist _).length_le
    have htokens := tokens_dropWhile s
    have hfirst : ∀ x xs, s.dropWhile (fun c => c == 44) = x :: xs → x ≠ 44 := by
      intro x xs hs
      rcases dropWhile_cases (fun c => c == 44) s with ⟨hd, _⟩ | ⟨c, r, hd, hc, _⟩
      · rw [hd] at hs; cases hs
      · rw [hd] at hs
        simp only [List.cons.injEq] at hs
        rw [← hs.1]
        simpa using hc
    have hsub : ∀ x ∈ s.dropWhile (fun c => c == 44), x ∈ s :=
      fun x hx => (List.dropWhile_sublist _).subset hx
    generalize s.dropWhile (fun c => c == 44) = s1 at h1 htok hrest hlen1 hsub htokens hfirst
    have hne : tok ≠ [] := by
      cases s1 with
      | nil => exact absurd rfl h1
      | cons x xs =>
        have hx := hfirst x xs rfl
        rw [← htok]
        simp [List.takeWhile_cons, hx]
    have htk : ∀ x ∈ tok, x ≠ 44 := by
      intro x hx
      rw [← htok] at hx
      simpa using List.mem_takeWhile_imp hx
    have htoksub : ∀ x ∈ tok, x ∈ s1 := by
      intro x hx
      rw [← htok] at hx
      exact (List.takeWhile_sublist _).subset hx
    have hrestsub : ∀ x ∈ rest, x ∈ s1 := by
      intro x hx
      rw [← hrest] at hx
      exact (List.dropWhile_sublist _).subset (List.mem_of_mem_drop hx)
    have hmem : 0 ∉ s → 0 ∉ tok ∧ 0 ∉ rest :=
      fun h0 => ⟨fun h => h0 (hsub 0 (htoksub 0 h)), fun h => h0 (hsub 0 (hrestsub 0 h))⟩
    rcases dropWhile_cases (fun c => c != 44) s1 with ⟨hd, ht⟩ | ⟨c2, r2, hd, hc2, hsplit⟩
    · rw [hd] at hrest
      rw [ht] at htok
      simp only [List.drop_nil] at hrest
      refine ⟨?_, ?_, hne, hmem⟩
      · rw [← htokens, ← hrest, tokens_nil, htok]
        exact tokens_single tok htk hne
      · rw [← hrest]
        cases s1 with
        | nil => exact absurd rfl h1
        | cons x xs =>
          simp only [List.length_cons] at hlen1
          simp only [List.length_nil]
          omega
    · rw [hd] at hrest
      simp only [List.drop_succ_cons, List.drop_zero] at hrest
      have hc44 : c2 = 44 := by simpa using hc2
      rw [htok, hc44, hrest] at hsplit
      refine ⟨?_, ?_, hne, hmem⟩
      · rw [← htokens, hsplit]
        exact tokens_first tok rest htk hne
      · have : s1.length = tok.length + (rest.length + 1) := by
          rw [hsplit]; simp
        omega

/-! ### The loop of `parse_sec_flags` -/

theorem parse_sec_flags_loop_tokens (v : sf_values) :
    ∀ (fuel : Nat) (s : Bytes) (flags : Nat), s.length < fuel → 0 ∉ s →
      parse_sec_flags_loop v fuel s flags = flags_of_tokens v (tokens s) flags := by
  intro fuel
  induction fuel with
  | zero => intro s flags h; omega
  | succ fuel ih =>
    intro s flags hlen h0
    unfold parse_sec_flags_loop
    cases hs : strtok s with
    | none =>
      rw [strtok_none s hs]
      rfl
    | some r =>
      obtain ⟨tok, rest⟩ := r
      obtain ⟨ht, hl, _, hm⟩ := strtok_some s tok rest hs
      obtain ⟨hm1, hm2⟩ := hm h0
      simp only
      rw [ht, sec_flags_loop_value v tok hm1 flags]
      cases hv : flag_value v tok with
      | none => simp [flags_of_tokens, hv]
      | some val =>
        simp only [flags_of_tokens, hv]
        exact ih rest (flags ||| val) (by omega) hm2

theorem flags_of_tokens_known (v : sf_values) (ts : List Bytes) :
    ∀ flags : Nat, (∀ t ∈ ts, (flag_value v t).isSome = true) →
      flags_of_tokens v ts flags = .ok (or_values v ts flags) := by
  induction ts with
  | nil => intro flags _; rfl
  | cons t ts ih =>
    intro flags h
    have ht := h t (List.mem_cons_self _ _)
    cases hv : flag_value v t with
    | none => rw [hv] at ht; cases ht
    | some val =>
      simp only [flags_of_tokens, hv, or_values, List.foldl_cons, Option.getD_some]
      exact ih (flags ||| val) (fun t1 h1 => h t1 (List.mem_cons_of_mem _ h1))

theorem flags_of_tokens_unknown (v : sf_values) (ts : List Bytes) :
    ∀ flags : Nat, (∃ t ∈ ts, flag_value v t = none) →
      flags_of_tokens v ts flags = .error Fault.EX_USAGE := by
  induction ts with
  | nil => intro flags h; obtain ⟨t, ht, _⟩ := h; cases ht
  | cons t ts ih =>
    intro flags h
    cases hv : flag_value v t with
    | none => simp [flags_of_tokens, hv]
    | some val =>
      simp only [flags_of_tokens, hv]
      apply ih
      obtain ⟨t1, ht1, hn⟩ := h
      rcases List.mem_cons.mp ht1 with h1 | h1
      · rw [h1, hv] at hn; cases hn
      · exact ⟨t1, h1, hn⟩

theorem parse_sec_flags_tokens (v : sf_values) (sac : sec_action) (s : Bytes) :
    parse_sec_flags v sac s =
      match flags_of_tokens v (tokens (cstr s)) sac.flags with
      | .error f => .error f
      | .ok flags => .ok { sac with flags := flags } := by
  unfold parse_sec_flags
  rw [parse_sec_flags_loop_tokens v _ (cstr s) sac.flags (Nat.lt_succ_self _)
    (Elfcopy.cstr_no_nul s)]

/-- C26: the names of the table are the ten flag names; a token has a value
exactly when it equals one of them ignoring letter case; when every token of
the string has a value, `parse_sec_flags` returns with the previous flags
OR'ed with the values of all the tokens; when some token has none, the run is
aborted with the usage error, whatever tokens stand behind it; and the rename
option `.foo=.bar,readonly,code` gives the action of `.foo` the new name
`.bar` and the flags READONLY and CODE. -/
theorem C26_parse_sec_flags (v : sf_values) (sac : sec_action) (s : Bytes) :
    (sec_flags v).map (fun e => e.1) =
      [lit "alloc", lit "load", lit "noload", lit "readonly", lit "debug", lit "code",
       lit "data", lit "rom", lit "share", lit "contents"] ∧
    (∀ t : Bytes, (flag_value v t).isSome = true ↔ ∃ e ∈ sec_flags v, eq_nocase e.1 t) ∧
    ((∀ t ∈ tokens (cstr s), (flag_value v t).isSome = true) →
      parse_sec_flags v sac s =
        .ok { sac with flags := or_values v (tokens (cstr s)) sac.flags }) ∧
    ((∃ t ∈ tokens (cstr s), flag_value v t = none) →
      parse_sec_flags v sac s = .error Fault.EX_USAGE) ∧
    rename_section v (fun _ => sac) (lit ".foo=.bar,readonly,code") =
      .ok { sac with rename := 1, newname := some (lit ".bar"),
                     flags := sac.flags ||| v.SF_READONLY ||| v.SF_CODE } := by
  refine ⟨rfl, ?_, ?_, ?_, ?_⟩
  · intro t
    unfold flag_value
    cases hf : (sec_flags v).find? (fun e => decide (eq_nocase e.1 t)) with
    | none =>
      simp only [Option.map_none', Option.isSome_none, Bool.false_eq_true, false_iff]
      rintro ⟨e, he, heq⟩
      have := List.find?_eq_none.mp hf e he
      simp [heq] at this
    | some e =>
      simp only [Option.map_some', Option.isSome_some, true_iff]
      exact ⟨e, List.mem_of_find?_eq_some hf, by simpa using List.find?_some hf⟩
  · intro h
    rw [parse_sec_flags_tokens, flags_of_tokens_known v _ sac.flags h]
  · intro h
    rw [parse_sec_flags_tokens, flags_of_tokens_unknown v _ sac.flags h]
  · rfl

theorem C26_parse_sec_flags_witness :
    parse_sec_flags ex_sf (ex_lookup_sec_act (lit ".foo")) (lit "ReadOnly,,code") =
        .ok { ex_lookup_sec_act (lit ".foo") with flags := 0x28 } ∧
    parse_sec_flags ex_sf (ex_lookup_sec_act (lit ".foo")) (lit "code,bogus,alloc") =
        .error Fault.EX_USAGE :=
  ⟨(C26_parse_sec_flags ex_sf (ex_lookup_sec_act (lit ".foo")) (lit "ReadOnly,,code")).2.2.1
      (by decide),
   (C26_parse_sec_flags ex_sf (ex_lookup_sec_act (lit ".foo")) (lit "code,bogus,alloc")).2.2.2.1
      (by decide)⟩

/-! ## `parse_symlist_file` -/

theorem getD_at (pre rest : Bytes) (c : Nat) : (pre ++ c :: rest).getD pre.length 0 = c := by
  rw [List.getD_eq_getElem?_getD, List.getElem?_append_right (Nat.le_refl _), Nat.sub_self,
    List.getElem?_cons_zero]
  rfl

theorem set_at (pre rest : Bytes) (c y : Nat) :
    (pre ++ c :: rest).set pre.length y = pre ++ y :: rest := by
  induction pre with
  | nil => rfl
  | cons a pre ih => simp [ih]

/-- The trailing blanks of a line: the line is what `rdropWhile` keeps,
followed by blanks. -/
theorem rdropWhile_split (l : Bytes) :
    ∃ blanks, l = l.rdropWhile is_blank ++ blanks ∧ ∀ x ∈ blanks, is_blank x = true := by
  induction l using List.reverseRecOn with
  | nil => exact ⟨[], by simp, by simp⟩
  | append_singleton init x ih =>
    obtain ⟨blanks, h1, h2⟩ := ih
    by_cases hx : is_blank x = true
    · refine ⟨blanks ++ [x], ?_, ?_⟩
      · rw [List.rdropWhile_concat_pos _ _ _ hx, ← List.append_assoc, ← h1]
      · intro y hy
        rcases List.mem_append.mp hy with h | h
        · exact h2 y h
        · simp only [List.mem_singleton] at h
          rw [h]; exact hx
    · exact ⟨[], by rw [List.rdropWhile_concat_neg _ _ _ hx]; simp, by simp⟩

/-- The loop that removes trailing blanks: behind a prefix `X` that reaches
past `line` and ends with a byte that is no blank, the blanks become NUL. -/
theorem trim_loop_blanks (line : Nat) (X : Bytes) (hX : X ≠ [])
    (hlast : is_blank (X.getLast hX) = false) (hline : line < X.length) :
    ∀ (blanks tail : Bytes), (∀ x ∈ blanks, is_blank x = true) →
      trim_loop line ((X ++ blanks).length - 1) (X ++ blanks ++ tail) =
        .ok (X ++ List.replicate blanks.length 0 ++ tail) := by
  intro blanks
  induction blanks using List.reverseRecOn with
  | nil =>
    intro tail _
    obtain ⟨Y, y, hY⟩ : ∃ Y y, X = Y ++ [y] := by
      rcases List.eq_nil_or_concat X with h | ⟨Y, y, h⟩
      · exact absurd h hX
      · exact ⟨Y, y, by rw [h, List.concat_eq_append]⟩
    subst hY
    have hy : is_blank y = false := by simpa using hlast
    have hd : (Y ++ [y] ++ [] ++ tail).getD Y.length 0 = y := by
      have := getD_at Y tail y
      simpa using this
    simp only [List.append_nil, List.length_append, List.length_singleton, Nat.add_sub_cancel,
      List.length_nil, List.replicate_zero]
    simp only [List.append_nil] at hd
    cases hl : Y.length with
    | zero =>
      rw [hl] at hd
      simp only [trim_loop, hd, hy, Bool.false_eq_true, and_false, if_false]
    | succ k =>
      rw [hl] at hd
      simp only [trim_loop, hd, hy, Bool.false_eq_true, and_false, if_false]
  | append_singleton bs w ih =>
    intro tail hb
    have hw : is_blank w = true := hb w (by simp)
    have hbs : ∀ x ∈ bs, is_blank x = true := fun x hx => hb x (by simp [hx])
    have hlen : (X ++ (bs ++ [w])).length - 1 = (X ++ bs).length := by simp
    have hpos : 0 < X.length := List.length_pos.mpr hX
    obtain ⟨e, he⟩ : ∃ e, (X ++ bs).length = e + 1 := ⟨(X ++ bs).length - 1, by simp; omega⟩
    have hd : (X ++ (bs ++ [w]) ++ tail).getD (X ++ bs).length 0 = w := by
      have := getD_at (X ++ bs) tail w
      simpa using this
    have hs : (X ++ (bs ++ [w]) ++ tail).set (X ++ bs).length 0 = X ++ bs ++ 0 :: tail := by
      have := set_at (X ++ bs) tail w 0
      simp only [List.append_assoc, List.singleton_append] at this ⊢
      exact this
    have hne : e + 1 ≠ line := by
      simp only [List.length_append] at he
      omega
    rw [hlen, he, trim_loop, ← he, hd, hs, if_pos ⟨by rw [he]; exact hne, hw⟩]
    have he2 : e = (X ++ bs).length - 1 := by omega
    rw [he2, ih (0 :: tail) hbs]
    simp [List.replicate_succ']

theorem eol_not_blank (c : Nat) (h : is_eol c = true) : is_blank c = false := by
  simp only [is_eol, Bool.or_eq_true, beq_iff_eq] at h
  rcases h with (h | h) | h <;> (subst h; rfl)

/-- The loop over leading blanks: nothing changes. -/
theorem loop_blanks {L : Type} (add : L → Bytes → Nat → L) (op : Nat) :
    ∀ (ws pre tail data : Bytes) (p : Nat) (list : L) (n : Nat),
      data = pre ++ ws ++ tail → p = pre.length → (∀ x ∈ ws, is_blank x = true) →
      symlist_loop add op (ws.length + n) p { data := data, line := none, list := list } =
        symlist_loop add op n (p + ws.length) { data := data, line := none, list := list } := by
  intro ws
  induction ws with
  | nil => intro pre tail data p list n _ _ _; simp
  | cons w ws ih =>
    intro pre tail data p list n hdata hp hb
    have hw : is_blank w = true := hb w (List.mem_cons_self _ _)
    have hd : data.getD p 0 = w := by
      rw [hdata, hp, List.append_assoc]
      exact getD_at pre (ws ++ tail) w
    have hlen : (w :: ws).length + n = (ws.length + n) + 1 := by
      simp only [List.length_cons]; omega
    have hstep : symlist_step add op p { data := data, line := none, list := list } =
        .ok { data := data, line := none, list := list } := by
      unfold symlist_step
      simp only [hd, hw, and_self, if_true]
    rw [hlen, symlist_loop, hstep]
    have e : p + (w :: ws).length = p + 1 + ws.length := by
      simp only [List.length_cons]; omega
    rw [e]
    exact ih (pre ++ [w]) tail data (p + 1) list n (by rw [hdata]; simp) (by rw [hp]; simp)
      (fun x hx => hb x (List.mem_cons_of_mem _ hx))

/-- The loop inside a line: nothing changes up to the terminator. -/
theorem loop_inside {L : Type} (add : L → Bytes → Nat → L) (op : Nat) (l : Nat) :
    ∀ (body pre tail data : Bytes) (p : Nat) (list : L) (n : Nat),
      data = pre ++ body ++ tail → p = pre.length → (∀ x ∈ body, is_eol x = false) →
      symlist_loop add op (body.length + n) p { data := data, line := some l, list := list } =
        symlist_loop add op n (p + body.length)
          { data := data, line := some l, list := list } := by
  intro body
  induction body with
  | nil => intro pre tail data p list n _ _ _; simp
  | cons w ws ih =>
    intro pre tail data p list n hdata hp hb
    have hw : is_eol w = false := hb w (List.mem_cons_self _ _)
    have hd : data.getD p 0 = w := by
      rw [hdata, hp, List.append_assoc]
      exact getD_at pre (ws ++ tail) w
    have hlen : (w :: ws).length + n = (ws.length + n) + 1 := by
      simp only [List.length_cons]; omega
    have hstep : symlist_step add op p { data := data, line := some l, list := list } =
        .ok { data := data, line := some l, list := list } := by
      unfold symlist_step
      simp only [hd, hw, Bool.false_eq_true, if_false]
      simp
    rw [hlen, symlist_loop, hstep]
    have e : p + (w :: ws).length = p + 1 + ws.length := by
      simp only [List.length_cons]; omega
    rw [e]
    exact ih (pre ++ [w]) tail data (p + 1) list n (by rw [hdata]; simp) (by rw [hp]; simp)
      (fun x hx => hb x (List.mem_cons_of_mem _ hx))

theorem flat_replicate (k : Nat) : flat (List.replicate k (([] : Bytes), 0)) = List.replicate k 0 := by
  induction k with
  | zero => rfl
  | succ k ih => simp [List.replicate_succ, flat, ih]

theorem replicate_zero_cons (k : Nat) (rest : Bytes) :
    List.replicate k 0 ++ 0 :: rest = 0 :: (List.replicate k 0 ++ rest) := by
  induction k with
  | zero => rfl
  | succ k ih => simp [List.replicate_succ, ih]

/-- What `trim` keeps of a line that starts with a byte that is no blank. -/
theorem trim_cons (ws core : Bytes) (x : Nat) (hws : ∀ y ∈ ws, is_blank y = true)
    (hx : is_blank x = false) :
    ∃ kept blanks, trim (ws ++ x :: core) = x :: kept ∧ x :: core = x :: kept ++ blanks ∧
      (∀ y ∈ blanks, is_blank y = true) ∧
      ∀ h : x :: kept ≠ [], is_blank ((x :: kept).getLast h) = false := by
  have hdrop : (ws ++ x :: core).dropWhile is_blank = x :: core := by
    induction ws with
    | nil => simp [List.dropWhile_cons, hx]
    | cons w ws ih =>
      have hw := hws w (List.mem_cons_self _ _)
      simp only [List.cons_append, List.dropWhile_cons, hw, if_true]
      exact ih (fun y hy => hws y (List.mem_cons_of_mem _ hy))
  obtain ⟨blanks, h1, h2⟩ := rdropWhile_split (x :: core)
  have hne : (x :: core).rdropWhile is_blank ≠ [] := by
    intro h
    have := List.rdropWhile_eq_nil_iff.mp h x (List.mem_cons_self _ _)
    rw [hx] at this
    cases this
  cases hk : (x :: core).rdropWhile is_blank with
  | nil => exact absurd hk hne
  | cons y kept =>
    rw [hk] at h1
    have hy : y = x := by
      simp only [List.cons_append, List.cons.injEq] at h1
      exact h1.1.symm
    subst hy
    refine ⟨kept, blanks, ?_, h1, h2, ?_⟩
    · unfold trim
      rw [hdrop, hk]
    · intro h
      have := List.rdropWhile_last_not is_blank (y :: core) hne
      simp only [hk] at this
      simpa using this

theorem name_of_blank (ws : Bytes) (hws : ∀ y ∈ ws, is_blank y = true) : name_of ws = none := by
  have hd : ws.dropWhile is_blank = [] := by
    rw [List.dropWhile_eq_nil_iff]
    exact hws
  simp [name_of, trim, hd]

/-- The round at a terminator when no line has begun. -/
theorem step_eol_none {L : Type} (add : L → Bytes → Nat → L) (op : Nat) (pre rest : Bytes)
    (t : Nat) (ht : is_eol t = true) (list : L) :
    symlist_step add op pre.length { data := pre ++ t :: rest, line := none, list := list } =
      .ok { data := pre ++ 0 :: rest, line := none, list := list } := by
  unfold symlist_step
  simp only [getD_at, eol_not_blank t ht, ht, set_at, Bool.false_eq_true, false_and, if_false,
    if_true]

/-- The round at the first byte of a line. -/
theorem step_start {L : Type} (add : L → Bytes → Nat → L) (op : Nat) (pre rest : Bytes)
    (x : Nat) (hx : is_blank x = false) (he : is_eol x = false) (list : L) :
    symlist_step add op pre.length { data := pre ++ x :: rest, line := none, list := list } =
      .ok { data := pre ++ x :: rest, line := some pre.length, list := list } := by
  unfold symlist_step
  simp only [getD_at, hx, he, Bool.false_eq_true, false_and, if_false, if_true]

/-- The round at the terminator of a comment line. -/
theorem step_eol_comment {L : Type} (add : L → Bytes → Nat → L) (op : Nat)
    (pre core rest : Bytes) (t : Nat) (ht : is_eol t = true) (list : L)
    (data : Bytes) (p l : Nat) (hdata : data = pre ++ 35 :: core ++ t :: rest)
    (hp : p = (pre ++ 35 :: core).length) (hline : l = pre.length) :
    symlist_step add op p { data := data, line := some l, list := list } =
      .ok { data := pre ++ 35 :: core ++ 0 :: rest, line := none, list := list } := by
  subst hdata hp hline
  have hd : (pre ++ 35 :: core ++ t :: rest).getD (pre ++ 35 :: core).length 0 = t :=
    getD_at (pre ++ 35 :: core) rest t
  have hs : (pre ++ 35 :: core ++ t :: rest).set (pre ++ 35 :: core).length 0 =
      pre ++ 35 :: core ++ 0 :: rest := set_at (pre ++ 35 :: core) rest t 0
  have hl : (pre ++ 35 :: core ++ 0 :: rest).getD pre.length 0 = 35 := by
    have := getD_at pre (core ++ 0 :: rest) 35
    simpa using this
  unfold symlist_step
  simp only [hd, hs, hl, eol_not_blank t ht, ht, Bool.false_eq_true, false_and, if_false,
    if_true]

/-- The round at the terminator of a line that gives a name. -/
theorem step_eol_name {L : Type} (add : L → Bytes → Nat → L) (op : Nat)
    (pre kept blanks rest : Bytes) (x t : Nat) (ht : is_eol t = true) (hx : x ≠ 35)
    (hkept : ∀ y ∈ x :: kept, is_eol y = false)
    (hlast : ∀ h : x :: kept ≠ [], is_blank ((x :: kept).getLast h) = false)
    (hblanks : ∀ y ∈ blanks, is_blank y = true) (list : L)
    (data : Bytes) (p l : Nat) (hdata : data = pre ++ x :: kept ++ blanks ++ t :: rest)
    (hp : p = (pre ++ x :: kept ++ blanks).length) (hline : l = pre.length) :
    symlist_step add op p { data := data, line := some l, list := list } =
      .ok { data := pre ++ x :: kept ++ 0 :: List.replicate blanks.length 0 ++ rest,
            line := none, list := add list (x :: kept) op } := by
  subst hdata hp hline
  have hd : (pre ++ x :: kept ++ blanks ++ t :: rest).getD (pre ++ x :: kept ++ blanks).length 0
      = t := getD_at (pre ++ x :: kept ++ blanks) rest t
  have hs : (pre ++ x :: kept ++ blanks ++ t :: rest).set (pre ++ x :: kept ++ blanks).length 0 =
      pre ++ x :: kept ++ blanks ++ 0 :: rest := set_at (pre ++ x :: kept ++ blanks) rest t 0
  have hl : (pre ++ x :: kept ++ blanks ++ 0 :: rest).getD pre.length 0 = x := by
    have := getD_at pre (kept ++ blanks ++ 0 :: rest) x
    simpa using this
  have hX : pre ++ x :: kept ≠ [] := by simp
  have hXlast : is_blank ((pre ++ x :: kept).getLast hX) = false := by
    rw [List.getLast_append_of_ne_nil (by simp)]
    exact hlast (by simp)
  have htrim := trim_loop_blanks pre.length (pre ++ x :: kept) hX hXlast (by simp) blanks
    (0 :: rest) hblanks
  have h0 : (0 : Nat) ∉ x :: kept := by
    intro h
    have := hkept 0 h
    simp [is_eol] at this
  have hname : cstr (List.drop pre.length
      (pre ++ x :: kept ++ List.replicate blanks.length 0 ++ 0 :: rest)) = x :: kept := by
    have e : pre ++ x :: kept ++ List.replicate blanks.length 0 ++ 0 :: rest =
        pre ++ ((x :: kept) ++ [0] ++ (List.replicate blanks.length 0 ++ rest)) := by
      simp only [List.append_assoc, replicate_zero_cons]
      simp
    rw [e, List.drop_left]
    exact Elfcopy.cstr_entry (x :: kept) _ h0
  unfold symlist_step
  simp only [hd, hs, hl, hx, eol_not_blank t ht, ht, Bool.false_eq_true, false_and, if_false,
    if_true, Nat.add_sub_cancel]
  rw [htrim]
  simp only [hname]
  congr 2
  simp only [List.append_assoc, replicate_zero_cons]
  simp

/-- The loop over one line and its terminator: the buffer holds the chunks
that `rechunk` gives, no line is open, and the name of the line is added. -/
theorem loop_chunk {L : Type} (add : L → Bytes → Nat → L) (op : Nat) (b : Bytes) (t : Nat)
    (hb : ∀ x ∈ b, is_eol x = false) (ht : is_eol t = true) (pre rest : Bytes) (list : L)
    (n : Nat) :
    symlist_loop add op (b.length + 1 + n) pre.length
        { data := pre ++ b ++ t :: rest, line := none, list := list } =
      symlist_loop add op n (pre.length + b.length + 1)
        { data := pre ++ flat (rechunk b) ++ rest, line := none,
          list := add_names add op list (name_of b).toList } := by
  rcases dropWhile_cases is_blank b with ⟨hd, htake⟩ | ⟨x, core, hd, hx, hsplit⟩
  · -- the line holds blanks only
    have hws : ∀ y ∈ b, is_blank y = true := by
      intro y hy
      rw [← htake] at hy
      exact List.mem_takeWhile_imp hy
    have hA := loop_blanks add op b pre (t :: rest) (pre ++ b ++ t :: rest) pre.length list
      (1 + n) rfl rfl hws
    have hname := name_of_blank b hws
    rw [Nat.add_assoc, hA, Nat.add_comm 1 n, symlist_loop]
    have hstep := step_eol_none add op (pre ++ b) rest t ht list
    simp only [List.length_append] at hstep
    rw [hstep]
    simp only [rechunk, hname, flat, Option.toList_none, add_names, List.foldl_nil,
      List.append_assoc, List.cons_append, List.nil_append]
  · -- the line has a first byte that is no blank
    have hws : ∀ y ∈ b.takeWhile is_blank, is_blank y = true :=
      fun y hy => List.mem_takeWhile_imp hy
    generalize b.takeWhile is_blank = ws at hws hsplit
    subst hsplit
    have hxe : is_eol x = false := hb x (by simp)
    have hcore : ∀ y ∈ core, is_eol y = false := fun y hy => hb y (by simp [hy])
    obtain ⟨kept, blanks, htrim, hkb, hblanks, hlast⟩ := trim_cons ws core x hws hx
    have hcore2 : core = kept ++ blanks := by
      simp only [List.cons_append, List.cons.injEq, true_and] at hkb
      exact hkb
    subst hcore2
    have hA := loop_blanks add op ws pre (x :: (kept ++ blanks) ++ t :: rest)
      (pre ++ (ws ++ x :: (kept ++ blanks)) ++ t :: rest) pre.length list
      ((kept ++ blanks).length + 1 + 1 + n) (by simp) rfl hws
    have hlen : (ws ++ x :: (kept ++ blanks)).length + 1 + n =
        ws.length + ((kept ++ blanks).length + 1 + 1 + n) := by
      simp only [List.length_append, List.length_cons]; omega
    rw [hlen, hA]
    have hlen2 : (kept ++ blanks).length + 1 + 1 + n = ((kept ++ blanks).length + (1 + n)) + 1 := by
      omega
    rw [hlen2, symlist_loop]
    have hstart := step_start add op (pre ++ ws) ((kept ++ blanks) ++ t :: rest) x hx hxe list
    have hdata1 : pre ++ (ws ++ x :: (kept ++ blanks)) ++ t :: rest =
        pre ++ ws ++ x :: (kept ++ blanks ++ t :: rest) := by simp
    rw [hdata1]
    simp only [List.length_append] at hstart
    rw [hstart]
    have hB := loop_inside add op (pre.length + ws.length) (kept ++ blanks) (pre ++ ws ++ [x])
      (t :: rest) (pre ++ ws ++ x :: (kept ++ blanks ++ t :: rest)) (pre.length + ws.length + 1)
      list (1 + n) (by simp) (by simp only [List.length_append, List.length_singleton]) hcore
    dsimp only
    rw [hB, Nat.add_comm 1 n, symlist_loop]
    by_cases h35 : x = 35
    · subst h35
      have hstep := step_eol_comment add op (pre ++ ws) (kept ++ blanks) rest t ht list
        (pre ++ ws ++ 35 :: (kept ++ blanks ++ t :: rest))
        (pre.length + ws.length + 1 + (kept ++ blanks).length) (pre.length + ws.length)
        (by simp) (by simp only [List.length_append, List.length_cons]; omega)
        (by simp only [List.length_append])
      rw [hstep]
      have hname : name_of (ws ++ 35 :: (kept ++ blanks)) = none := by
        simp [name_of, htrim]
      simp only [rechunk, hname, flat, Option.toList_none, add_names, List.foldl_nil]
      congr 2
      · simp only [List.length_append, List.length_cons]; omega
      · simp
    · have hkeol : ∀ y ∈ x :: kept, is_eol y = false := by
        intro y hy
        rcases List.mem_cons.mp hy with h | h
        · rw [h]; exact hxe
        · exact hcore y (by simp [h])
      have hstep := step_eol_name add op (pre ++ ws) kept blanks rest x t ht h35 hkeol hlast
        hblanks list (pre ++ ws ++ x :: (kept ++ blanks ++ t :: rest))
        (pre.length + ws.length + 1 + (kept ++ blanks).length) (pre.length + ws.length)
        (by simp) (by simp only [List.length_append, List.length_cons]; omega)
        (by simp only [List.length_append])
      rw [hstep]
      have hname : name_of (ws ++ x :: (kept ++ blanks)) = some (x :: kept) := by
        simp [name_of, htrim, h35]
      have htk : (ws ++ x :: (kept ++ blanks)).takeWhile is_blank = ws := by
        clear hA hlen hstart hdata1 hB hstep hname htrim hb hd
        induction ws with
        | nil => simp [List.takeWhile_cons, hx]
        | cons w ws ih =>
          have hw := hws w (List.mem_cons_self _ _)
          simp only [List.cons_append, List.takeWhile_cons, hw, if_true, List.cons.injEq,
            true_and]
          exact ih (fun y hy => hws y (List.mem_cons_of_mem _ hy))
      have hdk : ((ws ++ x :: (kept ++ blanks)).dropWhile is_blank).length - (x :: kept).length
          = blanks.length := by
        rw [hd]
        simp only [List.length_cons, List.length_append]
        omega
      simp only [rechunk, hname, flat, htk, hdk, flat_replicate, Option.toList_some, add_names,
        List.foldl_cons, List.foldl_nil]
      congr 2
      · simp only [List.length_append, List.length_cons]; omega
      · simp

theorem flat_append (a b : List (Bytes × Nat)) : flat (a ++ b) = flat a ++ flat b := by
  induction a with
  | nil => rfl
  | cons c rest ih => simp [flat, ih]

theorem flat_rechunk_length (b : Bytes) : (flat (rechunk b)).length = b.length + 1 := by
  unfold rechunk
  cases hn : name_of b with
  | none => simp [flat]
  | some nm =>
    have hnm : nm = trim b := by
      unfold name_of at hn
      split_ifs at hn
      simp only [Option.some.injEq] at hn
      exact hn.symm
    have hle : nm.length ≤ (b.dropWhile is_blank).length := by
      rw [hnm]
      unfold trim
      exact (List.rdropWhile_prefix is_blank _).length_le
    have hb : b.length = (b.takeWhile is_blank).length + (b.dropWhile is_blank).length := by
      conv_lhs => rw [← List.takeWhile_append_dropWhile is_blank b]
      rw [List.length_append]
    simp only [flat, flat_replicate, List.length_append, List.length_cons, List.length_replicate]
    omega

theorem add_names_append {L : Type} (add : L → Bytes → Nat → L) (op : Nat) (list : L)
    (a b : List Bytes) :
    add_names add op (add_names add op list a) b = add_names add op list (a ++ b) := by
  simp [add_names, List.foldl_append]

theorem names_of_cons (c : Bytes × Nat) (rest : List (Bytes × Nat)) :
    names_of (c :: rest) = (name_of c.1).toList ++ names_of rest := by
  rw [names_of]
  cases name_of c.1 <;> simp

/-- The loop over a buffer made of chunks: every chunk becomes the chunks that
`rechunk` gives and the names of the lines are added in order. -/
theorem loop_chunks {L : Type} (add : L → Bytes → Nat → L) (op : Nat) :
    ∀ (cs : List (Bytes × Nat)) (pre rest : Bytes) (list : L) (n : Nat), chunks_ok cs →
      symlist_loop add op ((flat cs).length + n) pre.length
          { data := pre ++ flat cs ++ rest, line := none, list := list } =
        symlist_loop add op n (pre.length + (flat cs).length)
          { data := pre ++ flat (rechunks cs) ++ rest, line := none,
            list := add_names add op list (names_of cs) } := by
  intro cs
  induction cs with
  | nil => intro pre rest list n _; simp [flat, rechunks, names_of, add_names]
  | cons c cs ih =>
    intro pre rest list n hok
    obtain ⟨hb, ht⟩ := hok c (List.mem_cons_self _ _)
    have hok1 : chunks_ok cs := fun x hx => hok x (List.mem_cons_of_mem _ hx)
    have h1 := loop_chunk add op c.1 c.2 hb ht pre (flat cs ++ rest) list ((flat cs).length + n)
    have hlen : (flat (c :: cs)).length + n = c.1.length + 1 + ((flat cs).length + n) := by
      simp only [flat, List.length_append, List.length_cons]; omega
    have hdata : pre ++ flat (c :: cs) ++ rest = pre ++ c.1 ++ c.2 :: (flat cs ++ rest) := by
      simp [flat]
    rw [hlen, hdata, h1]
    have h2 := ih (pre ++ flat (rechunk c.1)) rest
      (add_names add op list (name_of c.1).toList) n hok1
    have hp : (pre ++ flat (rechunk c.1)).length = pre.length + c.1.length + 1 := by
      rw [List.length_append, flat_rechunk_length]; omega
    rw [hp] at h2
    have hdata2 : pre ++ flat (rechunk c.1) ++ (flat cs ++ rest) =
        pre ++ flat (rechunk c.1) ++ flat cs ++ rest := by simp
    rw [hdata2, h2, add_names_append, ← names_of_cons]
    have e1 : pre.length + c.1.length + 1 + (flat cs).length
        = pre.length + (flat (c :: cs)).length := by
      simp only [flat, List.length_append, List.length_cons]; omega
    have e2 : pre ++ flat (rechunk c.1) ++ flat (rechunks cs) ++ rest
        = pre ++ flat (rechunks (c :: cs)) ++ rest := by
      simp only [rechunks, flat_append, List.append_assoc]
    rw [e1, e2]

theorem dropWhile_blanks (ws rest : Bytes) (x : Nat) (hws : ∀ y ∈ ws, is_blank y = true)
    (hx : is_blank x = false) :
    (ws ++ x :: rest).dropWhile is_blank = x :: rest ∧
      (ws ++ x :: rest).takeWhile is_blank = ws := by
  induction ws with
  | nil => simp [List.dropWhile_cons, List.takeWhile_cons, hx]
  | cons w ws ih =>
    have hw := hws w (List.mem_cons_self _ _)
    have := ih (fun y hy => hws y (List.mem_cons_of_mem _ hy))
    simp [List.dropWhile_cons, List.takeWhile_cons, hw, this]

theorem trim_fixed (ws kept : Bytes) (x : Nat) (hws : ∀ y ∈ ws, is_blank y = true)
    (hx : is_blank x = false)
    (hlast : ∀ h : x :: kept ≠ [], is_blank ((x :: kept).getLast h) = false) :
    trim (ws ++ x :: kept) = x :: kept := by
  unfold trim
  rw [(dropWhile_blanks ws kept x hws hx).1, List.rdropWhile_eq_self_iff]
  intro hl
  rw [hlast hl]
  simp

theorem name_of_nil : name_of [] = none := by
  simp [name_of, trim]

/-- The chunks that the loop leaves of a line: the line as it is when it
gives no name, else its leading blanks and its name, followed by empty
lines. -/
theorem rechunk_cases (b : Bytes) :
    (name_of b = none ∧ rechunk b = [(b, 0)]) ∨
    ∃ (ws kept : Bytes) (x k : Nat),
      name_of b = some (x :: kept) ∧
      rechunk b = (ws ++ x :: kept, 0) :: List.replicate k ([], 0) ∧
      (∀ y ∈ ws, is_blank y = true) ∧ is_blank x = false ∧ x ≠ 35 ∧
      (∀ h : x :: kept ≠ [], is_blank ((x :: kept).getLast h) = false) ∧
      ∀ y ∈ ws ++ x :: kept, y ∈ b := by
  cases hn : name_of b with
  | none => left; exact ⟨rfl, by simp [rechunk, hn]⟩
  | some nm =>
    right
    have hnm : trim b = nm ∧ trim b ≠ [] ∧ (trim b).head? ≠ some 35 := by
      unfold name_of at hn
      split_ifs at hn with h
      simp only [Option.some.injEq] at hn
      exact ⟨hn, h.1, h.2⟩
    rcases dropWhile_cases is_blank b with ⟨hd, _⟩ | ⟨x, core, hd, hx, hsplit⟩
    · exfalso
      apply hnm.2.1
      simp [trim, hd]
    · have hws : ∀ y ∈ b.takeWhile is_blank, is_blank y = true :=
        fun y hy => List.mem_takeWhile_imp hy
      obtain ⟨kept, blanks, htrim, hkb, _, hlast⟩ :=
        trim_cons (b.takeWhile is_blank) core x hws hx
      rw [← hsplit] at htrim
      have hnm2 : nm = x :: kept := by rw [← hnm.1, htrim]
      have h35 : x ≠ 35 := by
        intro h
        apply hnm.2.2
        rw [htrim, h]
        rfl
      refine ⟨b.takeWhile is_blank, kept, x,
        (b.dropWhile is_blank).length - (x :: kept).length, by rw [hnm2], ?_, hws, hx, h35,
        hlast, ?_⟩
      · simp [rechunk, hn, hnm2]
      · intro y hy
        rw [hsplit]
        rcases List.mem_append.mp hy with h | h
        · exact List.mem_append_left _ h
        · apply List.mem_append_right
          rw [hkb]
          exact List.mem_append_left _ h

theorem chunks_ok_replicate (k : Nat) : chunks_ok (List.replicate k (([] : Bytes), 0)) := by
  intro c hc
  rw [List.eq_of_mem_replicate hc]
  exact ⟨by simp, rfl⟩

theorem rechunk_ok (b : Bytes) (hb : ∀ x ∈ b, is_eol x = false) : chunks_ok (rechunk b) := by
  rcases rechunk_cases b with ⟨_, h⟩ | ⟨ws, kept, x, k, _, h, _, _, _, _, hsub⟩
  · rw [h]
    intro c hc
    simp only [List.mem_singleton] at hc
    rw [hc]
    exact ⟨hb, rfl⟩
  · rw [h]
    intro c hc
    rcases List.mem_cons.mp hc with h1 | h1
    · rw [h1]
      exact ⟨fun y hy => hb y (hsub y hy), rfl⟩
    · exact chunks_ok_replicate k c h1

theorem rechunks_replicate (k : Nat) :
    rechunks (List.replicate k (([] : Bytes), 0)) = List.replicate k ([], 0) ∧
    names_of (List.replicate k (([] : Bytes), 0)) = [] := by
  induction k with
  | zero => exact ⟨rfl, rfl⟩
  | succ k ih =>
    simp only [List.replicate_succ, rechunks, names_of, name_of_nil, ih.1, ih.2, and_true]
    simp [rechunk, name_of_nil]

theorem rechunk_again (b : Bytes) :
    rechunks (rechunk b) = rechunk b ∧ names_of (rechunk b) = (name_of b).toList := by
  rcases rechunk_cases b with ⟨hn, h⟩ | ⟨ws, kept, x, k, hn, h, hws, hx, h35, hlast, _⟩
  · rw [h]
    simp [rechunks, names_of, hn, rechunk]
  · have htrim := trim_fixed ws kept x hws hx hlast
    have hname : name_of (ws ++ x :: kept) = some (x :: kept) := by
      simp [name_of, htrim, h35]
    have hre : rechunk (ws ++ x :: kept) = [(ws ++ x :: kept, 0)] := by
      simp [rechunk, hname, (dropWhile_blanks ws kept x hws hx).1,
        (dropWhile_blanks ws kept x hws hx).2]
    rw [h]
    simp [rechunks, names_of, hname, hre, (rechunks_replicate k).1, (rechunks_replicate k).2, hn]

theorem rechunks_append (a b : List (Bytes × Nat)) :
    rechunks (a ++ b) = rechunks a ++ rechunks b ∧
    names_of (a ++ b) = names_of a ++ names_of b := by
  induction a with
  | nil => exact ⟨rfl, rfl⟩
  | cons c rest ih =>
    refine ⟨by simp [rechunks, ih.1], ?_⟩
    rw [List.cons_append, names_of_cons, names_of_cons, ih.2, List.append_assoc]

/-- The chunks that the loop leaves are chunks again, the loop leaves them as
they are, and they give the same names. -/
theorem rechunks_again (cs : List (Bytes × Nat)) (hok : chunks_ok cs) :
    chunks_ok (rechunks cs) ∧ rechunks (rechunks cs) = rechunks cs ∧
      names_of (rechunks cs) = names_of cs := by
  induction cs with
  | nil =>
    refine ⟨?_, rfl, rfl⟩
    intro c hc
    cases hc
  | cons c rest ih =>
    obtain ⟨hb, _⟩ := hok c (List.mem_cons_self _ _)
    obtain ⟨a1, a2, a3⟩ := ih (fun x hx => hok x (List.mem_cons_of_mem _ hx))
    obtain ⟨b1, b2⟩ := rechunk_again c.1
    refine ⟨?_, ?_, ?_⟩
    · intro x hx
      rcases List.mem_append.mp hx with h | h
      · exact rechunk_ok c.1 hb x h
      · exact a1 x h
    · show rechunks (rechunk c.1 ++ rechunks rest) = rechunk c.1 ++ rechunks rest
      rw [(rechunks_append _ _).1, b1, a2]
    · show names_of (rechunk c.1 ++ rechunks rest) = names_of (c :: rest)
      rw [(rechunks_append _ _).2, b2, a3, names_of_cons]

/-- A file content with a NUL appended is a buffer of chunks whose lines are
the lines of the content. -/
theorem content_chunks (content : Bytes) :
    ∃ cs, chunks_ok cs ∧ content ++ [0] = flat cs ∧ lines content = cs.map Prod.fst := by
  induction content with
  | nil =>
    refine ⟨[([], 0)], ?_, rfl, ?_⟩
    · intro c hc
      simp only [List.mem_singleton] at hc
      rw [hc]
      exact ⟨by simp, rfl⟩
    · simp [lines, List.splitOnP_nil]
  | cons c rest ih =>
    obtain ⟨cs, hok, hflat, hlines⟩ := ih
    cases cs with
    | nil => simp [flat] at hflat
    | cons d more =>
      by_cases hc : is_eol c = true
      · refine ⟨([], c) :: d :: more, ?_, ?_, ?_⟩
        · intro x hx
          rcases List.mem_cons.mp hx with h | h
          · rw [h]; exact ⟨by simp, hc⟩
          · exact hok x h
        · simp only [List.cons_append, hflat, flat, List.nil_append]
        · simp only [lines, List.splitOnP_cons, hc, if_true, List.map_cons]
          unfold lines at hlines
          rw [hlines]
          rfl
      · have hc1 : is_eol c = false := by simpa using hc
        obtain ⟨hd1, hd2⟩ := hok d (List.mem_cons_self _ _)
        refine ⟨(c :: d.1, d.2) :: more, ?_, ?_, ?_⟩
        · intro x hx
          rcases List.mem_cons.mp hx with h | h
          · rw [h]
            refine ⟨?_, hd2⟩
            intro y hy
            rcases List.mem_cons.mp hy with h1 | h1
            · rw [h1]; exact hc1
            · exact hd1 y h1
          · exact hok x (List.mem_cons_of_mem _ h)
        · simp only [List.cons_append, hflat, flat]
        · simp only [lines, List.splitOnP_cons, hc1, Bool.false_eq_true, if_false, List.map_cons]
          unfold lines at hlines
          rw [hlines]
          rfl

theorem names_of_lines (cs : List (Bytes × Nat)) :
    names_of cs = (cs.map Prod.fst).filterMap name_of := by
  induction cs with
  | nil => rfl
  | cons c rest ih =>
    rw [names_of_cons, ih, List.map_cons, List.filterMap_cons]
    cases name_of c.1 <;> rfl

theorem flat_rechunks_length (cs : List (Bytes × Nat)) :
    (flat (rechunks cs)).length = (flat cs).length := by
  induction cs with
  | nil => rfl
  | cons c rest ih =>
    simp only [rechunks, flat_append, List.length_append, flat_rechunk_length, ih, flat,
      List.length_cons]
    omega

/-- The part behind `process_symfile` on a buffer made of chunks. -/
theorem process_symfile_chunks {L : Type} (add : L → Bytes → Nat → L) (list : L) (op : Nat)
    (sf : symfile) (cs : List (Bytes × Nat)) (hok : chunks_ok cs) (hdata : sf.data = flat cs)
    (hsize : sf.size = (flat cs).length) :
    process_symfile add list sf op =
      .ok ({ sf with data := flat (rechunks cs) }, add_names add op list (names_of cs)) := by
  have h := loop_chunks add op cs [] [] list 0 hok
  simp only [List.length_nil, Nat.add_zero, List.nil_append, List.append_nil, Nat.zero_add,
    symlist_loop] at h
  unfold process_symfile
  rw [hdata, hsize, h]

/-- C27, amended: for every symbol-list file content that is not empty and
every operation, `parse_symlist_file` returns with one rule added, in file
order, for each line (lines separated by CR, LF or NUL, the last line needing
no terminator) whose content without leading and trailing spaces and tabs is
not empty and does not begin with `#`, the name being that content; and
processing the buffer it leaves a second time adds rules with the same names
and leaves the buffer as it is. -/
theorem C27_parse_symlist_file {L : Type} (add : L → Bytes → Nat → L) (list list2 : L)
    (f : File) (op : Nat) (hne : f.content ≠ []) :
    ∃ data1,
      parse_symlist_file add [] list (some f) op =
        .ok ({ dev := f.st_dev, ino := f.st_ino, size := f.content.length + 1, data := data1 },
          add_names add op list (symlist_names f.content)) ∧
      parse_symlist_file add
          [{ dev := f.st_dev, ino := f.st_ino, size := f.content.length + 1, data := data1 }]
          list2 (some f) op =
        .ok ({ dev := f.st_dev, ino := f.st_ino, size := f.content.length + 1, data := data1 },
          add_names add op list2 (symlist_names f.content)) := by
  obtain ⟨cs, hok, hflat, hlines⟩ := content_chunks f.content
  have hnames : symlist_names f.content = names_of cs := by
    rw [names_of_lines, ← hlines]
    rfl
  have hlen : f.content.length + 1 = (flat cs).length := by
    rw [← hflat]; simp
  have hlen0 : f.content.length ≠ 0 := fun h => hne (List.length_eq_zero.mp h)
  obtain ⟨r1, r2, r3⟩ := rechunks_again cs hok
  refine ⟨flat (rechunks cs), ?_, ?_⟩
  · unfold parse_symlist_file
    simp only [List.find?_nil, hlen0, if_false]
    rw [process_symfile_chunks add list op _ cs hok hflat hlen, hnames]
  · unfold parse_symlist_file
    simp only [List.find?_cons, beq_self_eq_true, Bool.and_self]
    rw [process_symfile_chunks add list2 op _ (rechunks cs) r1 rfl
      (by rw [flat_rechunks_length]; exact hlen), hnames, r2, r3]

/-- C27, counterexample: for the empty file `fread` returns 0 and the run
ends with `err(EX_DATAERR, ...)`, where the claim has a return with no rule
added. -/
theorem C27_empty_file_aborts :
    parse_symlist_file ex_add [] [] (some { st_dev := 1, st_ino := 2, content := [] }) 7 =
      .error Fault.EX_DATAERR ∧
    symlist_names [] = [] :=
  ⟨rfl, rfl⟩

theorem C27_parse_symlist_file_witness :
    ex_symlist.content ≠ [] ∧
    parse_symlist_file ex_add [] [] (some ex_symlist) 7 =
      .ok (ex_symlist_sf, [(lit "foo", 7), (lit "bar", 7)]) ∧
    symlist_names ex_symlist.content = [lit "foo", lit "bar"] ∧
    ∃ data1,
      parse_symlist_file ex_add [] [] (some ex_symlist) 7 =
        .ok ({ dev := ex_symlist.st_dev, ino := ex_symlist.st_ino,
               size := ex_symlist.content.length + 1, data := data1 },
          add_names ex_add 7 [] (symlist_names ex_symlist.content)) ∧
      parse_symlist_file ex_add
          [{ dev := ex_symlist.st_dev, ino := ex_symlist.st_ino,
             size := ex_symlist.content.length + 1, data := data1 }]
          [] (some ex_symlist) 7 =
        .ok ({ dev := ex_symlist.st_dev, ino := ex_symlist.st_ino,
               size := ex_symlist.content.length + 1, data := data1 },
          add_names ex_add 7 [] (symlist_names ex_symlist.content)) :=
  ⟨by decide, rfl, by decide,
   C27_parse_symlist_file ex_add [] [] ex_symlist 7 (by decide)⟩

end ElfcopyMain

namespace VectorStr

open Elfcopy (Bytes cstr lit)

/-! ## The string vector as a list of strings -/

theorem holds_slot (v : vector_str) (l : List Bytes) (h : holds v l) (i : Nat)
    (hi : i < l.length) : v.container[i]? = some (some (l.get ⟨i, hi⟩)) := by
  obtain ⟨h1, _, _, h4⟩ := h
  have h5 : (v.container.take v.size)[i]? = (l.map some)[i]? := by rw [h4]
  rw [List.getElem?_take, if_pos (by omega), List.getElem?_map] at h5
  rw [h5, List.getElem?_eq_getElem hi]
  rfl

theorem elem_at_holds (v : vector_str) (l : List Bytes) (h : holds v l) (i : Nat)
    (hi : i < l.length) : elem_at v i = .ok (l.get ⟨i, hi⟩) := by
  unfold elem_at
  rw [holds_slot v l h i hi]

theorem strlen_loop_holds (v : vector_str) (l : List Bytes) (h : holds v l) :
    ∀ (n i len : Nat), i + n ≤ l.length →
      strlen_loop v n i len = .ok (len + ((l.drop i).take n).flatten.length) := by
  intro n
  induction n with
  | zero => intro i len _; simp [strlen_loop]
  | succ n ih =>
    intro i len hn
    have hi : i < l.length := by omega
    unfold strlen_loop
    rw [elem_at_holds v l h i hi]
    simp only
    rw [ih (i + 1) _ (by omega), List.drop_eq_getElem_cons hi]
    simp only [List.take_succ_cons, List.flatten_cons, List.length_append, List.get_eq_getElem]
    rw [Nat.add_assoc]

theorem memcpy_loop_holds (v : vector_str) (l : List Bytes) (h : holds v l) :
    ∀ (n i : Nat) (rtn : Bytes), i + n ≤ l.length →
      memcpy_loop v n i rtn = .ok (rtn ++ ((l.drop i).take n).flatten) := by
  intro n
  induction n with
  | zero => intro i rtn _; simp [memcpy_loop]
  | succ n ih =>
    intro i rtn hn
    have hi : i < l.length := by omega
    unfold memcpy_loop
    rw [elem_at_holds v l h i hi]
    simp only
    rw [ih (i + 1) _ (by omega), List.drop_eq_getElem_cons hi]
    simp only [List.take_succ_cons, List.flatten_cons, List.get_eq_getElem, List.append_assoc]

theorem set_middle {α : Type} (A B C : List α) (b p : α) :
    (A ++ b :: B ++ C).set A.length p = A ++ p :: B ++ C := by
  induction A with
  | nil => rfl
  | cons a A ih =>
    simp only [List.cons_append, List.length_cons, List.set_cons_succ]
    rw [← ih]

/-- The loop `move_loop` overwrites the `n` slots behind the first `i + off`
with the slots `i`, .., `i + n - 1` of the source. -/
theorem move_loop_ok (ctn : List (Option Bytes)) (off : Nat) :
    ∀ (n i : Nat) (A B C : List (Option Bytes)), A.length = i + off → B.length = n →
      i + n ≤ ctn.length →
      move_loop ctn off n i (A ++ B ++ C) = .ok (A ++ (ctn.drop i).take n ++ C) := by
  intro n
  induction n with
  | zero =>
    intro i A B C _ hB _
    have : B = [] := List.length_eq_zero.mp hB
    subst this
    simp [move_loop]
  | succ n ih =>
    intro i A B C hA hB hn
    have hi : i < ctn.length := by omega
    cases B with
    | nil => simp at hB
    | cons b B =>
      unfold move_loop
      rw [List.getElem?_eq_getElem hi]
      simp only
      have hlen : i + off < (A ++ b :: B ++ C).length := by
        simp only [List.length_append, List.length_cons]
        omega
      unfold slot_set
      rw [if_pos hlen]
      simp only
      rw [← hA, set_middle]
      have hB2 : B.length = n := by simpa using hB
      have hA2 : (A ++ [ctn[i]]).length = i + 1 + off := by
        simp only [List.length_append, List.length_singleton]
        omega
      have := ih (i + 1) (A ++ [ctn[i]]) B C hA2 hB2 (by omega)
      simp only [List.append_assoc, List.singleton_append, List.cons_append, List.nil_append] at this
      simp only [List.append_assoc, List.cons_append]
      rw [this, List.drop_eq_getElem_cons hi, List.take_succ_cons, List.cons_append]

/-- The loop `strdup_loop` overwrites the `n` slots behind the first `i` with
copies of the strings `i`, .., `i + n - 1` of `org`. -/
theorem strdup_loop_ok (org : vector_str) (lo : List Bytes) (h : holds org lo) :
    ∀ (n i : Nat) (A B C : List (Option Bytes)), A.length = i → B.length = n →
      i + n ≤ lo.length →
      strdup_loop org n i (A ++ B ++ C) =
        .ok (A ++ ((lo.drop i).take n).map some ++ C) := by
  intro n
  induction n with
  | zero =>
    intro i A B C _ hB _
    have : B = [] := List.length_eq_zero.mp hB
    subst this
    simp [strdup_loop]
  | succ n ih =>
    intro i A B C hA hB hn
    subst hA
    have hi : A.length < lo.length := by omega
    cases B with
    | nil => simp at hB
    | cons b B =>
      unfold strdup_loop
      rw [elem_at_holds org lo h A.length hi]
      simp only
      have hlen : A.length < (A ++ b :: B ++ C).length := by
        simp only [List.length_append, List.length_cons]
        omega
      unfold slot_set
      rw [if_pos hlen]
      simp only
      rw [set_middle]
      have hB2 : B.length = n := by simpa using hB
      have hA2 : (A ++ [some (lo.get ⟨A.length, hi⟩)]).length = A.length + 1 := by
        simp only [List.length_append, List.length_singleton]
      have := ih (A.length + 1) (A ++ [some (lo.get ⟨A.length, hi⟩)]) B C hA2 hB2 (by omega)
      simp only [List.append_assoc, List.singleton_append, List.cons_append, List.nil_append] at this
      simp only [List.append_assoc, List.cons_append]
      rw [this, List.drop_eq_getElem_cons hi, List.take_succ_cons, List.map_cons,
        List.cons_append]
      rfl

theorem take_set_self {α : Type} (p : α) :
    ∀ (l : List α) (n : Nat), (l.set n p).take n = l.take n := by
  intro l
  induction l with
  | nil => intro n; simp
  | cons a l ih =>
    intro n
    cases n with
    | zero => simp
    | succ n => simp [ih]

theorem take_succ_set {α : Type} (p : α) (l : List α) (n : Nat) (h : n < l.length) :
    (l.set n p).take (n + 1) = l.take n ++ [p] := by
  rw [List.take_succ, take_set_self, List.getElem?_set_self h]
  rfl

theorem holds_length (v : vector_str) (l : List Bytes) (h : holds v l) :
    l.length ≤ v.container.length := by
  obtain ⟨h1, h2, h3, _⟩ := h
  omega

theorem vector_str_grow_holds (c : Consts) (v : vector_str) (l : List Bytes)
    (h : holds v l) (hroom : v.size ≤ times_growfactor c v.capacity) :
    ∃ v1, vector_str_grow c v = .ok v1 ∧ holds v1 l ∧
      v1.capacity = times_growfactor c v.capacity ∧ v1.size = v.size := by
  obtain ⟨h1, h2, h3, h4⟩ := h
  have hsplit : List.replicate (times_growfactor c v.capacity) (none : Option Bytes) =
      [] ++ List.replicate v.size none ++
        List.replicate (times_growfactor c v.capacity - v.size) none := by
    rw [List.nil_append, ← List.replicate_add]
    congr 1
    omega
  have hm := move_loop_ok v.container 0 v.size 0 []
    (List.replicate v.size none)
    (List.replicate (times_growfactor c v.capacity - v.size) none) rfl
    (List.length_replicate _ _) (by omega)
  unfold vector_str_grow
  rw [hsplit, hm]
  refine ⟨_, rfl, ⟨h1, hroom, ?_, ?_⟩, rfl, rfl⟩
  · simp only [List.drop_zero, List.nil_append, List.length_append, List.length_take,
      List.length_replicate]
    omega
  · simp only [List.drop_zero, List.nil_append]
    rw [List.take_left']
    · exact h4
    · simp only [List.length_take]
      omega

theorem vector_str_push_holds (c : Consts) (v : vector_str) (l : List Bytes)
    (h : holds v l) (str : Bytes) (len : Nat) (hlen : len + 1 < 2 ^ 64)
    (hroom : v.size = v.capacity → v.size < times_growfactor c v.capacity) :
    ∃ v1, vector_str_push c (some v) (some str) len = .ok (true, some v1) ∧
      holds v1 (l ++ [(cstr str).take len]) := by
  have hstep : ∃ v0, (if v.size = v.capacity then vector_str_grow c v else .ok v) = .ok v0 ∧
      holds v0 l ∧ v0.size < v0.capacity := by
    by_cases hfull : v.size = v.capacity
    · obtain ⟨v0, hg, hh, hc, hs⟩ :=
        vector_str_grow_holds c v l h (Nat.le_of_lt (hroom hfull))
      refine ⟨v0, by rw [if_pos hfull]; exact hg, hh, ?_⟩
      rw [hc, hs]
      exact hroom hfull
    · refine ⟨v, by rw [if_neg hfull], h, ?_⟩
      have := h.2.1
      omega
  obtain ⟨v0, hv0, hh, hlt⟩ := hstep
  obtain ⟨h1, h2, h3, h4⟩ := hh
  have hsn : snprintf ((len + 1) % 2 ^ 64) str = some ((cstr str).take len) := by
    rw [Nat.mod_eq_of_lt hlen]
    simp [snprintf]
  have hin : v0.size < v0.container.length := by omega
  unfold vector_str_push
  simp only [hv0, hsn, slot_set, if_pos hin]
  refine ⟨_, rfl, ?_, ?_, ?_, ?_⟩
  · simp only [List.length_append, List.length_singleton]
    omega
  · exact hlt
  · simp only [List.length_set]
    exact h3
  · simp only [take_succ_set _ _ _ hin, h4, List.map_append, List.map_cons, List.map_nil]

theorem vector_str_pop_holds (v : vector_str) (l : List Bytes) (h : holds v l) :
    ∃ v1, vector_str_pop (some v) = .ok (true, some v1) ∧ holds v1 l.dropLast := by
  obtain ⟨h1, h2, h3, h4⟩ := h
  unfold vector_str_pop
  by_cases hz : v.size = 0
  · simp only [hz, if_true]
    have hl : l = [] := List.length_eq_zero.mp (by omega)
    subst hl
    exact ⟨v, rfl, h1, h2, h3, h4⟩
  · have hin : v.size - 1 < v.container.length := by omega
    simp only [hz, if_false, slot_set, if_pos hin]
    refine ⟨_, rfl, ?_, ?_, ?_, ?_⟩
    · simp only [List.length_dropLast]
      omega
    · show v.size - 1 ≤ v.capacity
      omega
    · simp only [List.length_set]
      exact h3
    · simp only [take_set_self]
      have : List.take (v.size - 1) v.container =
          List.take (v.size - 1) (List.take v.size v.container) := by
        rw [List.take_take]
        congr 1
        omega
      rw [this, h4, List.dropLast_eq_take, List.map_take, h1]

theorem vector_str_push_vector_head_holds (c : Consts) (dst org : vector_str)
    (ld lo : List Bytes) (hd : holds dst ld) (ho : holds org lo)
    (hroom : dst.size + org.size ≤ times_growfactor c (dst.size + org.size)) :
    ∃ d1, vector_str_push_vector_head c (some dst) (some org) = .ok (true, some d1) ∧
      holds d1 (lo ++ ld) := by
  obtain ⟨d1, d2, d3, d4⟩ := hd
  have ho1 := ho.1
  have hs : strdup_loop org org.size 0
      (List.replicate (times_growfactor c (dst.size + org.size)) none) =
      .ok (lo.map some ++
        List.replicate (times_growfactor c (dst.size + org.size) - org.size) none) := by
    have hsplit : List.replicate (times_growfactor c (dst.size + org.size))
        (none : Option Bytes) =
        [] ++ List.replicate org.size none ++
          List.replicate (times_growfactor c (dst.size + org.size) - org.size) none := by
      rw [List.nil_append, ← List.replicate_add]
      congr 1
      omega
    rw [hsplit, strdup_loop_ok org lo ho org.size 0 [] (List.replicate org.size none)
      (List.replicate (times_growfactor c (dst.size + org.size) - org.size) none) rfl
      (List.length_replicate _ _) (by omega), List.drop_zero,
      List.take_of_length_le (by omega), List.nil_append]
  have hm : move_loop dst.container org.size dst.size 0
      (lo.map some ++
        List.replicate (times_growfactor c (dst.size + org.size) - org.size) none) =
      .ok (lo.map some ++ ld.map some ++
        List.replicate (times_growfactor c (dst.size + org.size) - org.size - dst.size)
          none) := by
    have hsplit : List.replicate (times_growfactor c (dst.size + org.size) - org.size)
        (none : Option Bytes) =
        List.replicate dst.size none ++
          List.replicate (times_growfactor c (dst.size + org.size) - org.size - dst.size)
            none := by
      rw [← List.replicate_add]
      congr 1
      omega
    rw [hsplit, ← List.append_assoc, move_loop_ok dst.container org.size dst.size 0
      (lo.map some) (List.replicate dst.size none)
      (List.replicate (times_growfactor c (dst.size + org.size) - org.size - dst.size) none)
      (by simp only [List.length_map]; omega) (List.length_replicate _ _) (by omega),
      List.drop_zero, d4]
  unfold vector_str_push_vector_head
  simp only [hs, hm]
  refine ⟨_, rfl, ?_, ?_, ?_, ?_⟩
  · simp only [List.length_append]
    omega
  · exact hroom
  · simp only [List.length_append, List.length_map, List.length_replicate]
    omega
  · rw [← List.map_append]
    apply List.take_left'
    simp only [List.length_map, List.length_append]
    omega

theorem vector_str_get_flat_holds (v : vector_str) (l : List Bytes) (h : holds v l) :
    vector_str_get_flat (some v) =
      .ok (if l.flatten = [] then none else some (l.flatten, l.flatten.length)) := by
  have h1 := h.1
  have hall : (l.drop 0).take v.size = l := by
    rw [List.drop_zero, List.take_of_length_le (by omega)]
  unfold vector_str_get_flat
  by_cases hz : v.size = 0
  · have hl : l = [] := List.length_eq_zero.mp (by omega)
    subst hl
    simp [hz]
  · simp only [hz, if_false, get_strlen_sum]
    rw [strlen_loop_holds v l h v.size 0 0 (by omega), hall]
    simp only [Nat.zero_add]
    by_cases he : l.flatten = []
    · simp [he]
    · have hne : l.flatten.length ≠ 0 := fun h0 => he (List.length_eq_zero.mp h0)
      simp only [hne, if_false, he]
      rw [memcpy_loop_holds v l h v.size 0 [] (by omega), hall]
      rfl

theorem vector_str_substr_holds (v : vector_str) (l : List Bytes) (h : holds v l)
    (begin end_ : Nat) (hbe : begin ≤ end_) (he : end_ < l.length)
    (h64 : end_ + 1 < 2 ^ 64) :
    vector_str_substr (some v) begin end_ =
      .ok (some (((l.drop begin).take (end_ + 1 - begin)).flatten,
                 ((l.drop begin).take (end_ + 1 - begin)).flatten.length)) := by
  unfold vector_str_substr
  have hn : ¬ begin > end_ := by omega
  simp only [hn, if_false, Nat.mod_eq_of_lt h64]
  rw [strlen_loop_holds v l h _ begin 0 (by omega),
    memcpy_loop_holds v l h _ begin [] (by omega)]
  simp

/-- A vector that holds the list `l` behaves as that list, as long as a push
finds or gets a free slot. After `vector_str_init` the list is empty.
`vector_str_push(v, str, len)` returns true and appends the first `len`
characters of `str` (all of them when `str` is shorter), the earlier elements
unchanged, and a `vector_str_pop` after it gives back the list `l`; this is
shown for `len + 1` representable and a vector that has a free slot or gets
one by growing. `vector_str_pop` returns true and removes the last element,
and changes nothing for the empty list. `vector_str_push_vector_head(v, org)`
returns true and leaves in `v` the elements of `org` followed by those of `v`,
when the new array has room for them. `vector_str_get_flat` returns the
concatenation of the elements and its length, and nothing when the
concatenation is empty. `vector_str_substr` returns the concatenation of the
elements `begin`..`end` for `begin <= end < size`, and nothing for
`begin > end`. -/
theorem vector_list_behaviour (c : Consts) (v : vector_str) (l : List Bytes)
    (h : holds v l) :
    (∀ w, ∃ v0, vector_str_init c (some w) = (true, some v0) ∧ holds v0 []) ∧
    (∀ (str : Bytes) (len : Nat), len + 1 < 2 ^ 64 →
      (v.size = v.capacity → v.size < times_growfactor c v.capacity) →
      ∃ v1, vector_str_push c (some v) (some str) len = .ok (true, some v1) ∧
        holds v1 (l ++ [(cstr str).take len]) ∧
        ∃ v2, vector_str_pop (some v1) = .ok (true, some v2) ∧ holds v2 l) ∧
    (∃ v1, vector_str_pop (some v) = .ok (true, some v1) ∧ holds v1 l.dropLast) ∧
    (l = [] → vector_str_pop (some v) = .ok (true, some v)) ∧
    (∀ (org : vector_str) (lo : List Bytes), holds org lo →
      v.size + org.size ≤ times_growfactor c (v.size + org.size) →
      ∃ d1, vector_str_push_vector_head c (some v) (some org) = .ok (true, some d1) ∧
        holds d1 (lo ++ l)) ∧
    vector_str_get_flat (some v) =
      .ok (if l.flatten = [] then none else some (l.flatten, l.flatten.length)) ∧
    (∀ (begin end_ : Nat), begin ≤ end_ → end_ < l.length → end_ + 1 < 2 ^ 64 →
      vector_str_substr (some v) begin end_ =
        .ok (some (((l.drop begin).take (end_ + 1 - begin)).flatten,
                   ((l.drop begin).take (end_ + 1 - begin)).flatten.length))) ∧
    (∀ (begin end_ : Nat), begin > end_ →
      vector_str_substr (some v) begin end_ = .ok none) := by
  refine ⟨?_, ?_, vector_str_pop_holds v l h, ?_, ?_, vector_str_get_flat_holds v l h,
    vector_str_substr_holds v l h, ?_⟩
  · intro w
    refine ⟨_, rfl, rfl, Nat.zero_le _, List.length_replicate _ _, rfl⟩
  · intro str len hlen hroom
    obtain ⟨v1, hp, hh⟩ := vector_str_push_holds c v l h str len hlen hroom
    obtain ⟨v2, hq, hh2⟩ := vector_str_pop_holds v1 _ hh
    rw [List.dropLast_concat] at hh2
    exact ⟨v1, hp, hh, v2, hq, hh2⟩
  · intro hl
    have hz : v.size = 0 := by rw [h.1, hl]; rfl
    simp [vector_str_pop, hz]
  · intro org lo ho hroom
    exact vector_str_push_vector_head_holds c v org l lo h ho hroom
  · intro begin end_ hgt
    simp [vector_str_substr, hgt]

/-- The vector after init, push("ab", 2) and push("cdef", 2) holds the list
`ab`, `cd`; a further push("cdef", 2) appends `cd`, and the flat string is
`abcd`. -/
theorem vector_list_example :
    holds ex_vector [lit "ab", lit "cd"] ∧
    vector_str_push ex_consts (some ex_vector) (some (lit "cdef")) 2 =
      .ok (true, some ex_vector3) ∧
    holds ex_vector3 [lit "ab", lit "cd", lit "cd"] ∧
    vector_str_get_flat (some ex_vector) = .ok (some (lit "abcd", 4)) ∧
    vector_str_substr (some ex_vector) 1 1 = .ok (some (lit "cd", 2)) :=
  ⟨⟨rfl, by decide, rfl, rfl⟩, rfl, ⟨rfl, by decide, rfl, rfl⟩, rfl, rfl⟩

/-- C33 fails on the code: a push does not always append. With room for 8
strings and the growth factor 2, the vector `a` after `vector_str_init`,
`vector_str_push("x", 1)` and `vector_str_pop` holds the empty list;
`vector_str_push_vector_head(b, a)` on a fresh vector `b` leaves in `b` the
empty list in an array of 0 slots, and `vector_str_push(b, "ab", 2)` then
stores to `container[0]` outside the array instead of appending `ab`. For
every vector that holds a list the other operations act as the list
operations, and so does the push whenever the vector has a free slot or gets
one by growing. -/
theorem C33_push_without_free_slot :
    vector_str_push ex_consts (some ex_empty8) (some (lit "x")) 1 =
      .ok (true, some ex_one8) ∧
    vector_str_pop (some ex_one8) = .ok (true, some ex_empty8) ∧
    holds ex_empty8 [] ∧
    vector_str_push_vector_head ex_consts (some ex_empty8) (some ex_empty8) =
      .ok (true, some ex_no_slot) ∧
    holds ex_no_slot [] ∧
    vector_str_push ex_consts (some ex_no_slot) (some (lit "ab")) 2 =
      .error Fault.out_of_bounds ∧
    ∀ (c : Consts) (v : vector_str) (l : List Bytes), holds v l →
      (∀ w, ∃ v0, vector_str_init c (some w) = (true, some v0) ∧ holds v0 []) ∧
      (∀ (str : Bytes) (len : Nat), len + 1 < 2 ^ 64 →
        (v.size = v.capacity → v.size < times_growfactor c v.capacity) →
        ∃ v1, vector_str_push c (some v) (some str) len = .ok (true, some v1) ∧
          holds v1 (l ++ [(cstr str).take len]) ∧
          ∃ v2, vector_str_pop (some v1) = .ok (true, some v2) ∧ holds v2 l) ∧
      (∃ v1, vector_str_pop (some v) = .ok (true, some v1) ∧ holds v1 l.dropLast) ∧
      (l = [] → vector_str_pop (some v) = .ok (true, some v)) ∧
      (∀ (org : vector_str) (lo : List Bytes), holds org lo →
        v.size + org.size ≤ times_growfactor c (v.size + org.size) →
        ∃ d1, vector_str_push_vector_head c (some v) (some org) = .ok (true, some d1) ∧
          holds d1 (lo ++ l)) ∧
      vector_str_get_flat (some v) =
        .ok (if l.flatten = [] then none else some (l.flatten, l.flatten.length)) ∧
      (∀ (begin end_ : Nat), begin ≤ end_ → end_ < l.length → end_ + 1 < 2 ^ 64 →
        vector_str_substr (some v) begin end_ =
          .ok (some (((l.drop begin).take (end_ + 1 - begin)).flatten,
                     ((l.drop begin).take (end_ + 1 - begin)).flatten.length))) ∧
      (∀ (begin end_ : Nat), begin > end_ →
        vector_str_substr (some v) begin end_ = .ok none) :=
  ⟨rfl, rfl, ⟨rfl, by decide, rfl, rfl⟩, rfl, ⟨rfl, by decide, rfl, rfl⟩, rfl,
    vector_list_behaviour⟩

/-! ## A vector without a free slot after growing -/

/-- C40 fails on the code: for every value of the two constants,
`vector_str_push_vector_head` on two vectors fresh from `vector_str_init`
leaves `dst` with an array of `(0 + 0) * BUFFER_GROWFACTOR = 0` slots, and the
next `vector_str_push` grows the capacity 0 to 0 and stores the new string to
`container[0]`, outside the array. With a growth factor below 2 (here 1.618)
the same happens at capacity 1: after `vector_str_push_vector_head` of an empty
vector and a vector with one element the array has one slot, and the next push
grows 1 to 1 and writes `container[1]`. -/
theorem C40_push_writes_outside_container :
    (∀ (c : Consts) (w1 w2 : vector_str) (str : Bytes) (len : Nat),
      ∃ e1 e2, vector_str_init c (some w1) = (true, some e1) ∧
        vector_str_init c (some w2) = (true, some e2) ∧
        vector_str_push_vector_head c (some e1) (some e2) = .ok (true, some ex_no_slot) ∧
        vector_str_push c (some ex_no_slot) (some str) len = .error Fault.out_of_bounds) ∧
    (vector_str_init ex_consts_1618 (some ex_no_slot)).2 = some ex_empty8 ∧
    vector_str_push ex_consts_1618 (some ex_empty8) (some (lit "x")) 1 =
      .ok (true, some ex_one8) ∧
    vector_str_push_vector_head ex_consts_1618 (some ex_empty8) (some ex_one8) =
      .ok (true, some ex_full) ∧
    ex_full.size = 1 ∧ ex_full.capacity = 1 ∧
    vector_str_push ex_consts_1618 (some ex_full) (some (lit "y")) 1 =
      .error Fault.out_of_bounds := by
  refine ⟨?_, rfl, rfl, rfl, rfl, rfl, rfl⟩
  intro c w1 w2 str len
  have ht : times_growfactor c 0 = 0 := by simp [times_growfactor]
  refine ⟨_, _, rfl, rfl, ?_, ?_⟩
  · simp [vector_str_push_vector_head, strdup_loop, move_loop, ht, ex_no_slot]
  · simp [vector_str_push, vector_str_grow, move_loop, ht, ex_no_slot, slot_set]

end VectorStr
